import Mathlib

/-!
LuaProfiler: a shallow embedding of the profiling core.

Sources embedded: `src/stack.h` (StackBuffer, StaticBuffer, MultiStackBuffer) and
`src/core_profiler.cpp` (FunctionInfo, RecordData, Record, CallInfo, LuaProfilerState).

Conventions of the embedding.
* `uint64_t` and `uint32_t` values are natural numbers; every operation that can wrap is
  written with an explicit remainder (`add64`, `sub64`, `inc32`, `sub32`).
* An `assert` that fails, and a dereference of a pointer that designates nothing, make the
  operation return `none`.  `luaL_error` is a separate, explicit outcome that keeps the state
  the code had reached when it raised.
* A raw byte buffer `vector<char>` holding objects of type `T` is a function from slot number
  to `T`; a pointer into such a buffer is the slot number.
* `unordered_map` / `map` objects are lookup functions; `set` objects are lists.
* A `Record *` is the list of `children_` keys leading from the root record to the node.
* A `FunctionInfo *` is the position of the object in the list of allocated descriptors.
* `GetTime()` readings are arguments of the operations that read the clock.
-/

namespace LuaProfiler

/-! ## Machine integers -/

/-- The modulus of `uint64_t`, two to the power 64. -/
def U64 : Nat := 18446744073709551616

/-- The modulus of `uint32_t`, two to the power 32. -/
def U32 : Nat := 4294967296

/-- Addition of `uint64_t` values. -/
def add64 (a b : Nat) : Nat := (a + b) % U64

/-- Subtraction of `uint64_t` values (wraps below zero). -/
def sub64 (a b : Nat) : Nat := (a % U64 + (U64 - b % U64)) % U64

/-- Increment of a `uint32_t` value. -/
def inc32 (a : Nat) : Nat := (a + 1) % U32

/-- Subtraction of `uint32_t` values (wraps below zero). -/
def sub32 (a b : Nat) : Nat := (a % U32 + (U32 - b % U32)) % U32

/-- Conversion `(int)` of a `size_t` value: the low 32 bits read as a signed number. -/
def toInt32 (n : Nat) : Int :=
  if n % U32 < 2147483648 then ((n % U32 : Nat) : Int) else ((n % U32 : Nat) : Int) - 4294967296

/-- Object layout of an element type: the value made of zero bytes and `sizeof`. -/
class CLayout (T : Type) where
  zero : T
  size_of : Nat

/-! ## stack.h: StackBuffer -/

/-- Template class `StackBuffer<T>`. -/
structure StackBuffer (T : Type) where
  max_count_ : Nat
  element_size_ : Nat
  curr_count_ : Nat
  buffer_ : Nat → T

/-- Constant `StackBuffer::kInitCount`. -/
def StackBuffer.kInitCount : Nat := 32

/-- Constructor `StackBuffer(_init_count)`; `none` when `assert(max_count_ != 0)` fails. -/
def StackBuffer.new {T : Type} [CLayout T] (init_count : Nat) : Option (StackBuffer T) :=
  if init_count ≠ 0 then
    some { max_count_ := init_count, element_size_ := CLayout.size_of T, curr_count_ := 0,
           buffer_ := fun _ => CLayout.zero }
  else none

/-- Method `StackBuffer::Empty`. -/
def StackBuffer.Empty {T : Type} (s : StackBuffer T) : Bool := s.curr_count_ == 0

/-- Method `StackBuffer::IsFull`. -/
def StackBuffer.IsFull {T : Type} (s : StackBuffer T) : Bool := decide (s.curr_count_ ≥ s.max_count_)

/-- Method `StackBuffer::Resize`: the capacity doubles, the added bytes are zero and so
are the slots above the old capacity, which were never written. -/
def StackBuffer.Resize {T : Type} (s : StackBuffer T) : StackBuffer T :=
  { s with max_count_ := s.max_count_ * 2 }

/-- Method `StackBuffer::Get`: placement-construct `x` in slot `curr_count_`, growing first
when full; returns the new buffer and the pointer (slot) of the new element. -/
def StackBuffer.Get {T : Type} (s : StackBuffer T) (x : T) : StackBuffer T × Nat :=
  let s1 := if s.IsFull then s.Resize else s
  ({ s1 with buffer_ := fun i => if i = s1.curr_count_ then x else s1.buffer_ i,
             curr_count_ := s1.curr_count_ + 1 }, s1.curr_count_)

/-- Method `StackBuffer::Pop`; `none` when `assert(curr_count_ > 0)` fails. -/
def StackBuffer.Pop {T : Type} (s : StackBuffer T) : Option (StackBuffer T) :=
  if s.curr_count_ > 0 then some { s with curr_count_ := s.curr_count_ - 1 } else none

/-- Method `StackBuffer::Top`: pointer to the last element; `none` when the assert fails. -/
def StackBuffer.Top {T : Type} (s : StackBuffer T) : Option Nat :=
  if s.curr_count_ > 0 then some (s.curr_count_ - 1) else none

/-- Method `StackBuffer::At`: pointer to slot `pos`, or `NULL`. -/
def StackBuffer.At {T : Type} (s : StackBuffer T) (pos : Nat) : Option Nat :=
  if pos ≥ s.curr_count_ then none else some pos

/-- Method `StackBuffer::Clear`. -/
def StackBuffer.Clear {T : Type} (s : StackBuffer T) : StackBuffer T :=
  { s with curr_count_ := 0 }

/-- Method `StackBuffer::Buffer`: the start of the storage. -/
def StackBuffer.Buffer {T : Type} (s : StackBuffer T) : Nat → T := s.buffer_

/-- Method `StackBuffer::BufferSize`, in bytes. -/
def StackBuffer.BufferSize {T : Type} (s : StackBuffer T) : Nat := s.curr_count_ * s.element_size_

/-- Store `x` through a pointer into the buffer. -/
def StackBuffer.write {T : Type} (s : StackBuffer T) (slot : Nat) (x : T) : StackBuffer T :=
  { s with buffer_ := fun i => if i = slot then x else s.buffer_ i }

/-- The elements in the slots below `n`, the highest slot first. -/
def StackBuffer.framesUpTo {T : Type} (buffer : Nat → T) : Nat → List T
  | 0 => []
  | n + 1 => buffer n :: StackBuffer.framesUpTo buffer n

/-- The live elements of the buffer, top first: slots `curr_count_ - 1` down to `0`. -/
def StackBuffer.frames {T : Type} (s : StackBuffer T) : List T :=
  StackBuffer.framesUpTo s.buffer_ s.curr_count_

/-! ## stack.h: StaticBuffer -/

/-- Template class `StaticBuffer<T>`. -/
structure StaticBuffer (T : Type) where
  max_count_ : Nat
  element_size_ : Nat
  curr_count_ : Nat
  buffer_ : Nat → T

/-- Constructor `StaticBuffer(_max_count)`. -/
def StaticBuffer.new {T : Type} [CLayout T] (max_count : Nat) : StaticBuffer T :=
  { max_count_ := max_count, element_size_ := CLayout.size_of T, curr_count_ := 0,
    buffer_ := fun _ => CLayout.zero }

/-- Method `StaticBuffer::Put`: copy `size` bytes from `buffer` behind the elements already
held; `none` when `assert(curr_capacity + size <= buffer_.size())` fails.  The bytes copied
are `size / element_size_` whole elements. -/
def StaticBuffer.Put {T : Type} (s : StaticBuffer T) (buffer : Nat → T) (size : Nat) :
    Option (StaticBuffer T) :=
  let curr_capacity := s.curr_count_ * s.element_size_
  if curr_capacity + size ≤ s.max_count_ * s.element_size_ then
    some { s with
      buffer_ := fun i =>
        if s.curr_count_ ≤ i ∧ i < s.curr_count_ + size / s.element_size_
        then buffer (i - s.curr_count_) else s.buffer_ i,
      curr_count_ := s.curr_count_ + size / s.element_size_ }
  else none

/-- Method `StaticBuffer::At`: the element at `pos`, or `NULL`. -/
def StaticBuffer.At {T : Type} (s : StaticBuffer T) (pos : Nat) : Option T :=
  if pos ≥ s.curr_count_ then none else some (s.buffer_ pos)

/-! ## stack.h: MultiStackBuffer -/

/-- Template class `MultiStackBuffer<T>`.  `curr_stack_` is the position of the block in
`stack_buffer_list_`; an element pointer is the pair of block position and slot. -/
structure MultiStackBuffer (T : Type) where
  per_add_count_ : Nat
  curr_count_ : Nat
  curr_stack_ : Option Nat
  stack_buffer_list_ : List (StackBuffer T)
  records_ : List (StaticBuffer T)

/-- Constant `MultiStackBuffer::kPerAddCount`. -/
def MultiStackBuffer.kPerAddCount : Nat := 1024

/-- Method `MultiStackBuffer::Resize`: append a new block and make it current. -/
def MultiStackBuffer.Resize {T : Type} [CLayout T] (m : MultiStackBuffer T) :
    Option (MultiStackBuffer T) :=
  match StackBuffer.new m.per_add_count_ with
  | none => none
  | some blk =>
    some { m with curr_stack_ := some m.stack_buffer_list_.length,
                  stack_buffer_list_ := m.stack_buffer_list_ ++ [blk] }

/-- Constructor `MultiStackBuffer(_per_add_count)`; `none` when an assert fails. -/
def MultiStackBuffer.new {T : Type} [CLayout T] (per_add_count : Nat) :
    Option (MultiStackBuffer T) :=
  if per_add_count ≠ 0 then
    MultiStackBuffer.Resize
      { per_add_count_ := per_add_count, curr_count_ := 0, curr_stack_ := none,
        stack_buffer_list_ := [], records_ := [] }
  else none

/-- Method `MultiStackBuffer::Get`: returns the new arena and the `ElementPair` made of the
handle and the element pointer. -/
def MultiStackBuffer.Get {T : Type} [CLayout T] (m : MultiStackBuffer T) (x : T) :
    Option (MultiStackBuffer T × (Nat × (Nat × Nat))) :=
  match m.curr_stack_ with
  | none => none
  | some b0 =>
    match m.stack_buffer_list_[b0]? with
    | none => none
    | some blk0 =>
      match (if blk0.IsFull then m.Resize else some m) with
      | none => none
      | some m1 =>
        match m1.curr_stack_ with
        | none => none
        | some b =>
          match m1.stack_buffer_list_[b]? with
          | none => none
          | some blk =>
            let r := blk.Get x
            some ({ m1 with stack_buffer_list_ := m1.stack_buffer_list_.set b r.1,
                            curr_count_ := m1.curr_count_ + 1 },
                  (m1.curr_count_, (b, r.2)))

/-- The loop of `MultiStackBuffer::Save` over the blocks. -/
def MultiStackBuffer.SaveLoop {T : Type} :
    List (StackBuffer T) → StaticBuffer T → Option (StaticBuffer T)
  | [], static_buffer => some static_buffer
  | stack_buffer :: rest, static_buffer =>
    if stack_buffer.BufferSize > 0 then
      match static_buffer.Put stack_buffer.Buffer stack_buffer.BufferSize with
      | none => none
      | some sb => MultiStackBuffer.SaveLoop rest sb
    else MultiStackBuffer.SaveLoop rest static_buffer

/-- Method `MultiStackBuffer::Save`. -/
def MultiStackBuffer.Save {T : Type} [CLayout T] (m : MultiStackBuffer T) :
    Option (MultiStackBuffer T) :=
  match MultiStackBuffer.SaveLoop m.stack_buffer_list_ (StaticBuffer.new m.curr_count_) with
  | none => none
  | some static_buffer => some { m with records_ := m.records_ ++ [static_buffer] }

/-- Method `MultiStackBuffer::GetRecordCount`. -/
def MultiStackBuffer.GetRecordCount {T : Type} (m : MultiStackBuffer T) : Nat := m.records_.length

/-- Method `MultiStackBuffer::GetRecordByIndex`. -/
def MultiStackBuffer.GetRecordByIndex {T : Type} (m : MultiStackBuffer T) (index : Nat) :
    Option (StaticBuffer T) :=
  if index < m.records_.length then m.records_[index]? else none

/-- Load through an element pointer of the arena.  A pointer returned by `Get` always
designates a slot of an existing block; for any other pair the zero value is read. -/
def MultiStackBuffer.load {T : Type} [CLayout T] (m : MultiStackBuffer T) (p : Nat × Nat) : T :=
  match m.stack_buffer_list_[p.1]? with
  | some blk => blk.buffer_ p.2
  | none => CLayout.zero

/-- Store through an element pointer of the arena (nothing is stored through a pair that
designates no block). -/
def MultiStackBuffer.store {T : Type} (m : MultiStackBuffer T) (p : Nat × Nat) (x : T) :
    MultiStackBuffer T :=
  match m.stack_buffer_list_[p.1]? with
  | some blk => { m with stack_buffer_list_ := m.stack_buffer_list_.set p.1 (blk.write p.2 x) }
  | none => m

/-! ## core_profiler.cpp: descriptors and counter records -/

/-- Table `kLuaApiFilterList`. -/
def kLuaApiFilterList : List String :=
  ["next", "require", "assert", "error", "getmetatable", "setmetatable",
   "ipairs", "pairs", "xpcall", "pcall", "rawequal", "rawget", "rawset",
   "rawlen", "select", "tonumber", "tostring", "type", "for iterator"]

/-- Constant `kMutiStackBufferInitCount`. -/
def kMutiStackBufferInitCount : Nat := 10240

/-- Struct `FunctionInfo`. -/
structure FunctionInfo where
  name_ : String
  source_ : String
  linedefined_ : Int
deriving DecidableEq, Repr

/-- Constructor `FunctionInfo(_name, _source, _line)`; a `NULL` string is `none`. -/
def FunctionInfo.new (name : Option String) (source : Option String) (line : Int) : FunctionInfo :=
  { name_ := match name with
      | some n => n
      | none => "?",
    source_ := match source with
      | some src => if src.get 0 = '@' ∨ src.get 0 = '=' then src else "(string)"
      | none => "",
    linedefined_ := line }

/-- Struct `RecordData`. -/
structure RecordData where
  call_count_ : Nat
  inner_elapse_ : Nat
deriving DecidableEq, Repr

instance : CLayout RecordData := ⟨⟨0, 0⟩, 12⟩

/-- Type `RecordBuffer`. -/
abbrev RecordBuffer := MultiStackBuffer RecordData

/-- Type `RecordCopy`. -/
abbrev RecordCopy := StaticBuffer RecordData

/-- Pointer `Record *`: the `children_` keys from the root record down to the node. -/
abbrev RecordPtr := List Nat

/-- Struct `Record`.  The map `children_` holds exactly the pairs `(c.func_info_, c)` for
the elements `c` of `children_list_`, so a lookup in it is a search of the list by key. -/
inductive Record where
  | mk (func_info_ : Option Nat) (temp_inner_elapse_ temp_full_elapse_ temp_call_count_ : Nat)
       (index_ : Nat) (data_ : Nat × Nat) (children_list_ : List Record) : Record

/-- Field `func_info_`. -/
def Record.func_info_ : Record → Option Nat
  | .mk fi _ _ _ _ _ _ => fi

/-- Field `temp_inner_elapse_`. -/
def Record.temp_inner_elapse_ : Record → Nat
  | .mk _ ti _ _ _ _ _ => ti

/-- Field `temp_full_elapse_`. -/
def Record.temp_full_elapse_ : Record → Nat
  | .mk _ _ tf _ _ _ _ => tf

/-- Field `temp_call_count_`. -/
def Record.temp_call_count_ : Record → Nat
  | .mk _ _ _ tc _ _ _ => tc

/-- Field `index_`. -/
def Record.index_ : Record → Nat
  | .mk _ _ _ _ idx _ _ => idx

/-- Field `data_`. -/
def Record.data_ : Record → Nat × Nat
  | .mk _ _ _ _ _ d _ => d

/-- Field `children_list_`. -/
def Record.children_list_ : Record → List Record
  | .mk _ _ _ _ _ _ cs => cs

/-- Comparator `Record::RecordSort`. -/
def Record.RecordSort (t1 t2 : Record) : Bool :=
  decide (t1.temp_full_elapse_ > t2.temp_full_elapse_)

/-- Contract of `std::sort(first, last, RecordSort())`, which the repository takes from the
standard library: the result is a rearrangement of the input in which no element is
ordered before an earlier one by the comparator. -/
structure StdSort where
  sort : List Record → List Record
  perm : ∀ l, List.Perm (sort l) l
  sorted : ∀ l, List.Pairwise (fun a b => ¬ Record.RecordSort b a = true) (sort l)

/-- One implementation of the contract: insertion sort by non-increasing total. -/
def insertionStdSort : StdSort where
  sort := List.insertionSort (fun a b => b.temp_full_elapse_ ≤ a.temp_full_elapse_)
  perm := fun l => List.perm_insertionSort _ l
  sorted := fun l => by
    haveI : IsTotal Record (fun a b => b.temp_full_elapse_ ≤ a.temp_full_elapse_) :=
      ⟨fun a b => Nat.le_total _ _⟩
    haveI : IsTrans Record (fun a b => b.temp_full_elapse_ ≤ a.temp_full_elapse_) :=
      ⟨fun a b c hab hbc => Nat.le_trans hbc hab⟩
    have h := List.sorted_insertionSort
      (fun a b : Record => b.temp_full_elapse_ ≤ a.temp_full_elapse_) l
    refine List.Pairwise.imp ?_ h
    intro a b hab
    simp only [Record.RecordSort, decide_eq_true_eq, gt_iff_lt, not_lt]
    exact hab

/-- Constructor `Record(_buffer, _info)`: takes a fresh counter record from the arena. -/
def Record.new (buffer : RecordBuffer) (info : Option Nat) : Option (Record × RecordBuffer) :=
  match buffer.Get ⟨0, 0⟩ with
  | none => none
  | some (buffer1, element) => some (.mk info 0 0 0 element.1 element.2 [], buffer1)

/-- Method `Record::AddCount`. -/
def Record.AddCount (r : Record) (buffer : RecordBuffer) : RecordBuffer :=
  buffer.store r.data_
    { buffer.load r.data_ with call_count_ := inc32 (buffer.load r.data_).call_count_ }

/-- Method `Record::AddInnerElapse`. -/
def Record.AddInnerElapse (r : Record) (buffer : RecordBuffer) (elapse : Nat) : RecordBuffer :=
  buffer.store r.data_
    { buffer.load r.data_ with inner_elapse_ := add64 (buffer.load r.data_).inner_elapse_ elapse }

/-- Lookup `children_.find(_info)`. -/
def Record.findChild (r : Record) (info : Nat) : Option Record :=
  r.children_list_.find? (fun c => c.func_info_ == some info)

/-- Method `Record::GetChildRecord` on the node itself: the node after the call and the
arena after the call.  The pointer it returns is the pointer of the node extended by `info`. -/
def Record.GetChildRecord (r : Record) (buffer : RecordBuffer) (info : Nat) :
    Option (Record × RecordBuffer) :=
  match r.findChild info with
  | some _ => some (r, buffer)
  | none =>
    match Record.new buffer (some info) with
    | none => none
    | some (new_record, buffer1) =>
      some (.mk r.func_info_ r.temp_inner_elapse_ r.temp_full_elapse_ r.temp_call_count_
              r.index_ r.data_ (r.children_list_ ++ [new_record]), buffer1)

/-- Dereference of a `Record *` in the tree rooted at the given record. -/
def Record.getAt : Record → RecordPtr → Option Record
  | r, [] => some r
  | r, k :: p =>
    match r.findChild k with
    | none => none
    | some c => Record.getAt c p

/-- Replace the first element keyed by `k` in a children list. -/
def Record.replaceChild (k : Nat) (new_child : Record) : List Record → List Record
  | [] => []
  | c :: cs =>
    if c.func_info_ == some k then new_child :: cs
    else c :: Record.replaceChild k new_child cs

/-- Write back the node designated by a `Record *`. -/
def Record.setAt : RecordPtr → Record → Record → Record
  | [], _, new_node => new_node
  | k :: p, r, new_node =>
    match r.findChild k with
    | none => r
    | some c =>
      .mk r.func_info_ r.temp_inner_elapse_ r.temp_full_elapse_ r.temp_call_count_
        r.index_ r.data_ (Record.replaceChild k (Record.setAt p c new_node) r.children_list_)

/-- Call `record->AddCount()` through a pointer. -/
def Record.AddCountAt (root : Record) (buffer : RecordBuffer) (p : RecordPtr) :
    Option RecordBuffer :=
  match root.getAt p with
  | none => none
  | some r => some (r.AddCount buffer)

/-- Call `record->AddInnerElapse(elapse)` through a pointer. -/
def Record.AddInnerElapseAt (root : Record) (buffer : RecordBuffer) (p : RecordPtr)
    (elapse : Nat) : Option RecordBuffer :=
  match root.getAt p with
  | none => none
  | some r => some (r.AddInnerElapse buffer elapse)

/-- Call `record->GetChildRecord(_info)` through a pointer: the tree, the arena and the
pointer returned. -/
def Record.GetChildRecordAt (root : Record) (buffer : RecordBuffer) (p : RecordPtr)
    (info : Nat) : Option (Record × RecordBuffer × RecordPtr) :=
  match root.getAt p with
  | none => none
  | some r =>
    match r.GetChildRecord buffer info with
    | none => none
    | some (r1, buffer1) => some (Record.setAt p root r1, buffer1, p ++ [info])

mutual
/-- Method `Record::CalcChildrenElapse(void)`: the node after the pass and the value
returned. -/
def Record.CalcChildrenElapse (S : StdSort) (buffer : RecordBuffer) : Record → Record × Nat
  | .mk fi _ _ _ idx d cs =>
    let r := if cs.isEmpty then (cs, 0) else Record.CalcChildrenElapseLoop S buffer 0 cs
    let cs1 := if ¬ cs.isEmpty ∧ r.1.length > 1 then S.sort r.1 else r.1
    let temp_inner_elapse := (buffer.load d).inner_elapse_
    let temp_call_count := (buffer.load d).call_count_
    let temp_full_elapse := add64 temp_inner_elapse r.2
    (.mk fi temp_inner_elapse temp_full_elapse temp_call_count idx d cs1, temp_full_elapse)
/-- The loop of `CalcChildrenElapse(void)` over `children_list_`, with the running value of
`total_children_elapse`. -/
def Record.CalcChildrenElapseLoop (S : StdSort) (buffer : RecordBuffer) :
    Nat → List Record → List Record × Nat
  | total_children_elapse, [] => ([], total_children_elapse)
  | total_children_elapse, record :: rest =>
    let r := Record.CalcChildrenElapse S buffer record
    let rs := Record.CalcChildrenElapseLoop S buffer (add64 total_children_elapse r.2) rest
    (r.1 :: rs.1, rs.2)
end

/-- The values `temp_inner_elapse_` and `temp_call_count_` that
`CalcChildrenElapse(_start_record, _end_record)` assigns to the node with handle `index`. -/
def Record.windowValues (start_record : Option RecordCopy) (end_record : RecordCopy)
    (index : Nat) : Nat × Nat :=
  let start : Option RecordData :=
    match start_record with
    | some sr => sr.At index
    | none => none
  match end_record.At index with
  | some e =>
    match start with
    | some st => (sub64 e.inner_elapse_ st.inner_elapse_, sub32 e.call_count_ st.call_count_)
    | none => (e.inner_elapse_, e.call_count_)
  | none => (0, 0)

mutual
/-- Method `Record::CalcChildrenElapse(_start_record, _end_record)`; a `NULL` start is
`none`. -/
def Record.CalcChildrenElapseCopy (S : StdSort) (start_record : Option RecordCopy)
    (end_record : RecordCopy) : Record → Record × Nat
  | .mk fi _ _ _ idx d cs =>
    let r := if cs.isEmpty then (cs, 0)
             else Record.CalcChildrenElapseCopyLoop S start_record end_record 0 cs
    let cs1 := if ¬ cs.isEmpty ∧ r.1.length > 1 then S.sort r.1 else r.1
    let v := Record.windowValues start_record end_record idx
    let temp_full_elapse := add64 v.1 r.2
    (.mk fi v.1 temp_full_elapse v.2 idx d cs1, temp_full_elapse)
/-- The loop of the two-argument `CalcChildrenElapse` over `children_list_`. -/
def Record.CalcChildrenElapseCopyLoop (S : StdSort) (start_record : Option RecordCopy)
    (end_record : RecordCopy) : Nat → List Record → List Record × Nat
  | total_children_elapse, [] => ([], total_children_elapse)
  | total_children_elapse, record :: rest =>
    let r := Record.CalcChildrenElapseCopy S start_record end_record record
    let rs := Record.CalcChildrenElapseCopyLoop S start_record end_record
                (add64 total_children_elapse r.2) rest
    (r.1 :: rs.1, rs.2)
end

/-! ## core_profiler.cpp: frames -/

/-- Struct `CallInfo`; `func_` is the raw function identity, zero for `NULL`. -/
structure CallInfo where
  func_ : Nat
  record_ : Option RecordPtr
  enter_time_ : Nat
deriving DecidableEq, Repr

instance : CLayout CallInfo := ⟨⟨0, none, 0⟩, 24⟩

/-- Type `CallInfoStack`. -/
abbrev CallInfoStack := StackBuffer CallInfo

/-- Constructor `CallInfo(_f, _record)`. -/
def CallInfo.new (f : Nat) (record : RecordPtr) : CallInfo :=
  { func_ := f, record_ := some record, enter_time_ := 0 }

/-- Method `CallInfo::ChildCallEnter`: the frame, the tree, the arena and the record
returned. -/
def CallInfo.ChildCallEnter (ci : CallInfo) (root : Record) (buffer : RecordBuffer)
    (time : Nat) (info : Nat) : Option (CallInfo × Record × RecordBuffer × RecordPtr) :=
  match ci.record_ with
  | none => none
  | some p =>
    match Record.AddInnerElapseAt root buffer p (sub64 time ci.enter_time_) with
    | none => none
    | some buffer1 =>
      match Record.GetChildRecordAt root buffer1 p info with
      | none => none
      | some (root1, buffer2, child) =>
        some ({ ci with enter_time_ := 0 }, root1, buffer2, child)

/-- Method `CallInfo::ChildCallBack`. -/
def CallInfo.ChildCallBack (ci : CallInfo) (time : Nat) : CallInfo :=
  { ci with enter_time_ := time }

/-- Method `CallInfo::OnEnter`. -/
def CallInfo.OnEnter (ci : CallInfo) (root : Record) (buffer : RecordBuffer) (time : Nat) :
    Option (CallInfo × RecordBuffer) :=
  match ci.record_ with
  | none => none
  | some p =>
    match Record.AddCountAt root buffer p with
    | none => none
    | some buffer1 => some ({ ci with enter_time_ := time }, buffer1)

/-- Method `CallInfo::OnExit`. -/
def CallInfo.OnExit (ci : CallInfo) (root : Record) (buffer : RecordBuffer) (time : Nat) :
    Option (CallInfo × RecordBuffer) :=
  if ci.enter_time_ ≠ 0 then
    match ci.record_ with
    | none => none
    | some p =>
      match Record.AddInnerElapseAt root buffer p (sub64 time ci.enter_time_) with
      | none => none
      | some buffer1 => some ({ ci with enter_time_ := 0 }, buffer1)
  else some (ci, buffer)

/-- Method `CallInfo::CoroutineJump`; `time` is the reading of `GetTime()`. -/
def CallInfo.CoroutineJump (ci : CallInfo) (root : Record) (buffer : RecordBuffer) (time : Nat) :
    Option (CallInfo × RecordBuffer) :=
  match ci.record_ with
  | none => none
  | some p =>
    match Record.AddInnerElapseAt root buffer p (sub64 time ci.enter_time_) with
    | none => none
    | some buffer1 => some ({ ci with enter_time_ := 0 }, buffer1)

/-! ## core_profiler.cpp: the profiler state -/

/-- Hook event code `LUA_HOOKCALL` of the host. -/
def LUA_HOOKCALL : Int := 0

/-- Hook event code `LUA_HOOKRET` of the host. -/
def LUA_HOOKRET : Int := 1

/-- Hook event code `LUA_HOOKTAILCALL` of the host. -/
def LUA_HOOKTAILCALL : Int := 4

/-- The fields of the host's `lua_Debug` that the profiler reads, as `lua_getinfo` fills
them: `source` is the address of the source string and `source_chars` its characters,
`name` is what `lua_getinfo(L, "n", ar)` finds (`none` for `NULL`). -/
structure lua_Debug where
  event : Int
  name : Option String
  what : String
  source : Nat
  source_chars : String
  linedefined : Int
deriving DecidableEq, Repr

/-- Class `LuaProfilerState`.  `curr_call_info_stack_` designates a stack by its key in
`call_info_stack_map_`; `curr_call_info_` is a slot of that stack.  `function_infos_` is
the list of the `FunctionInfo` objects allocated so far. -/
structure LuaProfilerState where
  lua_filter_api_name_ : List String
  lua_filter_api_ : List Nat
  lua_profiler_funcs_ : Nat → Option (Int → Option Nat)
  c_profiler_funcs_ : Nat → Option Nat
  function_infos_ : List FunctionInfo
  record_buffer_ : RecordBuffer
  root_profiler_record_ : Record
  call_info_stack_map_ : Nat → Option CallInfoStack
  curr_lua_state_ : Option Nat
  curr_call_info_ : Option Nat
  curr_call_info_stack_ : Option Nat

/-- Constructor `LuaProfilerState()`. -/
def LuaProfilerState.new : Option LuaProfilerState :=
  match MultiStackBuffer.new kMutiStackBufferInitCount with
  | none => none
  | some record_buffer =>
    match Record.new record_buffer none with
    | none => none
    | some (root, record_buffer1) =>
      some { lua_filter_api_name_ := [], lua_filter_api_ := [],
             lua_profiler_funcs_ := fun _ => none, c_profiler_funcs_ := fun _ => none,
             function_infos_ := [], record_buffer_ := record_buffer1,
             root_profiler_record_ := root, call_info_stack_map_ := fun _ => none,
             curr_lua_state_ := none, curr_call_info_ := none, curr_call_info_stack_ := none }

/-- Method `GetCallInfoStack`: the stack of context `L`, or `NULL`. -/
def LuaProfilerState.GetCallInfoStack (s : LuaProfilerState) (L : Nat) : Option Nat :=
  match s.call_info_stack_map_ L with
  | some _ => some L
  | none => none

/-- Store a stack object back at its place in the map. -/
def LuaProfilerState.setStack (s : LuaProfilerState) (key : Nat) (stk : CallInfoStack) :
    Nat → Option CallInfoStack :=
  fun k => if k = key then some stk else s.call_info_stack_map_ k

/-- Method `CreateCallInfoStack`; `none` when the constructor of the new stack asserts. -/
def LuaProfilerState.CreateCallInfoStack (s : LuaProfilerState) (L : Nat) :
    Option LuaProfilerState :=
  match s.GetCallInfoStack L with
  | some key =>
    match s.call_info_stack_map_ key with
    | none => none
    | some call_info_stack =>
      some { s with call_info_stack_map_ := s.setStack key call_info_stack.Clear }
  | none =>
    match (StackBuffer.new StackBuffer.kInitCount : Option CallInfoStack) with
    | none => none
    | some new_call_info_stack =>
      some { s with call_info_stack_map_ := s.setStack L new_call_info_stack }

/-- Method `Init`; `main_L` is the main thread found in the registry. -/
def LuaProfilerState.Init (s : LuaProfilerState) (main_L : Nat) : Option LuaProfilerState :=
  match s.CreateCallInfoStack main_L with
  | none => none
  | some s1 =>
    some { s1 with lua_filter_api_name_ := kLuaApiFilterList ++ s1.lua_filter_api_name_ }

/-- Function `ProfilerStart` when no profiler is running: construct and initialise. -/
def ProfilerStart (main_L : Nat) : Option LuaProfilerState :=
  match LuaProfilerState.new with
  | none => none
  | some s => s.Init main_L

/-- Method `GetFunctionInfo`: the state after the lookup and the descriptor, `none` for
`NULL`. -/
def LuaProfilerState.GetFunctionInfo (s : LuaProfilerState) (ar : lua_Debug) (f : Nat) :
    LuaProfilerState × Option Nat :=
  if ar.what.get 0 = 'C' then
    match s.c_profiler_funcs_ f with
    | some info => (s, some info)
    | none =>
      let new_func_info := s.function_infos_.length
      let s1 := { s with
        function_infos_ := s.function_infos_ ++
          [FunctionInfo.new ar.name (if ar.source ≠ 0 then some ar.source_chars else none)
            ar.linedefined],
        c_profiler_funcs_ := fun k => if k = f then some new_func_info else s.c_profiler_funcs_ k }
      if (match ar.name with
          | some n => decide (n ∈ s.lua_filter_api_name_)
          | none => false) then
        ({ s1 with lua_filter_api_ := f :: s1.lua_filter_api_ }, none)
      else (s1, some new_func_info)
  else
    let func_info_map : Int → Option Nat :=
      match s.lua_profiler_funcs_ ar.source with
      | some m => m
      | none => fun _ => none
    match func_info_map ar.linedefined with
    | some info => (s, some info)
    | none =>
      let new_func_info := s.function_infos_.length
      ({ s with
          function_infos_ := s.function_infos_ ++
            [FunctionInfo.new ar.name (if ar.source ≠ 0 then some ar.source_chars else none)
              ar.linedefined],
          lua_profiler_funcs_ := fun k =>
            if k = ar.source then
              some (fun l => if l = ar.linedefined then some new_func_info else func_info_map l)
            else s.lua_profiler_funcs_ k },
       some new_func_info)

/-- Method `CallHookIn`; `curr_time` is the reading of `GetTime()`. -/
def LuaProfilerState.CallHookIn (s : LuaProfilerState) (ar : lua_Debug) (f : Nat)
    (curr_time : Nat) : Option LuaProfilerState :=
  match s.GetFunctionInfo ar f with
  | (s1, none) => some s1
  | (s1, some func_info) =>
    match s1.curr_call_info_stack_ with
    | none => none
    | some key =>
      match s1.call_info_stack_map_ key with
      | none => none
      | some stk =>
        match (match s1.curr_call_info_ with
            | some slot =>
              match (stk.buffer_ slot).ChildCallEnter s1.root_profiler_record_ s1.record_buffer_
                      curr_time func_info with
              | none => none
              | some (ci, root1, buffer1, record) =>
                match (if ar.event = LUA_HOOKTAILCALL then (stk.write slot ci).Pop
                       else some (stk.write slot ci)) with
                | none => none
                | some stk1 => some (root1, buffer1, record, stk1)
            | none =>
              match Record.GetChildRecordAt s1.root_profiler_record_ s1.record_buffer_ []
                      func_info with
              | none => none
              | some (root1, buffer1, record) => some (root1, buffer1, record, stk)) with
        | none => none
        | some (root1, buffer1, record, stk1) =>
          let g := stk1.Get (CallInfo.new f record)
          match (g.1.buffer_ g.2).OnEnter root1 buffer1 curr_time with
          | none => none
          | some (ci, buffer2) =>
            some { s1 with
              root_profiler_record_ := root1, record_buffer_ := buffer2,
              call_info_stack_map_ := s1.setStack key (g.1.write g.2 ci),
              curr_call_info_ := some g.2 }

/-- The `do ... while` loop of `CallHookOut`, entered with the stack holding `n` frames:
the stack it leaves and the frame that matched, `none` in second place when the stack was
emptied.  With no frame left to pop the assert of `Pop` fails. -/
def LuaProfilerState.CallHookOutLoop (f : Nat) :
    Nat → CallInfoStack → Option (CallInfoStack × Option Nat)
  | 0, _ => none
  | n + 1, stk =>
    match stk.Pop with
    | none => none
    | some stk1 =>
      if stk1.Empty then some (stk1, none)
      else
        match stk1.Top with
        | none => none
        | some top =>
          if (stk1.buffer_ top).func_ ≠ f then LuaProfilerState.CallHookOutLoop f n stk1
          else some (stk1, some top)

/-- Method `CallHookOut`; `curr_time` is the reading of `GetTime()`. -/
def LuaProfilerState.CallHookOut (s : LuaProfilerState) (f : Nat) (curr_time : Nat) :
    Option LuaProfilerState :=
  match s.curr_call_info_ with
  | none => some s
  | some slot =>
    match s.curr_call_info_stack_ with
    | none => none
    | some key =>
      match s.call_info_stack_map_ key with
      | none => none
      | some stk =>
        match (if (stk.buffer_ slot).func_ ≠ f
               then LuaProfilerState.CallHookOutLoop f stk.curr_count_ stk
               else some (stk, some slot)) with
        | none => none
        | some (stk1, none) =>
          some { s with call_info_stack_map_ := s.setStack key stk1, curr_call_info_ := none }
        | some (stk1, some slot1) =>
          match (stk1.buffer_ slot1).OnExit s.root_profiler_record_ s.record_buffer_
                  curr_time with
          | none => none
          | some (ci, buffer1) =>
            match (stk1.write slot1 ci).Pop with
            | none => none
            | some stk2 =>
              if stk2.Empty then
                some { s with record_buffer_ := buffer1,
                              call_info_stack_map_ := s.setStack key stk2,
                              curr_call_info_ := none }
              else
                match stk2.Top with
                | none => none
                | some top =>
                  some { s with
                    record_buffer_ := buffer1,
                    call_info_stack_map_ :=
                      s.setStack key (stk2.write top ((stk2.buffer_ top).ChildCallBack curr_time)),
                    curr_call_info_ := some top }

/-- Outcome of an entry point that can raise through `luaL_error`. -/
inductive Outcome where
  | returned (s : LuaProfilerState) (value : Nat)
  | lua_error (s : LuaProfilerState) (message : String)

/-- State left by an outcome. -/
def Outcome.state : Outcome → LuaProfilerState
  | .returned s _ => s
  | .lua_error s _ => s

/-- Whether the outcome is a raised error. -/
def Outcome.isError : Outcome → Bool
  | .returned _ _ => false
  | .lua_error _ _ => true

/-- The first part of `Hook`, taken when `curr_lua_state_ != L`; `jump_time` is the reading
of `GetTime()` inside `CoroutineJump`.  The result is the state and whether the stack of
`L` was found. -/
def LuaProfilerState.HookSwitch (s : LuaProfilerState) (L : Nat) (jump_time : Nat) :
    Option (LuaProfilerState × Bool) :=
  match (match s.curr_call_info_ with
      | some slot =>
        match s.curr_call_info_stack_ with
        | none => none
        | some key =>
          match s.call_info_stack_map_ key with
          | none => none
          | some stk =>
            match (stk.buffer_ slot).CoroutineJump s.root_profiler_record_ s.record_buffer_
                    jump_time with
            | none => none
            | some (ci, buffer1) =>
              some { s with record_buffer_ := buffer1,
                            call_info_stack_map_ := s.setStack key (stk.write slot ci),
                            curr_call_info_ := none }
      | none => some s) with
  | none => none
  | some s1 =>
    let s2 := { s1 with curr_lua_state_ := some L, curr_call_info_stack_ := s1.GetCallInfoStack L }
    match s2.curr_call_info_stack_ with
    | none => some (s2, false)
    | some key =>
      match s2.call_info_stack_map_ key with
      | none => none
      | some stk =>
        if ¬ stk.Empty then
          match stk.Top with
          | none => none
          | some top => some ({ s2 with curr_call_info_ := some top }, true)
        else some (s2, true)

/-- Method `Hook`.  `f` is the function identity `lua_topointer` yields after
`lua_getinfo`; `jump_time` and `curr_time` are the clock readings of `CoroutineJump` and of
`CallHookIn` / `CallHookOut`. -/
def LuaProfilerState.Hook (s : LuaProfilerState) (L : Nat) (ar : lua_Debug) (f : Nat)
    (jump_time curr_time : Nat) : Option Outcome :=
  match (if s.curr_lua_state_ ≠ some L then s.HookSwitch L jump_time else some (s, true)) with
  | none => none
  | some (s1, false) => some (.lua_error s1 "profiler lua_State[%p] stack not find")
  | some (s1, true) =>
    match s1.curr_call_info_stack_ with
    | none => some (.returned s1 0)
    | some _ =>
      if f ∈ s1.lua_filter_api_ then some (.returned s1 0)
      else
        match (if ar.event = LUA_HOOKRET then s1.CallHookOut f curr_time
               else s1.CallHookIn ar f curr_time) with
        | none => none
        | some s2 => some (.returned s2 0)

/-- Method `LuaProfilerState::Save`. -/
def LuaProfilerState.Save (s : LuaProfilerState) : Option LuaProfilerState :=
  match s.record_buffer_.Save with
  | none => none
  | some buffer1 => some { s with record_buffer_ := buffer1 }

/-- Method `CalcRecord`.  `n` is `lua_gettop(L)`; `start_index` and `end_index` are the
values of arguments 2 and 3 after the conversion to `int`. -/
def LuaProfilerState.CalcRecord (S : StdSort) (s : LuaProfilerState) (n : Nat)
    (start_index end_index : Int) : Outcome :=
  if n = 1 then
    let r := s.root_profiler_record_.CalcChildrenElapse S s.record_buffer_
    .returned { s with root_profiler_record_ := r.1 } r.2
  else if n = 3 then
    if start_index ≥ toInt32 s.record_buffer_.GetRecordCount then
      .lua_error s "profiler dump start index error"
    else if end_index < 0 ∨ end_index ≥ toInt32 s.record_buffer_.GetRecordCount then
      .lua_error s "profiler dump end index error"
    else if start_index ≥ end_index then
      .lua_error s "profiler dump start_index >= end_index error"
    else
      let start_record : Option RecordCopy :=
        if start_index ≥ 0 then s.record_buffer_.GetRecordByIndex start_index.toNat else none
      match s.record_buffer_.GetRecordByIndex end_index.toNat with
      | none => .lua_error s "profiler dump end index error"
      | some end_record =>
        let r := s.root_profiler_record_.CalcChildrenElapseCopy S start_record end_record
        .returned { s with root_profiler_record_ := r.1 } r.2
  else .lua_error s "profiler args error"


/-! ## Notions used to state the properties -/

mutual
/-- All nodes of the tree rooted at a record, the record itself first. -/
def Record.nodes : Record → List Record
  | .mk fi ti tf tc idx d cs => Record.mk fi ti tf tc idx d cs :: Record.nodesList cs
/-- All nodes of the trees rooted at the records of a list. -/
def Record.nodesList : List Record → List Record
  | [] => []
  | c :: cs => Record.nodes c ++ Record.nodesList cs
end

mutual
/-- Common shape of the two overloads of `CalcChildrenElapse`: `sel` gives, from the handle
and the counter pointer of a node, the self elapsed and the call count of the pass. -/
def Record.aggregate (S : StdSort) (sel : Nat → Nat × Nat → Nat × Nat) : Record → Record × Nat
  | .mk fi _ _ _ idx d cs =>
    let r := Record.aggregateLoop S sel 0 cs
    let cs1 := if r.1.length > 1 then S.sort r.1 else r.1
    (.mk fi (sel idx d).1 (add64 (sel idx d).1 r.2) (sel idx d).2 idx d cs1,
     add64 (sel idx d).1 r.2)
/-- The loop of `Record.aggregate` over the children. -/
def Record.aggregateLoop (S : StdSort) (sel : Nat → Nat × Nat → Nat × Nat) :
    Nat → List Record → List Record × Nat
  | acc, [] => ([], acc)
  | acc, c :: cs =>
    let r := Record.aggregate S sel c
    let rs := Record.aggregateLoop S sel (add64 acc r.2) cs
    (r.1 :: rs.1, rs.2)
end

/-- The selection of the pass over live counters. -/
def liveSel (buffer : RecordBuffer) : Nat → Nat × Nat → Nat × Nat :=
  fun _ d => ((buffer.load d).inner_elapse_, (buffer.load d).call_count_)

/-- The selection of the pass over a pair of snapshots. -/
def copySel (start_record : Option RecordCopy) (end_record : RecordCopy) :
    Nat → Nat × Nat → Nat × Nat :=
  fun idx _ => Record.windowValues start_record end_record idx

/-- Conservation at one node: the total is the self elapsed plus the sum of the totals of
the children, in `uint64_t` arithmetic. -/
def Record.Conserved (n : Record) : Prop :=
  n.temp_full_elapse_ =
    (n.temp_inner_elapse_ + (n.children_list_.map Record.temp_full_elapse_).sum) % U64


/-! ## Traces of operations -/

/-- One operation the host performs on a running profiler: a hook event (`Profilerhook`),
`CoroutineCreate`, `RecordSave`, or the aggregation of `ProfilerDump`. -/
inductive Op where
  | hook (L : Nat) (ar : lua_Debug) (f : Nat) (jump_time curr_time : Nat)
  | create (L : Nat)
  | save
  | query (n : Nat) (start_index end_index : Int)

/-- Clock readings are `uint64_t` values. -/
def Op.Valid : Op → Bool
  | .hook _ _ _ jump_time curr_time => decide (jump_time < U64) && decide (curr_time < U64)
  | _ => true

/-- The state an operation leaves; `none` when an assert stops the process.  An operation
that raises through `luaL_error` leaves the state reached at the raise. -/
def LuaProfilerState.apply (S : StdSort) (s : LuaProfilerState) : Op → Option LuaProfilerState
  | .hook L ar f jump_time curr_time => (s.Hook L ar f jump_time curr_time).map Outcome.state
  | .create L => s.CreateCallInfoStack L
  | .save => s.Save
  | .query n start_index end_index => some (s.CalcRecord S n start_index end_index).state

/-- Run a trace of operations. -/
def LuaProfilerState.run (S : StdSort) : LuaProfilerState → List Op → Option LuaProfilerState
  | s, [] => some s
  | s, op :: ops =>
    match s.apply S op with
    | none => none
    | some s1 => LuaProfilerState.run S s1 ops

/-- Run a trace on a freshly started profiler whose main thread is `main_L`. -/
def runFromStart (S : StdSort) (main_L : Nat) (ops : List Op) : Option LuaProfilerState :=
  match ProfilerStart main_L with
  | none => none
  | some s => s.run S ops

/-- Reachable states: those a trace of operations with valid clock readings leaves on a
freshly started profiler. -/
def Reachable (S : StdSort) (s : LuaProfilerState) : Prop :=
  ∃ (main_L : Nat) (ops : List Op),
    (∀ op ∈ ops, op.Valid = true) ∧ runFromStart S main_L ops = some s

/-- A state with no block, no context and a bare root; the value of `stateAfter` for a
trace that an assert stops. -/
def blankState : LuaProfilerState :=
  { lua_filter_api_name_ := [], lua_filter_api_ := [],
    lua_profiler_funcs_ := fun _ => none, c_profiler_funcs_ := fun _ => none,
    function_infos_ := [],
    record_buffer_ := { per_add_count_ := kMutiStackBufferInitCount, curr_count_ := 0,
                        curr_stack_ := none, stack_buffer_list_ := [], records_ := [] },
    root_profiler_record_ := .mk none 0 0 0 0 (0, 0) [],
    call_info_stack_map_ := fun _ => none,
    curr_lua_state_ := none, curr_call_info_ := none, curr_call_info_stack_ := none }

/-- The state a trace leaves on a profiler freshly started with main thread 1. -/
def stateAfter (ops : List Op) : LuaProfilerState :=
  (runFromStart insertionStdSort 1 ops).getD blankState

/-- The figures of a node in the report: self elapsed, total elapsed and call count. -/
def Record.report (r : Record) : Nat × Nat × Nat :=
  (r.temp_inner_elapse_, r.temp_full_elapse_, r.temp_call_count_)

/-- The figures reported for the node designated by a pointer. -/
def LuaProfilerState.reportAt (s : LuaProfilerState) (p : RecordPtr) : Option (Nat × Nat × Nat) :=
  (s.root_profiler_record_.getAt p).map Record.report

/-! ## The scenario of the specification -/

/-- Debug record of an interpreted function defined at `line` of the chunk `@scenario.lua`. -/
def scenarioFunction (line : Int) (event : Int) : lua_Debug :=
  { event := event, name := some "fn", what := "Lua", source := 4096,
    source_chars := "@scenario.lua", linedefined := line }

/-- The trace: A (identity 11) called at 0, B (12) at 10, C (13) at 15, C returns at 25,
B at 30, A at 40, all in context 1, followed by a full-history aggregation. -/
def scenarioTrace : List Op :=
  [ .hook 1 (scenarioFunction 1 LUA_HOOKCALL) 11 0 0,
    .hook 1 (scenarioFunction 2 LUA_HOOKCALL) 12 10 10,
    .hook 1 (scenarioFunction 3 LUA_HOOKCALL) 13 15 15,
    .hook 1 (scenarioFunction 3 LUA_HOOKRET) 13 25 25,
    .hook 1 (scenarioFunction 2 LUA_HOOKRET) 12 30 30,
    .hook 1 (scenarioFunction 1 LUA_HOOKRET) 11 40 40,
    .query 1 0 0 ]

/-- The report of the scenario for the node designated by `p`; the descriptors of A, B and
C are the first three allocated, so their nodes are `[0]`, `[0, 1]` and `[0, 1, 2]`. -/
def scenarioReport (p : RecordPtr) : Option (Nat × Nat × Nat) :=
  match runFromStart insertionStdSort 1 scenarioTrace with
  | none => none
  | some s => s.reportAt p

/-- Whether a two-endpoint query is accepted in the state a trace leaves. -/
def windowQueryFails (ops : List Op) (start_index end_index : Int) : Option Bool :=
  (runFromStart insertionStdSort 1 ops).map
    (fun s => (s.CalcRecord insertionStdSort 3 start_index end_index).isError)


/-! ## Invariants of the data model -/

mutual
/-- The keys of `children_` are distinct at every node: no two children of a node have the
same descriptor. -/
def Record.KeysUnique : Record → Prop
  | .mk _ _ _ _ _ _ cs => (cs.map Record.func_info_).Nodup ∧ Record.KeysUniqueList cs
/-- The property `Record.KeysUnique` for every record of a list. -/
def Record.KeysUniqueList : List Record → Prop
  | [] => True
  | c :: cs => Record.KeysUnique c ∧ Record.KeysUniqueList cs
end

/-- Number of elements held by the blocks of an arena. -/
def MultiStackBuffer.liveCount {T : Type} (m : MultiStackBuffer T) : Nat :=
  (m.stack_buffer_list_.map StackBuffer.curr_count_).sum

/-- A counter record whose fields are in the range of their types. -/
def RecordData.Bounded (d : RecordData) : Prop :=
  d.call_count_ < U32 ∧ d.inner_elapse_ < U64

/-- Invariant of the counter arena and its snapshots: the blocks have the element size of
`RecordData`, the snapshots hold non-decreasing numbers of records, none holds more
records than the blocks do, and every counter is in the range of its type. -/
structure ArenaInv (m : RecordBuffer) : Prop where
  element_size : ∀ b ∈ m.stack_buffer_list_, b.element_size_ = 12
  sorted : List.Pairwise (fun a b : RecordCopy => a.curr_count_ ≤ b.curr_count_) m.records_
  le_live : ∀ r ∈ m.records_, r.curr_count_ ≤ m.liveCount
  block_bounded : ∀ b ∈ m.stack_buffer_list_, ∀ i, (b.buffer_ i).Bounded
  copy_bounded : ∀ r ∈ m.records_, ∀ i, (r.buffer_ i).Bounded

/-- Sum of the self elapsed that a pass assigns to the nodes of a subtree, in `uint64_t`
arithmetic. -/
def Record.selfSum (sel : Nat → Nat × Nat → Nat × Nat) (r : Record) : Nat :=
  ((Record.nodes r).map (fun n => (sel n.index_ n.data_).1)).sum % U64


/-- The name of a native function has a filtered spelling: the name recorded in its
descriptor once it has one (the name found when the function was first seen), else the name
the host reports at the event. -/
def LuaProfilerState.hasFilteredName (s : LuaProfilerState) (ar : lua_Debug) (f : Nat) : Bool :=
  match s.c_profiler_funcs_ f with
  | some d =>
    match s.function_infos_[d]? with
    | some fi => decide (fi.name_ ∈ kLuaApiFilterList)
    | none => false
  | none =>
    match ar.name with
    | some n => decide (n ∈ kLuaApiFilterList)
    | none => false

/-- The tree, the counters, the stacks, the current frame and the active context are the
same in two states. -/
def LuaProfilerState.Untouched (s s1 : LuaProfilerState) : Prop :=
  s1.root_profiler_record_ = s.root_profiler_record_
  ∧ s1.record_buffer_ = s.record_buffer_
  ∧ s1.call_info_stack_map_ = s.call_info_stack_map_
  ∧ s1.curr_call_info_ = s.curr_call_info_
  ∧ s1.curr_call_info_stack_ = s.curr_call_info_stack_
  ∧ s1.curr_lua_state_ = s.curr_lua_state_

/-- Debug record of a native function reported under `name`. -/
def nativeFunction (name : String) (event : Int) : lua_Debug :=
  { event := event, name := some name, what := "C", source := 8192,
    source_chars := "=[C]", linedefined := -1 }

/-- Two states with the same callsite registry and filter sets. -/
def SameRegistry (s s1 : LuaProfilerState) : Prop :=
  s1.lua_filter_api_name_ = s.lua_filter_api_name_
  ∧ s1.lua_filter_api_ = s.lua_filter_api_
  ∧ s1.lua_profiler_funcs_ = s.lua_profiler_funcs_
  ∧ s1.c_profiler_funcs_ = s.c_profiler_funcs_
  ∧ s1.function_infos_ = s.function_infos_

/-- Invariant of the profiler state kept by every operation. -/
structure StateInv (s : LuaProfilerState) : Prop where
  keys : Record.KeysUnique s.root_profiler_record_
  arena : ArenaInv s.record_buffer_
  filter_names : s.lua_filter_api_name_ = kLuaApiFilterList
  interned_lt : ∀ f d, s.c_profiler_funcs_ f = some d → d < s.function_infos_.length
  filtered : ∀ f d fi, s.c_profiler_funcs_ f = some d → s.function_infos_[d]? = some fi →
    fi.name_ ∈ kLuaApiFilterList → f ∈ s.lua_filter_api_


/-- A trace with two snapshots: A is called at 5, a snapshot is saved, A returns at 9, a
second snapshot is saved. -/
def twoSnapshotTrace : List Op :=
  [ .hook 1 (scenarioFunction 1 LUA_HOOKCALL) 11 5 5, .save,
    .hook 1 (scenarioFunction 1 LUA_HOOKRET) 11 9 9, .save ]

/-- A trace that leaves one frame, of function A, on the stack of context 1. -/
def oneCallTrace : List Op :=
  [ .hook 1 (scenarioFunction 1 LUA_HOOKCALL) 11 5 5 ]


/-- The frame `curr_call_info_` points to, read in the stack `curr_call_info_stack_`. -/
def LuaProfilerState.currentFrame (s : LuaProfilerState) : Option CallInfo :=
  match s.curr_call_info_, s.curr_call_info_stack_ with
  | some slot, some key => (s.call_info_stack_map_ key).map (fun stk => stk.buffer_ slot)
  | _, _ => none

/-- The live frames of the stack `curr_call_info_stack_`, top first; no frame when the
pointer is `NULL`. -/
def LuaProfilerState.activeFrames (s : LuaProfilerState) : List CallInfo :=
  match s.curr_call_info_stack_ with
  | some key =>
    match s.call_info_stack_map_ key with
    | some stk => stk.frames
    | none => []
  | none => []

/-- The live frames of the stack of context `L`, top first. -/
def LuaProfilerState.framesOf (s : LuaProfilerState) (L : Nat) : Option (List CallInfo) :=
  (s.call_info_stack_map_ L).map StackBuffer.frames

/-- A trace that suspends context 1 inside A: A is called in context 1 at 100, context 2 is
declared, B is called in context 2 at 110. -/
def switchAwayTrace : List Op :=
  [ .hook 1 (scenarioFunction 1 LUA_HOOKCALL) 11 100 100, .create 2,
    .hook 2 (scenarioFunction 2 LUA_HOOKCALL) 12 110 110 ]

/-- The same trace followed by a call of C in context 1 at 120, its return at 125, and a
full-history aggregation. -/
def switchBackTrace : List Op :=
  switchAwayTrace ++
    [ .hook 1 (scenarioFunction 3 LUA_HOOKCALL) 13 120 120,
      .hook 1 (scenarioFunction 3 LUA_HOOKRET) 13 125 125, .query 1 0 0 ]

/-- A trace that declares the active context again while A is running in it. -/
def redeclareTrace : List Op :=
  [ .hook 1 (scenarioFunction 1 LUA_HOOKCALL) 11 5 5, .create 1 ]


/-- The current frame, when there is one, lies in an existing stack and refers to a node of
the tree. -/
def LuaProfilerState.currentFrameValid (s : LuaProfilerState) : Bool :=
  match s.curr_call_info_ with
  | none => true
  | some slot =>
    match s.curr_call_info_stack_ with
    | none => false
    | some key =>
      match s.call_info_stack_map_ key with
      | none => false
      | some stk =>
        match (stk.buffer_ slot).record_ with
        | none => false
        | some p => (s.root_profiler_record_.getAt p).isSome


/-! ## The stack discipline -/

/-- The current frame is the top of the active stack: `curr_call_info_` is `NULL` exactly
when the stack `curr_call_info_stack_` holds no frame (or is `NULL` itself) and otherwise
points to its last element. -/
def LuaProfilerState.currentIsTop (s : LuaProfilerState) : Bool :=
  match s.curr_call_info_stack_ with
  | none => s.curr_call_info_ == none
  | some key =>
    match s.call_info_stack_map_ key with
    | none => false
    | some stk =>
      s.curr_call_info_ == (if stk.curr_count_ = 0 then none else some (stk.curr_count_ - 1))

/-- A frame refers to a node of the tree. -/
def CallInfo.refersTo (root : Record) (c : CallInfo) : Bool :=
  match c.record_ with
  | some p => (root.getAt p).isSome
  | none => false

/-- Every frame of the active stack refers to a node of the tree. -/
def LuaProfilerState.activeFramesValid (s : LuaProfilerState) : Bool :=
  s.activeFrames.all (CallInfo.refersTo s.root_profiler_record_)

/-- The arena has a current block: `curr_stack_` designates a block of the list and the
block size is not zero. -/
def MultiStackBuffer.hasCurrentBlock {T : Type} (m : MultiStackBuffer T) : Bool :=
  match m.curr_stack_ with
  | some b => decide (b < m.stack_buffer_list_.length) && decide (m.per_add_count_ ≠ 0)
  | none => false

/-- The frames strictly below the topmost frame whose identity is `f`, in a stack given
top first; no frame when none has identity `f`. -/
def framesBelow (f : Nat) : List CallInfo → List CallInfo
  | [] => []
  | c :: rest => if c.func_ = f then rest else framesBelow f rest

/-- The stack, given top first, with the timer of its top frame started at `time`. -/
def restartTop (time : Nat) : List CallInfo → List CallInfo
  | [] => []
  | c :: rest => { c with enter_time_ := time } :: rest

/-- The node a new call is attached to: the node of the current frame, or the root when
there is no current frame. -/
def LuaProfilerState.parentPtr (s : LuaProfilerState) : Option RecordPtr :=
  match s.activeFrames with
  | [] => some []
  | c :: _ => c.record_

/-- One hook event of a chain: the debug record, the function identity and the two clock
readings. -/
abbrev ChainEvent := lua_Debug × Nat × Nat × Nat

/-- Deliver the events of a chain to context `L`, one after the other. -/
def LuaProfilerState.deliver (s : LuaProfilerState) (L : Nat) :
    List ChainEvent → Option LuaProfilerState
  | [] => some s
  | e :: rest =>
    match s.Hook L e.1 e.2.1 e.2.2.1 e.2.2.2 with
    | none => none
    | some o => LuaProfilerState.deliver o.state L rest

/-- No event of the chain is for a filtered function: at the time each event is delivered
its function is not in the filter set and `GetFunctionInfo` resolves it to a descriptor. -/
def LuaProfilerState.nonFilteredChain (s : LuaProfilerState) (L : Nat) :
    List ChainEvent → Bool
  | [] => true
  | e :: rest =>
    !(decide (e.2.1 ∈ s.lua_filter_api_)) && (s.GetFunctionInfo e.1 e.2.1).2.isSome &&
      match s.Hook L e.1 e.2.1 e.2.2.1 e.2.2.2 with
      | none => true
      | some o => LuaProfilerState.nonFilteredChain o.state L rest

/-- The highest slot below `n` whose frame has identity `f`. -/
def topMatch (f : Nat) (buffer : Nat → CallInfo) : Nat → Option Nat
  | 0 => none
  | n + 1 => if (buffer n).func_ = f then some n else topMatch f buffer n


/-- The stack, given top first, with the timer of its top frame stopped. -/
def suspendTop : List CallInfo → List CallInfo
  | [] => []
  | c :: rest => { c with enter_time_ := 0 } :: rest

/-- A trace that leaves three nested frames, of A, B and C, on the stack of context 1. -/
def threeCallsTrace : List Op :=
  [ .hook 1 (scenarioFunction 1 LUA_HOOKCALL) 11 5 5,
    .hook 1 (scenarioFunction 2 LUA_HOOKCALL) 12 6 6,
    .hook 1 (scenarioFunction 3 LUA_HOOKCALL) 13 7 7 ]


/-- The state is ready for an event of context `L`: `L` is the active context, its stack
`key` exists, the current frame is the top of that stack, every frame of the stack refers
to a node of the tree, and the arena has a current block. -/
structure ActiveInv (s : LuaProfilerState) (L key : Nat) : Prop where
  active : s.curr_lua_state_ = some L
  stack : s.curr_call_info_stack_ = some key
  top : ∃ stk, s.call_info_stack_map_ key = some stk
    ∧ s.curr_call_info_ = (if stk.curr_count_ = 0 then none else some (stk.curr_count_ - 1))
    ∧ ∀ c ∈ stk.frames, c.refersTo s.root_profiler_record_ = true
  block : s.record_buffer_.hasCurrentBlock = true


/-! ## Well-formed states -/

/-- The first half of `HookSwitch`: the current frame, if any, is suspended by
`CoroutineJump` and `curr_call_info_` is set to `NULL`. -/
def LuaProfilerState.leaveContext (s : LuaProfilerState) (jump_time : Nat) :
    Option LuaProfilerState :=
  match s.curr_call_info_ with
  | some slot =>
    match s.curr_call_info_stack_ with
    | none => none
    | some key =>
      match s.call_info_stack_map_ key with
      | none => none
      | some stk =>
        match (stk.buffer_ slot).CoroutineJump s.root_profiler_record_ s.record_buffer_
                jump_time with
        | none => none
        | some (ci, buffer1) =>
          some { s with record_buffer_ := buffer1,
                        call_info_stack_map_ := s.setStack key (stk.write slot ci),
                        curr_call_info_ := none }
  | none => some s

/-- The second half of `HookSwitch`: `L` becomes the active context and the top frame of
its stack, if any, the current frame. -/
def LuaProfilerState.enterContext (s1 : LuaProfilerState) (L : Nat) :
    Option (LuaProfilerState × Bool) :=
  let s2 := { s1 with curr_lua_state_ := some L, curr_call_info_stack_ := s1.GetCallInfoStack L }
  match s2.curr_call_info_stack_ with
  | none => some (s2, false)
  | some key =>
    match s2.call_info_stack_map_ key with
    | none => none
    | some stk =>
      if ¬ stk.Empty then
        match stk.Top with
        | none => none
        | some top => some ({ s2 with curr_call_info_ := some top }, true)
      else some (s2, true)

/-- Well-formed state: the current frame is the top of the active stack, every frame of
every stack refers to a node of the tree, and the arena has a current block. -/
structure WellFormed (s : LuaProfilerState) : Prop where
  top : s.currentIsTop = true
  frames : ∀ L stk, s.call_info_stack_map_ L = some stk →
    ∀ c ∈ stk.frames, c.refersTo s.root_profiler_record_ = true
  block : s.record_buffer_.hasCurrentBlock = true

/-- An operation other than the declaration of the active context while it has a current
frame. -/
def LuaProfilerState.safeOp (s : LuaProfilerState) : Op → Bool
  | .create L => !(s.curr_call_info_stack_ == some L && s.curr_call_info_.isSome)
  | _ => true

/-- Every operation of the trace is safe in the state it is applied to. -/
def LuaProfilerState.safeTrace (S : StdSort) : LuaProfilerState → List Op → Bool
  | _, [] => true
  | s, op :: ops =>
    s.safeOp op &&
      match s.apply S op with
      | none => true
      | some s1 => LuaProfilerState.safeTrace S s1 ops


/-! ## The counter arena on its own -/

/-- The block on which `MultiStackBuffer::Get` calls `StackBuffer::Get`: the current block,
or the block `Resize` has just appended when the current block was full. -/
def MultiStackBuffer.targetBlock {T : Type} [CLayout T] (m : MultiStackBuffer T) :
    Option (StackBuffer T) :=
  match m.curr_stack_ with
  | none => none
  | some b0 =>
    match m.stack_buffer_list_[b0]? with
    | none => none
    | some blk0 =>
      match (if blk0.IsFull then m.Resize else some m) with
      | none => none
      | some m1 =>
        match m1.curr_stack_ with
        | none => none
        | some b => m1.stack_buffer_list_[b]?

/-- Layout of the arena: the block size is not zero, the blocks are a list of full blocks
followed by the current block, every block has the capacity `per_add_count_` and the
element size of `RecordData`, and `curr_count_` is the number of records held by the blocks. -/
structure LayoutInv (m : RecordBuffer) : Prop where
  per_pos : m.per_add_count_ ≠ 0
  blocks : ∃ front last, m.stack_buffer_list_ = front ++ [last]
    ∧ m.curr_stack_ = some front.length
    ∧ (∀ b ∈ front, b.curr_count_ = m.per_add_count_)
    ∧ last.curr_count_ ≤ m.per_add_count_
    ∧ m.curr_count_ = front.length * m.per_add_count_ + last.curr_count_
  capacity : ∀ b ∈ m.stack_buffer_list_, b.max_count_ = m.per_add_count_
  element_size : ∀ b ∈ m.stack_buffer_list_, b.element_size_ = 12

/-- The element pointer of handle `h` in an arena with blocks of `per` records. -/
def handlePtr (per h : Nat) : Nat × Nat := (h / per, h % per)

/-- The live counter record of handle `h`. -/
def MultiStackBuffer.live (m : RecordBuffer) (h : Nat) : RecordData :=
  m.load (handlePtr m.per_add_count_ h)

/-- One operation on the counter arena: `Get()`, a store through an element pointer, or
`Save()`. -/
inductive ArenaOp where
  | get
  | store (p : Nat × Nat) (x : RecordData)
  | save

/-- The arena after an operation and the `ElementPair` the operation returned, if any;
`none` when an assert fails. -/
def ArenaOp.apply (m : RecordBuffer) : ArenaOp → Option (RecordBuffer × Option (Nat × (Nat × Nat)))
  | .get => (m.Get ⟨0, 0⟩).map (fun r => (r.1, some r.2))
  | .store p x => some (m.store p x, none)
  | .save => m.Save.map (fun m1 => (m1, none))

/-- Run a list of operations: the arena left and the `ElementPair`s returned by the calls
of `Get`, in the order of the calls. -/
def arenaRun (m : RecordBuffer) : List ArenaOp → Option (RecordBuffer × List (Nat × (Nat × Nat)))
  | [] => some (m, [])
  | op :: ops =>
    match op.apply m with
    | none => none
    | some (m1, e) =>
      match arenaRun m1 ops with
      | none => none
      | some (m2, es) => some (m2, e.toList ++ es)

/-- Run a list of operations on a fresh arena with blocks of `per` records. -/
def arenaFrom (per : Nat) (ops : List ArenaOp) :
    Option (RecordBuffer × List (Nat × (Nat × Nat))) :=
  match MultiStackBuffer.new per with
  | none => none
  | some m => arenaRun m ops

/-- Number of calls of `Get` in a list of operations. -/
def getCount : List ArenaOp → Nat
  | [] => 0
  | .get :: ops => getCount ops + 1
  | _ :: ops => getCount ops


/-- The `k`-th live element of a list of blocks, counted through the blocks in list order. -/
def blocksAt {T : Type} : List (StackBuffer T) → Nat → Option T
  | [], _ => none
  | b :: rest, k => if k < b.curr_count_ then some (b.buffer_ k) else blocksAt rest (k - b.curr_count_)


/-! ## The callsite registry -/

/-- The descriptor held by `lua_profiler_funcs_` for the interpreted function whose source
string is at address `source` and which is defined at `line`. -/
def LuaProfilerState.luaDescriptor (s : LuaProfilerState) (source : Nat) (line : Int) :
    Option Nat :=
  match s.lua_profiler_funcs_ source with
  | some m => m line
  | none => none

/-- The results of a sequence of calls of `GetFunctionInfo`, each made in the state the
former left. -/
def LuaProfilerState.lookups (s : LuaProfilerState) : List (lua_Debug × Nat) → List (Option Nat)
  | [] => []
  | q :: qs =>
    (s.GetFunctionInfo q.1 q.2).2 :: LuaProfilerState.lookups (s.GetFunctionInfo q.1 q.2).1 qs

/-- The state a sequence of calls of `GetFunctionInfo` leaves. -/
def LuaProfilerState.afterLookups (s : LuaProfilerState) : List (lua_Debug × Nat) → LuaProfilerState
  | [] => s
  | q :: qs => LuaProfilerState.afterLookups (s.GetFunctionInfo q.1 q.2).1 qs

/-- The request is for an interpreted function: `ar->what[0]` is not `'C'`. -/
def lua_Debug.interpreted (ar : lua_Debug) : Bool := !decide (ar.what.get 0 = 'C')

/-- Invariant of the registry: every descriptor in the two tables is an allocated one, the
table of interpreted functions holds a descriptor under one key only, and no descriptor is
in both tables. -/
structure RegistryInv (s : LuaProfilerState) : Prop where
  lua_lt : ∀ src l d, s.luaDescriptor src l = some d → d < s.function_infos_.length
  c_lt : ∀ f d, s.c_profiler_funcs_ f = some d → d < s.function_infos_.length
  lua_inj : ∀ src l src1 l1 d, s.luaDescriptor src l = some d → s.luaDescriptor src1 l1 = some d →
    src = src1 ∧ l = l1
  disjoint : ∀ src l f d, s.luaDescriptor src l = some d → s.c_profiler_funcs_ f ≠ some d


/-! ## How an event changes the tree and the arena -/

/-- The enter time of every slot of every stack satisfies `F`. -/
def LuaProfilerState.TimesOk (F : Nat → Prop) (s : LuaProfilerState) : Prop :=
  ∀ L stk i, s.call_info_stack_map_ L = some stk → F (stk.buffer_ i).enter_time_

/-- The tree and the arena `(root1, b1)` come from `(root, b)` by elementary changes:
`n` credits of self time to nodes of the tree, each of an amount that satisfies `C`, `k`
increments of the call count of a node, and calls of `GetChildRecord` for descriptors that
satisfy `D`. -/
inductive Evolves (C : Nat → Prop) (D : Nat → Prop) :
    Nat → Nat → Record → RecordBuffer → Record → RecordBuffer → Prop
  | refl (root : Record) (b : RecordBuffer) : Evolves C D 0 0 root b root b
  | credit {n k : Nat} {root root1 : Record} {b b1 : RecordBuffer} (p : RecordPtr) (r : Record)
      (e : Nat) : Evolves C D n k root b root1 b1 → root1.getAt p = some r → C e →
      Evolves C D (n + 1) k root b root1 (r.AddInnerElapse b1 e)
  | count {n k : Nat} {root root1 : Record} {b b1 : RecordBuffer} (p : RecordPtr) (r : Record) :
      Evolves C D n k root b root1 b1 → root1.getAt p = some r →
      Evolves C D n (k + 1) root b root1 (r.AddCount b1)
  | child {n k : Nat} {root root1 root2 : Record} {b b1 b2 : RecordBuffer} (p q : RecordPtr)
      (info : Nat) : Evolves C D n k root b root1 b1 → D info →
      Record.GetChildRecordAt root1 b1 p info = some (root2, b2, q) →
      Evolves C D n k root b root2 b2


/-- Every node of the tree owns the counter record of its handle: `data_` is the address at
which the arena issued the handle `index_`, and the handle has been issued. -/
def NodesInv (root : Record) (b : RecordBuffer) : Prop :=
  ∀ n ∈ root.nodes, n.data_ = handlePtr b.per_add_count_ n.index_ ∧ n.index_ < b.curr_count_

/-- Invariant that ties the tree to the arena and to the registry: the arena has its layout,
every node owns the counter record of its handle, and the descriptor of every node is an
allocated one. -/
structure HandleInv (s : LuaProfilerState) : Prop where
  layout : LayoutInv s.record_buffer_
  nodes : NodesInv s.root_profiler_record_ s.record_buffer_
  descriptors : ∀ n ∈ s.root_profiler_record_.nodes, ∀ d, n.func_info_ = some d →
    d < s.function_infos_.length


/-- A sequence of lookups: the interpreted function of line 1 of `@scenario.lua`, the one of
line 2, the native function `print` at address 99, and the function of line 1 again. -/
def sampleLookups : List (lua_Debug × Nat) :=
  [ (scenarioFunction 1 LUA_HOOKCALL, 11), (scenarioFunction 2 LUA_HOOKCALL, 12),
    (nativeFunction "print" LUA_HOOKCALL, 99), (scenarioFunction 1 LUA_HOOKCALL, 11) ]


/-! ## Order of the children after a pass -/

/-- Children with equal total elapsed appear in the order of their creation, that is, by
increasing handle. -/
def Record.tiesInCreationOrder (r : Record) : Prop :=
  List.Pairwise (fun a b : Record => a.temp_full_elapse_ = b.temp_full_elapse_ → a.index_ < b.index_)
    r.children_list_

instance (r : Record) : Decidable r.tiesInCreationOrder := by
  unfold Record.tiesInCreationOrder
  infer_instance

/-- Two functions called from the top level of context 1: X (line 1) runs from 1 to 2 and
Y (line 2) from 3 to 13. -/
def twoChildrenTrace : List Op :=
  [ .hook 1 (scenarioFunction 1 LUA_HOOKCALL) 11 1 1,
    .hook 1 (scenarioFunction 1 LUA_HOOKRET) 11 2 2,
    .hook 1 (scenarioFunction 2 LUA_HOOKCALL) 12 3 3,
    .hook 1 (scenarioFunction 2 LUA_HOOKRET) 12 13 13 ]

/-- The same trace followed by a full-history aggregation, a second run of X from 20 to 29,
which brings its total to that of Y, and a second full-history aggregation. -/
def tieTrace : List Op :=
  twoChildrenTrace ++
    [ .query 1 0 0,
      .hook 1 (scenarioFunction 1 LUA_HOOKCALL) 11 20 20,
      .hook 1 (scenarioFunction 1 LUA_HOOKRET) 11 29 29,
      .query 1 0 0 ]

/-- The descriptor, the handle and the total elapsed of the children of a node, in the order
of `children_list_`. -/
def Record.childrenSummary (r : Record) : List (Option Nat × Nat × Nat) :=
  r.children_list_.map (fun c => (c.func_info_, c.index_, c.temp_full_elapse_))


/-! ## One node of the tree -/

/-- The fields of a node other than its children: descriptor, figures of the last pass,
handle and counter address. -/
def Record.own (r : Record) : Option Nat × Nat × Nat × Nat × Nat × (Nat × Nat) :=
  (r.func_info_, r.temp_inner_elapse_, r.temp_full_elapse_, r.temp_call_count_, r.index_, r.data_)

/-- The descriptors of the children of a node, in the order of `children_list_`. -/
def Record.childKeys (r : Record) : List (Option Nat) :=
  r.children_list_.map Record.func_info_


/-- The node with one more child at the end of `children_list_`, as `GetChildRecord` leaves
it after `push_back`. -/
def Record.withChild (r child : Record) : Record :=
  .mk r.func_info_ r.temp_inner_elapse_ r.temp_full_elapse_ r.temp_call_count_
    r.index_ r.data_ (r.children_list_ ++ [child])


/-! ## core_profiler.cpp: the report -/

/-- What `Dump2json` takes from the C library of the host: whether `fopen(file_name, "w+")`
opens the file, and the text `fprintf` renders for the line of a node with a descriptor
(from the descriptor, the call count, the total, the self elapsed and `total_elapse`; the
two percentages are `double` arithmetic of the host) and for the line of the root (from
its total). -/
structure DumpHost where
  fopen : String → Bool
  call_line : FunctionInfo → Nat → Nat → Nat → Nat → String
  root_line : Nat → String

mutual
/-- Method `Data2Json`: the text written to the stream.  `infos` holds the `FunctionInfo`
objects; `none` when `func_info_` designates none of them. -/
def Record.Data2Json (host : DumpHost) (infos : List FunctionInfo) (total_elapse : Nat) :
    Record → Option String
  | .mk fi ti tf tc _ _ cs =>
    match (match fi with
        | some d =>
          match infos[d]? with
          | some func_info => some (host.call_line func_info tc tf ti total_elapse)
          | none => none
        | none => some (host.root_line tf)) with
    | none => none
    | some line =>
      if ¬ cs.isEmpty then
        match Record.Data2JsonLoop host infos total_elapse cs with
        | none => none
        | some subcall => some (line ++ ",'subcall':[" ++ subcall ++ "]")
      else some line
/-- The loop of `Data2Json` over `children_list_`. -/
def Record.Data2JsonLoop (host : DumpHost) (infos : List FunctionInfo) (total_elapse : Nat) :
    List Record → Option String
  | [] => some ""
  | c :: cs =>
    match Record.Data2Json host infos total_elapse c with
    | none => none
    | some text =>
      match Record.Data2JsonLoop host infos total_elapse cs with
      | none => none
      | some rest => some ("\x7b" ++ text ++ "\x7d," ++ rest)
end

/-- What a call of `Dump2json` did: its outcome, the name `fopen` was called with, if it was
called, and the text written to the stream, if a stream was opened. -/
structure DumpResult where
  outcome : Outcome
  opened : Option String
  written : Option String

/-- Method `Dump2json`.  `n`, `start_index` and `end_index` are as for `CalcRecord`;
`file_name` is argument 1 when it is a string, and `none` when it is not, in which case
`luaL_checkstring` raises. -/
def LuaProfilerState.Dump2json (S : StdSort) (host : DumpHost) (s : LuaProfilerState) (n : Nat)
    (file_name : Option String) (start_index end_index : Int) : Option DumpResult :=
  match s.CalcRecord S n start_index end_index with
  | .lua_error s1 message => some ⟨.lua_error s1 message, none, none⟩
  | .returned s1 temp_full_elapse =>
    if temp_full_elapse = 0 then
      some ⟨.lua_error s1 "profiler CalcRecord error", none, none⟩
    else
      match file_name with
      | none => some ⟨.lua_error s1 "bad argument #1 (string expected)", none, none⟩
      | some name =>
        if ¬ host.fopen name then
          some ⟨.lua_error s1 "profiler file_name[%s] open error", some name, none⟩
        else
          match s1.root_profiler_record_.Data2Json host s1.function_infos_ temp_full_elapse with
          | none => none
          | some text => some ⟨.returned s1 0, some name, some ("\x7b" ++ text ++ "\x7d")⟩

/-- The value an outcome returns; zero for a raised error. -/
def Outcome.value : Outcome → Nat
  | .returned _ value => value
  | .lua_error _ _ => 0

/-- A host whose files all open and whose lines are empty. -/
def plainHost : DumpHost :=
  { fopen := fun _ => true, call_line := fun _ _ _ _ _ => "", root_line := fun _ => "" }


/-! ## Clock readings of a trace -/

/-- The clock readings of the trace never decrease and start at `T` or later: for each hook
event the reading of `CoroutineJump` is at least the last reading before it, and the reading
of `CallHookIn` / `CallHookOut` is at least that of `CoroutineJump`. -/
def nonDecreasingFrom : Nat → List Op → Bool
  | _, [] => true
  | T, .hook _ _ _ jump_time curr_time :: ops =>
    decide (T ≤ jump_time) && decide (jump_time ≤ curr_time) && nonDecreasingFrom curr_time ops
  | T, .create _ :: ops => nonDecreasingFrom T ops
  | T, .save :: ops => nonDecreasingFrom T ops
  | T, .query _ _ _ :: ops => nonDecreasingFrom T ops

/-- The last clock reading of the trace; `T` when the trace takes none. -/
def lastReading : Nat → List Op → Nat
  | T, [] => T
  | _, .hook _ _ _ _ curr_time :: ops => lastReading curr_time ops
  | T, .create _ :: ops => lastReading T ops
  | T, .save :: ops => lastReading T ops
  | T, .query _ _ _ :: ops => lastReading T ops

/-- An amount `e` credited to a counter record without underflow: the `uint64_t` difference
of a clock reading `time`, not above `T`, and of an enter timestamp not above `time`, which
is then their true difference. -/
def Credit (T : Nat) (e : Nat) : Prop :=
  ∃ time enter_time, enter_time ≤ time ∧ time ≤ T
    ∧ e = sub64 time enter_time ∧ e = time - enter_time

/-- A trace with a context switch: A is called in context 1 at time 5, context 2 is declared,
and B is called in context 2, the switch being timed 8 and the call 9. -/
def switchTrace : List Op :=
  [ .hook 1 (scenarioFunction 1 LUA_HOOKCALL) 11 5 5,
    .create 2,
    .hook 2 (scenarioFunction 2 LUA_HOOKCALL) 12 8 9 ]

/-- The return of B in context 2 at time 12. -/
def switchReturn : Op := .hook 2 (scenarioFunction 2 LUA_HOOKRET) 12 12 12


/-! ## Events on declared contexts -/

/-- The trace delivers events to declared contexts only: every hook event is for a context
that has a stack when the event is delivered, and every call of `CreateCallInfoStack`
declares a context that has none yet.  Saves and aggregations may occur anywhere. -/
def LuaProfilerState.onDeclared (S : StdSort) : LuaProfilerState → List Op → Bool
  | _, [] => true
  | s, op :: ops =>
    (match op with
      | .hook L _ _ _ _ => (s.call_info_stack_map_ L).isSome
      | .create L => (s.call_info_stack_map_ L).isNone
      | .save => true
      | .query _ _ _ => true) &&
      match s.apply S op with
      | none => true
      | some s1 => LuaProfilerState.onDeclared S s1 ops

/-- The trace, run on a freshly started profiler, delivers events to declared contexts
only. -/
def declaredFromStart (S : StdSort) (main_L : Nat) (ops : List Op) : Bool :=
  match ProfilerStart main_L with
  | none => false
  | some s => s.onDeclared S ops

/-- The stack the profiler works on is the stack of the active context: once an event has
made a context active, `curr_call_info_stack_` is the stack declared for it; before the
first event there is neither an active context nor a stack. -/
structure ActiveStack (s : LuaProfilerState) : Prop where
  active : ∀ L, s.curr_lua_state_ = some L →
    s.curr_call_info_stack_ = some L ∧ (s.call_info_stack_map_ L).isSome = true
  idle : s.curr_lua_state_ = none → s.curr_call_info_stack_ = none

/-- The invariants of the states reached by events on declared contexts. -/
structure Sound (s : LuaProfilerState) : Prop where
  wf : WellFormed s
  inv : StateInv s
  registry : RegistryInv s
  handle : HandleInv s
  stack : ActiveStack s


/-! ## Properly nested traces of one context -/

/-- The events are properly nested normal calls and returns with positive, non-decreasing
timestamps: `stack` holds the identities of the calls in progress, innermost first, and
`last` is the last timestamp.  A call event pushes its function; a return event is the
return of the innermost call in progress; at the end no call is in progress.  Timestamps
are `uint64_t` values. -/
def properlyNested : List Nat → Nat → List ChainEvent → Bool
  | stack, _, [] => stack.isEmpty
  | stack, last, e :: rest =>
    decide (0 < e.2.2.2) && decide (last ≤ e.2.2.2) && decide (e.2.2.2 < U64) &&
      (if e.1.event = LUA_HOOKCALL then properlyNested (e.2.1 :: stack) e.2.2.2 rest
       else if e.1.event = LUA_HOOKRET then
         match stack with
         | g :: below => decide (g = e.2.1) && properlyNested below e.2.2.2 rest
         | [] => false
       else false)

/-- The sum, over the outermost calls of the events, of the return timestamp minus the call
timestamp.  `depth` is the number of calls in progress and `start` the call timestamp of
the outermost of them. -/
def outermostElapsed : Nat → Nat → List ChainEvent → Nat
  | _, _, [] => 0
  | depth, start, e :: rest =>
    if e.1.event = LUA_HOOKCALL then
      outermostElapsed (depth + 1) (if depth = 0 then e.2.2.2 else start) rest
    else
      (if depth = 1 then e.2.2.2 - start else 0) + outermostElapsed (depth - 1) start rest

/-- The sum of the self times of all the counter records of the arena. -/
def MultiStackBuffer.selfTotal (m : RecordBuffer) : Nat :=
  ((List.range m.curr_count_).map (fun h => (m.live h).inner_elapse_)).sum

/-- The amounts a log of credits, pairs of a handle and an amount, gives to handle `h`, in
order. -/
def creditsFor (log : List (Nat × Nat)) (h : Nat) : List Nat :=
  (log.filter (fun e => decide (e.1 = h))).map (fun e => e.2)

/-- The arena `b` comes from the arena `b0` by the credits of `log` and the issue of new
counter records: the self time of a record is that of `b0`, or zero for a record issued
since, to which the amounts of the log for its handle have been added in `uint64_t`
arithmetic. -/
structure Credited (b0 b : RecordBuffer) (log : List (Nat × Nat)) : Prop where
  per : b.per_add_count_ = b0.per_add_count_
  count : b0.curr_count_ ≤ b.curr_count_
  issued : ∀ e ∈ log, e.1 < b.curr_count_
  value : ∀ h, h < b.curr_count_ →
    (b.live h).inner_elapse_
      = (creditsFor log h).foldl add64
          (if h < b0.curr_count_ then (b0.live h).inner_elapse_ else 0)

/-- The state of the profiler in the course of a properly nested trace of context `L`: the
invariants hold, `L` is the active context, the frames of its stack are those of the calls
in progress, whose identities, innermost first, are `stack`, and the timer of the top frame
was started at the timestamp `last`. -/
structure InProgress (s : LuaProfilerState) (L : Nat) (stack : List Nat) (last : Nat) :
    Prop where
  sound : Sound s
  active : s.curr_lua_state_ = some L
  frames : ∃ stk, s.call_info_stack_map_ L = some stk
    ∧ stk.frames.map CallInfo.func_ = stack
    ∧ ∀ c below, stk.frames = c :: below → c.enter_time_ = last

/-- The handles of the counter records of the nodes of a tree. -/
def Record.handles (r : Record) : List Nat := r.nodes.map Record.index_

/-- The handles of the counter records of the nodes of the trees of a list. -/
def Record.handlesList (cs : List Record) : List Nat := (Record.nodesList cs).map Record.index_

/-- Every counter record of the arena is the counter record of exactly one node of the
tree. -/
def HandlePerm (s : LuaProfilerState) : Prop :=
  List.Perm s.root_profiler_record_.handles (List.range s.record_buffer_.curr_count_)

/-- Events of context 1 after the scenario: A is called at 50, B at 60, B returns at 75, A
returns at 90; then C is called at 100 and returns at 130. -/
def nestedEvents : List ChainEvent :=
  [ (scenarioFunction 1 LUA_HOOKCALL, 11, 50, 50),
    (scenarioFunction 2 LUA_HOOKCALL, 12, 60, 60),
    (scenarioFunction 2 LUA_HOOKRET, 12, 75, 75),
    (scenarioFunction 1 LUA_HOOKRET, 11, 90, 90),
    (scenarioFunction 3 LUA_HOOKCALL, 13, 100, 100),
    (scenarioFunction 3 LUA_HOOKRET, 13, 130, 130) ]


/-! ## A native function seen under two names -/

/-- The native function at address 77 is called at 5 under the name `p`, which is not in
the filter list, and returns at 6; then A is called at 7.  All in context 1. -/
def renamedNativeTrace : List Op :=
  [ .hook 1 (nativeFunction "p" LUA_HOOKCALL) 77 5 5,
    .hook 1 (nativeFunction "p" LUA_HOOKRET) 77 6 6,
    .hook 1 (scenarioFunction 1 LUA_HOOKCALL) 11 7 7 ]

/-- What a state shows of the tree, of the stack of context 1 and of the current frame: the
number of nodes, the number of frames, `curr_call_info_`, and the enter timestamp of the
frame at the bottom of the stack. -/
def LuaProfilerState.shape (s : LuaProfilerState) : Nat × Option Nat × Option Nat × Option Nat :=
  (s.root_profiler_record_.nodes.length, (s.framesOf 1).map List.length, s.curr_call_info_,
   (s.call_info_stack_map_ 1).map (fun stk => (stk.buffer_ 0).enter_time_))


/-! # Theorems -/

/-! ## Fields of a record -/

@[simp] theorem func_info_mk (fi : Option Nat) (ti tf tc idx : Nat) (d : Nat × Nat)
    (cs : List Record) : (Record.mk fi ti tf tc idx d cs).func_info_ = fi := rfl

@[simp] theorem temp_inner_elapse_mk (fi : Option Nat) (ti tf tc idx : Nat) (d : Nat × Nat)
    (cs : List Record) : (Record.mk fi ti tf tc idx d cs).temp_inner_elapse_ = ti := rfl

@[simp] theorem temp_full_elapse_mk (fi : Option Nat) (ti tf tc idx : Nat) (d : Nat × Nat)
    (cs : List Record) : (Record.mk fi ti tf tc idx d cs).temp_full_elapse_ = tf := rfl

@[simp] theorem temp_call_count_mk (fi : Option Nat) (ti tf tc idx : Nat) (d : Nat × Nat)
    (cs : List Record) : (Record.mk fi ti tf tc idx d cs).temp_call_count_ = tc := rfl

@[simp] theorem index_mk (fi : Option Nat) (ti tf tc idx : Nat) (d : Nat × Nat)
    (cs : List Record) : (Record.mk fi ti tf tc idx d cs).index_ = idx := rfl

@[simp] theorem data_mk (fi : Option Nat) (ti tf tc idx : Nat) (d : Nat × Nat)
    (cs : List Record) : (Record.mk fi ti tf tc idx d cs).data_ = d := rfl

@[simp] theorem children_list_mk (fi : Option Nat) (ti tf tc idx : Nat) (d : Nat × Nat)
    (cs : List Record) : (Record.mk fi ti tf tc idx d cs).children_list_ = cs := rfl

/-! ## Aggregation: the two overloads and their common shape -/

theorem aggregateLoop_length (S : StdSort) (sel : Nat → Nat × Nat → Nat × Nat) :
    ∀ (cs : List Record) (acc : Nat), (Record.aggregateLoop S sel acc cs).1.length = cs.length
  | [], acc => by simp [Record.aggregateLoop]
  | c :: cs, acc => by
    simp [Record.aggregateLoop, aggregateLoop_length S sel cs]

mutual
theorem CalcChildrenElapse_eq_aggregate (S : StdSort) (buffer : RecordBuffer) :
    ∀ r : Record, Record.CalcChildrenElapse S buffer r = Record.aggregate S (liveSel buffer) r
  | .mk fi ti tf tc idx d cs => by
    cases cs with
    | nil => simp [Record.CalcChildrenElapse, Record.aggregate, Record.aggregateLoop, liveSel]
    | cons c cs =>
      simp only [Record.CalcChildrenElapse, Record.aggregate, List.isEmpty_cons, Bool.false_eq_true,
        if_false, not_false_eq_true, true_and, liveSel]
      rw [CalcChildrenElapseLoop_eq_aggregateLoop S buffer 0 (c :: cs)]
theorem CalcChildrenElapseLoop_eq_aggregateLoop (S : StdSort) (buffer : RecordBuffer) :
    ∀ (acc : Nat) (cs : List Record),
      Record.CalcChildrenElapseLoop S buffer acc cs = Record.aggregateLoop S (liveSel buffer) acc cs
  | acc, [] => by simp [Record.CalcChildrenElapseLoop, Record.aggregateLoop]
  | acc, c :: cs => by
    simp only [Record.CalcChildrenElapseLoop, Record.aggregateLoop]
    rw [CalcChildrenElapse_eq_aggregate S buffer c,
      CalcChildrenElapseLoop_eq_aggregateLoop S buffer _ cs]
end

mutual
theorem CalcChildrenElapseCopy_eq_aggregate (S : StdSort) (st : Option RecordCopy)
    (en : RecordCopy) :
    ∀ r : Record, Record.CalcChildrenElapseCopy S st en r = Record.aggregate S (copySel st en) r
  | .mk fi ti tf tc idx d cs => by
    cases cs with
    | nil => simp [Record.CalcChildrenElapseCopy, Record.aggregate, Record.aggregateLoop, copySel]
    | cons c cs =>
      simp only [Record.CalcChildrenElapseCopy, Record.aggregate, List.isEmpty_cons,
        Bool.false_eq_true, if_false, not_false_eq_true, true_and, copySel]
      rw [CalcChildrenElapseCopyLoop_eq_aggregateLoop S st en 0 (c :: cs)]
theorem CalcChildrenElapseCopyLoop_eq_aggregateLoop (S : StdSort) (st : Option RecordCopy)
    (en : RecordCopy) :
    ∀ (acc : Nat) (cs : List Record),
      Record.CalcChildrenElapseCopyLoop S st en acc cs
        = Record.aggregateLoop S (copySel st en) acc cs
  | acc, [] => by simp [Record.CalcChildrenElapseCopyLoop, Record.aggregateLoop]
  | acc, c :: cs => by
    simp only [Record.CalcChildrenElapseCopyLoop, Record.aggregateLoop]
    rw [CalcChildrenElapseCopy_eq_aggregate S st en c,
      CalcChildrenElapseCopyLoop_eq_aggregateLoop S st en _ cs]
end

theorem mem_nodesList {n : Record} :
    ∀ cs : List Record, n ∈ Record.nodesList cs ↔ ∃ c ∈ cs, n ∈ Record.nodes c
  | [] => by simp [Record.nodesList]
  | c :: cs => by
    simp [Record.nodesList, mem_nodesList cs]

theorem aggregate_snd (S : StdSort) (sel : Nat → Nat × Nat → Nat × Nat) (r : Record) :
    (Record.aggregate S sel r).2 = (Record.aggregate S sel r).1.temp_full_elapse_ := by
  cases r
  simp [Record.aggregate, Record.temp_full_elapse_]

theorem aggregateLoop_snd (S : StdSort) (sel : Nat → Nat × Nat → Nat × Nat) :
    ∀ (cs : List Record) (acc : Nat),
      (Record.aggregateLoop S sel acc cs).2 % U64
        = (acc + ((Record.aggregateLoop S sel acc cs).1.map Record.temp_full_elapse_).sum) % U64
  | [], acc => by simp [Record.aggregateLoop]
  | c :: cs, acc => by
    simp only [Record.aggregateLoop, List.map_cons, List.sum_cons]
    rw [aggregateLoop_snd S sel cs, ← aggregate_snd S sel c]
    simp only [add64, U64]
    omega

mutual
theorem aggregate_conserved (S : StdSort) (sel : Nat → Nat × Nat → Nat × Nat) :
    ∀ r : Record, ∀ n ∈ Record.nodes (Record.aggregate S sel r).1, Record.Conserved n
  | .mk fi ti tf tc idx d cs => by
    intro n hn
    have hsum := aggregateLoop_snd S sel cs 0
    have hperm : List.Perm
        (if (Record.aggregateLoop S sel 0 cs).1.length > 1
          then S.sort (Record.aggregateLoop S sel 0 cs).1
          else (Record.aggregateLoop S sel 0 cs).1)
        (Record.aggregateLoop S sel 0 cs).1 := by
      split
      · exact S.perm _
      · exact List.Perm.refl _
    simp only [Record.aggregate, Record.nodes, List.mem_cons] at hn
    rcases hn with hn | hn
    · subst hn
      simp only [Record.Conserved, Record.temp_full_elapse_, Record.temp_inner_elapse_,
        Record.children_list_]
      rw [(hperm.map Record.temp_full_elapse_).sum_eq]
      simp only [add64, U64, Nat.zero_add] at hsum ⊢
      omega
    · rw [mem_nodesList] at hn
      obtain ⟨c, hc, hnc⟩ := hn
      have hc2 := hperm.mem_iff.mp hc
      exact aggregateLoop_conserved S sel 0 cs n ((mem_nodesList _).mpr ⟨c, hc2, hnc⟩)
theorem aggregateLoop_conserved (S : StdSort) (sel : Nat → Nat × Nat → Nat × Nat) :
    ∀ (acc : Nat) (cs : List Record),
      ∀ n ∈ Record.nodesList (Record.aggregateLoop S sel acc cs).1, Record.Conserved n
  | acc, [] => by simp [Record.aggregateLoop, Record.nodesList]
  | acc, c :: cs => by
    intro n hn
    simp only [Record.aggregateLoop, Record.nodesList, List.mem_append] at hn
    rcases hn with hn | hn
    · exact aggregate_conserved S sel c n hn
    · exact aggregateLoop_conserved S sel _ cs n hn
end

/-- Claim C1: after a pass of `CalcChildrenElapse`, over the live counters or over a pair
of snapshots whose start may be absent, every node of the tree, the root included, has its
total elapsed equal to its self elapsed plus the sum of the totals of its children, in
64-bit unsigned arithmetic; the value returned is the total of the root. -/
theorem C1_tree_conservation (S : StdSort) (buffer : RecordBuffer)
    (start_record : Option RecordCopy) (end_record : RecordCopy) (root : Record) :
    (∀ n ∈ Record.nodes (Record.CalcChildrenElapse S buffer root).1, Record.Conserved n)
    ∧ (Record.CalcChildrenElapse S buffer root).2
        = (Record.CalcChildrenElapse S buffer root).1.temp_full_elapse_
    ∧ (∀ n ∈ Record.nodes (Record.CalcChildrenElapseCopy S start_record end_record root).1,
        Record.Conserved n)
    ∧ (Record.CalcChildrenElapseCopy S start_record end_record root).2
        = (Record.CalcChildrenElapseCopy S start_record end_record root).1.temp_full_elapse_ := by
  rw [CalcChildrenElapse_eq_aggregate, CalcChildrenElapseCopy_eq_aggregate]
  exact ⟨aggregate_conserved S _ root, aggregate_snd S _ root,
    aggregate_conserved S _ root, aggregate_snd S _ root⟩


/-! ## The scenario -/

/-- Claim C3, as stated, fails: the figures A: self 40, total 70; B: self 20, total 30;
C: self 10, total 10 are not the ones the trace produces. -/
theorem C3_counterexample :
    ¬ (scenarioReport [0] = some (40, 70, 1) ∧ scenarioReport [0, 1] = some (20, 30, 1)
        ∧ scenarioReport [0, 1, 2] = some (10, 10, 1)) := by
  decide!

/-- Claim C3, amended: on a freshly started profiler with one declared context, the trace
call A at 0, call B at 10, call C at 15, return C at 25, return B at 30, return A at 40
followed by a full-history aggregation reports A: self 20, total 40, count 1; B: self 10,
total 20, count 1; C: self 10, total 10, count 1; and the root: total 40. -/
theorem C3_scenario_report :
    scenarioReport [0] = some (20, 40, 1) ∧ scenarioReport [0, 1] = some (10, 20, 1)
      ∧ scenarioReport [0, 1, 2] = some (10, 10, 1) ∧ scenarioReport [] = some (0, 40, 0) := by
  decide!

/-! ## Query validation -/

theorem toInt32_small (n : Nat) (h : n < 2147483648) : toInt32 n = (n : Int) := by
  unfold toInt32 U32
  have h1 : n % 4294967296 = n := Nat.mod_eq_of_lt (by omega)
  rw [h1, if_pos h]

/-- Claim C4, as stated, fails: with one snapshot saved, the query with start index -1 and
end index 0 is accepted. -/
theorem C4_counterexample : windowQueryFails [Op.save] (-1) 0 = some false := by
  decide!

/-- Claim C4, amended: with fewer than 2^31 snapshots, a two-endpoint query is accepted by
`CalcRecord` exactly when `0 <= end < recordCount` and `start < end`; a negative start is
then treated as no start snapshot and the pass runs from the end snapshot alone; every
other pair raises an error and leaves the state as it was. -/
theorem C4_window_validation (S : StdSort) (s : LuaProfilerState) (start_index end_index : Int)
    (hcount : s.record_buffer_.GetRecordCount < 2147483648) :
    ((s.CalcRecord S 3 start_index end_index).isError = false ↔
      (0 ≤ end_index ∧ end_index < (s.record_buffer_.GetRecordCount : Int)
        ∧ start_index < end_index))
    ∧ ((s.CalcRecord S 3 start_index end_index).isError = true →
        (s.CalcRecord S 3 start_index end_index).state = s)
    ∧ ((s.CalcRecord S 3 start_index end_index).isError = false →
        ∃ end_record, s.record_buffer_.GetRecordByIndex end_index.toNat = some end_record ∧
          (s.CalcRecord S 3 start_index end_index).state.root_profiler_record_ =
            (s.root_profiler_record_.CalcChildrenElapseCopy S
              (if 0 ≤ start_index then s.record_buffer_.GetRecordByIndex start_index.toNat
               else none) end_record).1) := by
  have hc := toInt32_small _ hcount
  unfold LuaProfilerState.CalcRecord
  simp only [show (3 : Nat) ≠ 1 by decide, if_false, if_true, hc, ge_iff_le]
  by_cases h1 : (s.record_buffer_.GetRecordCount : Int) ≤ start_index
  · simp only [h1, if_true, Outcome.isError, Outcome.state]
    refine ⟨⟨fun h => by simp at h, fun h => by omega⟩, fun _ => trivial, fun h => by simp at h⟩
  · simp only [h1, if_false]
    by_cases h2 : end_index < 0 ∨ (s.record_buffer_.GetRecordCount : Int) ≤ end_index
    · simp only [h2, if_true, Outcome.isError, Outcome.state]
      refine ⟨⟨fun h => by simp at h, fun h => by omega⟩, fun _ => trivial, fun h => by simp at h⟩
    · simp only [h2, if_false]
      by_cases h3 : end_index ≤ start_index
      · simp only [h3, if_true, Outcome.isError, Outcome.state]
        refine ⟨⟨fun h => by simp at h, fun h => by omega⟩, fun _ => trivial,
          fun h => by simp at h⟩
      · simp only [h3, if_false]
        have hlt : end_index.toNat < s.record_buffer_.records_.length := by
          unfold MultiStackBuffer.GetRecordCount at h2
          omega
        have hget : s.record_buffer_.GetRecordByIndex end_index.toNat
            = some (s.record_buffer_.records_[end_index.toNat]) := by
          unfold MultiStackBuffer.GetRecordByIndex
          rw [if_pos hlt, List.getElem?_eq_getElem hlt]
        rw [hget]
        simp only [Outcome.isError, Outcome.state]
        refine ⟨⟨fun _ => by omega, fun _ => trivial⟩, fun h => by simp at h, fun _ => ?_⟩
        exact ⟨_, rfl, rfl⟩

/-- Witness of C4: one snapshot saved, query (-1, 0). -/
theorem C4_window_validation_witness :
    (stateAfter [Op.save]).record_buffer_.GetRecordCount < 2147483648
    ∧ ((((stateAfter [Op.save]).CalcRecord insertionStdSort 3 (-1) 0).isError = false) ↔
        ((0 : Int) ≤ 0 ∧ (0 : Int) < ((stateAfter [Op.save]).record_buffer_.GetRecordCount : Int)
          ∧ (-1 : Int) < 0)) :=
  ⟨by decide!, (C4_window_validation insertionStdSort (stateAfter [Op.save]) (-1) 0
    (by decide!)).1⟩


/-! ## The tree: keys, pointers -/

theorem keysUniqueList_iff :
    ∀ cs : List Record, Record.KeysUniqueList cs ↔ ∀ c ∈ cs, Record.KeysUnique c
  | [] => by simp [Record.KeysUniqueList]
  | c :: cs => by simp [Record.KeysUniqueList, keysUniqueList_iff cs]

theorem keysUnique_iff (r : Record) :
    Record.KeysUnique r ↔
      (r.children_list_.map Record.func_info_).Nodup ∧ ∀ c ∈ r.children_list_, Record.KeysUnique c := by
  cases r
  simp [Record.KeysUnique, Record.children_list_, keysUniqueList_iff]

theorem findChild_some {r c : Record} {k : Nat} (h : r.findChild k = some c) :
    c ∈ r.children_list_ ∧ c.func_info_ = some k := by
  unfold Record.findChild at h
  have h1 := List.mem_of_find?_eq_some h
  have h2 := List.find?_some h
  exact ⟨h1, by simpa using h2⟩

theorem findChild_none {r : Record} {k : Nat} (h : r.findChild k = none) :
    ∀ c ∈ r.children_list_, c.func_info_ ≠ some k := by
  unfold Record.findChild at h
  intro c hc
  have := List.find?_eq_none.mp h c hc
  simpa using this

theorem replaceChild_keys (k : Nat) (new_child : Record) (hk : new_child.func_info_ = some k) :
    ∀ cs : List Record,
      (Record.replaceChild k new_child cs).map Record.func_info_ = cs.map Record.func_info_
  | [] => by simp [Record.replaceChild]
  | c :: cs => by
    unfold Record.replaceChild
    by_cases h : c.func_info_ = some k
    · simp [h, hk]
    · simp [h, replaceChild_keys k new_child hk cs]

theorem mem_replaceChild (k : Nat) (new_child : Record) {x : Record} :
    ∀ cs : List Record, x ∈ Record.replaceChild k new_child cs → x ∈ cs ∨ x = new_child
  | [] => by simp [Record.replaceChild]
  | c :: cs => by
    unfold Record.replaceChild
    by_cases h : c.func_info_ = some k
    · simp only [h, beq_self_eq_true, if_true, List.mem_cons]
      rintro (h1 | h1)
      · exact Or.inr h1
      · exact Or.inl (Or.inr h1)
    · simp only [beq_iff_eq, h, if_false, List.mem_cons]
      rintro (h1 | h1)
      · exact Or.inl (Or.inl h1)
      · rcases mem_replaceChild k new_child cs h1 with h2 | h2
        · exact Or.inl (Or.inr h2)
        · exact Or.inr h2

theorem setAt_keysUnique :
    ∀ (p : RecordPtr) (r new_node : Record), Record.KeysUnique r →
      (∀ n, r.getAt p = some n →
        Record.KeysUnique new_node ∧ new_node.func_info_ = n.func_info_) →
      Record.KeysUnique (Record.setAt p r new_node)
        ∧ (Record.setAt p r new_node).func_info_ = r.func_info_
  | [], r, new_node, _, hnew => by
    simpa [Record.setAt] using hnew r (by simp [Record.getAt])
  | k :: p, r, new_node, hr, hnew => by
    unfold Record.setAt
    cases hfc : r.findChild k with
    | none => exact ⟨hr, rfl⟩
    | some c =>
      obtain ⟨hmem, hkey⟩ := findChild_some hfc
      have hr2 := (keysUnique_iff r).mp hr
      have ih := setAt_keysUnique p c new_node (hr2.2 c hmem) (by
        intro n hn
        apply hnew n
        simp [Record.getAt, hfc, hn])
      refine ⟨?_, rfl⟩
      rw [keysUnique_iff]
      simp only [Record.children_list_]
      rw [replaceChild_keys k _ (ih.2.trans hkey)]
      refine ⟨hr2.1, ?_⟩
      intro x hx
      rcases mem_replaceChild k _ _ hx with h1 | h1
      · exact hr2.2 x h1
      · rw [h1]; exact ih.1

theorem getAt_keysUnique :
    ∀ (p : RecordPtr) (r n : Record), Record.KeysUnique r → r.getAt p = some n →
      Record.KeysUnique n
  | [], r, n, hr, h => by
    simp only [Record.getAt, Option.some.injEq] at h
    exact h ▸ hr
  | k :: p, r, n, hr, h => by
    unfold Record.getAt at h
    cases hfc : r.findChild k with
    | none => simp [hfc] at h
    | some c =>
      simp only [hfc] at h
      exact getAt_keysUnique p c n (((keysUnique_iff r).mp hr).2 c (findChild_some hfc).1) h

theorem GetChildRecord_keysUnique {r r1 : Record} {buffer buffer1 : RecordBuffer} {info : Nat}
    (h : r.GetChildRecord buffer info = some (r1, buffer1)) (hr : Record.KeysUnique r) :
    Record.KeysUnique r1 ∧ r1.func_info_ = r.func_info_ := by
  unfold Record.GetChildRecord at h
  cases hfc : r.findChild info with
  | some c =>
    simp only [hfc, Option.some.injEq, Prod.mk.injEq] at h
    exact h.1 ▸ ⟨hr, rfl⟩
  | none =>
    simp only [hfc] at h
    cases hnew : Record.new buffer (some info) with
    | none => simp [hnew] at h
    | some v =>
      obtain ⟨new_record, b1⟩ := v
      simp only [hnew, Option.some.injEq, Prod.mk.injEq] at h
      have hshape : new_record.func_info_ = some info ∧ new_record.children_list_ = [] := by
        unfold Record.new at hnew
        cases hg : buffer.Get ⟨0, 0⟩ with
        | none => simp [hg] at hnew
        | some w =>
          simp only [hg, Option.some.injEq, Prod.mk.injEq] at hnew
          rw [← hnew.1]
          exact ⟨rfl, rfl⟩
      have hr2 := (keysUnique_iff r).mp hr
      rw [← h.1]
      refine ⟨?_, rfl⟩
      rw [keysUnique_iff]
      simp only [Record.children_list_, List.map_append, List.map_cons, List.map_nil]
      constructor
      · rw [List.nodup_append]
        refine ⟨hr2.1, List.nodup_singleton _, ?_⟩
        intro a ha hb
        simp only [List.mem_singleton] at hb
        rw [List.mem_map] at ha
        obtain ⟨c, hc, hca⟩ := ha
        exact findChild_none hfc c hc (by rw [hca, hb, hshape.1])
      · intro c hc
        rw [List.mem_append] at hc
        rcases hc with hc | hc
        · exact hr2.2 c hc
        · simp only [List.mem_singleton] at hc
          rw [hc, keysUnique_iff, hshape.2]
          simp

theorem GetChildRecordAt_keysUnique {root root1 : Record} {buffer buffer1 : RecordBuffer}
    {p q : RecordPtr} {info : Nat}
    (h : Record.GetChildRecordAt root buffer p info = some (root1, buffer1, q))
    (hr : Record.KeysUnique root) : Record.KeysUnique root1 := by
  unfold Record.GetChildRecordAt at h
  cases hg : root.getAt p with
  | none => simp [hg] at h
  | some r =>
    simp only [hg] at h
    cases hc : r.GetChildRecord buffer info with
    | none => simp [hc] at h
    | some v =>
      obtain ⟨r1, b1⟩ := v
      simp only [hc, Option.some.injEq, Prod.mk.injEq] at h
      rw [← h.1]
      have h1 := GetChildRecord_keysUnique hc (getAt_keysUnique p root r hr hg)
      exact (setAt_keysUnique p root r1 hr (by
        intro n hn
        rw [hg] at hn
        cases hn
        exact h1)).1


/-! ## Aggregation through pointers -/

theorem aggregateLoop_fst (S : StdSort) (sel : Nat → Nat × Nat → Nat × Nat) :
    ∀ (cs : List Record) (acc : Nat),
      (Record.aggregateLoop S sel acc cs).1 = cs.map (fun c => (Record.aggregate S sel c).1)
  | [], acc => by simp [Record.aggregateLoop]
  | c :: cs, acc => by simp [Record.aggregateLoop, aggregateLoop_fst S sel cs]

theorem aggregate_func_info (S : StdSort) (sel : Nat → Nat × Nat → Nat × Nat) (r : Record) :
    (Record.aggregate S sel r).1.func_info_ = r.func_info_ := by
  cases r
  simp [Record.aggregate, Record.func_info_]

theorem aggregate_fields (S : StdSort) (sel : Nat → Nat × Nat → Nat × Nat) (r : Record) :
    (Record.aggregate S sel r).1.index_ = r.index_
    ∧ (Record.aggregate S sel r).1.data_ = r.data_
    ∧ (Record.aggregate S sel r).1.temp_inner_elapse_ = (sel r.index_ r.data_).1
    ∧ (Record.aggregate S sel r).1.temp_call_count_ = (sel r.index_ r.data_).2 := by
  cases r
  simp [Record.aggregate, Record.index_, Record.data_, Record.temp_inner_elapse_,
    Record.temp_call_count_]

theorem aggregate_children (S : StdSort) (sel : Nat → Nat × Nat → Nat × Nat) (r : Record) :
    List.Perm (Record.aggregate S sel r).1.children_list_
      (r.children_list_.map (fun c => (Record.aggregate S sel c).1)) := by
  cases r with
  | mk fi ti tf tc idx d cs =>
    simp only [Record.aggregate, Record.children_list_]
    rw [aggregateLoop_fst]
    split
    · exact S.perm _
    · exact List.Perm.refl _

theorem map_aggregate_keys (S : StdSort) (sel : Nat → Nat × Nat → Nat × Nat) (cs : List Record) :
    (cs.map (fun c => (Record.aggregate S sel c).1)).map Record.func_info_
      = cs.map Record.func_info_ := by
  rw [List.map_map]
  apply List.map_congr_left
  intro c _
  exact aggregate_func_info S sel c

mutual
theorem aggregate_keysUnique (S : StdSort) (sel : Nat → Nat × Nat → Nat × Nat) :
    ∀ r : Record, Record.KeysUnique r → Record.KeysUnique (Record.aggregate S sel r).1
  | .mk fi ti tf tc idx d cs => by
    intro hr
    have hr2 := (keysUnique_iff _).mp hr
    simp only [children_list_mk] at hr2
    rw [keysUnique_iff]
    have hperm := aggregate_children S sel (.mk fi ti tf tc idx d cs)
    simp only [children_list_mk] at hperm
    constructor
    · rw [(hperm.map Record.func_info_).nodup_iff, map_aggregate_keys]
      exact hr2.1
    · intro x hx
      have hx2 := hperm.mem_iff.mp hx
      exact aggregateList_keysUnique S sel cs hr2.2 x hx2
theorem aggregateList_keysUnique (S : StdSort) (sel : Nat → Nat × Nat → Nat × Nat) :
    ∀ cs : List Record, (∀ c ∈ cs, Record.KeysUnique c) →
      ∀ x ∈ cs.map (fun c => (Record.aggregate S sel c).1), Record.KeysUnique x
  | [], _ => by simp
  | c :: cs, h => by
    intro x hx
    simp only [List.map_cons, List.mem_cons] at hx
    rcases hx with hx | hx
    · rw [hx]
      exact aggregate_keysUnique S sel c (h c (List.mem_cons_self _ _))
    · exact aggregateList_keysUnique S sel cs
        (fun y hy => h y (List.mem_cons_of_mem _ hy)) x hx
end

theorem find_key_perm {l1 l2 : List Record} (hp : List.Perm l1 l2)
    (hn : (l2.map Record.func_info_).Nodup) (k : Nat) :
    l1.find? (fun c => c.func_info_ == some k) = l2.find? (fun c => c.func_info_ == some k) := by
  cases h1 : l1.find? (fun c => c.func_info_ == some k) with
  | none =>
    cases h2 : l2.find? (fun c => c.func_info_ == some k) with
    | none => rfl
    | some y =>
      have hy := List.mem_of_find?_eq_some h2
      have hy2 := List.find?_some h2
      have := List.find?_eq_none.mp h1 y (hp.mem_iff.mpr hy)
      exact absurd hy2 this
  | some x =>
    have hx := List.mem_of_find?_eq_some h1
    have hx2 := List.find?_some h1
    cases h2 : l2.find? (fun c => c.func_info_ == some k) with
    | none =>
      have := List.find?_eq_none.mp h2 x (hp.mem_iff.mp hx)
      exact absurd hx2 this
    | some y =>
      have hy := List.mem_of_find?_eq_some h2
      have hy2 := List.find?_some h2
      simp only [beq_iff_eq] at hx2 hy2
      have := List.inj_on_of_nodup_map hn (hp.mem_iff.mp hx) hy (hx2.trans hy2.symm)
      rw [this]

theorem aggregate_findChild (S : StdSort) (sel : Nat → Nat × Nat → Nat × Nat) (r : Record)
    (hr : Record.KeysUnique r) (k : Nat) :
    (Record.aggregate S sel r).1.findChild k
      = (r.findChild k).map (fun c => (Record.aggregate S sel c).1) := by
  unfold Record.findChild
  have hr2 := (keysUnique_iff _).mp hr
  rw [find_key_perm (aggregate_children S sel r)
    (by rw [map_aggregate_keys]; exact hr2.1) k, List.find?_map]
  have hfun : ((fun c : Record => c.func_info_ == some k)
      ∘ fun c => (Record.aggregate S sel c).1) = (fun c : Record => c.func_info_ == some k) := by
    funext c
    simp [Function.comp, aggregate_func_info]
  rw [hfun]

theorem aggregate_getAt (S : StdSort) (sel : Nat → Nat × Nat → Nat × Nat) :
    ∀ (p : RecordPtr) (r : Record), Record.KeysUnique r →
      (Record.aggregate S sel r).1.getAt p
        = (r.getAt p).map (fun n => (Record.aggregate S sel n).1)
  | [], r, _ => by simp [Record.getAt]
  | k :: p, r, hr => by
    unfold Record.getAt
    rw [aggregate_findChild S sel r hr k]
    cases hfc : r.findChild k with
    | none => simp
    | some c =>
      simp only [Option.map_some']
      exact aggregate_getAt S sel p c (((keysUnique_iff r).mp hr).2 c (findChild_some hfc).1)

mutual
theorem aggregate_selfSum (S : StdSort) (sel : Nat → Nat × Nat → Nat × Nat) :
    ∀ r : Record, (Record.aggregate S sel r).2 = Record.selfSum sel r
  | .mk fi ti tf tc idx d cs => by
    have h := aggregateLoop_selfSum S sel 0 cs
    simp only [Record.aggregate, Record.selfSum, Record.nodes, List.map_cons, List.sum_cons,
      index_mk, data_mk, add64, U64]
    simp only [Nat.zero_add, U64] at h
    omega
theorem aggregateLoop_selfSum (S : StdSort) (sel : Nat → Nat × Nat → Nat × Nat) :
    ∀ (acc : Nat) (cs : List Record),
      (Record.aggregateLoop S sel acc cs).2 % U64
        = (acc + ((Record.nodesList cs).map (fun n => (sel n.index_ n.data_).1)).sum) % U64
  | acc, [] => by simp [Record.aggregateLoop, Record.nodesList]
  | acc, c :: cs => by
    have h1 := aggregate_selfSum S sel c
    have h2 := aggregateLoop_selfSum S sel (add64 acc (Record.aggregate S sel c).2) cs
    simp only [Record.aggregateLoop, Record.nodesList, List.map_append, List.sum_append]
    rw [h2, h1]
    simp only [Record.selfSum, add64, U64]
    omega
end


/-! ## The delta law on selections -/

theorem sum_sub64 {α : Type} (f g h : α → Nat) (hf : ∀ x, f x = sub64 (g x) (h x)) :
    ∀ l : List α,
      (l.map f).sum % U64 = sub64 ((l.map g).sum % U64) ((l.map h).sum % U64)
  | [] => by simp [sub64, U64]
  | x :: l => by
    have ih := sum_sub64 f g h hf l
    simp only [List.map_cons, List.sum_cons, hf x]
    simp only [sub64, U64] at ih ⊢
    omega

theorem selfSum_delta (sel_ab sel_b sel_a : Nat → Nat × Nat → Nat × Nat)
    (h : ∀ i d, (sel_ab i d).1 = sub64 (sel_b i d).1 (sel_a i d).1) (r : Record) :
    Record.selfSum sel_ab r = sub64 (Record.selfSum sel_b r) (Record.selfSum sel_a r) := by
  unfold Record.selfSum
  exact sum_sub64 _ _ _ (fun n => h n.index_ n.data_) (Record.nodes r)

theorem windowValues_delta (a b : RecordCopy) (hcount : a.curr_count_ ≤ b.curr_count_)
    (hb : ∀ i, (b.buffer_ i).Bounded) (i : Nat) :
    (Record.windowValues (some a) b i).1
        = sub64 (Record.windowValues none b i).1 (Record.windowValues none a i).1
    ∧ (Record.windowValues (some a) b i).2
        = sub32 (Record.windowValues none b i).2 (Record.windowValues none a i).2
    ∧ (a.At i = none → Record.windowValues (some a) b i = Record.windowValues none b i) := by
  have hbi := hb i
  unfold RecordData.Bounded at hbi
  have h0 : ∀ x : Nat, x < 18446744073709551616 →
      x = (x % 18446744073709551616 + (18446744073709551616 - 0 % 18446744073709551616))
        % 18446744073709551616 := by
    intro x hx
    omega
  have h0b : ∀ x : Nat, x < 4294967296 →
      x = (x % 4294967296 + (4294967296 - 0 % 4294967296)) % 4294967296 := by
    intro x hx
    omega
  unfold Record.windowValues StaticBuffer.At
  by_cases h1 : i ≥ b.curr_count_
  · have h2 : i ≥ a.curr_count_ := by omega
    simp [h1, h2, sub64, sub32, U64, U32]
  · by_cases h2 : i ≥ a.curr_count_
    · simp only [h1, h2, if_true, if_false, sub64, sub32, U64, U32] at hbi ⊢
      exact ⟨h0 _ hbi.2, h0b _ hbi.1, fun _ => trivial⟩
    · simp only [h1, h2, if_false]
      simp

/-- The delta law for one tree and one pair of snapshots: at every pointer the pass between
the snapshots yields the difference of the passes from the start of the history. -/
theorem delta_law_of_invariants (S : StdSort) (root : Record) (hroot : Record.KeysUnique root)
    (a b : RecordCopy) (hcount : a.curr_count_ ≤ b.curr_count_)
    (hb : ∀ i, (b.buffer_ i).Bounded) (p : RecordPtr) (n_ab : Record)
    (hn : (root.CalcChildrenElapseCopy S (some a) b).1.getAt p = some n_ab) :
    ∃ n_b n_a,
      (root.CalcChildrenElapseCopy S none b).1.getAt p = some n_b
      ∧ (root.CalcChildrenElapseCopy S none a).1.getAt p = some n_a
      ∧ n_b.index_ = n_ab.index_ ∧ n_a.index_ = n_ab.index_
      ∧ n_ab.temp_inner_elapse_ = sub64 n_b.temp_inner_elapse_ n_a.temp_inner_elapse_
      ∧ n_ab.temp_call_count_ = sub32 n_b.temp_call_count_ n_a.temp_call_count_
      ∧ n_ab.temp_full_elapse_ = sub64 n_b.temp_full_elapse_ n_a.temp_full_elapse_
      ∧ (a.At n_ab.index_ = none →
          n_ab.temp_inner_elapse_ = n_b.temp_inner_elapse_
          ∧ n_ab.temp_call_count_ = n_b.temp_call_count_) := by
  rw [CalcChildrenElapseCopy_eq_aggregate, aggregate_getAt S _ p root hroot] at hn
  cases hg : root.getAt p with
  | none => simp [hg] at hn
  | some n =>
    simp only [hg, Option.map_some', Option.some.injEq] at hn
    refine ⟨(Record.aggregate S (copySel none b) n).1, (Record.aggregate S (copySel none a) n).1,
      ?_, ?_, ?_⟩
    · rw [CalcChildrenElapseCopy_eq_aggregate, aggregate_getAt S _ p root hroot, hg]
      rfl
    · rw [CalcChildrenElapseCopy_eq_aggregate, aggregate_getAt S _ p root hroot, hg]
      rfl
    subst hn
    have hab := aggregate_fields S (copySel (some a) b) n
    have hbb := aggregate_fields S (copySel none b) n
    have haa := aggregate_fields S (copySel none a) n
    have hw := windowValues_delta a b hcount hb n.index_
    rw [← aggregate_snd, ← aggregate_snd, ← aggregate_snd, aggregate_selfSum, aggregate_selfSum,
      aggregate_selfSum]
    rw [hab.1, hbb.1, haa.1, hab.2.2.1, hab.2.2.2, hbb.2.2.1, hbb.2.2.2, haa.2.2.1, haa.2.2.2]
    refine ⟨rfl, rfl, hw.1, hw.2.1, ?_, ?_⟩
    · exact selfSum_delta _ _ _ (fun i _ => (windowValues_delta a b hcount hb i).1) n
    · intro hnone
      have := hw.2.2 hnone
      simp only [copySel]
      rw [this]
      exact ⟨rfl, rfl⟩


/-! ## The arena invariant -/

theorem zero_bounded : (CLayout.zero : RecordData).Bounded := ⟨by decide, by decide⟩

theorem new_bounded : RecordData.Bounded ⟨0, 0⟩ := ⟨by decide, by decide⟩

theorem arenaInv_congr {m m1 : RecordBuffer} (hb : m1.stack_buffer_list_ = m.stack_buffer_list_)
    (hr : m1.records_ = m.records_) (h : ArenaInv m) : ArenaInv m1 := by
  refine ⟨?_, ?_, ?_, ?_, ?_⟩
  · rw [hb]; exact h.element_size
  · rw [hr]; exact h.sorted
  · unfold MultiStackBuffer.liveCount
    rw [hr, hb]; exact h.le_live
  · rw [hb]; exact h.block_bounded
  · rw [hr]; exact h.copy_bounded

theorem sum_map_set_le {α : Type} (f : α → Nat) (y : α) :
    ∀ (l : List α) (i : Nat) (x : α), l[i]? = some x → f x ≤ f y →
      (l.map f).sum ≤ ((l.set i y).map f).sum
  | [], i, x, h, _ => by simp at h
  | a :: l, 0, x, h, hxy => by
    simp only [List.getElem?_cons_zero, Option.some.injEq] at h
    subst h
    simp only [List.set_cons_zero, List.map_cons, List.sum_cons]
    omega
  | a :: l, i + 1, x, h, hxy => by
    simp only [List.getElem?_cons_succ] at h
    have := sum_map_set_le f y l i x h hxy
    simp only [List.set_cons_succ, List.map_cons, List.sum_cons]
    omega

theorem arenaInv_set {m : RecordBuffer} (h : ArenaInv m) (i : Nat)
    (blk blk1 : StackBuffer RecordData) (hget : m.stack_buffer_list_[i]? = some blk)
    (hes : blk1.element_size_ = blk.element_size_) (hc : blk.curr_count_ ≤ blk1.curr_count_)
    (hb : ∀ j, (blk1.buffer_ j).Bounded) (m1 : RecordBuffer)
    (hm1 : m1.stack_buffer_list_ = m.stack_buffer_list_.set i blk1)
    (hr : m1.records_ = m.records_) : ArenaInv m1 := by
  have hmem : blk ∈ m.stack_buffer_list_ := List.getElem?_mem hget
  refine ⟨?_, ?_, ?_, ?_, ?_⟩
  · intro b hbm
    rw [hm1] at hbm
    rcases List.mem_or_eq_of_mem_set hbm with h1 | h1
    · exact h.element_size b h1
    · rw [h1, hes]; exact h.element_size blk hmem
  · rw [hr]; exact h.sorted
  · intro r hrm
    rw [hr] at hrm
    have h1 := h.le_live r hrm
    have h2 := sum_map_set_le StackBuffer.curr_count_ blk1 m.stack_buffer_list_ i blk hget hc
    unfold MultiStackBuffer.liveCount at h1 ⊢
    rw [hm1]
    omega
  · intro b hbm
    rw [hm1] at hbm
    rcases List.mem_or_eq_of_mem_set hbm with h1 | h1
    · exact h.block_bounded b h1
    · rw [h1]; exact hb
  · rw [hr]; exact h.copy_bounded

theorem store_arenaInv {m : RecordBuffer} (h : ArenaInv m) (p : Nat × Nat) (x : RecordData)
    (hx : x.Bounded) : ArenaInv (m.store p x) := by
  unfold MultiStackBuffer.store
  cases hget : m.stack_buffer_list_[p.1]? with
  | none => exact h
  | some blk =>
    refine arenaInv_set h p.1 blk (blk.write p.2 x) hget rfl (Nat.le_refl _) ?_ _ rfl rfl
    intro j
    simp only [StackBuffer.write]
    split
    · exact hx
    · exact h.block_bounded blk (List.getElem?_mem hget) j

theorem load_bounded {m : RecordBuffer} (h : ArenaInv m) (p : Nat × Nat) :
    (m.load p).Bounded := by
  unfold MultiStackBuffer.load
  cases hget : m.stack_buffer_list_[p.1]? with
  | none => exact zero_bounded
  | some blk => exact h.block_bounded blk (List.getElem?_mem hget) p.2

theorem AddCount_arenaInv {m : RecordBuffer} (h : ArenaInv m) (r : Record) :
    ArenaInv (r.AddCount m) := by
  unfold Record.AddCount
  apply store_arenaInv h
  have := load_bounded h r.data_
  exact ⟨Nat.mod_lt _ (by decide), this.2⟩

theorem AddInnerElapse_arenaInv {m : RecordBuffer} (h : ArenaInv m) (r : Record) (e : Nat) :
    ArenaInv (r.AddInnerElapse m e) := by
  unfold Record.AddInnerElapse
  apply store_arenaInv h
  have := load_bounded h r.data_
  exact ⟨this.1, Nat.mod_lt _ (by decide)⟩

theorem Resize_arenaInv {m m1 : RecordBuffer} (h : ArenaInv m) (hm : m.Resize = some m1) :
    ArenaInv m1 := by
  unfold MultiStackBuffer.Resize StackBuffer.new at hm
  split at hm
  · simp at hm
  · rename_i blk hblk
    split at hblk
    · simp only [Option.some.injEq] at hblk hm
      subst hblk
      subst hm
      refine ⟨?_, h.sorted, ?_, ?_, h.copy_bounded⟩
      · intro b hb
        simp only [List.mem_append, List.mem_singleton] at hb
        rcases hb with hb | hb
        · exact h.element_size b hb
        · rw [hb]; rfl
      · intro r hr
        have := h.le_live r hr
        simp only [MultiStackBuffer.liveCount, List.map_append, List.sum_append] at this ⊢
        omega
      · intro b hb
        simp only [List.mem_append, List.mem_singleton] at hb
        rcases hb with hb | hb
        · exact h.block_bounded b hb
        · rw [hb]; intro i; exact zero_bounded
    · simp at hblk

theorem Get_arenaInv {m m1 : RecordBuffer} {e : Nat × (Nat × Nat)} (h : ArenaInv m)
    (hg : m.Get ⟨0, 0⟩ = some (m1, e)) : ArenaInv m1 := by
  unfold MultiStackBuffer.Get at hg
  split at hg
  · simp at hg
  · split at hg
    · simp at hg
    · split at hg
      · simp at hg
      · rename_i m2 hm2
        have hinv2 : ArenaInv m2 := by
          split at hm2
          · exact Resize_arenaInv h hm2
          · simp only [Option.some.injEq] at hm2
            exact hm2 ▸ h
        split at hg
        · simp at hg
        · split at hg
          · simp at hg
          · rename_i b hb _ blk hblk
            simp only [Option.some.injEq, Prod.mk.injEq] at hg
            rw [← hg.1]
            refine arenaInv_set hinv2 b blk (blk.Get ⟨0, 0⟩).1 hblk ?_ ?_ ?_ _ rfl rfl
            · simp only [StackBuffer.Get, StackBuffer.Resize]
              split <;> rfl
            · simp only [StackBuffer.Get, StackBuffer.Resize]
              split <;> simp
            · intro j
              simp only [StackBuffer.Get, StackBuffer.Resize]
              have hbb := hinv2.block_bounded blk (List.getElem?_mem hblk) j
              split <;> (split; exact new_bounded; exact hbb)

theorem SaveLoop_spec :
    ∀ (l : List (StackBuffer RecordData)) (sb sb1 : RecordCopy),
      MultiStackBuffer.SaveLoop l sb = some sb1 → sb.element_size_ = 12 →
      (∀ b ∈ l, b.element_size_ = 12) →
      (∀ i, (sb.buffer_ i).Bounded) → (∀ b ∈ l, ∀ i, (b.buffer_ i).Bounded) →
      sb1.curr_count_ = sb.curr_count_ + (l.map StackBuffer.curr_count_).sum
        ∧ ∀ i, (sb1.buffer_ i).Bounded
  | [], sb, sb1, h, _, _, hb, _ => by
    simp only [MultiStackBuffer.SaveLoop, Option.some.injEq] at h
    subst h
    exact ⟨by simp, hb⟩
  | blk :: l, sb, sb1, h, hes, hl, hb, hlb => by
    unfold MultiStackBuffer.SaveLoop at h
    have hblk := hl blk (List.mem_cons_self _ _)
    have hl2 : ∀ b ∈ l, b.element_size_ = 12 := fun b hb => hl b (List.mem_cons_of_mem _ hb)
    have hlb2 : ∀ b ∈ l, ∀ i, (b.buffer_ i).Bounded :=
      fun b hb => hlb b (List.mem_cons_of_mem _ hb)
    split at h
    · split at h
      · simp at h
      · rename_i sb2 hput
        unfold StaticBuffer.Put at hput
        simp only at hput
        split at hput
        · simp only [Option.some.injEq] at hput
          have hdiv : blk.BufferSize / sb.element_size_ = blk.curr_count_ := by
            rw [hes]
            unfold StackBuffer.BufferSize
            rw [hblk]
            exact Nat.mul_div_cancel _ (by decide)
          have ih := SaveLoop_spec l sb2 sb1 h (by rw [← hput]; exact hes) hl2 (by
            intro i
            rw [← hput]
            simp only
            split
            · exact hlb blk (List.mem_cons_self _ _) _
            · exact hb i) hlb2
          refine ⟨?_, ih.2⟩
          rw [ih.1, ← hput]
          simp only [hdiv, List.map_cons, List.sum_cons]
          omega
        · simp at hput
    · rename_i hsz
      have hzero : blk.curr_count_ = 0 := by
        unfold StackBuffer.BufferSize at hsz
        rw [hblk] at hsz
        omega
      have ih := SaveLoop_spec l sb sb1 h hes hl2 hb hlb2
      refine ⟨?_, ih.2⟩
      rw [ih.1]
      simp [hzero]

theorem Save_arenaInv {m m1 : RecordBuffer} (h : ArenaInv m) (hs : m.Save = some m1) :
    ArenaInv m1 := by
  unfold MultiStackBuffer.Save at hs
  split at hs
  · simp at hs
  · rename_i sb hsb
    simp only [Option.some.injEq] at hs
    subst hs
    have hspec := SaveLoop_spec m.stack_buffer_list_ (StaticBuffer.new m.curr_count_) sb hsb rfl
      h.element_size (fun _ => zero_bounded) h.block_bounded
    have hcount : sb.curr_count_ = m.liveCount := by
      rw [hspec.1]
      simp [StaticBuffer.new, MultiStackBuffer.liveCount]
    refine ⟨h.element_size, ?_, ?_, h.block_bounded, ?_⟩
    · simp only
      rw [List.pairwise_append]
      refine ⟨h.sorted, List.pairwise_singleton _ _, ?_⟩
      intro a ha b hb
      simp only [List.mem_singleton] at hb
      rw [hb, hcount]
      exact h.le_live a ha
    · intro r hr
      simp only [List.mem_append, List.mem_singleton] at hr
      rcases hr with hr | hr
      · exact h.le_live r hr
      · rw [hr, hcount]
        exact Nat.le_refl _
    · intro r hr
      simp only [List.mem_append, List.mem_singleton] at hr
      rcases hr with hr | hr
      · exact h.copy_bounded r hr
      · rw [hr]; exact hspec.2


/-! ## Every operation keeps the invariant -/

theorem stateInv_of_frame {s s1 : LuaProfilerState} (h : StateInv s) (hreg : SameRegistry s s1)
    (hk : Record.KeysUnique s1.root_profiler_record_) (ha : ArenaInv s1.record_buffer_) :
    StateInv s1 := by
  obtain ⟨h1, h2, _, h4, h5⟩ := hreg
  refine ⟨hk, ha, ?_, ?_, ?_⟩
  · rw [h1]; exact h.filter_names
  · rw [h4, h5]; exact h.interned_lt
  · rw [h4, h5, h2]; exact h.filtered

theorem AddInnerElapseAt_arenaInv {root : Record} {buffer buffer1 : RecordBuffer} {p : RecordPtr}
    {e : Nat} (h : Record.AddInnerElapseAt root buffer p e = some buffer1)
    (hinv : ArenaInv buffer) : ArenaInv buffer1 := by
  unfold Record.AddInnerElapseAt at h
  split at h
  · cases h
  · cases h
    exact AddInnerElapse_arenaInv hinv _ _

theorem AddCountAt_arenaInv {root : Record} {buffer buffer1 : RecordBuffer} {p : RecordPtr}
    (h : Record.AddCountAt root buffer p = some buffer1)
    (hinv : ArenaInv buffer) : ArenaInv buffer1 := by
  unfold Record.AddCountAt at h
  split at h
  · cases h
  · cases h
    exact AddCount_arenaInv hinv _

theorem Record_new_arenaInv {buffer buffer1 : RecordBuffer} {info : Option Nat} {r : Record}
    (h : Record.new buffer info = some (r, buffer1)) (hinv : ArenaInv buffer) :
    ArenaInv buffer1 := by
  unfold Record.new at h
  cases hg : buffer.Get ⟨0, 0⟩ with
  | none => simp [hg] at h
  | some v =>
    obtain ⟨b1, e⟩ := v
    simp only [hg, Option.some.injEq, Prod.mk.injEq] at h
    rw [← h.2]
    exact Get_arenaInv hinv hg

theorem GetChildRecord_arenaInv {r r1 : Record} {buffer buffer1 : RecordBuffer} {info : Nat}
    (h : r.GetChildRecord buffer info = some (r1, buffer1)) (hinv : ArenaInv buffer) :
    ArenaInv buffer1 := by
  unfold Record.GetChildRecord at h
  cases hfc : r.findChild info with
  | some c =>
    simp only [hfc, Option.some.injEq, Prod.mk.injEq] at h
    exact h.2 ▸ hinv
  | none =>
    simp only [hfc] at h
    cases hnew : Record.new buffer (some info) with
    | none => simp [hnew] at h
    | some v =>
      obtain ⟨new_record, b1⟩ := v
      simp only [hnew, Option.some.injEq, Prod.mk.injEq] at h
      rw [← h.2]
      exact Record_new_arenaInv hnew hinv

theorem GetChildRecordAt_arenaInv {root root1 : Record} {buffer buffer1 : RecordBuffer}
    {p q : RecordPtr} {info : Nat}
    (h : Record.GetChildRecordAt root buffer p info = some (root1, buffer1, q))
    (hinv : ArenaInv buffer) : ArenaInv buffer1 := by
  unfold Record.GetChildRecordAt at h
  cases hg : root.getAt p with
  | none => simp [hg] at h
  | some r =>
    simp only [hg] at h
    cases hc : r.GetChildRecord buffer info with
    | none => simp [hc] at h
    | some v =>
      obtain ⟨r1, b1⟩ := v
      simp only [hc, Option.some.injEq, Prod.mk.injEq] at h
      rw [← h.2.1]
      exact GetChildRecord_arenaInv hc hinv

theorem CoroutineJump_arenaInv {ci ci1 : CallInfo} {root : Record} {buffer buffer1 : RecordBuffer}
    {t : Nat} (h : ci.CoroutineJump root buffer t = some (ci1, buffer1))
    (hinv : ArenaInv buffer) : ArenaInv buffer1 := by
  unfold CallInfo.CoroutineJump at h
  cases hp : ci.record_ with
  | none => simp [hp] at h
  | some p =>
    simp only [hp] at h
    cases ha : Record.AddInnerElapseAt root buffer p (sub64 t ci.enter_time_) with
    | none => simp [ha] at h
    | some b1 =>
      simp only [ha, Option.some.injEq, Prod.mk.injEq] at h
      rw [← h.2]
      exact AddInnerElapseAt_arenaInv ha hinv

theorem OnExit_arenaInv {ci ci1 : CallInfo} {root : Record} {buffer buffer1 : RecordBuffer}
    {t : Nat} (h : ci.OnExit root buffer t = some (ci1, buffer1))
    (hinv : ArenaInv buffer) : ArenaInv buffer1 := by
  unfold CallInfo.OnExit at h
  split at h
  · cases hp : ci.record_ with
    | none => simp [hp] at h
    | some p =>
      simp only [hp] at h
      cases ha : Record.AddInnerElapseAt root buffer p (sub64 t ci.enter_time_) with
      | none => simp [ha] at h
      | some b1 =>
        simp only [ha, Option.some.injEq, Prod.mk.injEq] at h
        rw [← h.2]
        exact AddInnerElapseAt_arenaInv ha hinv
  · simp only [Option.some.injEq, Prod.mk.injEq] at h
    exact h.2 ▸ hinv

theorem OnEnter_arenaInv {ci ci1 : CallInfo} {root : Record} {buffer buffer1 : RecordBuffer}
    {t : Nat} (h : ci.OnEnter root buffer t = some (ci1, buffer1))
    (hinv : ArenaInv buffer) : ArenaInv buffer1 := by
  unfold CallInfo.OnEnter at h
  cases hp : ci.record_ with
  | none => simp [hp] at h
  | some p =>
    simp only [hp] at h
    cases ha : Record.AddCountAt root buffer p with
    | none => simp [ha] at h
    | some b1 =>
      simp only [ha, Option.some.injEq, Prod.mk.injEq] at h
      rw [← h.2]
      exact AddCountAt_arenaInv ha hinv

theorem ChildCallEnter_inv {ci ci1 : CallInfo} {root root1 : Record}
    {buffer buffer1 : RecordBuffer} {t info : Nat} {q : RecordPtr}
    (h : ci.ChildCallEnter root buffer t info = some (ci1, root1, buffer1, q))
    (hk : Record.KeysUnique root) (hinv : ArenaInv buffer) :
    Record.KeysUnique root1 ∧ ArenaInv buffer1 := by
  unfold CallInfo.ChildCallEnter at h
  cases hp : ci.record_ with
  | none => simp [hp] at h
  | some p =>
    simp only [hp] at h
    cases ha : Record.AddInnerElapseAt root buffer p (sub64 t ci.enter_time_) with
    | none => simp [ha] at h
    | some b1 =>
      simp only [ha] at h
      cases hc : Record.GetChildRecordAt root b1 p info with
      | none => simp [hc] at h
      | some v =>
        obtain ⟨r2, b2, q2⟩ := v
        simp only [hc, Option.some.injEq, Prod.mk.injEq] at h
        rw [← h.2.1, ← h.2.2.1]
        exact ⟨GetChildRecordAt_keysUnique hc hk,
          GetChildRecordAt_arenaInv hc (AddInnerElapseAt_arenaInv ha hinv)⟩


theorem question_mark_not_filtered : "?" ∉ kLuaApiFilterList := by decide

theorem GetFunctionInfo_frame (s : LuaProfilerState) (ar : lua_Debug) (f : Nat) :
    (s.GetFunctionInfo ar f).1.root_profiler_record_ = s.root_profiler_record_
    ∧ (s.GetFunctionInfo ar f).1.record_buffer_ = s.record_buffer_
    ∧ (s.GetFunctionInfo ar f).1.call_info_stack_map_ = s.call_info_stack_map_
    ∧ (s.GetFunctionInfo ar f).1.curr_lua_state_ = s.curr_lua_state_
    ∧ (s.GetFunctionInfo ar f).1.curr_call_info_ = s.curr_call_info_
    ∧ (s.GetFunctionInfo ar f).1.curr_call_info_stack_ = s.curr_call_info_stack_
    ∧ (s.GetFunctionInfo ar f).1.lua_filter_api_name_ = s.lua_filter_api_name_ := by
  unfold LuaProfilerState.GetFunctionInfo
  split
  · split
    · exact ⟨rfl, rfl, rfl, rfl, rfl, rfl, rfl⟩
    · simp only
      split <;> exact ⟨rfl, rfl, rfl, rfl, rfl, rfl, rfl⟩
  · simp only
    split <;> exact ⟨rfl, rfl, rfl, rfl, rfl, rfl, rfl⟩

theorem GetFunctionInfo_stateInv (s : LuaProfilerState) (ar : lua_Debug) (f : Nat)
    (h : StateInv s) : StateInv (s.GetFunctionInfo ar f).1 := by
  have hfr := GetFunctionInfo_frame s ar f
  refine ⟨by rw [hfr.1]; exact h.keys, by rw [hfr.2.1]; exact h.arena,
    by rw [hfr.2.2.2.2.2.2]; exact h.filter_names, ?_, ?_⟩
  · unfold LuaProfilerState.GetFunctionInfo
    split
    · split
      · exact h.interned_lt
      · simp only
        split
        all_goals
          intro k d hk
          simp only at hk
          simp only [List.length_append, List.length_singleton]
          split at hk
          · simp only [Option.some.injEq] at hk
            omega
          · have := h.interned_lt k d hk
            omega
    · simp only
      split
      · exact h.interned_lt
      · intro k d hk
        simp only at hk
        simp only [List.length_append, List.length_singleton]
        have := h.interned_lt k d hk
        omega
  · unfold LuaProfilerState.GetFunctionInfo
    split
    · split
      · exact h.filtered
      · simp only
        split
        all_goals
          rename_i hcond
          intro k d fi hk hfi hname
          simp only at hk hfi ⊢
          split at hk
          · rename_i hkf
            simp only [Option.some.injEq] at hk
            subst hk
            rw [List.getElem?_append_right (Nat.le_refl _)] at hfi
            simp only [Nat.sub_self, List.getElem?_cons_zero, Option.some.injEq] at hfi
            subst hfi
            simp only [FunctionInfo.new] at hname
            cases hn : ar.name with
            | none =>
              rw [hn] at hname
              exact absurd hname question_mark_not_filtered
            | some n =>
              rw [hn] at hname hcond
              simp only [h.filter_names, decide_eq_true_eq] at hcond
              first
                | (rw [hkf]; exact List.mem_cons_self _ _)
                | exact absurd hname hcond
          · have hlt := h.interned_lt k d hk
            rw [List.getElem?_append_left hlt] at hfi
            have := h.filtered k d fi hk hfi hname
            first
              | exact List.mem_cons_of_mem _ this
              | exact this
    · simp only
      split
      · exact h.filtered
      · intro k d fi hk hfi hname
        simp only at hk hfi ⊢
        have hlt := h.interned_lt k d hk
        rw [List.getElem?_append_left hlt] at hfi
        exact h.filtered k d fi hk hfi hname


theorem HookSwitch_stateInv {s s1 : LuaProfilerState} {L tj : Nat} {found : Bool}
    (h : s.HookSwitch L tj = some (s1, found)) (hinv : StateInv s) : StateInv s1 := by
  unfold LuaProfilerState.HookSwitch at h
  split at h
  · cases h
  · rename_i s2 hs2
    have hinv2 : StateInv s2 := by
      split at hs2
      · split at hs2
        · cases hs2
        · split at hs2
          · cases hs2
          · split at hs2
            · cases hs2
            · rename_i hcj
              simp only [Option.some.injEq] at hs2
              subst hs2
              exact stateInv_of_frame hinv ⟨rfl, rfl, rfl, rfl, rfl⟩ hinv.keys
                (CoroutineJump_arenaInv hcj hinv.arena)
      · simp only [Option.some.injEq] at hs2
        exact hs2 ▸ hinv
    simp only at h
    split at h
    · simp only [Option.some.injEq, Prod.mk.injEq] at h
      rw [← h.1]
      exact stateInv_of_frame hinv2 ⟨rfl, rfl, rfl, rfl, rfl⟩ hinv2.keys hinv2.arena
    · split at h
      · cases h
      · split at h
        · split at h
          · cases h
          · simp only [Option.some.injEq, Prod.mk.injEq] at h
            rw [← h.1]
            exact stateInv_of_frame hinv2 ⟨rfl, rfl, rfl, rfl, rfl⟩ hinv2.keys hinv2.arena
        · simp only [Option.some.injEq, Prod.mk.injEq] at h
          rw [← h.1]
          exact stateInv_of_frame hinv2 ⟨rfl, rfl, rfl, rfl, rfl⟩ hinv2.keys hinv2.arena

theorem CallHookOut_stateInv {s s1 : LuaProfilerState} {f t : Nat}
    (h : s.CallHookOut f t = some s1) (hinv : StateInv s) : StateInv s1 := by
  unfold LuaProfilerState.CallHookOut at h
  split at h
  · simp only [Option.some.injEq] at h
    exact h ▸ hinv
  · split at h
    · cases h
    · split at h
      · cases h
      · split at h
        · cases h
        · simp only [Option.some.injEq] at h
          subst h
          exact stateInv_of_frame hinv ⟨rfl, rfl, rfl, rfl, rfl⟩ hinv.keys hinv.arena
        · split at h
          · cases h
          · rename_i hexit
            have ha := OnExit_arenaInv hexit hinv.arena
            split at h
            · cases h
            · split at h
              · simp only [Option.some.injEq] at h
                subst h
                exact stateInv_of_frame hinv ⟨rfl, rfl, rfl, rfl, rfl⟩ hinv.keys ha
              · split at h
                · cases h
                · simp only [Option.some.injEq] at h
                  subst h
                  exact stateInv_of_frame hinv ⟨rfl, rfl, rfl, rfl, rfl⟩ hinv.keys ha

theorem CallHookIn_stateInv {s s1 : LuaProfilerState} {ar : lua_Debug} {f t : Nat}
    (h : s.CallHookIn ar f t = some s1) (hinv : StateInv s) : StateInv s1 := by
  unfold LuaProfilerState.CallHookIn at h
  have hinv0 := GetFunctionInfo_stateInv s ar f hinv
  split at h
  · rename_i s2 hgf
    simp only [Option.some.injEq] at h
    subst h
    rw [hgf] at hinv0
    exact hinv0
  · rename_i s2 func_info hgf
    rw [hgf] at hinv0
    simp only at hinv0
    split at h
    · cases h
    · split at h
      · cases h
      · split at h
        · cases h
        · rename_i root1 buffer1 record stk1 hmid
          have hmid2 : Record.KeysUnique root1 ∧ ArenaInv buffer1 := by
            split at hmid
            · split at hmid
              · cases hmid
              · rename_i hce
                have := ChildCallEnter_inv hce hinv0.keys hinv0.arena
                split at hmid
                · cases hmid
                · simp only [Option.some.injEq, Prod.mk.injEq] at hmid
                  rw [← hmid.1, ← hmid.2.1]
                  exact this
            · split at hmid
              · cases hmid
              · rename_i hgc
                simp only [Option.some.injEq, Prod.mk.injEq] at hmid
                rw [← hmid.1, ← hmid.2.1]
                exact ⟨GetChildRecordAt_keysUnique hgc hinv0.keys,
                  GetChildRecordAt_arenaInv hgc hinv0.arena⟩
          simp only at h
          split at h
          · cases h
          · rename_i henter
            simp only [Option.some.injEq] at h
            subst h
            exact stateInv_of_frame hinv0 ⟨rfl, rfl, rfl, rfl, rfl⟩ hmid2.1
              (OnEnter_arenaInv henter hmid2.2)


theorem Hook_stateInv {s : LuaProfilerState} {L f tj t : Nat} {ar : lua_Debug} {o : Outcome}
    (h : s.Hook L ar f tj t = some o) (hinv : StateInv s) : StateInv o.state := by
  unfold LuaProfilerState.Hook at h
  split at h
  · cases h
  · rename_i s1 hsw
    have hinv1 : StateInv s1 := by
      split at hsw
      · exact HookSwitch_stateInv hsw hinv
      · simp only [Option.some.injEq, Prod.mk.injEq] at hsw
        exact hsw.1 ▸ hinv
    simp only [Option.some.injEq] at h
    subst h
    exact hinv1
  · rename_i s1 hsw
    have hinv1 : StateInv s1 := by
      split at hsw
      · exact HookSwitch_stateInv hsw hinv
      · simp only [Option.some.injEq, Prod.mk.injEq] at hsw
        exact hsw.1 ▸ hinv
    split at h
    · simp only [Option.some.injEq] at h
      subst h
      exact hinv1
    · split at h
      · simp only [Option.some.injEq] at h
        subst h
        exact hinv1
      · split at h
        · cases h
        · rename_i s2 hev
          simp only [Option.some.injEq] at h
          subst h
          split at hev
          · exact CallHookOut_stateInv hev hinv1
          · exact CallHookIn_stateInv hev hinv1

theorem CreateCallInfoStack_frame {s s1 : LuaProfilerState} {L : Nat}
    (h : s.CreateCallInfoStack L = some s1) :
    SameRegistry s s1 ∧ s1.root_profiler_record_ = s.root_profiler_record_
      ∧ s1.record_buffer_ = s.record_buffer_ ∧ s1.curr_lua_state_ = s.curr_lua_state_
      ∧ s1.curr_call_info_ = s.curr_call_info_
      ∧ s1.curr_call_info_stack_ = s.curr_call_info_stack_ := by
  unfold LuaProfilerState.CreateCallInfoStack at h
  split at h
  · split at h
    · cases h
    · simp only [Option.some.injEq] at h
      subst h
      exact ⟨⟨rfl, rfl, rfl, rfl, rfl⟩, rfl, rfl, rfl, rfl, rfl⟩
  · split at h
    · cases h
    · simp only [Option.some.injEq] at h
      subst h
      exact ⟨⟨rfl, rfl, rfl, rfl, rfl⟩, rfl, rfl, rfl, rfl, rfl⟩

theorem CreateCallInfoStack_stateInv {s s1 : LuaProfilerState} {L : Nat}
    (h : s.CreateCallInfoStack L = some s1) (hinv : StateInv s) : StateInv s1 := by
  have hf := CreateCallInfoStack_frame h
  exact stateInv_of_frame hinv hf.1 (by rw [hf.2.1]; exact hinv.keys)
    (by rw [hf.2.2.1]; exact hinv.arena)

theorem Save_stateInv {s s1 : LuaProfilerState} (h : s.Save = some s1) (hinv : StateInv s) :
    StateInv s1 := by
  unfold LuaProfilerState.Save at h
  split at h
  · cases h
  · rename_i hs
    simp only [Option.some.injEq] at h
    subst h
    exact stateInv_of_frame hinv ⟨rfl, rfl, rfl, rfl, rfl⟩ hinv.keys (Save_arenaInv hinv.arena hs)

theorem CalcRecord_stateInv (S : StdSort) (s : LuaProfilerState) (n : Nat) (a b : Int)
    (hinv : StateInv s) : StateInv (s.CalcRecord S n a b).state := by
  unfold LuaProfilerState.CalcRecord
  split
  · refine stateInv_of_frame hinv ⟨rfl, rfl, rfl, rfl, rfl⟩ ?_ hinv.arena
    simp only [Outcome.state]
    rw [CalcChildrenElapse_eq_aggregate]
    exact aggregate_keysUnique S _ _ hinv.keys
  · split
    · split
      · exact hinv
      · split
        · exact hinv
        · split
          · exact hinv
          · simp only
            split
            · exact hinv
            · refine stateInv_of_frame hinv ⟨rfl, rfl, rfl, rfl, rfl⟩ ?_ hinv.arena
              simp only [Outcome.state]
              rw [CalcChildrenElapseCopy_eq_aggregate]
              exact aggregate_keysUnique S _ _ hinv.keys
    · exact hinv

theorem ProfilerStart_stateInv {main_L : Nat} {s : LuaProfilerState}
    (h : ProfilerStart main_L = some s) : StateInv s := by
  unfold ProfilerStart at h
  cases hnew : LuaProfilerState.new with
  | none => simp [hnew] at h
  | some s0 =>
    simp only [hnew] at h
    have hinv0 : Record.KeysUnique s0.root_profiler_record_ ∧ ArenaInv s0.record_buffer_
        ∧ s0.lua_filter_api_name_ = [] ∧ s0.c_profiler_funcs_ = fun _ => none := by
      unfold LuaProfilerState.new MultiStackBuffer.new at hnew
      split at hnew
      · cases hnew
      · rename_i m hm
        split at hm
        · have ham : ArenaInv m := by
            refine Resize_arenaInv ?_ hm
            refine ⟨?_, List.Pairwise.nil, ?_, ?_, ?_⟩
            · intro b hb
              cases hb
            · intro r hr
              cases hr
            · intro b hb
              cases hb
            · intro r hr
              cases hr
          split at hnew
          · cases hnew
          · rename_i root m1 hroot
            simp only [Option.some.injEq] at hnew
            subst hnew
            refine ⟨?_, Record_new_arenaInv hroot ham, rfl, rfl⟩
            unfold Record.new at hroot
            split at hroot
            · cases hroot
            · simp only [Option.some.injEq, Prod.mk.injEq] at hroot
              rw [← hroot.1]
              simp [Record.KeysUnique, Record.KeysUniqueList]
        · cases hm
    unfold LuaProfilerState.Init at h
    split at h
    · cases h
    · rename_i s1 hs1
      have hf := CreateCallInfoStack_frame hs1
      obtain ⟨⟨hf1, _, _, hf4, _⟩, hf6, hf7, _⟩ := hf
      simp only [Option.some.injEq] at h
      subst h
      refine ⟨by simp only [hf6]; exact hinv0.1, by simp only [hf7]; exact hinv0.2.1, ?_, ?_, ?_⟩
      · simp only [hf1, hinv0.2.2.1, List.append_nil]
      · intro f d hd
        simp only [hf4, hinv0.2.2.2] at hd
        cases hd
      · intro f d fi hd
        simp only [hf4, hinv0.2.2.2] at hd
        cases hd

theorem run_stateInv (S : StdSort) :
    ∀ (ops : List Op) (s s1 : LuaProfilerState), StateInv s →
      LuaProfilerState.run S s ops = some s1 → StateInv s1
  | [], s, s1, hinv, h => by
    simp only [LuaProfilerState.run, Option.some.injEq] at h
    exact h ▸ hinv
  | op :: ops, s, s1, hinv, h => by
    unfold LuaProfilerState.run at h
    split at h
    · cases h
    · rename_i s2 hap
      refine run_stateInv S ops s2 s1 ?_ h
      cases op with
      | hook L ar f tj t =>
        simp only [LuaProfilerState.apply, Option.map_eq_some'] at hap
        obtain ⟨o, ho, hos⟩ := hap
        rw [← hos]
        exact Hook_stateInv ho hinv
      | create L => exact CreateCallInfoStack_stateInv hap hinv
      | save => exact Save_stateInv hap hinv
      | query n a b =>
        simp only [LuaProfilerState.apply, Option.some.injEq] at hap
        rw [← hap]
        exact CalcRecord_stateInv S s n a b hinv

theorem reachable_stateInv {S : StdSort} {s : LuaProfilerState} (h : Reachable S s) :
    StateInv s := by
  obtain ⟨main_L, ops, _, hrun⟩ := h
  unfold runFromStart at hrun
  split at hrun
  · cases hrun
  · rename_i s0 hs0
    exact run_stateInv S ops s0 s (ProfilerStart_stateInv hs0) hrun


/-! ## Delta law -/

theorem stateAfter_spec (ops : List Op)
    (h : (runFromStart insertionStdSort 1 ops).isSome = true) :
    runFromStart insertionStdSort 1 ops = some (stateAfter ops) := by
  unfold stateAfter
  cases hr : runFromStart insertionStdSort 1 ops with
  | none => simp [hr] at h
  | some s => rfl

theorem stateAfter_reachable (ops : List Op) (hv : ∀ op ∈ ops, op.Valid = true)
    (h : (runFromStart insertionStdSort 1 ops).isSome = true) :
    Reachable insertionStdSort (stateAfter ops) :=
  ⟨1, ops, hv, stateAfter_spec ops h⟩

/-- Claim C2: in every reachable state, for snapshot indices `a < b` below the number of
snapshots, at every node of the tree the self elapsed, the call count and the total elapsed
of the pass from snapshot `a` to snapshot `b` are those of the pass from no start to `b`
minus those of the pass from no start to `a`, in the unsigned arithmetic of the fields; a
node whose handle is absent from snapshot `a` has a zero baseline, so its figures at `b`
count in full. -/
theorem C2_delta_law (S : StdSort) (s : LuaProfilerState) (hr : Reachable S s) (a b : Nat)
    (hab : a < b) (hb : b < s.record_buffer_.GetRecordCount) :
    ∃ snap_a snap_b,
      s.record_buffer_.GetRecordByIndex a = some snap_a
      ∧ s.record_buffer_.GetRecordByIndex b = some snap_b
      ∧ ∀ (p : RecordPtr) (n_ab : Record),
          (s.root_profiler_record_.CalcChildrenElapseCopy S (some snap_a) snap_b).1.getAt p
              = some n_ab →
          ∃ n_b n_a,
            (s.root_profiler_record_.CalcChildrenElapseCopy S none snap_b).1.getAt p = some n_b
            ∧ (s.root_profiler_record_.CalcChildrenElapseCopy S none snap_a).1.getAt p = some n_a
            ∧ n_b.index_ = n_ab.index_ ∧ n_a.index_ = n_ab.index_
            ∧ n_ab.temp_inner_elapse_ = sub64 n_b.temp_inner_elapse_ n_a.temp_inner_elapse_
            ∧ n_ab.temp_call_count_ = sub32 n_b.temp_call_count_ n_a.temp_call_count_
            ∧ n_ab.temp_full_elapse_ = sub64 n_b.temp_full_elapse_ n_a.temp_full_elapse_
            ∧ (snap_a.At n_ab.index_ = none →
                n_ab.temp_inner_elapse_ = n_b.temp_inner_elapse_
                ∧ n_ab.temp_call_count_ = n_b.temp_call_count_) := by
  have hinv := reachable_stateInv hr
  unfold MultiStackBuffer.GetRecordCount at hb
  have ha : a < s.record_buffer_.records_.length := Nat.lt_trans hab hb
  refine ⟨s.record_buffer_.records_[a], s.record_buffer_.records_[b], ?_, ?_, ?_⟩
  · unfold MultiStackBuffer.GetRecordByIndex
    rw [if_pos ha, List.getElem?_eq_getElem ha]
  · unfold MultiStackBuffer.GetRecordByIndex
    rw [if_pos hb, List.getElem?_eq_getElem hb]
  · intro p n_ab hn
    have hsorted := List.pairwise_iff_getElem.mp hinv.arena.sorted a b ha hb hab
    exact delta_law_of_invariants S _ hinv.keys _ _ hsorted
      (hinv.arena.copy_bounded _ (List.getElem_mem _)) p n_ab hn


/-- Witness of C2: two snapshots around the return of a call, indices 0 and 1. -/
theorem C2_delta_law_witness :
    Reachable insertionStdSort (stateAfter twoSnapshotTrace)
    ∧ 1 < (stateAfter twoSnapshotTrace).record_buffer_.GetRecordCount
    ∧ ∃ snap_a snap_b,
        (stateAfter twoSnapshotTrace).record_buffer_.GetRecordByIndex 0 = some snap_a
        ∧ (stateAfter twoSnapshotTrace).record_buffer_.GetRecordByIndex 1 = some snap_b :=
  ⟨stateAfter_reachable twoSnapshotTrace (by decide!) (by decide!), by decide!,
    match C2_delta_law insertionStdSort (stateAfter twoSnapshotTrace)
        (stateAfter_reachable twoSnapshotTrace (by decide!) (by decide!)) 0 1 (by decide)
        (by decide!) with
    | ⟨snap_a, snap_b, ha, hb, _⟩ => ⟨snap_a, snap_b, ha, hb⟩⟩

/-! ## Filter transparency -/

theorem Hook_active {s : LuaProfilerState} {L : Nat} (ar : lua_Debug) (f tj t : Nat)
    (hactive : s.curr_lua_state_ = some L) :
    s.Hook L ar f tj t =
      match s.curr_call_info_stack_ with
      | none => some (.returned s 0)
      | some _ =>
        if f ∈ s.lua_filter_api_ then some (.returned s 0)
        else
          match (if ar.event = LUA_HOOKRET then s.CallHookOut f t
                 else s.CallHookIn ar f t) with
          | none => none
          | some s2 => some (.returned s2 0) := by
  unfold LuaProfilerState.Hook
  simp only [hactive, ne_eq, not_true_eq_false, if_false]

theorem GetFunctionInfo_filtered {s : LuaProfilerState} (hinv : StateInv s) (ar : lua_Debug)
    (f : Nat) (hnative : ar.what.get 0 = 'C') (hname : s.hasFilteredName ar f = true)
    (hnot : f ∉ s.lua_filter_api_) :
    (s.GetFunctionInfo ar f).2 = none ∧ f ∈ (s.GetFunctionInfo ar f).1.lua_filter_api_ := by
  unfold LuaProfilerState.hasFilteredName at hname
  unfold LuaProfilerState.GetFunctionInfo
  rw [if_pos hnative]
  cases hc : s.c_profiler_funcs_ f with
  | some d =>
    simp only [hc] at hname
    cases hfi : s.function_infos_[d]? with
    | none => simp [hfi] at hname
    | some fi =>
      simp only [hfi, decide_eq_true_eq] at hname
      exact absurd (hinv.filtered f d fi hc hfi hname) hnot
  | none =>
    simp only [hc] at hname
    cases hn : ar.name with
    | none => simp [hn] at hname
    | some n =>
      simp only [hn, decide_eq_true_eq] at hname
      simp only [hinv.filter_names, hname, decide_True, if_true]
      exact ⟨trivial, List.mem_cons_self _ _⟩

/-- Counterexample to C5 as stated: the native function at address 77 was first seen under
the name `p`, so it has a descriptor and is not in the filter set.  A later call event that
reports it under the name `pairs`, which is in the filter list, is handled as a call of a
profiled function: it returns without error, adds a node to the tree and a frame to the
stack of context 1, moves the current frame, and stops the timer of the caller A, whose
enter timestamp goes from 7 to 0. -/
theorem C5_counterexample :
    Reachable insertionStdSort (stateAfter renamedNativeTrace)
    ∧ (stateAfter renamedNativeTrace).curr_lua_state_ = some 1
    ∧ (nativeFunction "pairs" LUA_HOOKCALL).what.get 0 = 'C'
    ∧ (nativeFunction "pairs" LUA_HOOKCALL).name = some "pairs"
    ∧ "pairs" ∈ kLuaApiFilterList
    ∧ (stateAfter renamedNativeTrace).shape = (3, some 1, some 0, some 7)
    ∧ ((stateAfter renamedNativeTrace).Hook 1 (nativeFunction "pairs" LUA_HOOKCALL) 77 8 8).map
          (fun o => (o.isError, o.state.shape))
        = some (false, 4, some 2, some 1, some 0) :=
  ⟨stateAfter_reachable renamedNativeTrace (by decide!) (by decide!), by decide!, by decide!,
    by decide!, by decide!, by decide!, by decide!⟩

/-- Claim C5, amended: the name that decides is the one recorded when the address of the
native function was first seen, and the name the host reports at the event only for an
address not seen before.  In a reachable state, a call event (first or later) for a native
function whose name, so understood, is in the filter list, followed by a further event for
the same function such as its return, both in the active context, returns normally and
leaves the tree, every counter record, every context stack and the current frame, its
enter timestamp included, as they were: no node and no frame is created, and the time
spanning the filtered call stays with the running timer of the caller. -/
theorem C5_filter_transparency (S : StdSort) (s : LuaProfilerState) (hr : Reachable S s)
    (L f jump_time curr_time jump_time2 curr_time2 : Nat) (ar ar_ret : lua_Debug)
    (hactive : s.curr_lua_state_ = some L) (hnative : ar.what.get 0 = 'C')
    (hcall : ar.event ≠ LUA_HOOKRET) (hname : s.hasFilteredName ar f = true) :
    ∃ s1 s2,
      s.Hook L ar f jump_time curr_time = some (.returned s1 0)
      ∧ s1.Hook L ar_ret f jump_time2 curr_time2 = some (.returned s2 0)
      ∧ s.Untouched s1 ∧ s.Untouched s2 := by
  have hinv := reachable_stateInv hr
  rw [Hook_active ar f jump_time curr_time hactive]
  cases hstk : s.curr_call_info_stack_ with
  | none =>
    refine ⟨s, s, rfl, ?_, ⟨rfl, rfl, rfl, rfl, rfl, rfl⟩, ⟨rfl, rfl, rfl, rfl, rfl, rfl⟩⟩
    rw [Hook_active ar_ret f jump_time2 curr_time2 hactive, hstk]
  | some key =>
    simp only
    by_cases hf : f ∈ s.lua_filter_api_
    · refine ⟨s, s, by rw [if_pos hf], ?_, ⟨rfl, rfl, rfl, rfl, rfl, rfl⟩,
        ⟨rfl, rfl, rfl, rfl, rfl, rfl⟩⟩
      rw [Hook_active ar_ret f jump_time2 curr_time2 hactive, hstk]
      simp only [if_pos hf]
    · have hg := GetFunctionInfo_filtered hinv ar f hnative hname hf
      have hfr := GetFunctionInfo_frame s ar f
      have hin : s.CallHookIn ar f curr_time = some (s.GetFunctionInfo ar f).1 := by
        unfold LuaProfilerState.CallHookIn
        split
        · rename_i s2 hs2
          rw [hs2]
        · rename_i s2 fi hs2
          rw [hs2] at hg
          exact absurd hg.1 (by simp)
      have hun : s.Untouched (s.GetFunctionInfo ar f).1 :=
        ⟨hfr.1, hfr.2.1, hfr.2.2.1, hfr.2.2.2.2.1, hfr.2.2.2.2.2.1, hfr.2.2.2.1⟩
      refine ⟨(s.GetFunctionInfo ar f).1, (s.GetFunctionInfo ar f).1, ?_, ?_, hun, hun⟩
      · rw [if_neg hf, if_neg hcall, hin]
      · rw [Hook_active ar_ret f jump_time2 curr_time2 (hfr.2.2.2.1.trans hactive)]
        rw [hfr.2.2.2.2.2.1, hstk]
        simp only [if_pos hg.2]

/-- Witness of C5: function A is running in context 1 when the native `pairs` (identity
77) is called at 7 and returns at 8. -/
theorem C5_filter_transparency_witness :
    Reachable insertionStdSort (stateAfter oneCallTrace)
    ∧ (stateAfter oneCallTrace).curr_lua_state_ = some 1
    ∧ (stateAfter oneCallTrace).hasFilteredName (nativeFunction "pairs" LUA_HOOKCALL) 77 = true
    ∧ ∃ s1 s2,
        (stateAfter oneCallTrace).Hook 1 (nativeFunction "pairs" LUA_HOOKCALL) 77 7 7
          = some (.returned s1 0)
        ∧ s1.Hook 1 (nativeFunction "pairs" LUA_HOOKRET) 77 8 8 = some (.returned s2 0)
        ∧ (stateAfter oneCallTrace).Untouched s1 ∧ (stateAfter oneCallTrace).Untouched s2 :=
  ⟨stateAfter_reachable oneCallTrace (by decide!) (by decide!), by decide!, by decide!,
    C5_filter_transparency insertionStdSort (stateAfter oneCallTrace)
      (stateAfter_reachable oneCallTrace (by decide!) (by decide!)) 1 77 7 7 8 8
      (nativeFunction "pairs" LUA_HOOKCALL) (nativeFunction "pairs" LUA_HOOKRET)
      (by decide!) (by decide!) (by decide) (by decide!)⟩


/-! ## Context switches and declarations -/

/-- Claim C8 fails on the code.  Context 1 is suspended inside A (called at 100, left at
110).  When an event for context 1 arrives at 120, the switch makes A the current frame but
leaves its enter timestamp at 0 instead of 120; the call of C delivered by that event then
credits 120 - 0 to A, whose self elapsed becomes 130 although A ran for 10. -/
theorem C8_switch_leaves_timer_stopped :
    ((stateAfter switchAwayTrace).HookSwitch 1 120).map
        (fun r => r.1.currentFrame.map (fun c => (c.func_, c.enter_time_)))
      = some (some (11, 0))
    ∧ (stateAfter switchBackTrace).reportAt [0] = some (130, 135, 1) := by
  decide!

/-- Claim C9, as stated, fails: context 2 was never declared; the first event for it has
been reported, and the next event for it is not: `Hook` returns normally. -/
theorem C9_counterexample :
    ((stateAfter []).Hook 2 (scenarioFunction 1 LUA_HOOKCALL) 11 5 5).map Outcome.isError
      = some true
    ∧ ((stateAfter [Op.hook 2 (scenarioFunction 1 LUA_HOOKCALL) 11 5 5]).call_info_stack_map_
        2).isNone = true
    ∧ ((stateAfter [Op.hook 2 (scenarioFunction 1 LUA_HOOKCALL) 11 5 5]).Hook 2
          (scenarioFunction 1 LUA_HOOKRET) 11 6 6).map Outcome.isError = some false := by
  decide!

theorem HookSwitch_undeclared {s : LuaProfilerState} {L : Nat} (jump_time : Nat)
    (hundeclared : s.call_info_stack_map_ L = none) (hvalid : s.currentFrameValid = true) :
    ∃ s1, s.HookSwitch L jump_time = some (s1, false) ∧ s1.call_info_stack_map_ L = none
      ∧ s1.curr_lua_state_ = some L ∧ s1.curr_call_info_stack_ = none
      ∧ s1.curr_call_info_ = none := by
  unfold LuaProfilerState.HookSwitch
  unfold LuaProfilerState.currentFrameValid at hvalid
  cases hc : s.curr_call_info_ with
  | none =>
    simp only [hc, LuaProfilerState.GetCallInfoStack, hundeclared]
    exact ⟨_, rfl, hundeclared, rfl, rfl, rfl⟩
  | some slot =>
    simp only [hc] at hvalid
    cases hk : s.curr_call_info_stack_ with
    | none => simp [hk] at hvalid
    | some key =>
      simp only [hk] at hvalid
      cases hs : s.call_info_stack_map_ key with
      | none => simp [hs] at hvalid
      | some stk =>
        simp only [hs] at hvalid
        cases hp : (stk.buffer_ slot).record_ with
        | none => simp [hp] at hvalid
        | some p =>
          simp only [hp] at hvalid
          cases hg : s.root_profiler_record_.getAt p with
          | none => simp [hg] at hvalid
          | some r =>
            have hne : L ≠ key := by
              intro h
              rw [h, hs] at hundeclared
              cases hundeclared
            simp only [hc, hk, hs, CallInfo.CoroutineJump, hp, Record.AddInnerElapseAt, hg,
              LuaProfilerState.GetCallInfoStack, LuaProfilerState.setStack, hne, if_false,
              hundeclared]
            refine ⟨_, rfl, ?_, rfl, rfl, rfl⟩
            simp only [LuaProfilerState.setStack, hne, if_false, hundeclared]

/-- Claim C9, amended: an event for a context that was never declared, arriving when that
context is not the one of the previous event, is reported by `Hook` as an error; every
event for the same context that follows directly is ignored: `Hook` returns 0 and
leaves the state as the error left it. -/
theorem C9_unknown_context (s : LuaProfilerState) (L f jump_time curr_time : Nat)
    (ar : lua_Debug) (hundeclared : s.call_info_stack_map_ L = none)
    (hother : s.curr_lua_state_ ≠ some L) (hvalid : s.currentFrameValid = true) :
    ∃ s1 message,
      s.Hook L ar f jump_time curr_time = some (.lua_error s1 message)
      ∧ s1.call_info_stack_map_ L = none
      ∧ ∀ (ar2 : lua_Debug) (f2 jump_time2 curr_time2 : Nat),
          s1.Hook L ar2 f2 jump_time2 curr_time2 = some (.returned s1 0) := by
  obtain ⟨s1, hsw, hmap, hcur, hstk, _⟩ := HookSwitch_undeclared jump_time hundeclared hvalid
  refine ⟨s1, "profiler lua_State[%p] stack not find", ?_, hmap, ?_⟩
  · unfold LuaProfilerState.Hook
    rw [if_pos hother, hsw]
  · intro ar2 f2 jump_time2 curr_time2
    rw [Hook_active ar2 f2 jump_time2 curr_time2 hcur, hstk]

/-- Witness of C9: a freshly started profiler whose only context is 1, and context 2. -/
theorem C9_unknown_context_witness :
    (stateAfter []).call_info_stack_map_ 2 = none
    ∧ (stateAfter []).curr_lua_state_ ≠ some 2
    ∧ (stateAfter []).currentFrameValid = true
    ∧ ∃ s1 message,
        (stateAfter []).Hook 2 (scenarioFunction 1 LUA_HOOKCALL) 11 5 5
          = some (.lua_error s1 message)
        ∧ s1.call_info_stack_map_ 2 = none
        ∧ ∀ (ar2 : lua_Debug) (f2 jump_time2 curr_time2 : Nat),
            s1.Hook 2 ar2 f2 jump_time2 curr_time2 = some (.returned s1 0) :=
  ⟨Option.isNone_iff_eq_none.mp (by decide!), by decide!, by decide!,
    C9_unknown_context (stateAfter []) 2 11 5 5 (scenarioFunction 1 LUA_HOOKCALL)
      (Option.isNone_iff_eq_none.mp (by decide!)) (by decide!) (by decide!)⟩

/-- Declaring a declared context again empties its stack and leaves the other stacks, the
tree and the counters as they were; `curr_call_info_` is left as it was too. -/
theorem CreateCallInfoStack_declared (s : LuaProfilerState) (L : Nat) (stk : CallInfoStack)
    (hs : s.call_info_stack_map_ L = some stk) :
    ∃ s1, s.CreateCallInfoStack L = some s1
      ∧ s1.framesOf L = some []
      ∧ (∀ k, k ≠ L → s1.call_info_stack_map_ k = s.call_info_stack_map_ k)
      ∧ s1.root_profiler_record_ = s.root_profiler_record_
      ∧ s1.record_buffer_ = s.record_buffer_
      ∧ s1.curr_call_info_ = s.curr_call_info_ := by
  refine ⟨{ s with call_info_stack_map_ := s.setStack L stk.Clear }, ?_, ?_, ?_, rfl, rfl, rfl⟩
  · simp only [LuaProfilerState.CreateCallInfoStack, LuaProfilerState.GetCallInfoStack, hs]
  · simp only [LuaProfilerState.framesOf, LuaProfilerState.setStack, if_true, Option.map_some',
      StackBuffer.frames, StackBuffer.Clear, StackBuffer.framesUpTo]
  · intro k hne
    simp only [LuaProfilerState.setStack, hne, if_false]

/-- Claim C10 fails on the code.  A is running in context 1 when context 1 is declared
again: the stack of context 1 is emptied, but `curr_call_info_` still points to the frame
of A; the return of A then reaches `Pop` on the empty stack, whose assert fails, and a
call of B is recorded under the node of the discarded frame. -/
theorem C10_redeclare_keeps_current_frame :
    (stateAfter redeclareTrace).framesOf 1 = some []
    ∧ (stateAfter redeclareTrace).curr_lua_state_ = some 1
    ∧ (stateAfter redeclareTrace).currentFrame
        = some { func_ := 11, record_ := some [0], enter_time_ := 5 }
    ∧ ((stateAfter redeclareTrace).Hook 1 (scenarioFunction 1 LUA_HOOKRET) 11 9 9).isNone = true
    ∧ ((stateAfter redeclareTrace).Hook 1 (scenarioFunction 2 LUA_HOOKCALL) 12 9 9).map
        (fun o => o.state.framesOf 1)
        = some (some [{ func_ := 12, record_ := some [0, 1], enter_time_ := 9 }]) := by
  decide!


/-! ## Pointers into the tree -/

theorem getAt_append :
    ∀ (p q : RecordPtr) (root : Record),
      root.getAt (p ++ q) =
        match root.getAt p with
        | none => none
        | some r => r.getAt q
  | [], q, root => by simp [Record.getAt]
  | k :: p, q, root => by
    simp only [List.cons_append, Record.getAt]
    cases hfc : root.findChild k with
    | none => rfl
    | some c => exact getAt_append p q c

theorem find_replaceChild_same (k : Nat) (new_child : Record)
    (hk : new_child.func_info_ = some k) :
    ∀ (cs : List Record) (c : Record),
      cs.find? (fun x => x.func_info_ == some k) = some c →
      (Record.replaceChild k new_child cs).find? (fun x => x.func_info_ == some k)
        = some new_child
  | [], c, h => by simp at h
  | x :: cs, c, h => by
    unfold Record.replaceChild
    by_cases hx : x.func_info_ = some k
    · simp [hx, hk]
    · simp only [List.find?_cons, beq_iff_eq, hx, if_false] at h ⊢
      have hx2 : (x.func_info_ == some k) = false := by simp [hx]
      rw [hx2] at h ⊢
      exact find_replaceChild_same k new_child hk cs c h

theorem find_replaceChild_other (k k2 : Nat) (hne : k2 ≠ k) (new_child : Record)
    (hk : new_child.func_info_ = some k) :
    ∀ cs : List Record,
      (Record.replaceChild k new_child cs).find? (fun x => x.func_info_ == some k2)
        = cs.find? (fun x => x.func_info_ == some k2)
  | [] => by simp [Record.replaceChild]
  | x :: cs => by
    unfold Record.replaceChild
    by_cases hx : x.func_info_ = some k
    · have h1 : (x.func_info_ == some k2) = false := by
        simp [hx, Ne.symm hne]
      have h2 : (new_child.func_info_ == some k2) = false := by
        simp [hk, Ne.symm hne]
      simp only [hx, beq_self_eq_true, if_true, List.find?_cons, h2]
      rw [← hx, h1]
    · have hx2 : (x.func_info_ == some k) = false := by simp [hx]
      simp only [hx2, Bool.false_eq_true, if_false, List.find?_cons]
      rw [find_replaceChild_other k k2 hne new_child hk cs]

theorem setAt_cons_of_find {root c : Record} {k : Nat} (p : RecordPtr) (new_node : Record)
    (hfc : root.findChild k = some c) :
    Record.setAt (k :: p) root new_node
      = .mk root.func_info_ root.temp_inner_elapse_ root.temp_full_elapse_ root.temp_call_count_
          root.index_ root.data_
          (Record.replaceChild k (Record.setAt p c new_node) root.children_list_) := by
  simp only [Record.setAt, hfc]

theorem findChild_mk (fi : Option Nat) (ti tf tc idx : Nat) (d : Nat × Nat) (cs : List Record)
    (k : Nat) :
    (Record.mk fi ti tf tc idx d cs).findChild k
      = cs.find? (fun c => c.func_info_ == some k) := rfl

theorem setAt_func_info :
    ∀ (p : RecordPtr) (r new_node : Record),
      (∀ n, r.getAt p = some n → new_node.func_info_ = n.func_info_) →
      (Record.setAt p r new_node).func_info_ = r.func_info_
  | [], r, new_node, h => by
    simpa [Record.setAt] using h r (by simp [Record.getAt])
  | k :: p, r, new_node, _ => by
    unfold Record.setAt
    cases hfc : r.findChild k with
    | none => rfl
    | some c => rfl

theorem getAt_setAt_same :
    ∀ (p : RecordPtr) (root r new_node : Record), root.getAt p = some r →
      new_node.func_info_ = r.func_info_ →
      (Record.setAt p root new_node).getAt p = some new_node
  | [], root, r, new_node, _, _ => by simp [Record.setAt, Record.getAt]
  | k :: p, root, r, new_node, hg, hfi => by
    unfold Record.getAt at hg
    cases hfc : root.findChild k with
    | none => simp [hfc] at hg
    | some c =>
      simp only [hfc] at hg
      have hkey := (findChild_some hfc).2
      have hset : (Record.setAt p c new_node).func_info_ = some k := by
        rw [setAt_func_info p c new_node (by
          intro n hn
          rw [hg] at hn
          cases hn
          exact hfi)]
        exact hkey
      rw [setAt_cons_of_find p new_node hfc]
      simp only [Record.getAt, findChild_mk]
      unfold Record.findChild at hfc
      rw [find_replaceChild_same k _ hset _ c hfc]
      exact getAt_setAt_same p c r new_node hg hfi

theorem getAt_setAt_persist :
    ∀ (p : RecordPtr) (root r new_node : Record), root.getAt p = some r →
      new_node.func_info_ = r.func_info_ →
      (∀ k c, r.findChild k = some c → new_node.findChild k = some c) →
      ∀ (q : RecordPtr) (n : Record), root.getAt q = some n →
        ∃ n1, (Record.setAt p root new_node).getAt q = some n1 ∧ n1.func_info_ = n.func_info_
  | [], root, r, new_node, hg, hfi, hch, q, n, hq => by
    simp only [Record.getAt, Option.some.injEq] at hg
    subst hg
    simp only [Record.setAt]
    cases q with
    | nil =>
      simp only [Record.getAt, Option.some.injEq] at hq
      subst hq
      exact ⟨new_node, rfl, hfi⟩
    | cons k q =>
      unfold Record.getAt at hq ⊢
      cases hfc : root.findChild k with
      | none => simp [hfc] at hq
      | some c =>
        simp only [hfc] at hq
        rw [hch k c hfc]
        exact ⟨n, hq, rfl⟩
  | k0 :: p, root, r, new_node, hg, hfi, hch, q, n, hq => by
    unfold Record.getAt at hg
    cases hfc0 : root.findChild k0 with
    | none => simp [hfc0] at hg
    | some c0 =>
      simp only [hfc0] at hg
      have hkey := (findChild_some hfc0).2
      have hset : (Record.setAt p c0 new_node).func_info_ = some k0 := by
        rw [setAt_func_info p c0 new_node (by
          intro m hm
          rw [hg] at hm
          cases hm
          exact hfi)]
        exact hkey
      rw [setAt_cons_of_find p new_node hfc0]
      cases q with
      | nil =>
        simp only [Record.getAt, Option.some.injEq] at hq
        subst hq
        exact ⟨_, rfl, rfl⟩
      | cons k q =>
        unfold Record.getAt at hq
        cases hfc : root.findChild k with
        | none => simp [hfc] at hq
        | some c =>
          simp only [hfc] at hq
          simp only [Record.getAt, findChild_mk]
          by_cases hk : k = k0
          · subst hk
            rw [hfc0] at hfc
            cases hfc
            unfold Record.findChild at hfc0
            rw [find_replaceChild_same k _ hset _ c0 hfc0]
            exact getAt_setAt_persist p c0 r new_node hg hfi hch q n hq
          · rw [find_replaceChild_other k0 k hk _ hset]
            unfold Record.findChild at hfc
            rw [hfc]
            exact ⟨n, hq, rfl⟩


/-! ## Allocation never fails in an arena with a current block -/

theorem store_hasCurrentBlock {T : Type} (m : MultiStackBuffer T) (p : Nat × Nat) (x : T) :
    (m.store p x).hasCurrentBlock = m.hasCurrentBlock := by
  unfold MultiStackBuffer.store
  cases hget : m.stack_buffer_list_[p.1]? with
  | none => rfl
  | some blk => simp [MultiStackBuffer.hasCurrentBlock]

theorem Get_succeeds {T : Type} [CLayout T] (m : MultiStackBuffer T) (x : T)
    (h : m.hasCurrentBlock = true) :
    ∃ m1 e, m.Get x = some (m1, e) ∧ m1.hasCurrentBlock = true := by
  unfold MultiStackBuffer.hasCurrentBlock at h
  cases hb : m.curr_stack_ with
  | none => simp [hb] at h
  | some b0 =>
    simp only [hb, Bool.and_eq_true, decide_eq_true_eq] at h
    obtain ⟨hlt, hper⟩ := h
    unfold MultiStackBuffer.Get
    simp only [hb, List.getElem?_eq_getElem hlt]
    by_cases hfull : (m.stack_buffer_list_[b0]).IsFull = true
    · simp only [hfull, if_true, MultiStackBuffer.Resize, StackBuffer.new, hper, ne_eq,
        not_false_eq_true, List.getElem?_concat_length]
      refine ⟨_, _, rfl, ?_⟩
      simp [MultiStackBuffer.hasCurrentBlock, hper]
    · simp only [hfull, Bool.false_eq_true, if_false, hb, List.getElem?_eq_getElem hlt]
      refine ⟨_, _, rfl, ?_⟩
      simp [MultiStackBuffer.hasCurrentBlock, hb, hlt, hper]

theorem GetChildRecord_spec (r : Record) (buffer : RecordBuffer) (d : Nat)
    (h : buffer.hasCurrentBlock = true) :
    ∃ r1 buffer1 child,
      r.GetChildRecord buffer d = some (r1, buffer1)
      ∧ r1.func_info_ = r.func_info_
      ∧ r1.findChild d = some child ∧ child.func_info_ = some d
      ∧ (∀ k c, r.findChild k = some c → r1.findChild k = some c)
      ∧ buffer1.hasCurrentBlock = true := by
  unfold Record.GetChildRecord
  cases hfc : r.findChild d with
  | some c => exact ⟨r, buffer, c, rfl, rfl, hfc, (findChild_some hfc).2, fun _ _ hk => hk, h⟩
  | none =>
    obtain ⟨m1, e, hget, hm1⟩ := Get_succeeds buffer (⟨0, 0⟩ : RecordData) h
    simp only [Record.new, hget]
    refine ⟨_, m1, .mk (some d) 0 0 0 e.1 e.2 [], rfl, rfl, ?_, rfl, ?_, hm1⟩
    · unfold Record.findChild at hfc
      simp [findChild_mk, List.find?_append, hfc]
    · intro k c hk
      unfold Record.findChild at hk
      simp [findChild_mk, List.find?_append, hk]

theorem GetChildRecordAt_spec (root r : Record) (buffer : RecordBuffer) (p : RecordPtr)
    (d : Nat) (hg : root.getAt p = some r) (h : buffer.hasCurrentBlock = true) :
    ∃ root1 buffer1 parent child,
      Record.GetChildRecordAt root buffer p d = some (root1, buffer1, p ++ [d])
      ∧ root1.getAt p = some parent ∧ parent.findChild d = some child
      ∧ child.func_info_ = some d ∧ root1.getAt (p ++ [d]) = some child
      ∧ (∀ (q : RecordPtr) (n : Record), root.getAt q = some n →
          ∃ n1, root1.getAt q = some n1 ∧ n1.func_info_ = n.func_info_)
      ∧ buffer1.hasCurrentBlock = true := by
  obtain ⟨r1, buffer1, child, hgc, hfi, hchild, hkey, hkeep, hb1⟩ :=
    GetChildRecord_spec r buffer d h
  have hsame := getAt_setAt_same p root r r1 hg hfi
  refine ⟨Record.setAt p root r1, buffer1, r1, child, ?_, hsame, hchild, hkey, ?_, ?_, hb1⟩
  · simp only [Record.GetChildRecordAt, hg, hgc]
  · rw [getAt_append, hsame]
    simp only [Record.getAt, hchild]
  · exact getAt_setAt_persist p root r r1 hg hfi hkeep


/-! ## Stacks -/

theorem framesUpTo_congr {T : Type} (b1 b2 : Nat → T) :
    ∀ n : Nat, (∀ j, j < n → b1 j = b2 j) →
      StackBuffer.framesUpTo b1 n = StackBuffer.framesUpTo b2 n
  | 0, _ => rfl
  | n + 1, h => by
    simp only [StackBuffer.framesUpTo]
    rw [h n (Nat.lt_succ_self n),
      framesUpTo_congr b1 b2 n (fun j hj => h j (Nat.lt_succ_of_lt hj))]

theorem mem_framesUpTo {T : Type} (b : Nat → T) :
    ∀ (n j : Nat), j < n → b j ∈ StackBuffer.framesUpTo b n
  | 0, j, h => by omega
  | n + 1, j, h => by
    simp only [StackBuffer.framesUpTo, List.mem_cons]
    by_cases hj : j = n
    · exact Or.inl (by rw [hj])
    · exact Or.inr (mem_framesUpTo b n j (by omega))

theorem length_framesUpTo {T : Type} (b : Nat → T) :
    ∀ n : Nat, (StackBuffer.framesUpTo b n).length = n
  | 0 => rfl
  | n + 1 => by simp [StackBuffer.framesUpTo, length_framesUpTo b n]

theorem topMatch_lt (f : Nat) (buffer : Nat → CallInfo) :
    ∀ (n i : Nat), topMatch f buffer n = some i → i < n ∧ (buffer i).func_ = f
  | 0, i, h => by simp [topMatch] at h
  | n + 1, i, h => by
    unfold topMatch at h
    split at h
    · rename_i hf
      simp only [Option.some.injEq] at h
      subst h
      exact ⟨Nat.lt_succ_self _, hf⟩
    · have := topMatch_lt f buffer n i h
      exact ⟨Nat.lt_succ_of_lt this.1, this.2⟩

theorem framesBelow_framesUpTo (f : Nat) (buffer : Nat → CallInfo) :
    ∀ n : Nat, framesBelow f (StackBuffer.framesUpTo buffer n) =
      match topMatch f buffer n with
      | some i => StackBuffer.framesUpTo buffer i
      | none => []
  | 0 => rfl
  | n + 1 => by
    simp only [StackBuffer.framesUpTo, framesBelow, topMatch]
    split
    · rfl
    · exact framesBelow_framesUpTo f buffer n

theorem CallHookOutLoop_spec (f : Nat) (mx es : Nat) (buffer : Nat → CallInfo) :
    ∀ n : Nat, (buffer n).func_ ≠ f →
      LuaProfilerState.CallHookOutLoop f (n + 1)
          { max_count_ := mx, element_size_ := es, curr_count_ := n + 1, buffer_ := buffer }
        = some (match topMatch f buffer n with
            | some i =>
              ({ max_count_ := mx, element_size_ := es, curr_count_ := i + 1,
                 buffer_ := buffer }, some i)
            | none =>
              ({ max_count_ := mx, element_size_ := es, curr_count_ := 0,
                 buffer_ := buffer }, none))
  | 0, _ => by
    simp [LuaProfilerState.CallHookOutLoop, StackBuffer.Pop, StackBuffer.Empty, topMatch]
  | m + 1, h => by
    unfold LuaProfilerState.CallHookOutLoop
    simp only [StackBuffer.Pop, Nat.add_sub_cancel, gt_iff_lt, Nat.zero_lt_succ, if_true,
      StackBuffer.Empty, StackBuffer.Top, topMatch]
    by_cases hm : (buffer m).func_ = f
    · simp [hm]
    · simp only [hm, if_false]
      have ih := CallHookOutLoop_spec f mx es buffer m hm
      simp only [Nat.add_one_ne_zero, beq_iff_eq, if_false, ne_eq, not_false_eq_true, if_true]
      rw [if_pos hm]
      exact ih


theorem OnExit_succeeds (c : CallInfo) (root : Record) (buffer : RecordBuffer) (t : Nat)
    (h : c.refersTo root = true) :
    ∃ ci buffer1, c.OnExit root buffer t = some (ci, buffer1)
      ∧ buffer1.hasCurrentBlock = buffer.hasCurrentBlock := by
  unfold CallInfo.refersTo at h
  unfold CallInfo.OnExit
  split
  · cases hp : c.record_ with
    | none => simp [hp] at h
    | some p =>
      simp only [hp] at h
      cases hg : root.getAt p with
      | none => simp [hg] at h
      | some r =>
        simp only [Record.AddInnerElapseAt, hg]
        refine ⟨_, _, rfl, ?_⟩
        unfold Record.AddInnerElapse
        exact store_hasCurrentBlock _ _ _
  · exact ⟨_, _, rfl, rfl⟩

/-- What `CallHookOut` does to a state whose current frame is the top of the active stack:
the frames down to the topmost frame of identity `f` are removed, the frame below becomes
current with its timer restarted, nothing else than counters changes. -/
theorem CallHookOut_spec (s : LuaProfilerState) (f t key mx es n : Nat)
    (buffer : Nat → CallInfo) (hk : s.curr_call_info_stack_ = some key)
    (hs : s.call_info_stack_map_ key
      = some { max_count_ := mx, element_size_ := es, curr_count_ := n + 1, buffer_ := buffer })
    (hc : s.curr_call_info_ = some n)
    (hvalid : ∀ j, j ≤ n → (buffer j).refersTo s.root_profiler_record_ = true) :
    ∃ s1 stk1,
      s.CallHookOut f t = some s1
      ∧ s1.curr_call_info_stack_ = some key
      ∧ s1.call_info_stack_map_ key = some stk1
      ∧ stk1.frames = restartTop t (framesBelow f (StackBuffer.framesUpTo buffer (n + 1)))
      ∧ s1.curr_call_info_ = (if stk1.curr_count_ = 0 then none else some (stk1.curr_count_ - 1))
      ∧ s1.root_profiler_record_ = s.root_profiler_record_
      ∧ s1.curr_lua_state_ = s.curr_lua_state_
      ∧ (∀ k, k ≠ key → s1.call_info_stack_map_ k = s.call_info_stack_map_ k)
      ∧ SameRegistry s s1
      ∧ s1.record_buffer_.hasCurrentBlock = s.record_buffer_.hasCurrentBlock := by
  have hfind :
      (if (buffer n).func_ ≠ f then
          LuaProfilerState.CallHookOutLoop f (n + 1)
            { max_count_ := mx, element_size_ := es, curr_count_ := n + 1, buffer_ := buffer }
        else some (({ max_count_ := mx, element_size_ := es, curr_count_ := n + 1,
                      buffer_ := buffer } : CallInfoStack), some n))
      = some (match topMatch f buffer (n + 1) with
          | some i =>
            (({ max_count_ := mx, element_size_ := es, curr_count_ := i + 1,
                buffer_ := buffer } : CallInfoStack), some i)
          | none =>
            ({ max_count_ := mx, element_size_ := es, curr_count_ := 0,
               buffer_ := buffer }, none)) := by
    by_cases htop : (buffer n).func_ = f
    · simp [htop, topMatch]
    · rw [if_pos htop, CallHookOutLoop_spec f mx es buffer n htop]
      simp only [topMatch, htop, if_false]
  have hspec := framesBelow_framesUpTo f buffer (n + 1)
  unfold LuaProfilerState.CallHookOut
  simp only [hc, hk, hs, hfind]
  cases hR : topMatch f buffer (n + 1) with
  | none =>
    rw [hR] at hspec
    simp only
    refine ⟨_, { max_count_ := mx, element_size_ := es, curr_count_ := 0, buffer_ := buffer },
      rfl, rfl, ?_, ?_, ?_, rfl, rfl, ?_, ⟨rfl, rfl, rfl, rfl, rfl⟩, rfl⟩
    · simp only [LuaProfilerState.setStack, if_true]
    · rw [hspec]
      rfl
    · rfl
    · intro k hne
      simp only [LuaProfilerState.setStack, hne, if_false]
  | some i =>
    rw [hR] at hspec
    have hi := topMatch_lt f buffer (n + 1) i hR
    obtain ⟨ci, buffer1, hexit, hblk⟩ := OnExit_succeeds (buffer i) s.root_profiler_record_
      s.record_buffer_ t (hvalid i (by omega))
    simp only [hexit, StackBuffer.write, StackBuffer.Pop, gt_iff_lt, Nat.zero_lt_succ, if_true,
      Nat.add_sub_cancel, StackBuffer.Empty, StackBuffer.Top]
    cases i with
    | zero =>
      simp only [beq_self_eq_true, if_true]
      refine ⟨_, { max_count_ := mx, element_size_ := es, curr_count_ := 0,
                   buffer_ := fun i => if i = 0 then ci else buffer i },
        rfl, rfl, ?_, ?_, ?_, rfl, rfl, ?_, ⟨rfl, rfl, rfl, rfl, rfl⟩, hblk⟩
      · simp only [LuaProfilerState.setStack, if_true]
      · rw [hspec]
        rfl
      · rfl
      · intro k hne
        simp only [LuaProfilerState.setStack, hne, if_false]
    | succ k =>
      simp only [Nat.add_one_ne_zero, beq_iff_eq, if_false, Nat.zero_lt_succ, if_true,
        Nat.add_sub_cancel]
      refine ⟨_, { max_count_ := mx, element_size_ := es, curr_count_ := k + 1,
                   buffer_ := fun i =>
                     if i = k then (if k = k + 1 then ci else buffer k).ChildCallBack t
                     else if i = k + 1 then ci else buffer i },
        rfl, rfl, ?_, ?_, ?_, rfl, rfl, ?_, ⟨rfl, rfl, rfl, rfl, rfl⟩, hblk⟩
      · simp only [LuaProfilerState.setStack, if_true]
      · rw [hspec]
        simp only [StackBuffer.frames, StackBuffer.framesUpTo, restartTop, if_true,
          CallInfo.ChildCallBack, Nat.succ_ne_self, if_false, List.cons.injEq]
        refine ⟨?_, ?_⟩
        · have : k ≠ k + 1 := by omega
          simp [this]
        · apply framesUpTo_congr
          intro j hj
          have h1 : j ≠ k := by omega
          have h2 : j ≠ k + 1 := by omega
          simp [h1, h2]
      · simp
      · intro k2 hne
        simp only [LuaProfilerState.setStack, hne, if_false]


theorem current_of_top (s : LuaProfilerState) (key : Nat) (stk : CallInfoStack)
    (hk : s.curr_call_info_stack_ = some key) (hs : s.call_info_stack_map_ key = some stk)
    (hc : s.curr_call_info_ = (if stk.curr_count_ = 0 then none else some (stk.curr_count_ - 1))) :
    s.activeFrames = stk.frames
    ∧ (s.curr_call_info_ = none ↔ s.activeFrames = [])
    ∧ s.currentFrame = s.activeFrames.head?
    ∧ s.currentIsTop = true := by
  have hfr : s.activeFrames = stk.frames := by
    simp only [LuaProfilerState.activeFrames, hk, hs]
  refine ⟨hfr, ?_, ?_, ?_⟩
  · rw [hfr, hc]
    unfold StackBuffer.frames
    cases hn : stk.curr_count_ with
    | zero => simp [StackBuffer.framesUpTo]
    | succ m => simp [StackBuffer.framesUpTo]
  · rw [hfr]
    unfold StackBuffer.frames
    simp only [LuaProfilerState.currentFrame, hc, hk]
    cases hn : stk.curr_count_ with
    | zero => simp [StackBuffer.framesUpTo]
    | succ m => simp [StackBuffer.framesUpTo, hs]
  · simp only [LuaProfilerState.currentIsTop, hk, hs, hc, beq_self_eq_true]

theorem currentIsTop_cases (s : LuaProfilerState) (h : s.currentIsTop = true) :
    (s.curr_call_info_stack_ = none ∧ s.curr_call_info_ = none)
    ∨ ∃ key stk, s.curr_call_info_stack_ = some key ∧ s.call_info_stack_map_ key = some stk
        ∧ s.curr_call_info_
            = (if stk.curr_count_ = 0 then none else some (stk.curr_count_ - 1)) := by
  unfold LuaProfilerState.currentIsTop at h
  cases hk : s.curr_call_info_stack_ with
  | none =>
    simp only [hk, beq_iff_eq] at h
    exact Or.inl ⟨rfl, h⟩
  | some key =>
    simp only [hk] at h
    cases hs : s.call_info_stack_map_ key with
    | none => simp [hs] at h
    | some stk =>
      simp only [hs, beq_iff_eq] at h
      exact Or.inr ⟨key, stk, rfl, hs, h⟩

theorem restartTop_identity (t : Nat) (l : List CallInfo) :
    (restartTop t l).map (fun c => (c.func_, c.record_)) = l.map (fun c => (c.func_, c.record_)) := by
  cases l with
  | nil => rfl
  | cons c rest => rfl

/-- Claim C7: in a state whose current frame is the top of the active stack and whose
frames refer to nodes of the tree, a return event with a non-filtered identity `f` in the
active context makes `CallHookOut` return without error; the active stack is left holding
the frames strictly below the topmost frame of identity `f` (the same functions and nodes,
the timer of the new top frame being restarted), none when no frame has that identity or
the stack was empty; the current frame is null exactly when the resulting stack is empty
and is its top otherwise. -/
theorem C7_return_resync (s : LuaProfilerState) (L f jump_time curr_time : Nat)
    (ar : lua_Debug) (hactive : s.curr_lua_state_ = some L) (hret : ar.event = LUA_HOOKRET)
    (hfilter : f ∉ s.lua_filter_api_) (hcur : s.currentIsTop = true)
    (hvalid : s.activeFramesValid = true) :
    ∃ s1,
      s.CallHookOut f curr_time = some s1
      ∧ s.Hook L ar f jump_time curr_time = some (.returned s1 0)
      ∧ s1.activeFrames.map (fun c => (c.func_, c.record_))
          = (framesBelow f s.activeFrames).map (fun c => (c.func_, c.record_))
      ∧ s1.activeFrames = restartTop curr_time (framesBelow f s.activeFrames)
      ∧ (s1.curr_call_info_ = none ↔ s1.activeFrames = [])
      ∧ s1.currentFrame = s1.activeFrames.head?
      ∧ s1.currentIsTop = true := by
  suffices h : ∃ s1,
      s.CallHookOut f curr_time = some s1
      ∧ s.Hook L ar f jump_time curr_time = some (.returned s1 0)
      ∧ s1.activeFrames = restartTop curr_time (framesBelow f s.activeFrames)
      ∧ (s1.curr_call_info_ = none ↔ s1.activeFrames = [])
      ∧ s1.currentFrame = s1.activeFrames.head?
      ∧ s1.currentIsTop = true by
    obtain ⟨s1, h1, h2, h3, h4⟩ := h
    exact ⟨s1, h1, h2, by rw [h3, restartTop_identity], h3, h4⟩
  rw [Hook_active ar f jump_time curr_time hactive]
  rcases currentIsTop_cases s hcur with ⟨hk, hc⟩ | ⟨key, stk, hk, hs, hc⟩
  · refine ⟨s, ?_, ?_, ?_, ?_, ?_, hcur⟩
    · simp only [LuaProfilerState.CallHookOut, hc]
    · simp only [hk]
    · simp only [LuaProfilerState.activeFrames, hk, framesBelow, restartTop]
    · simp only [LuaProfilerState.activeFrames, hk, hc]
    · simp only [LuaProfilerState.activeFrames, LuaProfilerState.currentFrame, hk, hc,
        List.head?_nil]
  · simp only [hk, if_neg hfilter, if_pos hret]
    have hfr : s.activeFrames = stk.frames := by
      simp only [LuaProfilerState.activeFrames, hk, hs]
    obtain ⟨mx, es, cnt, buffer⟩ := stk
    cases cnt with
    | zero =>
      simp only [if_true] at hc
      have hout : s.CallHookOut f curr_time = some s := by
        simp only [LuaProfilerState.CallHookOut, hc]
      have htop := current_of_top s key _ hk hs (by simp only [if_true]; exact hc)
      refine ⟨s, hout, by rw [hout], ?_, htop.2.1, htop.2.2.1, hcur⟩
      rw [hfr]
      rfl
    | succ n =>
      simp only [Nat.add_one_ne_zero, if_false, Nat.add_sub_cancel] at hc
      have hv : ∀ j, j ≤ n → (buffer j).refersTo s.root_profiler_record_ = true := by
        intro j hj
        unfold LuaProfilerState.activeFramesValid at hvalid
        rw [hfr, List.all_eq_true] at hvalid
        exact hvalid _ (mem_framesUpTo buffer (n + 1) j (by omega))
      obtain ⟨s1, stk1, hout, hk1, hs1, hframes, hc1, _⟩ :=
        CallHookOut_spec s f curr_time key mx es n buffer hk hs hc hv
      have htop := current_of_top s1 key stk1 hk1 hs1 hc1
      refine ⟨s1, hout, by rw [hout], ?_, htop.2.1, htop.2.2.1, htop.2.2.2⟩
      rw [htop.1, hframes, hfr]
      rfl


/-- Witness of C7: A, B and C are nested on the stack of context 1 when the return of B
(identity 12) arrives at 9; the frames of C and B go, A stays with its timer restarted. -/
theorem C7_return_resync_witness :
    (stateAfter threeCallsTrace).curr_lua_state_ = some 1
    ∧ 12 ∉ (stateAfter threeCallsTrace).lua_filter_api_
    ∧ (stateAfter threeCallsTrace).currentIsTop = true
    ∧ (stateAfter threeCallsTrace).activeFramesValid = true
    ∧ ∃ s1, (stateAfter threeCallsTrace).CallHookOut 12 9 = some s1
        ∧ s1.activeFrames = [{ func_ := 11, record_ := some [0], enter_time_ := 9 }] :=
  ⟨by decide!, by decide!, by decide!, by decide!,
    match C7_return_resync (stateAfter threeCallsTrace) 1 12 9 9
        (scenarioFunction 2 LUA_HOOKRET) (by decide!) (by decide!) (by decide!) (by decide!)
        (by decide!) with
    | ⟨s1, h1, _, _, h3, _⟩ => ⟨s1, h1, h3.trans (by decide!)⟩⟩

/-! ## Call events -/

theorem Get_buffer {T : Type} (stk : StackBuffer T) (x : T) :
    (stk.Get x).1.buffer_ = fun i => if i = stk.curr_count_ then x else stk.buffer_ i := by
  unfold StackBuffer.Get StackBuffer.Resize
  split <;> rfl

theorem Get_count {T : Type} (stk : StackBuffer T) (x : T) :
    (stk.Get x).1.curr_count_ = stk.curr_count_ + 1 := by
  unfold StackBuffer.Get StackBuffer.Resize
  split <;> rfl

theorem Get_slot {T : Type} (stk : StackBuffer T) (x : T) :
    (stk.Get x).2 = stk.curr_count_ := by
  unfold StackBuffer.Get StackBuffer.Resize
  split <;> rfl

theorem ite_Resize_count {T : Type} (stk : StackBuffer T) :
    (if stk.IsFull = true then stk.Resize else stk).curr_count_ = stk.curr_count_ := by
  unfold StackBuffer.Resize
  split <;> rfl

theorem ite_Resize_buffer {T : Type} (stk : StackBuffer T) :
    (if stk.IsFull = true then stk.Resize else stk).buffer_ = stk.buffer_ := by
  unfold StackBuffer.Resize
  split <;> rfl

theorem setStack_same (s : LuaProfilerState) (key : Nat) (stk : CallInfoStack) :
    s.setStack key stk key = some stk := by
  simp only [LuaProfilerState.setStack, if_true]

theorem refersTo_persist {root root1 : Record} {c : CallInfo}
    (hp : ∀ (q : RecordPtr) (n : Record), root.getAt q = some n →
      ∃ n1, root1.getAt q = some n1 ∧ n1.func_info_ = n.func_info_)
    (h : c.refersTo root = true) : c.refersTo root1 = true := by
  unfold CallInfo.refersTo at h ⊢
  cases hr : c.record_ with
  | none => simp [hr] at h
  | some p =>
    simp only [hr] at h ⊢
    cases hg : root.getAt p with
    | none => simp [hg] at h
    | some n =>
      obtain ⟨n1, hn1, _⟩ := hp p n hg
      simp [hn1]

theorem refersTo_some {root : Record} {c : CallInfo} (h : c.refersTo root = true) :
    ∃ p r, c.record_ = some p ∧ root.getAt p = some r := by
  unfold CallInfo.refersTo at h
  cases hr : c.record_ with
  | none => simp [hr] at h
  | some p =>
    simp only [hr] at h
    cases hg : root.getAt p with
    | none => simp [hg] at h
    | some n => exact ⟨p, n, rfl, hg⟩

theorem AddInnerElapse_hasCurrentBlock (r : Record) (buffer : RecordBuffer) (e : Nat) :
    (r.AddInnerElapse buffer e).hasCurrentBlock = buffer.hasCurrentBlock := by
  unfold Record.AddInnerElapse
  exact store_hasCurrentBlock _ _ _

theorem AddCount_hasCurrentBlock (r : Record) (buffer : RecordBuffer) :
    (r.AddCount buffer).hasCurrentBlock = buffer.hasCurrentBlock := by
  unfold Record.AddCount
  exact store_hasCurrentBlock _ _ _


/-- What `CallHookIn` does for a call that resolves to the descriptor `d`, in a state whose
current frame is the top of the active stack: the node keyed by `d` under the node of the
current frame (under the root when there is none) is found or created, and a frame that
refers to it is pushed, in place of the current frame for a tail call. -/
theorem CallHookIn_spec (s : LuaProfilerState) (ar : lua_Debug) (f t d key mx es cnt : Nat)
    (buffer : Nat → CallInfo)
    (hres : (s.GetFunctionInfo ar f).2 = some d)
    (hk : s.curr_call_info_stack_ = some key)
    (hs : s.call_info_stack_map_ key
      = some { max_count_ := mx, element_size_ := es, curr_count_ := cnt, buffer_ := buffer })
    (hc : s.curr_call_info_ = (if cnt = 0 then none else some (cnt - 1)))
    (hvalid : ∀ j, j < cnt → (buffer j).refersTo s.root_profiler_record_ = true)
    (hblock : s.record_buffer_.hasCurrentBlock = true) :
    ∃ s1 stk1 p0 parent child,
      s.CallHookIn ar f t = some s1
      ∧ s.parentPtr = some p0
      ∧ s1.curr_call_info_stack_ = some key
      ∧ s1.call_info_stack_map_ key = some stk1
      ∧ stk1.frames = { func_ := f, record_ := some (p0 ++ [d]), enter_time_ := t } ::
          (if ar.event = LUA_HOOKTAILCALL then (StackBuffer.framesUpTo buffer cnt).tail
           else suspendTop (StackBuffer.framesUpTo buffer cnt))
      ∧ s1.curr_call_info_ = (if stk1.curr_count_ = 0 then none else some (stk1.curr_count_ - 1))
      ∧ s1.root_profiler_record_.getAt p0 = some parent
      ∧ parent.findChild d = some child ∧ child.func_info_ = some d
      ∧ s1.root_profiler_record_.getAt (p0 ++ [d]) = some child
      ∧ (∀ (q : RecordPtr) (n : Record), s.root_profiler_record_.getAt q = some n →
          ∃ n1, s1.root_profiler_record_.getAt q = some n1 ∧ n1.func_info_ = n.func_info_)
      ∧ s1.record_buffer_.hasCurrentBlock = true
      ∧ s1.curr_lua_state_ = s.curr_lua_state_
      ∧ (∀ k, k ≠ key → s1.call_info_stack_map_ k = s.call_info_stack_map_ k) := by
  have hfr := GetFunctionInfo_frame s ar f
  have hgf : s.GetFunctionInfo ar f = ((s.GetFunctionInfo ar f).1, some d) := by
    rw [← hres]
  generalize (s.GetFunctionInfo ar f).1 = s0 at hfr hgf
  obtain ⟨hroot, hbuf, hmap, hlua, hcurr, hstk, _⟩ := hfr
  have hparent : s.activeFrames = StackBuffer.framesUpTo buffer cnt := by
    simp only [LuaProfilerState.activeFrames, hk, hs, StackBuffer.frames]
  unfold LuaProfilerState.CallHookIn
  rw [hgf]
  simp only [hstk, hk, hmap, hs, hcurr, hc, hroot, hbuf]
  cases cnt with
  | zero =>
    simp only [if_true]
    obtain ⟨root1, buffer1, parent, child, hgc, hgp, hfc, hkey, hgchild, hpers, hb1⟩ :=
      GetChildRecordAt_spec s.root_profiler_record_ s.root_profiler_record_ s.record_buffer_ [] d
        rfl hblock
    simp only [hgc, Get_buffer, Get_slot, Get_count, ite_Resize_count, ite_Resize_buffer, CallInfo.new, CallInfo.OnEnter,
      Record.AddCountAt, hgchild, if_true]
    refine ⟨_, _, [], parent, child, rfl, ?_, rfl, setStack_same _ _ _, ?_, ?_, hgp, hfc, hkey,
      hgchild, hpers, ?_, hlua, ?_⟩
    · simp only [LuaProfilerState.parentPtr, hparent, StackBuffer.framesUpTo]
    · simp only [StackBuffer.frames, StackBuffer.write, Get_count, Get_buffer, ite_Resize_count, ite_Resize_buffer,
        StackBuffer.framesUpTo, if_true, List.tail_nil, suspendTop, ite_self]
    · simp only [StackBuffer.write, Get_count, Get_slot, ite_Resize_count, ite_Resize_buffer]
      rfl
    · simp only [AddCount_hasCurrentBlock, hb1]
    · intro k hne
      simp only [LuaProfilerState.setStack, hne, if_false, hmap]
  | succ n =>
    simp only [Nat.add_one_ne_zero, if_false, Nat.add_sub_cancel]
    obtain ⟨p, r, hrec, hgr⟩ := refersTo_some (hvalid n (Nat.lt_succ_self n))
    obtain ⟨root1, buffer1, parent, child, hgc, hgp, hfc, hkey, hgchild, hpers, hb1⟩ :=
      GetChildRecordAt_spec s.root_profiler_record_ r
        (r.AddInnerElapse s.record_buffer_ (sub64 t (buffer n).enter_time_)) p d hgr
        (by rw [AddInnerElapse_hasCurrentBlock]; exact hblock)
    simp only [CallInfo.ChildCallEnter, hrec, Record.AddInnerElapseAt, hgr, hgc]
    by_cases htail : ar.event = LUA_HOOKTAILCALL
    · simp only [htail, if_true, StackBuffer.write, StackBuffer.Pop, gt_iff_lt,
        Nat.zero_lt_succ, Nat.add_sub_cancel, Get_buffer, Get_slot, Get_count, ite_Resize_count, ite_Resize_buffer, CallInfo.new,
        CallInfo.OnEnter, Record.AddCountAt, hgchild]
      refine ⟨_, _, p, parent, child, rfl, ?_, rfl, setStack_same _ _ _, ?_, ?_, hgp, hfc, hkey,
        hgchild, hpers, ?_, hlua, ?_⟩
      · simp only [LuaProfilerState.parentPtr, hparent, StackBuffer.framesUpTo, hrec]
      · simp only [StackBuffer.frames, StackBuffer.write, Get_count, Get_buffer, ite_Resize_count, ite_Resize_buffer,
          StackBuffer.framesUpTo, if_true, List.tail_cons, List.cons.injEq, true_and]
        apply framesUpTo_congr
        intro j hj
        have h1 : j ≠ n := by omega
        simp [h1]
      · simp only [StackBuffer.write, Get_count, Get_slot, ite_Resize_count, ite_Resize_buffer]
        rfl
      · simp only [AddCount_hasCurrentBlock, hb1]
      · intro k hne
        simp only [LuaProfilerState.setStack, hne, if_false, hmap]
    · simp only [htail, if_false, StackBuffer.write, Get_buffer, Get_slot, Get_count, ite_Resize_count, ite_Resize_buffer,
        CallInfo.new, CallInfo.OnEnter, Record.AddCountAt, hgchild, if_true]
      refine ⟨_, _, p, parent, child, rfl, ?_, rfl, setStack_same _ _ _, ?_, ?_, hgp, hfc, hkey,
        hgchild, hpers, ?_, hlua, ?_⟩
      · simp only [LuaProfilerState.parentPtr, hparent, StackBuffer.framesUpTo, hrec]
      · simp only [StackBuffer.frames, StackBuffer.write, Get_count, Get_buffer, ite_Resize_count, ite_Resize_buffer,
          StackBuffer.framesUpTo, if_true, suspendTop, List.cons.injEq, true_and]
        have h0 : n ≠ n + 1 := by omega
        refine ⟨by simp [h0, hrec], ?_⟩
        apply framesUpTo_congr
        intro j hj
        have h1 : j ≠ n := by omega
        have h2 : j ≠ n + 1 := by omega
        simp [h1, h2]
      · simp only [StackBuffer.write, Get_count, Get_slot, ite_Resize_count, ite_Resize_buffer]
        rfl
      · simp only [AddCount_hasCurrentBlock, hb1]
      · intro k hne
        simp only [LuaProfilerState.setStack, hne, if_false, hmap]


/-! ## Chains of tail calls -/

theorem activeFrames_of_inv {s : LuaProfilerState} {key : Nat} {stk : CallInfoStack}
    (hk : s.curr_call_info_stack_ = some key) (hs : s.call_info_stack_map_ key = some stk) :
    s.activeFrames = stk.frames := by
  simp only [LuaProfilerState.activeFrames, hk, hs]

/-- A call event of a non-filtered function delivered by `Hook` in the active context. -/
theorem Hook_call_spec (s : LuaProfilerState) (L key f jump_time curr_time d : Nat)
    (ar : lua_Debug) (hinv : ActiveInv s L key) (hcall : ar.event ≠ LUA_HOOKRET)
    (hfilter : f ∉ s.lua_filter_api_) (hres : (s.GetFunctionInfo ar f).2 = some d) :
    ∃ s1 p0 child,
      s.Hook L ar f jump_time curr_time = some (.returned s1 0)
      ∧ s.parentPtr = some p0
      ∧ s1.activeFrames = { func_ := f, record_ := some (p0 ++ [d]), enter_time_ := curr_time } ::
          (if ar.event = LUA_HOOKTAILCALL then s.activeFrames.tail
           else suspendTop s.activeFrames)
      ∧ s1.root_profiler_record_.getAt (p0 ++ [d]) = some child
      ∧ child.func_info_ = some d
      ∧ (∀ (q : RecordPtr) (n : Record), s.root_profiler_record_.getAt q = some n →
          ∃ n1, s1.root_profiler_record_.getAt q = some n1 ∧ n1.func_info_ = n.func_info_)
      ∧ ActiveInv s1 L key := by
  obtain ⟨hactive, hk, ⟨stk, hs, hc, hvalid⟩, hblock⟩ := hinv
  have hfr := activeFrames_of_inv hk hs
  obtain ⟨mx, es, cnt, buffer⟩ := stk
  obtain ⟨s1, stk1, p0, parent, child, hin, hparent, hk1, hs1, hframes, hc1, _, _, hkey, hchild,
      hpers, hb1, hlua, _⟩ :=
    CallHookIn_spec s ar f curr_time d key mx es cnt buffer hres hk hs hc
      (fun j hj => hvalid _ (mem_framesUpTo buffer cnt j hj)) hblock
  have hfr1 := activeFrames_of_inv hk1 hs1
  refine ⟨s1, p0, child, ?_, hparent, ?_, hchild, hkey, hpers,
    ⟨hlua.trans hactive, hk1, ⟨stk1, hs1, hc1, ?_⟩, hb1⟩⟩
  · rw [Hook_active ar f jump_time curr_time hactive]
    simp only [hk, if_neg hfilter, if_neg hcall, hin]
  · rw [hfr1, hframes, hfr]
    rfl
  · intro c hc
    rw [hframes] at hc
    simp only [List.mem_cons] at hc
    rcases hc with hc | hc
    · rw [hc]
      simp only [CallInfo.refersTo, hchild, Option.isSome_some]
    · have hold : ∃ c0 ∈ StackBuffer.framesUpTo buffer cnt, c0.record_ = c.record_ := by
        split at hc
        · exact ⟨c, List.mem_of_mem_tail hc, rfl⟩
        · cases hl : StackBuffer.framesUpTo buffer cnt with
          | nil => simp [hl, suspendTop] at hc
          | cons x rest =>
            rw [hl] at hc
            simp only [suspendTop, List.mem_cons] at hc
            rcases hc with hc | hc
            · exact ⟨x, List.mem_cons_self _ _, by rw [hc]⟩
            · exact ⟨c, List.mem_cons_of_mem _ hc, rfl⟩
      obtain ⟨c0, hc0, hrec⟩ := hold
      have h0 := refersTo_persist hpers (hvalid c0 hc0)
      unfold CallInfo.refersTo at h0 ⊢
      rw [← hrec]
      exact h0


theorem HookSwitch_eq (s : LuaProfilerState) (L jump_time : Nat) :
    s.HookSwitch L jump_time =
      match s.leaveContext jump_time with
      | none => none
      | some s1 => s1.enterContext L := rfl

theorem mem_framesUpTo_iff {T : Type} (b : Nat → T) (c : T) :
    ∀ n : Nat, c ∈ StackBuffer.framesUpTo b n ↔ ∃ j, j < n ∧ b j = c
  | 0 => by simp [StackBuffer.framesUpTo]
  | n + 1 => by
    simp only [StackBuffer.framesUpTo, List.mem_cons, mem_framesUpTo_iff b c n]
    constructor
    · rintro (h | ⟨j, hj, hb⟩)
      · exact ⟨n, Nat.lt_succ_self n, h.symm⟩
      · exact ⟨j, Nat.lt_succ_of_lt hj, hb⟩
    · rintro ⟨j, hj, hb⟩
      by_cases hjn : j = n
      · exact Or.inl (by rw [← hb, hjn])
      · exact Or.inr ⟨j, by omega, hb⟩

theorem refersTo_congr {root : Record} {c c0 : CallInfo} (h : c.record_ = c0.record_) :
    c.refersTo root = c0.refersTo root := by
  unfold CallInfo.refersTo
  rw [h]

theorem frames_write_valid {root : Record} (stk : CallInfoStack) (slot : Nat) (ci : CallInfo)
    (hrec : ci.record_ = (stk.buffer_ slot).record_)
    (h : ∀ c ∈ stk.frames, c.refersTo root = true) :
    ∀ c ∈ (stk.write slot ci).frames, c.refersTo root = true := by
  intro c hc
  simp only [StackBuffer.frames, StackBuffer.write, mem_framesUpTo_iff] at hc
  obtain ⟨j, hj, hb⟩ := hc
  by_cases hjs : j = slot
  · simp only [hjs, if_true] at hb
    rw [← hb, refersTo_congr hrec]
    exact h _ (mem_framesUpTo stk.buffer_ stk.curr_count_ slot (by omega))
  · simp only [hjs, if_false] at hb
    rw [← hb]
    exact h _ (mem_framesUpTo stk.buffer_ stk.curr_count_ j hj)

theorem mem_framesBelow {f : Nat} {c : CallInfo} :
    ∀ l : List CallInfo, c ∈ framesBelow f l → c ∈ l
  | [], h => by simp [framesBelow] at h
  | x :: l, h => by
    unfold framesBelow at h
    split at h
    · exact List.mem_cons_of_mem _ h
    · exact List.mem_cons_of_mem _ (mem_framesBelow l h)

theorem mem_restartTop {t : Nat} {c : CallInfo} (l : List CallInfo) (h : c ∈ restartTop t l) :
    ∃ c0 ∈ l, c.record_ = c0.record_ := by
  cases l with
  | nil => simp [restartTop] at h
  | cons x rest =>
    simp only [restartTop, List.mem_cons] at h
    rcases h with h | h
    · exact ⟨x, List.mem_cons_self _ _, by rw [h]⟩
    · exact ⟨c, List.mem_cons_of_mem _ h, rfl⟩

theorem leaveContext_total (s : LuaProfilerState) (jump_time : Nat) (hwf : WellFormed s) :
    ∃ s1, s.leaveContext jump_time = some s1
      ∧ s1.curr_call_info_ = none
      ∧ (∀ L stk, s1.call_info_stack_map_ L = some stk →
          ∀ c ∈ stk.frames, c.refersTo s1.root_profiler_record_ = true)
      ∧ (∀ L, (s1.call_info_stack_map_ L).isSome = (s.call_info_stack_map_ L).isSome)
      ∧ s1.record_buffer_.hasCurrentBlock = true
      ∧ s1.root_profiler_record_ = s.root_profiler_record_
      ∧ SameRegistry s s1 := by
  obtain ⟨htop, hframes, hblock⟩ := hwf
  unfold LuaProfilerState.leaveContext
  rcases currentIsTop_cases s htop with ⟨hk, hc⟩ | ⟨key, stk, hk, hs, hc⟩
  · simp only [hc]
    exact ⟨s, rfl, hc, hframes, fun _ => rfl, hblock, rfl, ⟨rfl, rfl, rfl, rfl, rfl⟩⟩
  · by_cases hcnt : stk.curr_count_ = 0
    · rw [if_pos hcnt] at hc
      simp only [hc]
      exact ⟨s, rfl, hc, hframes, fun _ => rfl, hblock, rfl, ⟨rfl, rfl, rfl, rfl, rfl⟩⟩
    · rw [if_neg hcnt] at hc
      have hvalid := hframes key stk hs _
        (mem_framesUpTo stk.buffer_ stk.curr_count_ (stk.curr_count_ - 1) (by omega))
      obtain ⟨p, r, hrec, hg⟩ := refersTo_some hvalid
      simp only [hc, hk, hs, CallInfo.CoroutineJump, hrec, Record.AddInnerElapseAt, hg]
      refine ⟨_, rfl, rfl, ?_, ?_, ?_, rfl, ⟨rfl, rfl, rfl, rfl, rfl⟩⟩
      · intro L stk1 hL c hc1
        simp only [LuaProfilerState.setStack] at hL
        split at hL
        · simp only [Option.some.injEq] at hL
          rw [← hL] at hc1
          exact frames_write_valid stk _ _ (by simp only [hrec]) (hframes key stk hs) c hc1
        · exact hframes L stk1 hL c hc1
      · intro L
        simp only [LuaProfilerState.setStack]
        split
        · rename_i hL
          rw [hL, hs]
          rfl
        · rfl
      · simp only [AddInnerElapse_hasCurrentBlock, hblock]


theorem enterContext_total (s1 : LuaProfilerState) (L : Nat)
    (hc : s1.curr_call_info_ = none)
    (hframes : ∀ K stk, s1.call_info_stack_map_ K = some stk →
      ∀ c ∈ stk.frames, c.refersTo s1.root_profiler_record_ = true)
    (hblock : s1.record_buffer_.hasCurrentBlock = true) :
    ∃ s2 found, s1.enterContext L = some (s2, found) ∧ WellFormed s2
      ∧ s2.curr_lua_state_ = some L
      ∧ s2.root_profiler_record_ = s1.root_profiler_record_
      ∧ s2.call_info_stack_map_ = s1.call_info_stack_map_
      ∧ SameRegistry s1 s2 := by
  unfold LuaProfilerState.enterContext
  cases hs : s1.call_info_stack_map_ L with
  | none =>
    simp only [LuaProfilerState.GetCallInfoStack, hs]
    refine ⟨_, _, rfl, ⟨?_, hframes, hblock⟩, rfl, rfl, rfl, ⟨rfl, rfl, rfl, rfl, rfl⟩⟩
    simp only [LuaProfilerState.currentIsTop, hc, beq_self_eq_true]
  | some stk =>
    simp only [LuaProfilerState.GetCallInfoStack, hs]
    by_cases hcnt : stk.curr_count_ = 0
    · simp only [StackBuffer.Empty, hcnt, beq_self_eq_true, not_true_eq_false, if_false]
      refine ⟨_, _, rfl, ⟨?_, hframes, hblock⟩, rfl, rfl, rfl, ⟨rfl, rfl, rfl, rfl, rfl⟩⟩
      simp only [LuaProfilerState.currentIsTop, hs, hc, hcnt, if_true, beq_self_eq_true]
    · have hpos : stk.curr_count_ > 0 := by omega
      simp only [StackBuffer.Empty, beq_iff_eq, hcnt, not_false_eq_true, if_true,
        StackBuffer.Top, hpos]
      refine ⟨_, _, rfl, ⟨?_, hframes, hblock⟩, rfl, rfl, rfl, ⟨rfl, rfl, rfl, rfl, rfl⟩⟩
      simp only [LuaProfilerState.currentIsTop, hs, hcnt, if_false, beq_self_eq_true]

/-- A context switch never stops a well-formed state, and leaves it well formed. -/
theorem HookSwitch_total (s : LuaProfilerState) (L jump_time : Nat) (hwf : WellFormed s) :
    ∃ s2 found, s.HookSwitch L jump_time = some (s2, found) ∧ WellFormed s2
      ∧ s2.curr_lua_state_ = some L := by
  obtain ⟨s1, h1, hc, hframes, _, hblock, _, _⟩ := leaveContext_total s jump_time hwf
  obtain ⟨s2, found, h2, hwf2, hL, _⟩ := enterContext_total s1 L hc hframes hblock
  refine ⟨s2, found, ?_, hwf2, hL⟩
  rw [HookSwitch_eq, h1]
  exact h2

/-- A return event never stops a well-formed state, and leaves it well formed. -/
theorem CallHookOut_total (s : LuaProfilerState) (f t : Nat) (hwf : WellFormed s) :
    ∃ s1, s.CallHookOut f t = some s1 ∧ WellFormed s1
      ∧ s1.curr_lua_state_ = s.curr_lua_state_ := by
  obtain ⟨htop, hframes, hblock⟩ := hwf
  rcases currentIsTop_cases s htop with ⟨hk, hc⟩ | ⟨key, stk, hk, hs, hc⟩
  · refine ⟨s, ?_, ⟨htop, hframes, hblock⟩, rfl⟩
    simp only [LuaProfilerState.CallHookOut, hc]
  · obtain ⟨mx, es, cnt, buffer⟩ := stk
    cases cnt with
    | zero =>
      simp only [if_true] at hc
      refine ⟨s, ?_, ⟨htop, hframes, hblock⟩, rfl⟩
      simp only [LuaProfilerState.CallHookOut, hc]
    | succ n =>
      simp only [Nat.add_one_ne_zero, if_false, Nat.add_sub_cancel] at hc
      have hvalid : ∀ j, j ≤ n → (buffer j).refersTo s.root_profiler_record_ = true :=
        fun j hj => hframes key _ hs _ (mem_framesUpTo buffer (n + 1) j (by omega))
      obtain ⟨s1, stk1, hout, hk1, hs1, hfr1, hc1, hroot, hlua, hother, _, hblk⟩ :=
        CallHookOut_spec s f t key mx es n buffer hk hs hc hvalid
      refine ⟨s1, hout, ⟨?_, ?_, by rw [hblk]; exact hblock⟩, hlua⟩
      · simp only [LuaProfilerState.currentIsTop, hk1, hs1, hc1, beq_self_eq_true]
      · intro K stkK hK c hcK
        rw [hroot]
        by_cases hKk : K = key
        · rw [hKk, hs1, Option.some.injEq] at hK
          rw [← hK, hfr1] at hcK
          obtain ⟨c0, hc0, hrec⟩ := mem_restartTop _ hcK
          rw [refersTo_congr hrec]
          exact hframes key _ hs c0 (mem_framesBelow _ hc0)
        · rw [hother K hKk] at hK
          exact hframes K stkK hK c hcK

theorem mem_suspendTop {c : CallInfo} (l : List CallInfo) (h : c ∈ suspendTop l) :
    ∃ c0 ∈ l, c.record_ = c0.record_ := by
  cases l with
  | nil => simp [suspendTop] at h
  | cons x rest =>
    simp only [suspendTop, List.mem_cons] at h
    rcases h with h | h
    · exact ⟨x, List.mem_cons_self _ _, by rw [h]⟩
    · exact ⟨c, List.mem_cons_of_mem _ h, rfl⟩

/-- A call event never stops a well-formed state with an active stack, and leaves it well
formed. -/
theorem CallHookIn_total (s : LuaProfilerState) (ar : lua_Debug) (f t key : Nat)
    (hwf : WellFormed s) (hk : s.curr_call_info_stack_ = some key) :
    ∃ s1, s.CallHookIn ar f t = some s1 ∧ WellFormed s1
      ∧ s1.curr_lua_state_ = s.curr_lua_state_ := by
  obtain ⟨htop, hframes, hblock⟩ := hwf
  cases hres : (s.GetFunctionInfo ar f).2 with
  | none =>
    have hfr := GetFunctionInfo_frame s ar f
    have hgf : s.GetFunctionInfo ar f = ((s.GetFunctionInfo ar f).1, none) := by
      rw [← hres]
    generalize (s.GetFunctionInfo ar f).1 = s0 at hfr hgf
    obtain ⟨hroot, hbuf, hmap, hlua, hcurr, hstk, _⟩ := hfr
    refine ⟨s0, ?_, ⟨?_, ?_, by rw [hbuf]; exact hblock⟩, hlua⟩
    · unfold LuaProfilerState.CallHookIn
      rw [hgf]
    · simp only [LuaProfilerState.currentIsTop, hstk, hmap, hcurr]
      exact htop
    · rw [hmap, hroot]
      exact hframes
  | some d =>
    rcases currentIsTop_cases s htop with ⟨hk0, _⟩ | ⟨key1, stk, hk1, hs, hc⟩
    · rw [hk0] at hk
      cases hk
    · rw [hk1, Option.some.injEq] at hk
      subst hk
      obtain ⟨mx, es, cnt, buffer⟩ := stk
      have hvalid : ∀ j, j < cnt → (buffer j).refersTo s.root_profiler_record_ = true :=
        fun j hj => hframes key1 _ hs _ (mem_framesUpTo buffer cnt j hj)
      obtain ⟨s1, stk1, p0, parent, child, hin, _, hk2, hs1, hfr1, hc1, _, _, _, hchild,
          hpersist, hblk, hlua, hother⟩ :=
        CallHookIn_spec s ar f t d key1 mx es cnt buffer hres hk1 hs hc hvalid hblock
      refine ⟨s1, hin, ⟨?_, ?_, hblk⟩, hlua⟩
      · simp only [LuaProfilerState.currentIsTop, hk2, hs1, hc1, beq_self_eq_true]
      · intro K stkK hK c hcK
        by_cases hKk : K = key1
        · rw [hKk, hs1, Option.some.injEq] at hK
          rw [← hK, hfr1, List.mem_cons] at hcK
          rcases hcK with hnew | hold
          · rw [hnew]
            simp only [CallInfo.refersTo, hchild, Option.isSome_some]
          · have hmem : ∃ c0 ∈ StackBuffer.framesUpTo buffer cnt, c.record_ = c0.record_ := by
              split at hold
              · exact ⟨c, List.mem_of_mem_tail hold, rfl⟩
              · exact mem_suspendTop _ hold
            obtain ⟨c0, hc0, hrec⟩ := hmem
            rw [refersTo_congr hrec]
            exact refersTo_persist hpersist (hframes key1 _ hs c0 hc0)
        · rw [hother K hKk] at hK
          exact refersTo_persist hpersist (hframes K stkK hK c hcK)

/-- Totality of the hook: no assert stops a hook event delivered to a well-formed state,
whatever its context, its kind and its function; the state it leaves is well formed and
its active context is the context of the event. -/
theorem Hook_total (s : LuaProfilerState) (L : Nat) (ar : lua_Debug) (f jump_time curr_time : Nat)
    (hwf : WellFormed s) :
    ∃ o, s.Hook L ar f jump_time curr_time = some o ∧ WellFormed o.state
      ∧ o.state.curr_lua_state_ = some L := by
  have hsw : ∃ s1 found,
      (if s.curr_lua_state_ ≠ some L then s.HookSwitch L jump_time else some (s, true))
        = some (s1, found) ∧ WellFormed s1 ∧ s1.curr_lua_state_ = some L := by
    by_cases hL : s.curr_lua_state_ = some L
    · exact ⟨s, true, by simp only [hL, ne_eq, not_true_eq_false, if_false], hwf, hL⟩
    · rw [if_pos hL]
      exact HookSwitch_total s L jump_time hwf
  obtain ⟨s1, found, hsw1, hwf1, hL1⟩ := hsw
  unfold LuaProfilerState.Hook
  rw [hsw1]
  cases found with
  | false => exact ⟨_, rfl, hwf1, hL1⟩
  | true =>
    simp only
    cases hk : s1.curr_call_info_stack_ with
    | none => exact ⟨_, rfl, hwf1, hL1⟩
    | some key =>
      simp only
      by_cases hf : f ∈ s1.lua_filter_api_
      · rw [if_pos hf]
        exact ⟨_, rfl, hwf1, hL1⟩
      · rw [if_neg hf]
        by_cases hev : ar.event = LUA_HOOKRET
        · obtain ⟨s2, h2, hwf2, hlua2⟩ := CallHookOut_total s1 f curr_time hwf1
          rw [if_pos hev, h2]
          exact ⟨_, rfl, hwf2, by rw [← hL1]; exact hlua2⟩
        · obtain ⟨s2, h2, hwf2, hlua2⟩ := CallHookIn_total s1 ar f curr_time key hwf1 hk
          rw [if_neg hev, h2]
          exact ⟨_, rfl, hwf2, by rw [← hL1]; exact hlua2⟩


/-- Declaring a context never stops a well-formed state; it leaves the state well formed
unless the context is the active one with a frame in progress. -/
theorem CreateCallInfoStack_total (s : LuaProfilerState) (L : Nat) (hwf : WellFormed s) :
    ∃ s1, s.CreateCallInfoStack L = some s1
      ∧ (s.safeOp (.create L) = true → WellFormed s1) := by
  obtain ⟨htop, hframes, hblock⟩ := hwf
  unfold LuaProfilerState.CreateCallInfoStack
  cases hs : s.call_info_stack_map_ L with
  | none =>
    simp only [LuaProfilerState.GetCallInfoStack, hs, StackBuffer.new, StackBuffer.kInitCount,
      ne_eq, OfNat.ofNat_ne_zero, not_false_eq_true, if_true]
    refine ⟨_, rfl, fun _ => ⟨?_, ?_, hblock⟩⟩
    · rcases currentIsTop_cases s htop with ⟨hk, hc⟩ | ⟨key, stk, hk, hs1, hc⟩
      · simp only [LuaProfilerState.currentIsTop, hk, hc, beq_self_eq_true]
      · have hne : key ≠ L := by
          intro h
          rw [h, hs] at hs1
          cases hs1
        simp only [LuaProfilerState.currentIsTop, hk, LuaProfilerState.setStack, hne, if_false,
          hs1, hc, beq_self_eq_true]
    · intro K stkK hK c hcK
      simp only [LuaProfilerState.setStack] at hK
      split at hK
      · simp only [Option.some.injEq] at hK
        rw [← hK] at hcK
        simp [StackBuffer.frames, StackBuffer.framesUpTo] at hcK
      · exact hframes K stkK hK c hcK
  | some stk =>
    simp only [LuaProfilerState.GetCallInfoStack, hs]
    refine ⟨_, rfl, fun hsafe => ⟨?_, ?_, hblock⟩⟩
    · rcases currentIsTop_cases s htop with ⟨hk, hc⟩ | ⟨key, stk1, hk, hs1, hc⟩
      · simp only [LuaProfilerState.currentIsTop, hk, hc, beq_self_eq_true]
      · by_cases hkey : key = L
        · subst hkey
          have hnone : s.curr_call_info_ = none := by
            cases hcur : s.curr_call_info_ with
            | none => rfl
            | some slot => simp [LuaProfilerState.safeOp, hk, hcur] at hsafe
          simp only [LuaProfilerState.currentIsTop, hk, LuaProfilerState.setStack, if_true,
            StackBuffer.Clear, hnone, beq_self_eq_true]
        · simp only [LuaProfilerState.currentIsTop, hk, LuaProfilerState.setStack, hkey,
            if_false, hs1, hc, beq_self_eq_true]
    · intro K stkK hK c hcK
      simp only [LuaProfilerState.setStack] at hK
      split at hK
      · simp only [Option.some.injEq] at hK
        rw [← hK] at hcK
        simp [StackBuffer.frames, StackBuffer.framesUpTo, StackBuffer.Clear] at hcK
      · exact hframes K stkK hK c hcK

theorem Save_wellFormed {s s1 : LuaProfilerState} (h : s.Save = some s1) (hwf : WellFormed s) :
    WellFormed s1 := by
  obtain ⟨htop, hframes, hblock⟩ := hwf
  unfold LuaProfilerState.Save at h
  split at h
  · cases h
  · rename_i buffer1 hs
    simp only [Option.some.injEq] at h
    subst h
    refine ⟨htop, hframes, ?_⟩
    unfold MultiStackBuffer.Save at hs
    split at hs
    · cases hs
    · simp only [Option.some.injEq] at hs
      subst hs
      exact hblock

theorem wellFormed_aggregate (S : StdSort) (sel : Nat → Nat × Nat → Nat × Nat)
    (s : LuaProfilerState) (hwf : WellFormed s) (hkeys : Record.KeysUnique s.root_profiler_record_) :
    WellFormed { s with root_profiler_record_ := (Record.aggregate S sel s.root_profiler_record_).1 } := by
  obtain ⟨htop, hframes, hblock⟩ := hwf
  refine ⟨htop, ?_, hblock⟩
  intro K stkK hK c hcK
  refine refersTo_persist ?_ (hframes K stkK hK c hcK)
  intro q n hq
  refine ⟨(Record.aggregate S sel n).1, ?_, aggregate_func_info S sel n⟩
  show (Record.aggregate S sel s.root_profiler_record_).1.getAt q = _
  rw [aggregate_getAt S sel q _ hkeys, hq]
  rfl

theorem CalcRecord_wellFormed (S : StdSort) (s : LuaProfilerState) (n : Nat) (a b : Int)
    (hwf : WellFormed s) (hkeys : Record.KeysUnique s.root_profiler_record_) :
    WellFormed (s.CalcRecord S n a b).state := by
  unfold LuaProfilerState.CalcRecord
  split
  · simp only [Outcome.state]
    rw [CalcChildrenElapse_eq_aggregate]
    exact wellFormed_aggregate S _ s hwf hkeys
  · split
    · split
      · exact hwf
      · split
        · exact hwf
        · split
          · exact hwf
          · simp only
            split
            · exact hwf
            · simp only [Outcome.state]
              rw [CalcChildrenElapseCopy_eq_aggregate]
              exact wellFormed_aggregate S _ s hwf hkeys
    · exact hwf

/-- A freshly started profiler is well formed. -/
theorem ProfilerStart_wellFormed (main_L : Nat) :
    ∃ s, ProfilerStart main_L = some s ∧ WellFormed s := by
  have hm : ∃ m : RecordBuffer, MultiStackBuffer.new kMutiStackBufferInitCount = some m
      ∧ m.hasCurrentBlock = true := by
    refine ⟨_, rfl, ?_⟩
    simp [MultiStackBuffer.hasCurrentBlock, kMutiStackBufferInitCount]
  obtain ⟨m, hm1, hm2⟩ := hm
  obtain ⟨m1, e, hg, hm3⟩ := Get_succeeds m ⟨0, 0⟩ hm2
  unfold ProfilerStart LuaProfilerState.new
  simp only [hm1, Record.new, hg, LuaProfilerState.Init, LuaProfilerState.CreateCallInfoStack,
    LuaProfilerState.GetCallInfoStack, StackBuffer.new, StackBuffer.kInitCount, ne_eq,
    OfNat.ofNat_ne_zero, not_false_eq_true, if_true]
  refine ⟨_, rfl, ⟨?_, ?_, hm3⟩⟩
  · simp only [LuaProfilerState.currentIsTop, beq_self_eq_true]
  · intro K stkK hK c hcK
    simp only [LuaProfilerState.setStack] at hK
    split at hK
    · simp only [Option.some.injEq] at hK
      rw [← hK] at hcK
      simp [StackBuffer.frames, StackBuffer.framesUpTo] at hcK
    · cases hK

theorem run_wellFormed (S : StdSort) :
    ∀ (ops : List Op) (s s1 : LuaProfilerState), StateInv s → WellFormed s →
      LuaProfilerState.safeTrace S s ops = true →
      LuaProfilerState.run S s ops = some s1 → WellFormed s1
  | [], s, s1, _, hwf, _, h => by
    simp only [LuaProfilerState.run, Option.some.injEq] at h
    exact h ▸ hwf
  | op :: ops, s, s1, hinv, hwf, hsafe, h => by
    unfold LuaProfilerState.run at h
    unfold LuaProfilerState.safeTrace at hsafe
    split at h
    · cases h
    · rename_i s2 hap
      simp only [hap, Bool.and_eq_true] at hsafe
      have hinv2 : StateInv s2 := run_stateInv S [op] s s2 hinv (by
        simp only [LuaProfilerState.run, hap])
      refine run_wellFormed S ops s2 s1 hinv2 ?_ hsafe.2 h
      cases op with
      | hook L ar f tj t =>
        obtain ⟨o, ho, hwfo, _⟩ := Hook_total s L ar f tj t hwf
        simp only [LuaProfilerState.apply, ho, Option.map_some', Option.some.injEq] at hap
        rw [← hap]
        exact hwfo
      | create L =>
        obtain ⟨s3, h3, hwf3⟩ := CreateCallInfoStack_total s L hwf
        simp only [LuaProfilerState.apply, h3, Option.some.injEq] at hap
        rw [← hap]
        exact hwf3 hsafe.1
      | save => exact Save_wellFormed hap hwf
      | query n a b =>
        simp only [LuaProfilerState.apply, Option.some.injEq] at hap
        rw [← hap]
        exact CalcRecord_wellFormed S s n a b hwf hinv.keys

/-- Every state reached from a fresh profiler by a trace that never re-declares the active
context while a frame is in progress is well formed. -/
theorem safeReachable_wellFormed (S : StdSort) (main_L : Nat) (ops : List Op)
    (s0 s : LuaProfilerState) (h0 : ProfilerStart main_L = some s0)
    (hsafe : LuaProfilerState.safeTrace S s0 ops = true)
    (hrun : runFromStart S main_L ops = some s) : WellFormed s := by
  obtain ⟨s0', h0', hwf0⟩ := ProfilerStart_wellFormed main_L
  rw [h0, Option.some.injEq] at h0'
  subst h0'
  unfold runFromStart at hrun
  rw [h0] at hrun
  exact run_wellFormed S ops s0 s (ProfilerStart_stateInv h0) hwf0 hsafe hrun


theorem sum_full_blocks {T : Type} (per : Nat) :
    ∀ front : List (StackBuffer T), (∀ b ∈ front, b.curr_count_ = per) →
      (front.map StackBuffer.curr_count_).sum = front.length * per
  | [], _ => by simp
  | b :: rest, h => by
    have h1 := h b (List.mem_cons_self _ _)
    have h2 := sum_full_blocks per rest (fun x hx => h x (List.mem_cons_of_mem _ hx))
    simp only [List.map_cons, List.sum_cons, List.length_cons, h1, h2]
    ring

theorem layoutInv_liveCount {m : RecordBuffer} (h : LayoutInv m) : m.liveCount = m.curr_count_ := by
  obtain ⟨front, last, hl, _, hfull, _, htot⟩ := h.blocks
  unfold MultiStackBuffer.liveCount
  rw [hl, List.map_append, List.sum_append, sum_full_blocks _ front hfull, htot]
  simp

theorem new_layoutInv (per : Nat) (hper : per ≠ 0) :
    ∃ m : RecordBuffer, MultiStackBuffer.new per = some m ∧ LayoutInv m
      ∧ m.per_add_count_ = per ∧ m.curr_count_ = 0 ∧ m.records_ = [] := by
  refine ⟨{ per_add_count_ := per, curr_count_ := 0, curr_stack_ := some 0,
             stack_buffer_list_ := [{ max_count_ := per, element_size_ := 12, curr_count_ := 0,
                                      buffer_ := fun _ => ⟨0, 0⟩ }],
             records_ := [] }, ?_, ?_, rfl, rfl, rfl⟩
  · simp [MultiStackBuffer.new, MultiStackBuffer.Resize, StackBuffer.new, hper, CLayout.size_of,
      CLayout.zero]
  refine ⟨hper, ⟨[], _, rfl, rfl, ?_, ?_, ?_⟩, ?_, ?_⟩
  · intro b hb
    cases hb
  · simp
  · simp
  · intro b hb
    simp only [List.nil_append, List.mem_singleton] at hb
    rw [hb]
  · intro b hb
    simp only [List.nil_append, List.mem_singleton] at hb
    rw [hb]

theorem handlePtr_block (per k c : Nat) (hc : c < per) :
    handlePtr per (k * per + c) = (k, c) := by
  have hpos : 0 < per := by omega
  unfold handlePtr
  rw [Nat.add_comm, Nat.add_mul_div_right _ _ hpos, Nat.div_eq_of_lt hc,
    Nat.add_mul_mod_self_right, Nat.mod_eq_of_lt hc]
  simp

theorem Get_of_full {T : Type} [CLayout T] (m : MultiStackBuffer T) (x : T) (b0 : Nat)
    (blk0 : StackBuffer T) (hcur : m.curr_stack_ = some b0)
    (hblk : m.stack_buffer_list_[b0]? = some blk0) (hfull : blk0.IsFull = true)
    (hper : m.per_add_count_ ≠ 0) :
    m.Get x = some ({ m with
        curr_stack_ := some m.stack_buffer_list_.length,
        stack_buffer_list_ := m.stack_buffer_list_ ++
          [{ max_count_ := m.per_add_count_, element_size_ := CLayout.size_of T, curr_count_ := 1,
             buffer_ := fun i => if i = 0 then x else CLayout.zero }],
        curr_count_ := m.curr_count_ + 1 }, (m.curr_count_, (m.stack_buffer_list_.length, 0)))
    ∧ m.targetBlock = some { max_count_ := m.per_add_count_, element_size_ := CLayout.size_of T,
                             curr_count_ := 0, buffer_ := fun _ => CLayout.zero } := by
  have hnf : ¬ (m.per_add_count_ ≤ 0) := by omega
  constructor
  · unfold MultiStackBuffer.Get
    simp only [hcur, hblk, hfull, if_true, MultiStackBuffer.Resize, StackBuffer.new, hper, ne_eq,
      not_false_eq_true, List.getElem?_concat_length]
    simp only [StackBuffer.Get, StackBuffer.IsFull, ge_iff_le, hnf, decide_False,
      Bool.false_eq_true, if_false, Nat.zero_add]
    congr 3
    rw [List.set_append_right _ _ (Nat.le_refl _)]
    simp
  · unfold MultiStackBuffer.targetBlock
    simp only [hcur, hblk, hfull, if_true, MultiStackBuffer.Resize, StackBuffer.new, hper, ne_eq,
      not_false_eq_true, List.getElem?_concat_length]

theorem Get_of_notFull {T : Type} [CLayout T] (m : MultiStackBuffer T) (x : T) (b0 : Nat)
    (blk0 : StackBuffer T) (hcur : m.curr_stack_ = some b0)
    (hblk : m.stack_buffer_list_[b0]? = some blk0) (hfull : blk0.IsFull = false) :
    m.Get x = some ({ m with
        stack_buffer_list_ := m.stack_buffer_list_.set b0
          { blk0 with buffer_ := fun i => if i = blk0.curr_count_ then x else blk0.buffer_ i,
                      curr_count_ := blk0.curr_count_ + 1 },
        curr_count_ := m.curr_count_ + 1 }, (m.curr_count_, (b0, blk0.curr_count_)))
    ∧ m.targetBlock = some blk0 := by
  constructor
  · unfold MultiStackBuffer.Get
    simp only [hcur, hblk, hfull, Bool.false_eq_true, if_false, StackBuffer.Get]
  · unfold MultiStackBuffer.targetBlock
    simp only [hcur, hblk, hfull, Bool.false_eq_true, if_false]

/-- What `Get` does on an arena with the layout invariant: it succeeds, issues the handle
`curr_count_` at its place in the blocks, stores the new element there and nothing
elsewhere, and never finds its target block full. -/
theorem Get_layout (m : RecordBuffer) (x : RecordData) (h : LayoutInv m) :
    ∃ m1, m.Get x = some (m1, (m.curr_count_, handlePtr m.per_add_count_ m.curr_count_))
      ∧ LayoutInv m1
      ∧ m1.per_add_count_ = m.per_add_count_
      ∧ m1.curr_count_ = m.curr_count_ + 1
      ∧ m1.records_ = m.records_
      ∧ m1.load (handlePtr m.per_add_count_ m.curr_count_) = x
      ∧ (∀ q, q ≠ handlePtr m.per_add_count_ m.curr_count_ → m1.load q = m.load q)
      ∧ (∃ blk, m.targetBlock = some blk ∧ blk.IsFull = false)
      ∧ (∀ i, i ≠ (handlePtr m.per_add_count_ m.curr_count_).1 →
          m1.stack_buffer_list_[i]? = m.stack_buffer_list_[i]?) := by
  obtain ⟨hper, ⟨front, last, hl, hcur, hfull, hlast, htot⟩, hcap, hes⟩ := h
  have hlastmem : last ∈ m.stack_buffer_list_ := by
    rw [hl]
    simp
  have hget : m.stack_buffer_list_[front.length]? = some last := by
    rw [hl]
    simp
  have hlen : m.stack_buffer_list_.length = front.length + 1 := by
    rw [hl]
    simp
  by_cases hf : last.curr_count_ = m.per_add_count_
  · -- the current block is full: a block is appended
    have hisfull : last.IsFull = true := by
      simp [StackBuffer.IsFull, hcap last hlastmem, hf]
    have hptr : handlePtr m.per_add_count_ m.curr_count_ = (front.length + 1, 0) := by
      have := handlePtr_block m.per_add_count_ (front.length + 1) 0 (by omega)
      rw [htot, hf, ← this]
      congr 1
      ring
    obtain ⟨hg, htb⟩ := Get_of_full m x front.length last hcur hget hisfull hper
    rw [hptr, hg, hlen, htb]
    refine ⟨_, rfl, ⟨hper, ⟨front ++ [last], _, by rw [hl], by simp, ?_, ?_, ?_⟩, ?_, ?_⟩,
      rfl, rfl, rfl, ?_, ?_, ⟨_, rfl, ?_⟩, ?_⟩
    · intro b hb
      rcases List.mem_append.mp hb with hb | hb
      · exact hfull b hb
      · rw [List.mem_singleton] at hb
        rw [hb]
        exact hf
    · show 1 ≤ m.per_add_count_
      omega
    · show m.curr_count_ + 1 = (front ++ [last]).length * m.per_add_count_ + 1
      rw [htot, hf]
      simp
      ring
    · intro b hb
      rcases List.mem_append.mp hb with hb | hb
      · exact hcap b hb
      · rw [List.mem_singleton] at hb
        rw [hb]
    · intro b hb
      rcases List.mem_append.mp hb with hb | hb
      · exact hes b hb
      · rw [List.mem_singleton] at hb
        rw [hb]
        rfl
    · simp [MultiStackBuffer.load, ← hlen]
    · intro q hq
      unfold MultiStackBuffer.load
      simp only
      by_cases hq1 : q.1 < m.stack_buffer_list_.length
      · rw [List.getElem?_append_left hq1]
      · rw [List.getElem?_append_right (by omega), List.getElem?_eq_none (l := m.stack_buffer_list_) (by omega)]
        by_cases hq2 : q.1 = m.stack_buffer_list_.length
        · have hq3 : q.2 ≠ 0 := by
            intro h0
            apply hq
            rw [← hlen, ← hq2, ← h0]
          simp [hq2, hq3, CLayout.zero]
        · rw [List.getElem?_eq_none (by simp; omega)]
    · simp [StackBuffer.IsFull]
      omega
    · intro i hi
      simp only at hi ⊢
      by_cases hi1 : i < m.stack_buffer_list_.length
      · rw [List.getElem?_append_left hi1]
      · rw [List.getElem?_eq_none (l := m.stack_buffer_list_) (by omega),
          List.getElem?_eq_none (by simp; omega)]
  · -- the current block has room
    have hlt : last.curr_count_ < m.per_add_count_ := by omega
    have hisfull : last.IsFull = false := by
      simp [StackBuffer.IsFull, hcap last hlastmem, hlt]
    have hptr : handlePtr m.per_add_count_ m.curr_count_ = (front.length, last.curr_count_) := by
      rw [htot]
      exact handlePtr_block _ _ _ hlt
    obtain ⟨hg, htb⟩ := Get_of_notFull m x front.length last hcur hget hisfull
    rw [hptr, hg, htb]
    have hset : ∀ b : StackBuffer RecordData,
        m.stack_buffer_list_.set front.length b = front ++ [b] := by
      intro b
      rw [hl, List.set_append_right _ _ (Nat.le_refl _)]
      simp
    refine ⟨_, rfl, ⟨hper, ⟨front, _, hset _, hcur, hfull, ?_, ?_⟩, ?_, ?_⟩,
      rfl, rfl, rfl, ?_, ?_, ⟨_, rfl, hisfull⟩, ?_⟩
    · show last.curr_count_ + 1 ≤ m.per_add_count_
      omega
    · show m.curr_count_ + 1 = front.length * m.per_add_count_ + (last.curr_count_ + 1)
      omega
    · intro b hb
      rw [hset] at hb
      rcases List.mem_append.mp hb with hb | hb
      · exact hcap b (by rw [hl]; exact List.mem_append_left _ hb)
      · rw [List.mem_singleton] at hb
        rw [hb]
        exact hcap last hlastmem
    · intro b hb
      rw [hset] at hb
      rcases List.mem_append.mp hb with hb | hb
      · exact hes b (by rw [hl]; exact List.mem_append_left _ hb)
      · rw [List.mem_singleton] at hb
        rw [hb]
        exact hes last hlastmem
    · simp [MultiStackBuffer.load, hset]
    · intro q hq
      unfold MultiStackBuffer.load
      simp only
      by_cases hq1 : q.1 = front.length
      · have hq3 : q.2 ≠ last.curr_count_ := by
          intro h0
          apply hq
          rw [← hq1, ← h0]
        rw [hq1, hset, hget]
        simp [hq3]
      · rw [List.getElem?_set_ne (fun h => hq1 h.symm)]
    · intro i hi
      simp only at hi ⊢
      rw [List.getElem?_set_ne (fun h => hi h.symm)]


theorem store_layoutInv {m : RecordBuffer} (h : LayoutInv m) (p : Nat × Nat) (x : RecordData) :
    LayoutInv (m.store p x) := by
  unfold MultiStackBuffer.store
  cases hb : m.stack_buffer_list_[p.1]? with
  | none => exact h
  | some blk =>
    obtain ⟨hper, ⟨front, last, hl, hcur, hfull, hlast, htot⟩, hcap, hes⟩ := h
    have hblk : blk ∈ m.stack_buffer_list_ := List.getElem?_mem hb
    refine ⟨hper, ?_, ?_, ?_⟩
    · by_cases hp : p.1 < front.length
      · have hfr : front[p.1]? = some blk := by
          rw [hl, List.getElem?_append_left hp] at hb
          exact hb
        refine ⟨front.set p.1 (blk.write p.2 x), last, ?_, by simp [hcur], ?_, hlast,
          by simp; exact htot⟩
        · show m.stack_buffer_list_.set p.1 _ = _
          rw [hl, List.set_append_left _ _ hp]
        · intro b hb2
          rcases List.mem_or_eq_of_mem_set hb2 with h1 | h1
          · exact hfull b h1
          · rw [h1]
            exact hfull blk (List.getElem?_mem hfr)
      · have hp2 : p.1 = front.length := by
          have := (List.getElem?_eq_some.mp hb).1
          rw [hl] at this
          simp at this
          omega
        have hlastblk : blk = last := by
          rw [hl, hp2] at hb
          simpa using hb.symm
        refine ⟨front, last.write p.2 x, ?_, hcur, hfull, hlast, htot⟩
        show m.stack_buffer_list_.set p.1 _ = _
        rw [hl, hp2, List.set_append_right _ _ (Nat.le_refl _), hlastblk]
        simp
    · intro b hb2
      rcases List.mem_or_eq_of_mem_set hb2 with h1 | h1
      · exact hcap b h1
      · rw [h1]
        exact hcap blk hblk
    · intro b hb2
      rcases List.mem_or_eq_of_mem_set hb2 with h1 | h1
      · exact hes b h1
      · rw [h1]
        exact hes blk hblk

theorem store_fields {T : Type} (m : MultiStackBuffer T) (p : Nat × Nat) (x : T) :
    (m.store p x).per_add_count_ = m.per_add_count_
    ∧ (m.store p x).curr_count_ = m.curr_count_
    ∧ (m.store p x).records_ = m.records_
    ∧ (m.store p x).curr_stack_ = m.curr_stack_ := by
  unfold MultiStackBuffer.store
  split <;> exact ⟨rfl, rfl, rfl, rfl⟩

theorem load_store_ne {T : Type} [CLayout T] (m : MultiStackBuffer T) (p q : Nat × Nat) (x : T)
    (hne : q ≠ p) : (m.store p x).load q = m.load q := by
  unfold MultiStackBuffer.store
  cases hb : m.stack_buffer_list_[p.1]? with
  | none => rfl
  | some blk =>
    simp only [MultiStackBuffer.load]
    by_cases hq : q.1 = p.1
    · have hq2 : q.2 ≠ p.2 := by
        intro h2
        exact hne (Prod.ext hq h2)
      rw [hq, List.getElem?_set_eq_of_lt _ (List.getElem?_eq_some.mp hb).1, hb]
      simp [StackBuffer.write, hq2]
    · rw [List.getElem?_set_ne (fun h => hq h.symm)]

theorem load_store_same {T : Type} [CLayout T] (m : MultiStackBuffer T) (p : Nat × Nat) (x : T)
    (blk : StackBuffer T) (hb : m.stack_buffer_list_[p.1]? = some blk) :
    (m.store p x).load p = x := by
  unfold MultiStackBuffer.store
  simp only [hb, MultiStackBuffer.load]
  rw [List.getElem?_set_eq_of_lt _ (List.getElem?_eq_some.mp hb).1]
  simp [StackBuffer.write]

theorem blocksAt_layout {T : Type} (per : Nat) (hper : per ≠ 0) (last : StackBuffer T)
    (hlast : last.curr_count_ ≤ per) :
    ∀ (front : List (StackBuffer T)) (k : Nat), (∀ b ∈ front, b.curr_count_ = per) →
      k < front.length * per + last.curr_count_ →
      blocksAt (front ++ [last]) k
        = ((front ++ [last])[k / per]?).map (fun b => b.buffer_ (k % per))
  | [], k, _, hk => by
    simp only [List.length_nil, Nat.zero_mul, Nat.zero_add] at hk
    have hklt : k < per := by omega
    simp [blocksAt, hk, Nat.div_eq_of_lt hklt, Nat.mod_eq_of_lt hklt]
  | b :: rest, k, hfull, hk => by
    have hb := hfull b (List.mem_cons_self _ _)
    have hpos : 0 < per := by omega
    simp only [List.cons_append, blocksAt, hb]
    by_cases hklt : k < per
    · simp [hklt, Nat.div_eq_of_lt hklt, Nat.mod_eq_of_lt hklt]
    · have hge : per ≤ k := by omega
      obtain ⟨j, rfl⟩ : ∃ j, k = j + per := ⟨k - per, by omega⟩
      have hj : j < rest.length * per + last.curr_count_ := by
        simp only [List.length_cons, Nat.add_mul, Nat.one_mul] at hk
        omega
      have ih := blocksAt_layout per hper last hlast rest j
        (fun x hx => hfull x (List.mem_cons_of_mem _ hx)) hj
      simp only [hklt, if_false, Nat.add_sub_cancel, Nat.add_div_right _ hpos,
        Nat.add_mod_right, List.getElem?_cons_succ]
      exact ih

theorem SaveLoop_content :
    ∀ (l : List (StackBuffer RecordData)) (sb : RecordCopy), sb.element_size_ = 12 →
      (∀ b ∈ l, b.element_size_ = 12) →
      sb.curr_count_ + (l.map StackBuffer.curr_count_).sum ≤ sb.max_count_ →
      ∃ sb1, MultiStackBuffer.SaveLoop l sb = some sb1
        ∧ sb1.curr_count_ = sb.curr_count_ + (l.map StackBuffer.curr_count_).sum
        ∧ sb1.max_count_ = sb.max_count_
        ∧ (∀ i, i < sb.curr_count_ → sb1.buffer_ i = sb.buffer_ i)
        ∧ (∀ k, k < (l.map StackBuffer.curr_count_).sum →
            blocksAt l k = some (sb1.buffer_ (sb.curr_count_ + k)))
  | [], sb, _, _, _ => by
    refine ⟨sb, rfl, by simp, rfl, fun _ _ => rfl, ?_⟩
    intro k hk
    simp at hk
  | b :: rest, sb, hes, hl, hcap => by
    have hbes := hl b (List.mem_cons_self _ _)
    have hl2 : ∀ x ∈ rest, x.element_size_ = 12 := fun x hx => hl x (List.mem_cons_of_mem _ hx)
    simp only [List.map_cons, List.sum_cons] at hcap ⊢
    unfold MultiStackBuffer.SaveLoop
    by_cases hc : b.curr_count_ = 0
    · have hsize : ¬ (b.BufferSize > 0) := by
        simp [StackBuffer.BufferSize, hc]
      obtain ⟨sb1, h1, h2, h3, h4, h5⟩ := SaveLoop_content rest sb hes hl2 (by omega)
      rw [if_neg hsize]
      refine ⟨sb1, h1, by omega, h3, h4, ?_⟩
      intro k hk
      simp only [blocksAt, hc, Nat.not_lt_zero, if_false, Nat.sub_zero]
      exact h5 k (by omega)
    · have hsize : b.BufferSize > 0 := by
        simp only [StackBuffer.BufferSize, hbes]
        omega
      have hput : ∃ sb2 : RecordCopy, sb.Put b.Buffer b.BufferSize = some sb2
          ∧ sb2.element_size_ = 12 ∧ sb2.max_count_ = sb.max_count_
          ∧ sb2.curr_count_ = sb.curr_count_ + b.curr_count_
          ∧ ∀ i, sb2.buffer_ i =
              if sb.curr_count_ ≤ i ∧ i < sb.curr_count_ + b.curr_count_
              then b.buffer_ (i - sb.curr_count_) else sb.buffer_ i := by
        unfold StaticBuffer.Put
        have hle : sb.curr_count_ * sb.element_size_ + b.BufferSize
            ≤ sb.max_count_ * sb.element_size_ := by
          simp only [StackBuffer.BufferSize, hbes, hes]
          omega
        have hdiv : b.curr_count_ * 12 / 12 = b.curr_count_ := by omega
        simp only [hle, if_true]
        refine ⟨_, rfl, hes, rfl, ?_, ?_⟩
        · simp only [StackBuffer.BufferSize, hbes, hes, hdiv]
        · intro i
          simp only [StackBuffer.BufferSize, hbes, hes, hdiv, StackBuffer.Buffer]
      obtain ⟨sb2, hput1, hes2, hmax2, hcnt2, hbuf2⟩ := hput
      obtain ⟨sb1, h1, h2, h3, h4, h5⟩ := SaveLoop_content rest sb2 hes2 hl2
        (by rw [hcnt2, hmax2]; omega)
      rw [if_pos hsize, hput1]
      refine ⟨sb1, h1, ?_, by rw [h3, hmax2], ?_, ?_⟩
      · rw [h2, hcnt2]
        omega
      · intro i hi
        rw [h4 i (by rw [hcnt2]; omega), hbuf2]
        have : ¬ (sb.curr_count_ ≤ i ∧ i < sb.curr_count_ + b.curr_count_) := by omega
        simp only [this, if_false]
      · intro k hk
        simp only [blocksAt]
        by_cases hkb : k < b.curr_count_
        · rw [if_pos hkb, h4 (sb.curr_count_ + k) (by rw [hcnt2]; omega), hbuf2]
          have : sb.curr_count_ ≤ sb.curr_count_ + k
              ∧ sb.curr_count_ + k < sb.curr_count_ + b.curr_count_ := by omega
          simp only [this, and_self, if_true, Nat.add_sub_cancel_left]
        · rw [if_neg hkb, h5 (k - b.curr_count_) (by omega), hcnt2]
          congr 2
          omega

/-- What `Save` does on an arena with the layout invariant: no assert fails, and the
snapshot appended holds the live records of the handles issued, in handle order. -/
theorem Save_layout (m : RecordBuffer) (h : LayoutInv m) :
    ∃ sb : RecordCopy, m.Save = some { m with records_ := m.records_ ++ [sb] }
      ∧ sb.curr_count_ = m.curr_count_
      ∧ (∀ k, k < m.curr_count_ → sb.buffer_ k = m.live k) := by
  have hlive := layoutInv_liveCount h
  obtain ⟨hper, ⟨front, last, hl, hcur, hfull, hlast, htot⟩, hcap, hes⟩ := h
  unfold MultiStackBuffer.liveCount at hlive
  obtain ⟨sb1, h1, h2, h3, h4, h5⟩ := SaveLoop_content m.stack_buffer_list_
    (StaticBuffer.new m.curr_count_) rfl hes
    (by simp only [StaticBuffer.new, hlive, Nat.zero_add]; exact Nat.le_refl _)
  refine ⟨sb1, ?_, ?_, ?_⟩
  · unfold MultiStackBuffer.Save
    rw [h1]
  · rw [h2, hlive]
    simp [StaticBuffer.new]
  · intro k hk
    have := h5 k (by rw [hlive]; exact hk)
    simp only [StaticBuffer.new, Nat.zero_add] at this
    rw [hl, blocksAt_layout m.per_add_count_ hper last hlast front k hfull (by omega)] at this
    unfold MultiStackBuffer.live MultiStackBuffer.load handlePtr
    simp only
    rw [hl]
    cases hb : (front ++ [last])[k / m.per_add_count_]? with
    | none => simp [hb] at this
    | some blk =>
      simp only [hb, Option.map_some', Option.some.injEq] at this
      exact this.symm

theorem handlePtr_inj (per a b : Nat) (h : handlePtr per a = handlePtr per b) : a = b := by
  unfold handlePtr at h
  simp only [Prod.mk.injEq] at h
  rw [← Nat.div_add_mod a per, ← Nat.div_add_mod b per, h.1, h.2]

theorem layoutInv_live_slot {m : RecordBuffer} (h : LayoutInv m) (k : Nat)
    (hk : k < m.curr_count_) :
    ∃ b, m.stack_buffer_list_[k / m.per_add_count_]? = some b
      ∧ k % m.per_add_count_ < b.curr_count_ := by
  obtain ⟨hper, ⟨front, last, hl, hcur, hfull, hlast, htot⟩, hcap, hes⟩ := h
  have hpos : 0 < m.per_add_count_ := by omega
  by_cases hlt : k / m.per_add_count_ < front.length
  · have hfr : ∃ b, front[k / m.per_add_count_]? = some b :=
      ⟨front[k / m.per_add_count_], List.getElem?_eq_getElem hlt⟩
    obtain ⟨b, hb⟩ := hfr
    refine ⟨b, by rw [hl, List.getElem?_append_left hlt]; exact hb, ?_⟩
    rw [hfull b (List.getElem?_mem hb)]
    exact Nat.mod_lt _ hpos
  · have hdm := Nat.div_add_mod k m.per_add_count_
    have hge : front.length * m.per_add_count_ ≤ m.per_add_count_ * (k / m.per_add_count_) := by
      rw [Nat.mul_comm]
      exact Nat.mul_le_mul_left _ (by omega)
    have hq : k / m.per_add_count_ = front.length := by
      by_contra hne
      have h2 : front.length + 1 ≤ k / m.per_add_count_ := by omega
      have h3 : m.per_add_count_ * (front.length + 1) ≤ m.per_add_count_ * (k / m.per_add_count_) :=
        Nat.mul_le_mul_left _ h2
      rw [Nat.mul_add, Nat.mul_one, Nat.mul_comm] at h3
      omega
    refine ⟨last, by rw [hl, hq]; simp, ?_⟩
    rw [hq, Nat.mul_comm] at hdm
    omega

theorem range_succ_map {α : Type} (f : Nat → α) (n : Nat) :
    (List.range (n + 1)).map f = f 0 :: (List.range n).map (fun i => f (i + 1)) := by
  rw [List.range_succ_eq_map, List.map_cons, List.map_map]
  rfl

/-- Every list of operations runs to its end on an arena with the layout invariant; the
handles issued are consecutive and each lies at its place in the blocks. -/
theorem arenaRun_layout :
    ∀ (ops : List ArenaOp) (m : RecordBuffer), LayoutInv m →
      ∃ m1 issued, arenaRun m ops = some (m1, issued) ∧ LayoutInv m1
        ∧ m1.per_add_count_ = m.per_add_count_
        ∧ m1.curr_count_ = m.curr_count_ + getCount ops
        ∧ issued = (List.range (getCount ops)).map
            (fun i => (m.curr_count_ + i, handlePtr m.per_add_count_ (m.curr_count_ + i)))
  | [], m, h => ⟨m, [], rfl, h, rfl, rfl, rfl⟩
  | .get :: ops, m, h => by
    obtain ⟨m1, hg, hinv1, hper1, hcnt1, -⟩ := Get_layout m ⟨0, 0⟩ h
    obtain ⟨m2, issued, hrun, hinv2, hper2, hcnt2, hiss⟩ := arenaRun_layout ops m1 hinv1
    refine ⟨m2, (m.curr_count_, handlePtr m.per_add_count_ m.curr_count_) :: issued, ?_, hinv2,
      by rw [hper2, hper1], ?_, ?_⟩
    · simp only [arenaRun, ArenaOp.apply, hg, Option.map_some', hrun, Option.toList_some,
        List.singleton_append]
    · simp only [getCount]
      omega
    · simp only [getCount]
      rw [range_succ_map, hiss, hper1, hcnt1]
      simp only [Nat.add_zero, List.cons.injEq, true_and]
      apply List.map_congr_left
      intro i _
      simp only [Nat.add_assoc, Nat.add_comm 1 i]
  | .store p x :: ops, m, h => by
    obtain ⟨hper1, hcnt1, _, _⟩ := store_fields m p x
    obtain ⟨m2, issued, hrun, hinv2, hper2, hcnt2, hiss⟩ :=
      arenaRun_layout ops (m.store p x) (store_layoutInv h p x)
    refine ⟨m2, issued, ?_, hinv2, by rw [hper2, hper1], by rw [hcnt2, hcnt1]; rfl, ?_⟩
    · simp only [arenaRun, ArenaOp.apply, hrun, Option.toList_none, List.nil_append]
    · rw [hiss, hper1, hcnt1]
      rfl
  | .save :: ops, m, h => by
    obtain ⟨sb, hs, _, _⟩ := Save_layout m h
    have hinv1 : LayoutInv { m with records_ := m.records_ ++ [sb] } :=
      ⟨h.per_pos, h.blocks, h.capacity, h.element_size⟩
    obtain ⟨m2, issued, hrun, hinv2, hper2, hcnt2, hiss⟩ := arenaRun_layout ops _ hinv1
    refine ⟨m2, issued, ?_, hinv2, hper2, hcnt2, hiss⟩
    simp only [arenaRun, ArenaOp.apply, hs, Option.map_some', hrun, Option.toList_none,
      List.nil_append]

theorem arenaFrom_layout (per : Nat) (hper : per ≠ 0) (ops : List ArenaOp) :
    ∃ m issued, arenaFrom per ops = some (m, issued) ∧ LayoutInv m
      ∧ m.per_add_count_ = per ∧ m.curr_count_ = getCount ops
      ∧ issued = (List.range (getCount ops)).map (fun i => (i, handlePtr per i)) := by
  obtain ⟨m0, hnew, hinv0, hper0, hcnt0, _⟩ := new_layoutInv per hper
  obtain ⟨m, issued, hrun, hinv, hper1, hcnt1, hiss⟩ := arenaRun_layout ops m0 hinv0
  refine ⟨m, issued, ?_, hinv, by rw [hper1, hper0], by rw [hcnt1, hcnt0, Nat.zero_add], ?_⟩
  · unfold arenaFrom
    rw [hnew]
    exact hrun
  · rw [hiss, hper0, hcnt0]
    simp only [Nat.zero_add]

/-! ## Claims about the counter arena -/

/-- C12: on a fresh arena with blocks of `per` records, after any operations of which `k`
are calls of `Get`, the next call of `Get` succeeds and returns the handle `k` with a record
whose call count and self time are zero, at an address no earlier call returned.  The
earlier calls returned the handles `0, ..., k - 1`; the records at the addresses they
returned keep their values and every block but the one that receives the new record is
left as it is, also when the call appends a block. -/
theorem C12_fresh_allocation (per : Nat) (hper : per ≠ 0) (ops : List ArenaOp) :
    ∃ m issued m1 p, arenaFrom per ops = some (m, issued)
      ∧ issued.map Prod.fst = List.range (getCount ops)
      ∧ m.Get ⟨0, 0⟩ = some (m1, (getCount ops, p))
      ∧ m1.load p = ⟨0, 0⟩
      ∧ (∀ e ∈ issued, e.2 ≠ p ∧ m1.load e.2 = m.load e.2)
      ∧ (∀ i, i ≠ p.1 → m1.stack_buffer_list_[i]? = m.stack_buffer_list_[i]?) := by
  obtain ⟨m, issued, hrun, hinv, hper1, hcnt, hiss⟩ := arenaFrom_layout per hper ops
  obtain ⟨m1, hg, _, _, _, _, hload, hother, _, hblocks⟩ := Get_layout m ⟨0, 0⟩ hinv
  rw [hper1, hcnt] at hg hload hother hblocks
  refine ⟨m, issued, m1, handlePtr per (getCount ops), hrun, ?_, hg, hload, ?_, hblocks⟩
  · rw [hiss, List.map_map]
    exact List.map_id _
  · intro e he
    rw [hiss, List.mem_map] at he
    obtain ⟨i, hi, rfl⟩ := he
    have hne : handlePtr per i ≠ handlePtr per (getCount ops) := by
      intro heq
      have := handlePtr_inj per _ _ heq
      rw [List.mem_range] at hi
      omega
    exact ⟨hne, hother _ hne⟩

/-- Instance of C12: blocks of two records; the third call of `Get` appends a block. -/
theorem C12_fresh_allocation_witness :
    ∃ m issued m1 p, arenaFrom 2 [.get, .store (0, 0) ⟨1, 5⟩, .get] = some (m, issued)
      ∧ issued.map Prod.fst = List.range (getCount [.get, .store (0, 0) ⟨1, 5⟩, .get])
      ∧ m.Get ⟨0, 0⟩ = some (m1, (getCount [.get, .store (0, 0) ⟨1, 5⟩, .get], p))
      ∧ m1.load p = ⟨0, 0⟩
      ∧ (∀ e ∈ issued, e.2 ≠ p ∧ m1.load e.2 = m.load e.2)
      ∧ (∀ i, i ≠ p.1 → m1.stack_buffer_list_[i]? = m.stack_buffer_list_[i]?) :=
  C12_fresh_allocation 2 (by decide) [.get, .store (0, 0) ⟨1, 5⟩, .get]

/-- C13: in every state of an arena reached from a fresh one by calls of `Get`, stores and
calls of `Save`, every block has the capacity `per_add_count_`, every block but the last
holds `per_add_count_` records, the record counts of the blocks add up to the number of
handles issued, the block on which `Get` calls `StackBuffer::Get` is not full (so
`StackBuffer::Resize` is not reached), and the handle `h` was issued with, and lies at, slot
`h mod per_add_count_` of block `h div per_add_count_`. -/
theorem C13_blocks_never_resized (per : Nat) (hper : per ≠ 0) (ops : List ArenaOp) :
    ∃ m issued, arenaFrom per ops = some (m, issued)
      ∧ m.per_add_count_ = per
      ∧ (∀ b ∈ m.stack_buffer_list_, b.max_count_ = per)
      ∧ (∀ i b, m.stack_buffer_list_[i]? = some b → i + 1 < m.stack_buffer_list_.length →
          b.curr_count_ = per)
      ∧ m.liveCount = m.curr_count_
      ∧ m.curr_count_ = getCount ops
      ∧ (∃ blk, m.targetBlock = some blk ∧ blk.IsFull = false)
      ∧ issued = (List.range (getCount ops)).map (fun h => (h, (h / per, h % per)))
      ∧ (∀ h, h < getCount ops →
          ∃ b, m.stack_buffer_list_[h / per]? = some b ∧ h % per < b.curr_count_) := by
  obtain ⟨m, issued, hrun, hinv, hper1, hcnt, hiss⟩ := arenaFrom_layout per hper ops
  obtain ⟨_, _, _, _, _, _, _, _, htarget, _⟩ := Get_layout m ⟨0, 0⟩ hinv
  refine ⟨m, issued, hrun, hper1, ?_, ?_, layoutInv_liveCount hinv, hcnt, htarget, hiss, ?_⟩
  · intro b hb
    rw [← hper1]
    exact hinv.capacity b hb
  · intro i b hb hi
    obtain ⟨front, last, hl, _, hfull, _, _⟩ := hinv.blocks
    rw [hl] at hb hi
    simp only [List.length_append, List.length_singleton] at hi
    rw [List.getElem?_append_left (by omega)] at hb
    rw [← hper1]
    exact hfull b (List.getElem?_mem hb)
  · intro h hh
    have := layoutInv_live_slot hinv h (by rw [hcnt]; exact hh)
    rw [hper1] at this
    exact this

/-- Instance of C13: blocks of two records and five handles issued. -/
theorem C13_blocks_never_resized_witness :
    ∃ m issued, arenaFrom 2 [.get, .get, .save, .get, .get, .get] = some (m, issued)
      ∧ m.per_add_count_ = 2
      ∧ (∀ b ∈ m.stack_buffer_list_, b.max_count_ = 2)
      ∧ (∀ i b, m.stack_buffer_list_[i]? = some b → i + 1 < m.stack_buffer_list_.length →
          b.curr_count_ = 2)
      ∧ m.liveCount = m.curr_count_
      ∧ m.curr_count_ = getCount [.get, .get, .save, .get, .get, .get]
      ∧ (∃ blk, m.targetBlock = some blk ∧ blk.IsFull = false)
      ∧ issued = (List.range (getCount [.get, .get, .save, .get, .get, .get])).map
          (fun h => (h, (h / 2, h % 2)))
      ∧ (∀ h, h < getCount [.get, .get, .save, .get, .get, .get] →
          ∃ b, m.stack_buffer_list_[h / 2]? = some b ∧ h % 2 < b.curr_count_) :=
  C13_blocks_never_resized 2 (by decide) [.get, .get, .save, .get, .get, .get]

/-- C14: in every state of an arena reached from a fresh one, with `n` handles issued,
`Save` fails no assert and appends one snapshot, found at the index that was the number of
snapshots; for every handle issued the snapshot holds, at the handle, the value of the live
record at the address returned with the handle, and `At` finds nothing from `n` on. -/
theorem C14_save_snapshot (per : Nat) (hper : per ≠ 0) (ops : List ArenaOp) :
    ∃ m issued m1 sb, arenaFrom per ops = some (m, issued)
      ∧ m.Save = some m1
      ∧ m1.records_ = m.records_ ++ [sb]
      ∧ m1.GetRecordCount = m.GetRecordCount + 1
      ∧ m1.GetRecordByIndex m.GetRecordCount = some sb
      ∧ issued.map Prod.fst = List.range (getCount ops)
      ∧ (∀ e ∈ issued, sb.At e.1 = some (m.load e.2))
      ∧ (∀ h, getCount ops ≤ h → sb.At h = none) := by
  obtain ⟨m, issued, hrun, hinv, hper1, hcnt, hiss⟩ := arenaFrom_layout per hper ops
  obtain ⟨sb, hsave, hsbcnt, hsb⟩ := Save_layout m hinv
  refine ⟨m, issued, _, sb, hrun, hsave, rfl, ?_, ?_, ?_, ?_, ?_⟩
  · simp [MultiStackBuffer.GetRecordCount]
  · simp [MultiStackBuffer.GetRecordByIndex, MultiStackBuffer.GetRecordCount]
  · rw [hiss, List.map_map]
    exact List.map_id _
  · intro e he
    rw [hiss, List.mem_map] at he
    obtain ⟨i, hi, rfl⟩ := he
    rw [List.mem_range] at hi
    have hlt : ¬ (i ≥ sb.curr_count_) := by omega
    simp only [StaticBuffer.At, hlt, if_false, hsb i (by omega), MultiStackBuffer.live, hper1]
  · intro h hh
    have hge : h ≥ sb.curr_count_ := by omega
    simp only [StaticBuffer.At, hge, if_true]

/-- Instance of C14: blocks of two records, three handles issued (more than a block). -/
theorem C14_save_snapshot_witness :
    ∃ m issued m1 sb,
      arenaFrom 2 [.get, .get, .store (0, 1) ⟨2, 9⟩, .save, .get] = some (m, issued)
      ∧ m.Save = some m1
      ∧ m1.records_ = m.records_ ++ [sb]
      ∧ m1.GetRecordCount = m.GetRecordCount + 1
      ∧ m1.GetRecordByIndex m.GetRecordCount = some sb
      ∧ issued.map Prod.fst
          = List.range (getCount [.get, .get, .store (0, 1) ⟨2, 9⟩, .save, .get])
      ∧ (∀ e ∈ issued, sb.At e.1 = some (m.load e.2))
      ∧ (∀ h, getCount [.get, .get, .store (0, 1) ⟨2, 9⟩, .save, .get] ≤ h → sb.At h = none) :=
  C14_save_snapshot 2 (by decide) [.get, .get, .store (0, 1) ⟨2, 9⟩, .save, .get]


/-! ## Interning -/

theorem GetFunctionInfo_lua (s : LuaProfilerState) (ar : lua_Debug) (f : Nat)
    (h : ¬ ar.what.get 0 = 'C') :
    ∃ d, (s.GetFunctionInfo ar f).2 = some d
      ∧ (s.GetFunctionInfo ar f).1.luaDescriptor ar.source ar.linedefined = some d
      ∧ (s.luaDescriptor ar.source ar.linedefined = some d
          ∨ (s.luaDescriptor ar.source ar.linedefined = none ∧ d = s.function_infos_.length
              ∧ (s.GetFunctionInfo ar f).1.function_infos_.length = s.function_infos_.length + 1))
      ∧ (∀ src l, ¬ (src = ar.source ∧ l = ar.linedefined) →
          (s.GetFunctionInfo ar f).1.luaDescriptor src l = s.luaDescriptor src l)
      ∧ (s.GetFunctionInfo ar f).1.c_profiler_funcs_ = s.c_profiler_funcs_
      ∧ s.function_infos_.length ≤ (s.GetFunctionInfo ar f).1.function_infos_.length := by
  unfold LuaProfilerState.GetFunctionInfo
  simp only [h, if_false]
  split
  · rename_i d hm
    have hd : s.luaDescriptor ar.source ar.linedefined = some d := by
      unfold LuaProfilerState.luaDescriptor
      cases hs : s.lua_profiler_funcs_ ar.source with
      | none => simp [hs] at hm
      | some m =>
        simp only [hs] at hm ⊢
        exact hm
    exact ⟨d, rfl, hd, Or.inl hd, fun _ _ _ => rfl, rfl, Nat.le_refl _⟩
  · rename_i hm
    have hd : s.luaDescriptor ar.source ar.linedefined = none := by
      unfold LuaProfilerState.luaDescriptor
      cases hs : s.lua_profiler_funcs_ ar.source with
      | none => rfl
      | some m =>
        simp only [hs] at hm ⊢
        exact hm
    refine ⟨s.function_infos_.length, rfl, ?_, Or.inr ⟨hd, rfl, by simp⟩, ?_, rfl, by simp⟩
    · simp [LuaProfilerState.luaDescriptor]
    · intro src l hne
      simp only [LuaProfilerState.luaDescriptor]
      by_cases hsrc : src = ar.source
      · have hl : l ≠ ar.linedefined := fun hl => hne ⟨hsrc, hl⟩
        simp only [hsrc, if_true, hl, if_false]
        cases s.lua_profiler_funcs_ ar.source <;> rfl
      · simp only [hsrc, if_false]

theorem GetFunctionInfo_c (s : LuaProfilerState) (ar : lua_Debug) (f : Nat)
    (h : ar.what.get 0 = 'C') :
    (∀ src l, (s.GetFunctionInfo ar f).1.luaDescriptor src l = s.luaDescriptor src l)
      ∧ (∀ d, (s.GetFunctionInfo ar f).2 = some d →
          (s.GetFunctionInfo ar f).1.c_profiler_funcs_ f = some d)
      ∧ (∀ g d, (s.GetFunctionInfo ar f).1.c_profiler_funcs_ g = some d →
          s.c_profiler_funcs_ g = some d
          ∨ (d = s.function_infos_.length
              ∧ (s.GetFunctionInfo ar f).1.function_infos_.length = s.function_infos_.length + 1))
      ∧ (∀ g d, s.c_profiler_funcs_ g = some d →
          (s.GetFunctionInfo ar f).1.c_profiler_funcs_ g = some d)
      ∧ s.function_infos_.length ≤ (s.GetFunctionInfo ar f).1.function_infos_.length := by
  unfold LuaProfilerState.GetFunctionInfo
  simp only [h, if_true]
  cases hc : s.c_profiler_funcs_ f with
  | some d0 =>
    refine ⟨fun _ _ => rfl, ?_, fun g d hg => Or.inl hg, fun g d hg => hg, Nat.le_refl _⟩
    intro d hd
    simp only [Option.some.injEq] at hd
    rw [← hd]
    exact hc
  | none =>
    simp only
    split
    all_goals
      refine ⟨fun _ _ => rfl, ?_, ?_, ?_, by simp⟩
      · intro d hd
        simp only at hd
        first
          | (cases hd
             done)
          | (cases hd
             simp)
      · intro g d hg
        simp only at hg
        split at hg
        · simp only [Option.some.injEq] at hg
          exact Or.inr ⟨hg.symm, by simp⟩
        · exact Or.inl hg
      · intro g d hg
        simp only
        split
        · rename_i hgf
          rw [hgf, hc] at hg
          cases hg
        · exact hg

theorem GetFunctionInfo_registryInv (s : LuaProfilerState) (ar : lua_Debug) (f : Nat)
    (h : RegistryInv s) : RegistryInv (s.GetFunctionInfo ar f).1 := by
  by_cases hC : ar.what.get 0 = 'C'
  · obtain ⟨hlua, _, hnew, _, hlen⟩ := GetFunctionInfo_c s ar f hC
    refine ⟨?_, ?_, ?_, ?_⟩
    · intro src l d hd
      rw [hlua] at hd
      exact Nat.lt_of_lt_of_le (h.lua_lt src l d hd) hlen
    · intro g d hd
      rcases hnew g d hd with h1 | ⟨h1, h2⟩
      · exact Nat.lt_of_lt_of_le (h.c_lt g d h1) hlen
      · omega
    · intro src l src1 l1 d h1 h2
      rw [hlua] at h1 h2
      exact h.lua_inj src l src1 l1 d h1 h2
    · intro src l g d h1 h2
      rw [hlua] at h1
      rcases hnew g d h2 with h3 | ⟨h3, _⟩
      · exact h.disjoint src l g d h1 h3
      · have := h.lua_lt src l d h1
        omega
  · obtain ⟨d0, _, hkey, hcase, hother, hc, hlen⟩ := GetFunctionInfo_lua s ar f hC
    have hold : ∀ src l d, (s.GetFunctionInfo ar f).1.luaDescriptor src l = some d →
        s.luaDescriptor src l = some d
          ∨ (src = ar.source ∧ l = ar.linedefined ∧ d = s.function_infos_.length
              ∧ (s.GetFunctionInfo ar f).1.function_infos_.length
                  = s.function_infos_.length + 1) := by
      intro src l d hd
      by_cases hk : src = ar.source ∧ l = ar.linedefined
      · rw [hk.1, hk.2, hkey, Option.some.injEq] at hd
        rcases hcase with h1 | ⟨_, h2, h3⟩
        · exact Or.inl (by rw [hk.1, hk.2, ← hd]; exact h1)
        · exact Or.inr ⟨hk.1, hk.2, by rw [← hd]; exact h2, h3⟩
      · rw [hother src l hk] at hd
        exact Or.inl hd
    refine ⟨?_, ?_, ?_, ?_⟩
    · intro src l d hd
      rcases hold src l d hd with h1 | ⟨_, _, h2, h3⟩
      · exact Nat.lt_of_lt_of_le (h.lua_lt src l d h1) hlen
      · omega
    · intro g d hd
      rw [hc] at hd
      exact Nat.lt_of_lt_of_le (h.c_lt g d hd) hlen
    · intro src l src1 l1 d h1 h2
      rcases hold src l d h1 with h3 | ⟨h3, h4, h5, _⟩
      · rcases hold src1 l1 d h2 with h6 | ⟨_, _, h7, _⟩
        · exact h.lua_inj src l src1 l1 d h3 h6
        · have := h.lua_lt src l d h3
          omega
      · rcases hold src1 l1 d h2 with h6 | ⟨h6, h7, _, _⟩
        · have := h.lua_lt src1 l1 d h6
          omega
        · exact ⟨by rw [h3, h6], by rw [h4, h7]⟩
    · intro src l g d h1 h2
      rw [hc] at h2
      rcases hold src l d h1 with h3 | ⟨_, _, h5, _⟩
      · exact h.disjoint src l g d h3 h2
      · have := h.c_lt g d h2
        omega

theorem GetFunctionInfo_extends (s : LuaProfilerState) (ar : lua_Debug) (f : Nat) :
    (∀ src l d, s.luaDescriptor src l = some d →
      (s.GetFunctionInfo ar f).1.luaDescriptor src l = some d)
    ∧ (∀ g d, s.c_profiler_funcs_ g = some d →
      (s.GetFunctionInfo ar f).1.c_profiler_funcs_ g = some d) := by
  by_cases hC : ar.what.get 0 = 'C'
  · obtain ⟨hlua, _, _, hkeep, _⟩ := GetFunctionInfo_c s ar f hC
    exact ⟨fun src l d hd => by rw [hlua]; exact hd, hkeep⟩
  · obtain ⟨d0, _, hkey, hcase, hother, hc, _⟩ := GetFunctionInfo_lua s ar f hC
    refine ⟨?_, fun g d hd => by rw [hc]; exact hd⟩
    intro src l d hd
    by_cases hk : src = ar.source ∧ l = ar.linedefined
    · rw [hk.1, hk.2] at hd ⊢
      rcases hcase with h1 | ⟨h1, _, _⟩
      · rw [hkey, ← h1, hd]
      · rw [h1] at hd
        cases hd
    · rw [hother src l hk]
      exact hd

/-- The registry after a sequence of lookups: it keeps the invariant, it keeps every entry
it had, and it holds the result of every lookup of the sequence under the key of the
lookup. -/
theorem afterLookups_spec :
    ∀ (qs : List (lua_Debug × Nat)) (s : LuaProfilerState), RegistryInv s →
      RegistryInv (s.afterLookups qs)
      ∧ (∀ src l d, s.luaDescriptor src l = some d →
          (s.afterLookups qs).luaDescriptor src l = some d)
      ∧ (∀ g d, s.c_profiler_funcs_ g = some d →
          (s.afterLookups qs).c_profiler_funcs_ g = some d)
      ∧ ∀ (j : Nat) (q : lua_Debug × Nat), qs[j]? = some q →
          ∃ r, (s.lookups qs)[j]? = some r
            ∧ (q.1.interpreted = true → ∃ d, r = some d
                ∧ (s.afterLookups qs).luaDescriptor q.1.source q.1.linedefined = some d)
            ∧ (q.1.interpreted = false → ∀ d, r = some d →
                (s.afterLookups qs).c_profiler_funcs_ q.2 = some d)
  | [], s, h => ⟨h, fun _ _ _ hd => hd, fun _ _ hd => hd, fun j q hq => by simp at hq⟩
  | q0 :: qs, s, h => by
    have hinv1 := GetFunctionInfo_registryInv s q0.1 q0.2 h
    obtain ⟨hext1, hext2⟩ := GetFunctionInfo_extends s q0.1 q0.2
    obtain ⟨hinvF, hextF1, hextF2, hres⟩ := afterLookups_spec qs _ hinv1
    refine ⟨hinvF, fun src l d hd => hextF1 src l d (hext1 src l d hd),
      fun g d hd => hextF2 g d (hext2 g d hd), ?_⟩
    intro j q hq
    cases j with
    | zero =>
      simp only [List.getElem?_cons_zero, Option.some.injEq] at hq
      subst hq
      refine ⟨(s.GetFunctionInfo q0.1 q0.2).2, by simp [LuaProfilerState.lookups], ?_, ?_⟩
      · intro hi
        have hC : ¬ q0.1.what.get 0 = 'C' := by
          simpa [lua_Debug.interpreted] using hi
        obtain ⟨d, hd, hkey, _⟩ := GetFunctionInfo_lua s q0.1 q0.2 hC
        exact ⟨d, hd, hextF1 _ _ _ hkey⟩
      · intro hi d hd
        have hC : q0.1.what.get 0 = 'C' := by
          simpa [lua_Debug.interpreted] using hi
        exact hextF2 _ _ ((GetFunctionInfo_c s q0.1 q0.2 hC).2.1 d hd)
    | succ j =>
      simp only [List.getElem?_cons_succ] at hq
      obtain ⟨r, hr, h1, h2⟩ := hres j q hq
      exact ⟨r, by simp [LuaProfilerState.lookups, hr], h1, h2⟩


/-! ## How an event changes the tree and the arena -/

theorem Evolves.mono {C C1 D D1 : Nat → Prop} (hC : ∀ e, C e → C1 e) (hD : ∀ i, D i → D1 i)
    {n k : Nat} {root root1 : Record} {b b1 : RecordBuffer}
    (h : Evolves C D n k root b root1 b1) : Evolves C1 D1 n k root b root1 b1 := by
  induction h with
  | refl root b => exact Evolves.refl root b
  | credit p r e _ hg hc ih => exact Evolves.credit p r e ih hg (hC e hc)
  | count p r _ hg ih => exact Evolves.count p r ih hg
  | child p q info _ hd hg ih => exact Evolves.child p q info ih (hD info hd) hg

theorem Evolves.trans {C D : Nat → Prop} {n k n1 k1 : Nat} {root root1 root2 : Record}
    {b b1 b2 : RecordBuffer} (h1 : Evolves C D n k root b root1 b1)
    (h2 : Evolves C D n1 k1 root1 b1 root2 b2) :
    Evolves C D (n + n1) (k + k1) root b root2 b2 := by
  induction h2 with
  | refl root b => exact h1
  | credit p r e _ hg hc ih => exact Evolves.credit p r e (ih h1) hg hc
  | count p r _ hg ih => exact Evolves.count p r (ih h1) hg
  | child p q info _ hd hg ih => exact Evolves.child p q info (ih h1) hd hg

theorem AddInnerElapseAt_inv {root : Record} {b b1 : RecordBuffer} {p : RecordPtr} {e : Nat}
    (h : Record.AddInnerElapseAt root b p e = some b1) :
    ∃ r, root.getAt p = some r ∧ b1 = r.AddInnerElapse b e := by
  unfold Record.AddInnerElapseAt at h
  cases hg : root.getAt p with
  | none => simp [hg] at h
  | some r =>
    simp only [hg, Option.some.injEq] at h
    exact ⟨r, rfl, h.symm⟩

theorem AddCountAt_inv {root : Record} {b b1 : RecordBuffer} {p : RecordPtr}
    (h : Record.AddCountAt root b p = some b1) :
    ∃ r, root.getAt p = some r ∧ b1 = r.AddCount b := by
  unfold Record.AddCountAt at h
  cases hg : root.getAt p with
  | none => simp [hg] at h
  | some r =>
    simp only [hg, Option.some.injEq] at h
    exact ⟨r, rfl, h.symm⟩

theorem CoroutineJump_inv {ci ci1 : CallInfo} {root : Record} {b b1 : RecordBuffer} {t : Nat}
    (h : ci.CoroutineJump root b t = some (ci1, b1)) :
    ∃ p r, root.getAt p = some r ∧ b1 = r.AddInnerElapse b (sub64 t ci.enter_time_)
      ∧ ci1.enter_time_ = 0 := by
  unfold CallInfo.CoroutineJump at h
  cases hp : ci.record_ with
  | none => simp [hp] at h
  | some p =>
    simp only [hp] at h
    cases ha : Record.AddInnerElapseAt root b p (sub64 t ci.enter_time_) with
    | none => simp [ha] at h
    | some b2 =>
      simp only [ha, Option.some.injEq, Prod.mk.injEq] at h
      obtain ⟨r, hr, hb⟩ := AddInnerElapseAt_inv ha
      exact ⟨p, r, hr, by rw [← h.2, hb], by rw [← h.1]⟩

theorem OnExit_inv {ci ci1 : CallInfo} {root : Record} {b b1 : RecordBuffer} {t : Nat}
    (h : ci.OnExit root b t = some (ci1, b1)) :
    (ci1 = ci ∧ b1 = b)
    ∨ ∃ p r, root.getAt p = some r ∧ b1 = r.AddInnerElapse b (sub64 t ci.enter_time_)
        ∧ ci1.enter_time_ = 0 := by
  unfold CallInfo.OnExit at h
  split at h
  · cases hp : ci.record_ with
    | none => simp [hp] at h
    | some p =>
      simp only [hp] at h
      cases ha : Record.AddInnerElapseAt root b p (sub64 t ci.enter_time_) with
      | none => simp [ha] at h
      | some b2 =>
        simp only [ha, Option.some.injEq, Prod.mk.injEq] at h
        obtain ⟨r, hr, hb⟩ := AddInnerElapseAt_inv ha
        exact Or.inr ⟨p, r, hr, by rw [← h.2, hb], by rw [← h.1]⟩
  · simp only [Option.some.injEq, Prod.mk.injEq] at h
    exact Or.inl ⟨h.1.symm, h.2.symm⟩

theorem OnEnter_inv {ci ci1 : CallInfo} {root : Record} {b b1 : RecordBuffer} {t : Nat}
    (h : ci.OnEnter root b t = some (ci1, b1)) :
    ∃ p r, root.getAt p = some r ∧ b1 = r.AddCount b ∧ ci1.enter_time_ = t := by
  unfold CallInfo.OnEnter at h
  cases hp : ci.record_ with
  | none => simp [hp] at h
  | some p =>
    simp only [hp] at h
    cases ha : Record.AddCountAt root b p with
    | none => simp [ha] at h
    | some b2 =>
      simp only [ha, Option.some.injEq, Prod.mk.injEq] at h
      obtain ⟨r, hr, hb⟩ := AddCountAt_inv ha
      exact ⟨p, r, hr, by rw [← h.2, hb], by rw [← h.1]⟩

theorem ChildCallEnter_inv2 {ci ci1 : CallInfo} {root root1 : Record} {b b1 : RecordBuffer}
    {t info : Nat} {q : RecordPtr}
    (h : ci.ChildCallEnter root b t info = some (ci1, root1, b1, q)) :
    ∃ p r, root.getAt p = some r
      ∧ Record.GetChildRecordAt root (r.AddInnerElapse b (sub64 t ci.enter_time_)) p info
          = some (root1, b1, q)
      ∧ ci1.enter_time_ = 0 := by
  unfold CallInfo.ChildCallEnter at h
  cases hp : ci.record_ with
  | none => simp [hp] at h
  | some p =>
    simp only [hp] at h
    cases ha : Record.AddInnerElapseAt root b p (sub64 t ci.enter_time_) with
    | none => simp [ha] at h
    | some b2 =>
      simp only [ha] at h
      obtain ⟨r, hr, hb⟩ := AddInnerElapseAt_inv ha
      cases hc : Record.GetChildRecordAt root b2 p info with
      | none => simp [hc] at h
      | some v =>
        obtain ⟨r2, b3, q2⟩ := v
        simp only [hc, Option.some.injEq, Prod.mk.injEq] at h
        refine ⟨p, r, hr, ?_, by rw [← h.1]⟩
        rw [← hb, hc, ← h.2.1, ← h.2.2.1, ← h.2.2.2]

theorem registryInv_of_same {s s1 : LuaProfilerState} (hreg : SameRegistry s s1)
    (h : RegistryInv s) : RegistryInv s1 := by
  obtain ⟨_, _, h3, h4, h5⟩ := hreg
  have hlua : ∀ src l, s1.luaDescriptor src l = s.luaDescriptor src l := by
    intro src l
    simp only [LuaProfilerState.luaDescriptor, h3]
  refine ⟨?_, ?_, ?_, ?_⟩
  · intro src l d hd
    rw [hlua] at hd
    rw [h5]
    exact h.lua_lt src l d hd
  · intro g d hd
    rw [h4] at hd
    rw [h5]
    exact h.c_lt g d hd
  · intro src l src1 l1 d hd hd1
    rw [hlua] at hd hd1
    exact h.lua_inj src l src1 l1 d hd hd1
  · intro src l g d hd
    rw [hlua] at hd
    rw [h4]
    exact h.disjoint src l g d hd

theorem sameRegistry_trans {s s1 s2 : LuaProfilerState} (h1 : SameRegistry s s1)
    (h2 : SameRegistry s1 s2) : SameRegistry s s2 :=
  ⟨h2.1.trans h1.1, h2.2.1.trans h1.2.1, h2.2.2.1.trans h1.2.2.1,
   h2.2.2.2.1.trans h1.2.2.2.1, h2.2.2.2.2.trans h1.2.2.2.2⟩

theorem timesOk_setStack {F : Nat → Prop} {s : LuaProfilerState} (hF : s.TimesOk F) (key : Nat)
    (stkN : CallInfoStack) (hN : ∀ i, F (stkN.buffer_ i).enter_time_) :
    ∀ L stk i, s.setStack key stkN L = some stk → F (stk.buffer_ i).enter_time_ := by
  intro L stk i hL
  simp only [LuaProfilerState.setStack] at hL
  split at hL
  · simp only [Option.some.injEq] at hL
    rw [← hL]
    exact hN i
  · exact hF L stk i hL

theorem Pop_buffer {T : Type} {stk stk1 : StackBuffer T} (h : stk.Pop = some stk1) :
    stk1.buffer_ = stk.buffer_ := by
  unfold StackBuffer.Pop at h
  split at h
  · simp only [Option.some.injEq] at h
    rw [← h]
  · cases h

theorem leaveContext_evolves (F D : Nat → Prop) (h0 : F 0) {s s1 : LuaProfilerState} {tj : Nat}
    (hF : s.TimesOk F) (h : s.leaveContext tj = some s1) :
    SameRegistry s s1 ∧ s1.TimesOk F
      ∧ ∃ n, n ≤ 1 ∧ Evolves (fun e => ∃ x, F x ∧ e = sub64 tj x) D n 0
          s.root_profiler_record_ s.record_buffer_ s1.root_profiler_record_ s1.record_buffer_ := by
  unfold LuaProfilerState.leaveContext at h
  split at h
  · rename_i slot hslot
    split at h
    · cases h
    · rename_i key hkey
      split at h
      · cases h
      · rename_i stk hstk
        split at h
        · cases h
        · rename_i ci b1 hcj
          simp only [Option.some.injEq] at h
          subst h
          obtain ⟨p, r, hr, hb, hci⟩ := CoroutineJump_inv hcj
          refine ⟨⟨rfl, rfl, rfl, rfl, rfl⟩, ?_, 1, Nat.le_refl _, ?_⟩
          · refine timesOk_setStack hF key _ ?_
            intro i
            simp only [StackBuffer.write]
            split
            · rw [hci]
              exact h0
            · exact hF key stk i hstk
          · rw [hb]
            exact Evolves.credit p r _ (Evolves.refl _ _) hr ⟨_, hF key stk slot hstk, rfl⟩
  · simp only [Option.some.injEq] at h
    subst h
    exact ⟨⟨rfl, rfl, rfl, rfl, rfl⟩, hF, 0, Nat.zero_le _, Evolves.refl _ _⟩

theorem enterContext_frame {s1 s2 : LuaProfilerState} {L : Nat} {found : Bool}
    (h : s1.enterContext L = some (s2, found)) :
    SameRegistry s1 s2 ∧ s2.call_info_stack_map_ = s1.call_info_stack_map_
      ∧ s2.root_profiler_record_ = s1.root_profiler_record_
      ∧ s2.record_buffer_ = s1.record_buffer_ := by
  unfold LuaProfilerState.enterContext at h
  simp only at h
  split at h
  · simp only [Option.some.injEq, Prod.mk.injEq] at h
    rw [← h.1]
    exact ⟨⟨rfl, rfl, rfl, rfl, rfl⟩, rfl, rfl, rfl⟩
  · split at h
    · cases h
    · split at h
      · split at h
        · cases h
        · simp only [Option.some.injEq, Prod.mk.injEq] at h
          rw [← h.1]
          exact ⟨⟨rfl, rfl, rfl, rfl, rfl⟩, rfl, rfl, rfl⟩
      · simp only [Option.some.injEq, Prod.mk.injEq] at h
        rw [← h.1]
        exact ⟨⟨rfl, rfl, rfl, rfl, rfl⟩, rfl, rfl, rfl⟩

theorem HookSwitch_evolves (F D : Nat → Prop) (h0 : F 0) {s s1 : LuaProfilerState} {L tj : Nat}
    {found : Bool} (hF : s.TimesOk F) (h : s.HookSwitch L tj = some (s1, found)) :
    SameRegistry s s1 ∧ s1.TimesOk F
      ∧ ∃ n, n ≤ 1 ∧ Evolves (fun e => ∃ x, F x ∧ e = sub64 tj x) D n 0
          s.root_profiler_record_ s.record_buffer_ s1.root_profiler_record_ s1.record_buffer_ := by
  rw [HookSwitch_eq] at h
  split at h
  · cases h
  · rename_i s0 hleave
    obtain ⟨hreg, htimes, n, hn, hev⟩ := leaveContext_evolves F D h0 hF hleave
    obtain ⟨hreg2, hmap, hroot, hbuf⟩ := enterContext_frame h
    refine ⟨sameRegistry_trans hreg hreg2, ?_, n, hn, ?_⟩
    · intro K stk i hK
      rw [hmap] at hK
      exact htimes K stk i hK
    · rw [hroot, hbuf]
      exact hev

theorem CallHookOutLoop_buffer (f : Nat) :
    ∀ (n : Nat) (stk stk1 : CallInfoStack) (r : Option Nat),
      LuaProfilerState.CallHookOutLoop f n stk = some (stk1, r) → stk1.buffer_ = stk.buffer_
  | 0, _, _, _, h => by simp [LuaProfilerState.CallHookOutLoop] at h
  | n + 1, stk, stk1, r, h => by
    unfold LuaProfilerState.CallHookOutLoop at h
    split at h
    · cases h
    · rename_i stk2 hpop
      have hb := Pop_buffer hpop
      split at h
      · simp only [Option.some.injEq, Prod.mk.injEq] at h
        rw [← h.1, hb]
      · split at h
        · cases h
        · split at h
          · rw [CallHookOutLoop_buffer f n stk2 stk1 r h, hb]
          · simp only [Option.some.injEq, Prod.mk.injEq] at h
            rw [← h.1, hb]

theorem CallHookOut_evolves (F D : Nat → Prop) (h0 : F 0) {s s1 : LuaProfilerState} {f t : Nat}
    (ht : F t) (hF : s.TimesOk F) (h : s.CallHookOut f t = some s1) :
    SameRegistry s s1 ∧ s1.TimesOk F
      ∧ ∃ n, n ≤ 1 ∧ Evolves (fun e => ∃ x, F x ∧ e = sub64 t x) D n 0
          s.root_profiler_record_ s.record_buffer_ s1.root_profiler_record_ s1.record_buffer_ := by
  unfold LuaProfilerState.CallHookOut at h
  split at h
  · simp only [Option.some.injEq] at h
    subst h
    exact ⟨⟨rfl, rfl, rfl, rfl, rfl⟩, hF, 0, Nat.zero_le _, Evolves.refl _ _⟩
  · rename_i slot hslot
    split at h
    · cases h
    · rename_i key hkey
      split at h
      · cases h
      · rename_i stk hstk
        have hfindbuf : ∀ stk1 r,
            (if (stk.buffer_ slot).func_ ≠ f
              then LuaProfilerState.CallHookOutLoop f stk.curr_count_ stk
              else some (stk, some slot)) = some (stk1, r) → stk1.buffer_ = stk.buffer_ := by
          intro stk1 r hfind
          split at hfind
          · exact CallHookOutLoop_buffer f _ stk stk1 r hfind
          · simp only [Option.some.injEq, Prod.mk.injEq] at hfind
            rw [← hfind.1]
        split at h
        · cases h
        · rename_i stk1 hfind
          simp only [Option.some.injEq] at h
          subst h
          refine ⟨⟨rfl, rfl, rfl, rfl, rfl⟩, ?_, 0, Nat.zero_le _, Evolves.refl _ _⟩
          refine timesOk_setStack hF key _ ?_
          intro i
          rw [hfindbuf stk1 none hfind]
          exact hF key stk i hstk
        · rename_i stk1 slot1 hfind
          have hb1 := hfindbuf stk1 (some slot1) hfind
          split at h
          · cases h
          · rename_i ci b1 hexit
            have hci : F ci.enter_time_ := by
              rcases OnExit_inv hexit with ⟨h1, _⟩ | ⟨_, _, _, _, h1⟩
              · rw [h1, hb1]
                exact hF key stk slot1 hstk
              · rw [h1]
                exact h0
            have hev : ∃ n, n ≤ 1 ∧ Evolves (fun e => ∃ x, F x ∧ e = sub64 t x) D n 0
                s.root_profiler_record_ s.record_buffer_ s.root_profiler_record_ b1 := by
              rcases OnExit_inv hexit with ⟨_, h1⟩ | ⟨p, r, hr, h1, _⟩
              · rw [h1]
                exact ⟨0, Nat.zero_le _, Evolves.refl _ _⟩
              · rw [h1]
                exact ⟨1, Nat.le_refl _, Evolves.credit p r _ (Evolves.refl _ _) hr
                  ⟨_, by rw [hb1]; exact hF key stk slot1 hstk, rfl⟩⟩
            split at h
            · cases h
            · rename_i stk2 hpop
              have hb2 : ∀ i, F (stk2.buffer_ i).enter_time_ := by
                intro i
                rw [Pop_buffer hpop]
                simp only [StackBuffer.write]
                split
                · exact hci
                · rw [hb1]
                  exact hF key stk i hstk
              split at h
              · simp only [Option.some.injEq] at h
                subst h
                exact ⟨⟨rfl, rfl, rfl, rfl, rfl⟩, timesOk_setStack hF key _ hb2, hev⟩
              · split at h
                · cases h
                · simp only [Option.some.injEq] at h
                  subst h
                  refine ⟨⟨rfl, rfl, rfl, rfl, rfl⟩, timesOk_setStack hF key _ ?_, hev⟩
                  intro i
                  simp only [StackBuffer.write]
                  split
                  · exact ht
                  · exact hb2 i

theorem CallHookIn_evolves (F : Nat → Prop) (h0 : F 0) {s s1 : LuaProfilerState}
    {ar : lua_Debug} {f t : Nat} (ht : F t) (hF : s.TimesOk F)
    (h : s.CallHookIn ar f t = some s1) :
    SameRegistry (s.GetFunctionInfo ar f).1 s1 ∧ s1.TimesOk F
      ∧ ∃ n k, n ≤ 1 ∧ k ≤ 1
        ∧ Evolves (fun e => ∃ x, F x ∧ e = sub64 t x)
            (fun info => (s.GetFunctionInfo ar f).2 = some info) n k
            s.root_profiler_record_ s.record_buffer_
            s1.root_profiler_record_ s1.record_buffer_ := by
  unfold LuaProfilerState.CallHookIn at h
  have hfr := GetFunctionInfo_frame s ar f
  split at h
  · rename_i s0 hgf
    simp only [Option.some.injEq] at h
    subst h
    rw [hgf] at hfr ⊢
    obtain ⟨hroot, hbuf, hmap, _⟩ := hfr
    simp only at hroot hbuf hmap ⊢
    refine ⟨⟨rfl, rfl, rfl, rfl, rfl⟩, ?_, 0, 0, Nat.zero_le _, Nat.zero_le _, ?_⟩
    · intro K stk i hK
      rw [hmap] at hK
      exact hF K stk i hK
    · rw [hroot, hbuf]
      exact Evolves.refl _ _
  · rename_i s0 func_info hgf
    rw [hgf] at hfr ⊢
    obtain ⟨hroot, hbuf, hmap, _⟩ := hfr
    simp only at hroot hbuf hmap ⊢
    set D : Nat → Prop := fun info => some func_info = some info with hD
    have hF0 : s0.TimesOk F := by
      intro K stk i hK
      rw [hmap] at hK
      exact hF K stk i hK
    split at h
    · cases h
    · rename_i key hkey
      split at h
      · cases h
      · rename_i stk hstk
        split at h
        · cases h
        · rename_i root1 buffer1 record stk1 hmid
          have hmid2 : (∀ i, F (stk1.buffer_ i).enter_time_)
              ∧ ∃ n, n ≤ 1 ∧ Evolves (fun e => ∃ x, F x ∧ e = sub64 t x) D n 0
                  s0.root_profiler_record_ s0.record_buffer_ root1 buffer1 := by
            split at hmid
            · rename_i slot hslot
              split at hmid
              · cases hmid
              · rename_i ci root2 buffer2 record2 hce
                obtain ⟨p, r, hr, hgc, hci⟩ := ChildCallEnter_inv2 hce
                have hw : ∀ i, F ((stk.write slot ci).buffer_ i).enter_time_ := by
                  intro i
                  simp only [StackBuffer.write]
                  split
                  · rw [hci]
                    exact h0
                  · exact hF0 key stk i hstk
                split at hmid
                · cases hmid
                · rename_i stk2 hpop
                  simp only [Option.some.injEq, Prod.mk.injEq] at hmid
                  obtain ⟨e1, e2, _, e4⟩ := hmid
                  subst e1 e2 e4
                  refine ⟨?_, 1, Nat.le_refl _, Evolves.child p _ func_info
                    (Evolves.credit p r _ (Evolves.refl _ _) hr
                      ⟨_, hF0 key stk slot hstk, rfl⟩) rfl hgc⟩
                  split at hpop
                  · intro i
                    rw [Pop_buffer hpop]
                    exact hw i
                  · simp only [Option.some.injEq] at hpop
                    rw [← hpop]
                    exact hw
            · split at hmid
              · cases hmid
              · rename_i hgc
                simp only [Option.some.injEq, Prod.mk.injEq] at hmid
                obtain ⟨e1, e2, _, e4⟩ := hmid
                subst e1 e2 e4
                exact ⟨fun i => hF0 key stk i hstk, 0, Nat.zero_le _,
                  Evolves.child [] _ func_info (Evolves.refl _ _) rfl hgc⟩
          obtain ⟨hstk1, n, hn, hev⟩ := hmid2
          simp only at h
          split at h
          · cases h
          · rename_i ci2 buffer3 henter
            obtain ⟨p, r, hr, hb, hci2⟩ := OnEnter_inv henter
            simp only [Option.some.injEq] at h
            subst h
            refine ⟨⟨rfl, rfl, rfl, rfl, rfl⟩, ?_, n, 1, hn, Nat.le_refl _, ?_⟩
            · refine timesOk_setStack hF0 key _ ?_
              intro i
              simp only [StackBuffer.write, Get_buffer]
              split
              · rw [hci2]
                exact ht
              · split
                · exact h0
                · exact hstk1 i
            · rw [← hroot, ← hbuf, hb]
              exact Evolves.count p r hev hr

/-! ## The tree and the handles -/

theorem record_eta (r : Record) :
    Record.mk r.func_info_ r.temp_inner_elapse_ r.temp_full_elapse_ r.temp_call_count_
      r.index_ r.data_ r.children_list_ = r := by
  cases r
  rfl

theorem replaceChild_self (k : Nat) :
    ∀ (cs : List Record) (c : Record), cs.find? (fun x => x.func_info_ == some k) = some c →
      Record.replaceChild k c cs = cs
  | [], c, h => by simp at h
  | x :: cs, c, h => by
    unfold Record.replaceChild
    by_cases hx : x.func_info_ = some k
    · simp only [List.find?_cons, hx, beq_self_eq_true, Option.some.injEq] at h
      subst h
      simp only [hx, beq_self_eq_true, if_true]
    · have hx2 : (x.func_info_ == some k) = false := by simpa using hx
      simp only [List.find?_cons, hx2] at h
      simp only [hx2, Bool.false_eq_true, if_false, replaceChild_self k cs c h]

theorem setAt_self :
    ∀ (p : RecordPtr) (root r : Record), root.getAt p = some r → Record.setAt p root r = root
  | [], root, r, h => by
    simp only [Record.getAt, Option.some.injEq] at h
    simp [Record.setAt, h]
  | k :: p, root, r, h => by
    unfold Record.getAt at h
    cases hfc : root.findChild k with
    | none => simp [hfc] at h
    | some c =>
      simp only [hfc] at h
      rw [setAt_cons_of_find p r hfc, setAt_self p c r h]
      unfold Record.findChild at hfc
      rw [replaceChild_self k _ c hfc]
      exact record_eta root

theorem GetChildRecord_inv {r r1 : Record} {b b1 : RecordBuffer} {d : Nat}
    (h : r.GetChildRecord b d = some (r1, b1)) :
    (∃ c, r.findChild d = some c ∧ r1 = r ∧ b1 = b)
    ∨ (r.findChild d = none ∧ ∃ e, b.Get ⟨0, 0⟩ = some (b1, e)
        ∧ r1 = .mk r.func_info_ r.temp_inner_elapse_ r.temp_full_elapse_ r.temp_call_count_
            r.index_ r.data_ (r.children_list_ ++ [.mk (some d) 0 0 0 e.1 e.2 []])) := by
  unfold Record.GetChildRecord at h
  cases hfc : r.findChild d with
  | some c =>
    simp only [hfc, Option.some.injEq, Prod.mk.injEq] at h
    exact Or.inl ⟨c, rfl, h.1.symm, h.2.symm⟩
  | none =>
    simp only [hfc] at h
    unfold Record.new at h
    cases hg : b.Get ⟨0, 0⟩ with
    | none => simp [hg] at h
    | some v =>
      obtain ⟨b2, e⟩ := v
      simp only [hg, Option.some.injEq, Prod.mk.injEq] at h
      exact Or.inr ⟨rfl, e, by rw [← h.2], h.1.symm⟩

theorem GetChildRecordAt_inv {root root1 : Record} {b b1 : RecordBuffer} {p q : RecordPtr}
    {d : Nat} (h : Record.GetChildRecordAt root b p d = some (root1, b1, q)) :
    q = p ++ [d] ∧ ∃ r, root.getAt p = some r
      ∧ ((∃ c, r.findChild d = some c ∧ root1 = root ∧ b1 = b)
        ∨ (r.findChild d = none ∧ ∃ e, b.Get ⟨0, 0⟩ = some (b1, e)
            ∧ root1 = Record.setAt p root
                (.mk r.func_info_ r.temp_inner_elapse_ r.temp_full_elapse_ r.temp_call_count_
                  r.index_ r.data_ (r.children_list_ ++ [.mk (some d) 0 0 0 e.1 e.2 []])))) := by
  unfold Record.GetChildRecordAt at h
  cases hg : root.getAt p with
  | none => simp [hg] at h
  | some r =>
    simp only [hg] at h
    cases hc : r.GetChildRecord b d with
    | none => simp [hc] at h
    | some v =>
      obtain ⟨r1, b2⟩ := v
      simp only [hc, Option.some.injEq, Prod.mk.injEq] at h
      obtain ⟨e1, e2, e3⟩ := h
      refine ⟨e3.symm, r, rfl, ?_⟩
      rcases GetChildRecord_inv hc with ⟨c, hfc, hr1, hb⟩ | ⟨hfc, e, hget, hr1⟩
      · refine Or.inl ⟨c, hfc, ?_, by rw [← e2, hb]⟩
        rw [← e1, hr1]
        exact setAt_self p root r hg
      · exact Or.inr ⟨hfc, e, by rw [← e2]; exact hget, by rw [← e1, hr1]⟩

theorem mem_nodesList_replaceChild (k : Nat) (c1 : Record) {n : Record} :
    ∀ cs : List Record, n ∈ Record.nodesList (Record.replaceChild k c1 cs) →
      n ∈ Record.nodes c1 ∨ n ∈ Record.nodesList cs
  | [] => by simp [Record.replaceChild, Record.nodesList]
  | x :: cs => by
    unfold Record.replaceChild
    by_cases hx : x.func_info_ = some k
    · simp only [hx, beq_self_eq_true, if_true, Record.nodesList, List.mem_append]
      rintro (h | h)
      · exact Or.inl h
      · exact Or.inr (Or.inr h)
    · have hx2 : (x.func_info_ == some k) = false := by simpa using hx
      simp only [hx2, Bool.false_eq_true, if_false, Record.nodesList, List.mem_append]
      rintro (h | h)
      · exact Or.inr (Or.inl h)
      · rcases mem_nodesList_replaceChild k c1 cs h with h1 | h1
        · exact Or.inl h1
        · exact Or.inr (Or.inr h1)

theorem nodes_eq (r : Record) : r.nodes = r :: Record.nodesList r.children_list_ := by
  cases r
  simp [Record.nodes, Record.children_list_]

/-- Every node of the tree after a write-back through a pointer has the own fields of a
node of the tree before it or of the node written. -/
theorem mem_nodes_setAt :
    ∀ (p : RecordPtr) (r new_node n : Record), n ∈ (Record.setAt p r new_node).nodes →
      ∃ n0, (n0 ∈ r.nodes ∨ n0 ∈ new_node.nodes) ∧ n.index_ = n0.index_ ∧ n.data_ = n0.data_
        ∧ n.func_info_ = n0.func_info_
  | [], r, new_node, n, h => by
    simp only [Record.setAt] at h
    exact ⟨n, Or.inr h, rfl, rfl, rfl⟩
  | k :: p, r, new_node, n, h => by
    cases hfc : r.findChild k with
    | none =>
      simp only [Record.setAt, hfc] at h
      exact ⟨n, Or.inl h, rfl, rfl, rfl⟩
    | some c =>
      rw [setAt_cons_of_find p new_node hfc] at h
      simp only [Record.nodes, List.mem_cons] at h
      rcases h with h | h
      · refine ⟨r, Or.inl ?_, by rw [h]; rfl, by rw [h]; rfl, by rw [h]; rfl⟩
        rw [nodes_eq]
        exact List.mem_cons_self _ _
      · rcases mem_nodesList_replaceChild k _ _ h with h1 | h1
        · obtain ⟨n0, hn0, hi, hd, hf⟩ := mem_nodes_setAt p c new_node n h1
          refine ⟨n0, ?_, hi, hd, hf⟩
          rcases hn0 with hn0 | hn0
          · left
            rw [nodes_eq]
            exact List.mem_cons_of_mem _
              ((mem_nodesList _).mpr ⟨c, (findChild_some hfc).1, hn0⟩)
          · exact Or.inr hn0
        · refine ⟨n, Or.inl ?_, rfl, rfl, rfl⟩
          rw [nodes_eq]
          exact List.mem_cons_of_mem _ h1

theorem mem_nodes_of_getAt :
    ∀ (p : RecordPtr) (root r : Record), root.getAt p = some r →
      ∀ n ∈ r.nodes, n ∈ root.nodes
  | [], root, r, h => by
    simp only [Record.getAt, Option.some.injEq] at h
    rw [← h]
    exact fun n hn => hn
  | k :: p, root, r, h => by
    unfold Record.getAt at h
    cases hfc : root.findChild k with
    | none => simp [hfc] at h
    | some c =>
      simp only [hfc] at h
      intro n hn
      have hr := mem_nodes_of_getAt p c r h n hn
      rw [nodes_eq]
      exact List.mem_cons_of_mem _ ((mem_nodesList _).mpr ⟨c, (findChild_some hfc).1, hr⟩)

theorem AddInnerElapse_layout (r : Record) (b : RecordBuffer) (e : Nat) (h : LayoutInv b) :
    LayoutInv (r.AddInnerElapse b e)
      ∧ (r.AddInnerElapse b e).per_add_count_ = b.per_add_count_
      ∧ (r.AddInnerElapse b e).curr_count_ = b.curr_count_
      ∧ (r.AddInnerElapse b e).records_ = b.records_ := by
  unfold Record.AddInnerElapse
  obtain ⟨f1, f2, f3, _⟩ := store_fields b r.data_
    { b.load r.data_ with inner_elapse_ := add64 (b.load r.data_).inner_elapse_ e }
  exact ⟨store_layoutInv h _ _, f1, f2, f3⟩

theorem AddCount_layout (r : Record) (b : RecordBuffer) (h : LayoutInv b) :
    LayoutInv (r.AddCount b)
      ∧ (r.AddCount b).per_add_count_ = b.per_add_count_
      ∧ (r.AddCount b).curr_count_ = b.curr_count_
      ∧ (r.AddCount b).records_ = b.records_ := by
  unfold Record.AddCount
  obtain ⟨f1, f2, f3, _⟩ := store_fields b r.data_
    { b.load r.data_ with call_count_ := inc32 (b.load r.data_).call_count_ }
  exact ⟨store_layoutInv h _ _, f1, f2, f3⟩

theorem nodesInv_of_fields {root : Record} {b b1 : RecordBuffer} (h : NodesInv root b)
    (hper : b1.per_add_count_ = b.per_add_count_) (hcnt : b.curr_count_ ≤ b1.curr_count_) :
    NodesInv root b1 := by
  intro n hn
  obtain ⟨h1, h2⟩ := h n hn
  rw [hper]
  exact ⟨h1, Nat.lt_of_lt_of_le h2 hcnt⟩

/-- Elementary changes keep the layout of the arena and the tie between nodes and handles;
they change neither the block size nor the snapshots, and issue handles only. -/
theorem Evolves.handleInv {C D : Nat → Prop} {n k : Nat} {root root1 : Record}
    {b b1 : RecordBuffer} (h : Evolves C D n k root b root1 b1) (hl : LayoutInv b)
    (hn : NodesInv root b) :
    LayoutInv b1 ∧ NodesInv root1 b1 ∧ b1.per_add_count_ = b.per_add_count_
      ∧ b.curr_count_ ≤ b1.curr_count_ ∧ b1.records_ = b.records_ := by
  induction h with
  | refl root b => exact ⟨hl, hn, rfl, Nat.le_refl _, rfl⟩
  | credit p r e _ hg hc ih =>
    obtain ⟨h1, h2, h3, h4, h5⟩ := ih hl hn
    obtain ⟨g1, f1, f2, f3⟩ := AddInnerElapse_layout r _ e h1
    exact ⟨g1, nodesInv_of_fields h2 f1 (Nat.le_of_eq f2.symm), f1.trans h3,
      by rw [f2]; exact h4, f3.trans h5⟩
  | count p r _ hg ih =>
    obtain ⟨h1, h2, h3, h4, h5⟩ := ih hl hn
    obtain ⟨g1, f1, f2, f3⟩ := AddCount_layout r _ h1
    exact ⟨g1, nodesInv_of_fields h2 f1 (Nat.le_of_eq f2.symm), f1.trans h3,
      by rw [f2]; exact h4, f3.trans h5⟩
  | child p q info _ _ hg ih =>
    obtain ⟨h1, h2, h3, h4, h5⟩ := ih hl hn
    obtain ⟨_, r, hr, hcase⟩ := GetChildRecordAt_inv hg
    rcases hcase with ⟨c, _, e1, e2⟩ | ⟨_, e, hget, e1⟩
    · rw [e1, e2]
      exact ⟨h1, h2, h3, h4, h5⟩
    · obtain ⟨m1, hg1, hl1, hper1, hcnt1, hrec1, _⟩ := Get_layout _ ⟨0, 0⟩ h1
      rw [hget, Option.some.injEq, Prod.mk.injEq] at hg1
      obtain ⟨e2, e3⟩ := hg1
      subst e2
      refine ⟨hl1, ?_, hper1.trans h3, by omega, hrec1.trans h5⟩
      intro x hx
      rw [e1] at hx
      obtain ⟨n0, hn0, hi, hd, _⟩ := mem_nodes_setAt p _ _ x hx
      rw [hi, hd, hper1]
      have hsub := mem_nodes_of_getAt p _ r hr
      rcases hn0 with hn0 | hn0
      · obtain ⟨g1, g2⟩ := h2 n0 hn0
        exact ⟨g1, by omega⟩
      · simp only [Record.nodes, List.mem_cons] at hn0
        rcases hn0 with hn0 | hn0
        · obtain ⟨g1, g2⟩ := h2 r (hsub r (by rw [nodes_eq]; exact List.mem_cons_self _ _))
          rw [hn0]
          simp only [index_mk, data_mk]
          exact ⟨g1, by omega⟩
        · rcases (mem_nodesList _).mp hn0 with ⟨c, hc, hnc⟩
          rcases List.mem_append.mp hc with hc | hc
          · have hmem : n0 ∈ r.nodes := by
              rw [nodes_eq]
              exact List.mem_cons_of_mem _ ((mem_nodesList _).mpr ⟨c, hc, hnc⟩)
            obtain ⟨g1, g2⟩ := h2 n0 (hsub n0 hmem)
            exact ⟨g1, by omega⟩
          · rw [List.mem_singleton] at hc
            rw [hc] at hnc
            simp only [Record.nodes, Record.nodesList, List.mem_singleton] at hnc
            rw [hnc, e3]
            simp only [index_mk, data_mk]
            exact ⟨trivial, by omega⟩

mutual
theorem mem_nodes_aggregate (S : StdSort) (sel : Nat → Nat × Nat → Nat × Nat) :
    ∀ r : Record, ∀ n ∈ Record.nodes (Record.aggregate S sel r).1,
      ∃ n0 ∈ Record.nodes r, n = (Record.aggregate S sel n0).1
  | .mk fi ti tf tc idx d cs => by
    intro n hn
    have hperm : List.Perm
        (if (Record.aggregateLoop S sel 0 cs).1.length > 1
          then S.sort (Record.aggregateLoop S sel 0 cs).1
          else (Record.aggregateLoop S sel 0 cs).1)
        (Record.aggregateLoop S sel 0 cs).1 := by
      split
      · exact S.perm _
      · exact List.Perm.refl _
    simp only [Record.aggregate, Record.nodes, List.mem_cons] at hn
    rcases hn with hn | hn
    · refine ⟨.mk fi ti tf tc idx d cs, by simp [Record.nodes], ?_⟩
      rw [hn]
      simp only [Record.aggregate]
    · rw [mem_nodesList] at hn
      obtain ⟨c, hc, hnc⟩ := hn
      have hc2 := hperm.mem_iff.mp hc
      obtain ⟨n0, hn0, he⟩ :=
        mem_nodesList_aggregateLoop S sel 0 cs n ((mem_nodesList _).mpr ⟨c, hc2, hnc⟩)
      exact ⟨n0, by simp only [Record.nodes, List.mem_cons]; exact Or.inr hn0, he⟩
theorem mem_nodesList_aggregateLoop (S : StdSort) (sel : Nat → Nat × Nat → Nat × Nat) :
    ∀ (acc : Nat) (cs : List Record),
      ∀ n ∈ Record.nodesList (Record.aggregateLoop S sel acc cs).1,
        ∃ n0 ∈ Record.nodesList cs, n = (Record.aggregate S sel n0).1
  | acc, [] => by simp [Record.aggregateLoop, Record.nodesList]
  | acc, c :: cs => by
    intro n hn
    simp only [Record.aggregateLoop, Record.nodesList, List.mem_append] at hn ⊢
    rcases hn with hn | hn
    · obtain ⟨n0, hn0, he⟩ := mem_nodes_aggregate S sel c n hn
      exact ⟨n0, Or.inl hn0, he⟩
    · obtain ⟨n0, hn0, he⟩ := mem_nodesList_aggregateLoop S sel _ cs n hn
      exact ⟨n0, Or.inr hn0, he⟩
end

theorem nodesInv_aggregate (S : StdSort) (sel : Nat → Nat × Nat → Nat × Nat) {root : Record}
    {b : RecordBuffer} (h : NodesInv root b) : NodesInv (Record.aggregate S sel root).1 b := by
  intro n hn
  obtain ⟨n0, hn0, he⟩ := mem_nodes_aggregate S sel root n hn
  obtain ⟨f1, f2, _⟩ := aggregate_fields S sel n0
  rw [he, f1, f2]
  exact h n0 hn0

theorem GetFunctionInfo_result_lt (s : LuaProfilerState) (ar : lua_Debug) (f d : Nat)
    (h : RegistryInv s) (hd : (s.GetFunctionInfo ar f).2 = some d) :
    d < (s.GetFunctionInfo ar f).1.function_infos_.length := by
  have hinv := GetFunctionInfo_registryInv s ar f h
  by_cases hC : ar.what.get 0 = 'C'
  · exact hinv.c_lt f d ((GetFunctionInfo_c s ar f hC).2.1 d hd)
  · obtain ⟨d0, hd0, hkey, _⟩ := GetFunctionInfo_lua s ar f hC
    rw [hd, Option.some.injEq] at hd0
    rw [hd0]
    exact hinv.lua_lt _ _ d0 hkey

theorem GetFunctionInfo_length (s : LuaProfilerState) (ar : lua_Debug) (f : Nat) :
    s.function_infos_.length ≤ (s.GetFunctionInfo ar f).1.function_infos_.length := by
  by_cases hC : ar.what.get 0 = 'C'
  · exact (GetFunctionInfo_c s ar f hC).2.2.2.2
  · obtain ⟨_, _, _, _, _, _, h⟩ := GetFunctionInfo_lua s ar f hC
    exact h

/-- Elementary changes keep the descriptors of the nodes among the allocated ones when the
descriptors of the new nodes are. -/
theorem Evolves.descriptors {C D : Nat → Prop} {n k : Nat} {root root1 : Record}
    {b b1 : RecordBuffer} (h : Evolves C D n k root b root1 b1) (N : Nat)
    (hD : ∀ i, D i → i < N)
    (hn : ∀ x ∈ root.nodes, ∀ d, x.func_info_ = some d → d < N) :
    ∀ x ∈ root1.nodes, ∀ d, x.func_info_ = some d → d < N := by
  induction h with
  | refl root b => exact hn
  | credit p r e _ hg hc ih => exact ih hn
  | count p r _ hg ih => exact ih hn
  | child p q info _ hd hg ih =>
    have h2 := ih hn
    obtain ⟨_, r, hr, hcase⟩ := GetChildRecordAt_inv hg
    rcases hcase with ⟨c, _, e1, _⟩ | ⟨_, e, _, e1⟩
    · rw [e1]
      exact h2
    · intro x hx d hxd
      rw [e1] at hx
      obtain ⟨n0, hn0, _, _, hf⟩ := mem_nodes_setAt p _ _ x hx
      rw [hf] at hxd
      have hsub := mem_nodes_of_getAt p _ r hr
      rcases hn0 with hn0 | hn0
      · exact h2 n0 hn0 d hxd
      · simp only [Record.nodes, List.mem_cons] at hn0
        rcases hn0 with hn0 | hn0
        · rw [hn0] at hxd
          exact h2 r (hsub r (by rw [nodes_eq]; exact List.mem_cons_self _ _)) d hxd
        · rcases (mem_nodesList _).mp hn0 with ⟨c, hc, hnc⟩
          rcases List.mem_append.mp hc with hc | hc
          · have hmem : n0 ∈ r.nodes := by
              rw [nodes_eq]
              exact List.mem_cons_of_mem _ ((mem_nodesList _).mpr ⟨c, hc, hnc⟩)
            exact h2 n0 (hsub n0 hmem) d hxd
          · rw [List.mem_singleton] at hc
            rw [hc] at hnc
            simp only [Record.nodes, Record.nodesList, List.mem_singleton] at hnc
            rw [hnc] at hxd
            simp only [func_info_mk, Option.some.injEq] at hxd
            rw [← hxd]
            exact hD info hd

/-- What a hook event does to the registry, the enter times, the tree and the arena: the
registry keeps its invariant and only grows, every enter time is zero, the time of the event
or an older enter time, and the tree and the arena change by at most two credits, each of a
clock reading of the event minus an enter time, one increment of a call count and calls of
`GetChildRecord` for descriptors the registry has allocated. -/
theorem Hook_evolves (F : Nat → Prop) (h0 : F 0) {s : LuaProfilerState} {L : Nat}
    {ar : lua_Debug} {f tj t : Nat} {o : Outcome} (ht : F t) (hF : s.TimesOk F)
    (h : s.Hook L ar f tj t = some o) :
    (RegistryInv s → RegistryInv o.state) ∧ o.state.TimesOk F
      ∧ s.function_infos_.length ≤ o.state.function_infos_.length
      ∧ ∃ n k, n ≤ 2 ∧ k ≤ 1
        ∧ Evolves (fun e => ∃ x, F x ∧ (e = sub64 tj x ∨ e = sub64 t x))
            (fun info => RegistryInv s → info < o.state.function_infos_.length) n k
            s.root_profiler_record_ s.record_buffer_
            o.state.root_profiler_record_ o.state.record_buffer_ := by
  have hsw : ∀ (D : Nat → Prop) s1 found,
      (if s.curr_lua_state_ ≠ some L then s.HookSwitch L tj else some (s, true))
        = some (s1, found) →
      SameRegistry s s1 ∧ s1.TimesOk F
        ∧ ∃ n, n ≤ 1 ∧ Evolves (fun e => ∃ x, F x ∧ (e = sub64 tj x ∨ e = sub64 t x)) D n 0
            s.root_profiler_record_ s.record_buffer_
            s1.root_profiler_record_ s1.record_buffer_ := by
    intro D s1 found hsw
    split at hsw
    · obtain ⟨h1, h2, n, hn, hev⟩ := HookSwitch_evolves F D h0 hF hsw
      exact ⟨h1, h2, n, hn, hev.mono (fun e ⟨x, hx, he⟩ => ⟨x, hx, Or.inl he⟩) (fun _ hi => hi)⟩
    · simp only [Option.some.injEq, Prod.mk.injEq] at hsw
      rw [← hsw.1]
      exact ⟨⟨rfl, rfl, rfl, rfl, rfl⟩, hF, 0, Nat.zero_le _, Evolves.refl _ _⟩
  unfold LuaProfilerState.Hook at h
  split at h
  · cases h
  · rename_i s1 hsw1
    simp only [Option.some.injEq] at h
    subst h
    obtain ⟨h1, h2, n, hn, hev⟩ := hsw _ s1 false hsw1
    exact ⟨registryInv_of_same h1, h2, Nat.le_of_eq (congrArg List.length h1.2.2.2.2).symm, n, 0, by omega,
      Nat.zero_le _, hev⟩
  · rename_i s1 hsw1
    split at h
    · simp only [Option.some.injEq] at h
      subst h
      obtain ⟨h1, h2, n, hn, hev⟩ := hsw _ s1 true hsw1
      exact ⟨registryInv_of_same h1, h2, Nat.le_of_eq (congrArg List.length h1.2.2.2.2).symm, n, 0, by omega,
        Nat.zero_le _, hev⟩
    · split at h
      · simp only [Option.some.injEq] at h
        subst h
        obtain ⟨h1, h2, n, hn, hev⟩ := hsw _ s1 true hsw1
        exact ⟨registryInv_of_same h1, h2, Nat.le_of_eq (congrArg List.length h1.2.2.2.2).symm, n, 0, by omega,
          Nat.zero_le _, hev⟩
      · split at h
        · cases h
        · rename_i s2 hcall
          simp only [Option.some.injEq] at h
          subst h
          obtain ⟨h1, h2, n, hn, hev⟩ := hsw _ s1 true hsw1
          split at hcall
          · obtain ⟨g1, g2, m, hm, hev2⟩ := CallHookOut_evolves F _ h0 ht h2 hcall
            refine ⟨fun hr => registryInv_of_same (sameRegistry_trans h1 g1) hr, g2,
              Nat.le_of_eq (congrArg List.length (g1.2.2.2.2.trans h1.2.2.2.2)).symm, n + m, 0, by omega,
              Nat.zero_le _, ?_⟩
            exact hev.trans
              (hev2.mono (fun e ⟨x, hx, he⟩ => ⟨x, hx, Or.inr he⟩) (fun _ hi => hi))
          · obtain ⟨g1, g2, m, k, hm, hk, hev2⟩ := CallHookIn_evolves F h0 ht h2 hcall
            have hlen := GetFunctionInfo_length s1 ar f
            rw [h1.2.2.2.2, ← g1.2.2.2.2] at hlen
            refine ⟨fun hr => registryInv_of_same g1
              (GetFunctionInfo_registryInv s1 ar f (registryInv_of_same h1 hr)), g2, hlen,
              n + m, 0 + k, by omega, by omega, ?_⟩
            refine hev.trans
              (hev2.mono (fun e ⟨x, hx, he⟩ => ⟨x, hx, Or.inr he⟩) ?_)
            intro info hinfo hr
            have := GetFunctionInfo_result_lt s1 ar f info (registryInv_of_same h1 hr) hinfo
            rw [← g1.2.2.2.2] at this
            exact this

theorem Save_fields {T : Type} [CLayout T] {m m1 : MultiStackBuffer T} (h : m.Save = some m1) :
    m1.per_add_count_ = m.per_add_count_ ∧ m1.curr_count_ = m.curr_count_
      ∧ m1.curr_stack_ = m.curr_stack_ ∧ m1.stack_buffer_list_ = m.stack_buffer_list_ := by
  unfold MultiStackBuffer.Save at h
  split at h
  · cases h
  · simp only [Option.some.injEq] at h
    rw [← h]
    exact ⟨rfl, rfl, rfl, rfl⟩

theorem layoutInv_of_fields {m m1 : RecordBuffer} (h : LayoutInv m)
    (h1 : m1.per_add_count_ = m.per_add_count_) (h2 : m1.curr_count_ = m.curr_count_)
    (h3 : m1.curr_stack_ = m.curr_stack_) (h4 : m1.stack_buffer_list_ = m.stack_buffer_list_) :
    LayoutInv m1 := by
  obtain ⟨hper, hblocks, hcap, hes⟩ := h
  refine ⟨by rw [h1]; exact hper, ?_, by rw [h1, h4]; exact hcap, by rw [h4]; exact hes⟩
  rw [h1, h2, h3, h4]
  exact hblocks

theorem descriptors_of_same {s s1 : LuaProfilerState}
    (hlen : s1.function_infos_.length = s.function_infos_.length)
    (hnodes : ∀ x ∈ s1.root_profiler_record_.nodes,
      ∃ x0 ∈ s.root_profiler_record_.nodes, x.func_info_ = x0.func_info_)
    (h : ∀ n ∈ s.root_profiler_record_.nodes, ∀ d, n.func_info_ = some d →
      d < s.function_infos_.length) :
    ∀ n ∈ s1.root_profiler_record_.nodes, ∀ d, n.func_info_ = some d →
      d < s1.function_infos_.length := by
  intro n hn d hd
  obtain ⟨x0, hx0, hf⟩ := hnodes n hn
  rw [hlen]
  exact h x0 hx0 d (by rw [← hf]; exact hd)

/-- Every operation keeps the callsite registry well formed and the tree tied to the arena
and to the registry. -/
theorem apply_handleInv (S : StdSort) {s s1 : LuaProfilerState} {op : Op}
    (h : s.apply S op = some s1) :
    (RegistryInv s → RegistryInv s1) ∧ (RegistryInv s → HandleInv s → HandleInv s1) := by
  cases op with
  | hook L ar f tj t =>
    simp only [LuaProfilerState.apply, Option.map_eq_some'] at h
    obtain ⟨o, ho, hos⟩ := h
    obtain ⟨h1, _, hlen, n, k, _, _, hev⟩ :=
      Hook_evolves (fun _ => True) trivial trivial (fun _ _ _ _ => trivial) ho
    rw [hos] at h1 hev hlen
    refine ⟨h1, fun hreg hinv => ?_⟩
    obtain ⟨g1, g2, _⟩ := hev.handleInv hinv.layout hinv.nodes
    refine ⟨g1, g2, ?_⟩
    exact hev.descriptors s1.function_infos_.length (fun i hi => hi hreg)
      (fun x hx d hd => Nat.lt_of_lt_of_le (hinv.descriptors x hx d hd) hlen)
  | create L =>
    obtain ⟨hreg, hroot, hbuf, _⟩ := CreateCallInfoStack_frame h
    refine ⟨registryInv_of_same hreg, fun _ hinv => ⟨?_, ?_, ?_⟩⟩
    · rw [hbuf]
      exact hinv.layout
    · rw [hbuf, hroot]
      exact hinv.nodes
    · rw [hroot, hreg.2.2.2.2]
      exact hinv.descriptors
  | save =>
    simp only [LuaProfilerState.apply] at h
    unfold LuaProfilerState.Save at h
    split at h
    · cases h
    · rename_i b1 hsave
      simp only [Option.some.injEq] at h
      subst h
      obtain ⟨f1, f2, f3, f4⟩ := Save_fields hsave
      exact ⟨registryInv_of_same ⟨rfl, rfl, rfl, rfl, rfl⟩,
        fun _ hinv => ⟨layoutInv_of_fields hinv.layout f1 f2 f3 f4,
          nodesInv_of_fields hinv.nodes f1 (Nat.le_of_eq f2.symm), hinv.descriptors⟩⟩
  | query n a b =>
    simp only [LuaProfilerState.apply, Option.some.injEq] at h
    subst h
    have hcases : ∀ s2 : LuaProfilerState,
        s2 = s
        ∨ (∃ sel, s2 = { s with root_profiler_record_ :=
              (Record.aggregate S sel s.root_profiler_record_).1 }) →
        (RegistryInv s → RegistryInv s2) ∧ (RegistryInv s → HandleInv s → HandleInv s2) := by
      intro s2 hs2
      rcases hs2 with hs2 | ⟨sel, hs2⟩
      · rw [hs2]
        exact ⟨id, fun _ => id⟩
      · rw [hs2]
        refine ⟨registryInv_of_same ⟨rfl, rfl, rfl, rfl, rfl⟩,
          fun _ hinv => ⟨hinv.layout, nodesInv_aggregate S sel hinv.nodes, ?_⟩⟩
        refine @descriptors_of_same s _ rfl ?_ hinv.descriptors
        intro x hx
        obtain ⟨x0, hx0, he⟩ := mem_nodes_aggregate S sel _ x hx
        exact ⟨x0, hx0, by rw [he]; exact aggregate_func_info S sel x0⟩
    apply hcases
    unfold LuaProfilerState.CalcRecord
    split
    · right
      exact ⟨_, by simp only [Outcome.state]; rw [CalcChildrenElapse_eq_aggregate]⟩
    · split
      · split
        · exact Or.inl rfl
        · split
          · exact Or.inl rfl
          · split
            · exact Or.inl rfl
            · simp only
              split
              · exact Or.inl rfl
              · right
                exact ⟨_, by simp only [Outcome.state]; rw [CalcChildrenElapseCopy_eq_aggregate]⟩
      · exact Or.inl rfl

theorem run_handleInv (S : StdSort) :
    ∀ (ops : List Op) (s s1 : LuaProfilerState), LuaProfilerState.run S s ops = some s1 →
      RegistryInv s → HandleInv s → RegistryInv s1 ∧ HandleInv s1
  | [], s, s1, h, hr, hh => by
    simp only [LuaProfilerState.run, Option.some.injEq] at h
    rw [← h]
    exact ⟨hr, hh⟩
  | op :: ops, s, s1, h, hr, hh => by
    unfold LuaProfilerState.run at h
    split at h
    · cases h
    · rename_i s2 hap
      obtain ⟨h1, h2⟩ := apply_handleInv S hap
      exact run_handleInv S ops s2 s1 h (h1 hr) (h2 hr hh)

theorem ProfilerStart_handleInv {main_L : Nat} {s : LuaProfilerState}
    (h : ProfilerStart main_L = some s) : RegistryInv s ∧ HandleInv s := by
  obtain ⟨m0, hnew, hl0, hper0, hcnt0, _⟩ :=
    new_layoutInv kMutiStackBufferInitCount (by decide)
  obtain ⟨m1, hg, hl1, hper1, hcnt1, _⟩ := Get_layout m0 ⟨0, 0⟩ hl0
  unfold ProfilerStart LuaProfilerState.new at h
  simp only [hnew, Record.new, hg, LuaProfilerState.Init, LuaProfilerState.CreateCallInfoStack,
    LuaProfilerState.GetCallInfoStack, StackBuffer.new, StackBuffer.kInitCount, ne_eq,
    OfNat.ofNat_ne_zero, not_false_eq_true, if_true, Option.some.injEq] at h
  subst h
  refine ⟨⟨?_, ?_, ?_, ?_⟩, ⟨hl1, ?_, ?_⟩⟩
  · intro src l d hd
    simp [LuaProfilerState.luaDescriptor] at hd
  · intro g d hd
    simp at hd
  · intro src l src1 l1 d hd
    simp [LuaProfilerState.luaDescriptor] at hd
  · intro src l g d hd
    simp [LuaProfilerState.luaDescriptor] at hd
  · intro n hn
    simp only [Record.nodes, Record.nodesList, List.mem_singleton] at hn
    rw [hn]
    simp only [index_mk, data_mk, hper1, hcnt1]
    exact ⟨trivial, by omega⟩
  · intro n hn d hd
    simp only [Record.nodes, Record.nodesList, List.mem_singleton] at hn
    rw [hn] at hd
    cases hd

/-- In every reachable state the callsite registry is well formed, the arena has its layout,
and every node of the tree owns the counter record of its handle and has an allocated
descriptor. -/
theorem reachable_handleInv {S : StdSort} {s : LuaProfilerState} (h : Reachable S s) :
    RegistryInv s ∧ HandleInv s := by
  obtain ⟨main_L, ops, _, hrun⟩ := h
  unfold runFromStart at hrun
  split at hrun
  · cases hrun
  · rename_i s0 hs0
    obtain ⟨h1, h2⟩ := ProfilerStart_handleInv hs0
    exact run_handleInv S ops s0 s hrun h1 h2


/-! ## Claim C11 -/

/-- C11: in every reachable state and for every sequence of calls of `GetFunctionInfo`, a
lookup of an interpreted function returns a descriptor, two lookups of interpreted functions
return the same descriptor exactly when they have the same key, which is the pair of
`ar->source` (the address the table is keyed by) and `ar->linedefined`, and a lookup of a
native function never returns the descriptor of an interpreted function. -/
theorem C11_interning (S : StdSort) (s : LuaProfilerState) (hs : Reachable S s)
    (qs : List (lua_Debug × Nat)) (i j : Nat) (qi qj : lua_Debug × Nat)
    (hi : qs[i]? = some qi) (hj : qs[j]? = some qj) (hlua : qj.1.interpreted = true) :
    ∃ ri dj, (s.lookups qs)[i]? = some ri ∧ (s.lookups qs)[j]? = some (some dj)
      ∧ (qi.1.interpreted = true →
          ∃ di, ri = some di
            ∧ (di = dj ↔ qi.1.source = qj.1.source ∧ qi.1.linedefined = qj.1.linedefined))
      ∧ (qi.1.interpreted = false → ri ≠ some dj) := by
  obtain ⟨hinv, _, _, hres⟩ := afterLookups_spec qs s (reachable_handleInv hs).1
  obtain ⟨ri, hri, hi1, hi2⟩ := hres i qi hi
  obtain ⟨rj, hrj, hj1, _⟩ := hres j qj hj
  obtain ⟨dj, hdj, hkeyj⟩ := hj1 hlua
  refine ⟨ri, dj, hri, by rw [hrj, hdj], ?_, ?_⟩
  · intro hlua_i
    obtain ⟨di, hdi, hkeyi⟩ := hi1 hlua_i
    refine ⟨di, hdi, ?_, ?_⟩
    · intro heq
      rw [heq] at hkeyi
      exact hinv.lua_inj _ _ _ _ dj hkeyi hkeyj
    · rintro ⟨h1, h2⟩
      rw [h1, h2, hkeyj, Option.some.injEq] at hkeyi
      exact hkeyi.symm
  · intro hnat heq
    exact hinv.disjoint _ _ qi.2 dj hkeyj (hi2 hnat dj heq)

/-- Instance of C11: after a call of the function of line 1, the lookups of `sampleLookups`,
the first and the second. -/
theorem C11_interning_witness :
    Reachable insertionStdSort (stateAfter oneCallTrace)
    ∧ ∃ ri dj, ((stateAfter oneCallTrace).lookups sampleLookups)[0]? = some ri
        ∧ ((stateAfter oneCallTrace).lookups sampleLookups)[1]? = some (some dj)
        ∧ ((scenarioFunction 1 LUA_HOOKCALL).interpreted = true →
            ∃ di, ri = some di
              ∧ (di = dj ↔ (scenarioFunction 1 LUA_HOOKCALL).source
                    = (scenarioFunction 2 LUA_HOOKCALL).source
                  ∧ (scenarioFunction 1 LUA_HOOKCALL).linedefined
                    = (scenarioFunction 2 LUA_HOOKCALL).linedefined))
        ∧ ((scenarioFunction 1 LUA_HOOKCALL).interpreted = false → ri ≠ some dj) :=
  ⟨stateAfter_reachable oneCallTrace (by decide!) (by decide!),
    C11_interning insertionStdSort (stateAfter oneCallTrace)
      (stateAfter_reachable oneCallTrace (by decide!) (by decide!)) sampleLookups 0 1
      (scenarioFunction 1 LUA_HOOKCALL, 11) (scenarioFunction 2 LUA_HOOKCALL, 12) rfl rfl rfl⟩

/-! ## Claims C15 and C16: snapshots of a reachable state -/

/-- What `LuaProfilerState::Save` does in a state whose arena has its layout: it returns,
one snapshot is appended, nothing else changes, and the snapshot holds the live record of
every handle issued. -/
theorem Save_state (s : LuaProfilerState) (h : LayoutInv s.record_buffer_) :
    ∃ (s1 : LuaProfilerState) (sb : RecordCopy), s.Save = some s1
      ∧ s1.record_buffer_.records_ = s.record_buffer_.records_ ++ [sb]
      ∧ s1.record_buffer_.stack_buffer_list_ = s.record_buffer_.stack_buffer_list_
      ∧ s1.record_buffer_.curr_count_ = s.record_buffer_.curr_count_
      ∧ s1.record_buffer_.per_add_count_ = s.record_buffer_.per_add_count_
      ∧ s1.root_profiler_record_ = s.root_profiler_record_
      ∧ LayoutInv s1.record_buffer_
      ∧ sb.curr_count_ = s.record_buffer_.curr_count_
      ∧ (∀ k, k < s.record_buffer_.curr_count_ → sb.buffer_ k = s.record_buffer_.live k) := by
  obtain ⟨sb, h1, h2, h3⟩ := Save_layout s.record_buffer_ h
  refine ⟨{ s with record_buffer_ :=
      { s.record_buffer_ with records_ := s.record_buffer_.records_ ++ [sb] } }, sb, ?_,
    rfl, rfl, rfl, rfl, rfl, layoutInv_of_fields h rfl rfl rfl rfl, h2, h3⟩
  unfold LuaProfilerState.Save
  rw [h1]

theorem GetRecordByIndex_of_records {T : Type} (m : MultiStackBuffer T)
    (l rest : List (StaticBuffer T)) (sb : StaticBuffer T) (hm : m.records_ = l ++ sb :: rest) :
    m.GetRecordByIndex l.length = some sb := by
  have hlt : l.length < m.records_.length := by
    rw [hm]
    simp
  simp only [MultiStackBuffer.GetRecordByIndex, hlt, if_true, hm]
  rw [List.getElem?_append_right (Nat.le_refl _)]
  simp

theorem live_congr {m m1 : RecordBuffer}
    (h1 : m1.stack_buffer_list_ = m.stack_buffer_list_)
    (h2 : m1.per_add_count_ = m.per_add_count_) (k : Nat) : m1.live k = m.live k := by
  simp only [MultiStackBuffer.live, MultiStackBuffer.load, h1, h2]

/-- C15: in every reachable state two calls of `Save` in a row both return; the two
snapshots they append hold the same number of records and the same counter record at every
handle (both hold none from the number of handles issued on). -/
theorem C15_snapshot_idempotence (S : StdSort) (s : LuaProfilerState) (hr : Reachable S s) :
    ∃ s1 s2 sb1 sb2, s.Save = some s1 ∧ s1.Save = some s2
      ∧ s2.record_buffer_.GetRecordCount = s.record_buffer_.GetRecordCount + 2
      ∧ s2.record_buffer_.GetRecordByIndex s.record_buffer_.GetRecordCount = some sb1
      ∧ s2.record_buffer_.GetRecordByIndex (s.record_buffer_.GetRecordCount + 1) = some sb2
      ∧ sb1.curr_count_ = sb2.curr_count_
      ∧ (∀ h, sb1.At h = sb2.At h)
      ∧ (∀ h, h < s.record_buffer_.curr_count_ → sb2.At h = some (s.record_buffer_.live h)) := by
  have hl := (reachable_handleInv hr).2.layout
  obtain ⟨s1, sb1, hs1, hr1, hb1, hcnt1, hper1, _, hl1, hc1, hv1⟩ := Save_state s hl
  obtain ⟨s2, sb2, hs2, hr2, _, _, _, _, _, hc2, hv2⟩ := Save_state s1 hl1
  rw [hcnt1] at hc2 hv2
  have hat : ∀ h, h < s.record_buffer_.curr_count_ →
      sb1.At h = some (s.record_buffer_.live h) ∧ sb2.At h = some (s.record_buffer_.live h) := by
    intro h hh
    have h1 : ¬ (h ≥ sb1.curr_count_) := by omega
    have h2 : ¬ (h ≥ sb2.curr_count_) := by omega
    simp only [StaticBuffer.At, h1, h2, if_false, hv1 h hh, hv2 h hh, live_congr hb1 hper1,
      and_self]
  have hrec : s2.record_buffer_.records_ = s.record_buffer_.records_ ++ [sb1, sb2] := by
    rw [hr2, hr1]
    simp
  refine ⟨s1, s2, sb1, sb2, hs1, hs2, ?_, ?_, ?_, hc1.trans hc2.symm, ?_,
    fun h hh => (hat h hh).2⟩
  · simp [MultiStackBuffer.GetRecordCount, hrec]
  · exact GetRecordByIndex_of_records _ _ [sb2] sb1 hrec
  · have := GetRecordByIndex_of_records s2.record_buffer_ (s.record_buffer_.records_ ++ [sb1]) []
      sb2 (by rw [hrec]; simp)
    simpa [MultiStackBuffer.GetRecordCount] using this
  · intro h
    by_cases hh : h < s.record_buffer_.curr_count_
    · rw [(hat h hh).1, (hat h hh).2]
    · have h1 : h ≥ sb1.curr_count_ := by omega
      have h2 : h ≥ sb2.curr_count_ := by omega
      simp only [StaticBuffer.At, h1, h2, if_true]

/-- Instance of C15: the state left by the call of A at time 5. -/
theorem C15_snapshot_idempotence_witness :
    Reachable insertionStdSort (stateAfter oneCallTrace)
    ∧ ∃ s1 s2 sb1 sb2, (stateAfter oneCallTrace).Save = some s1 ∧ s1.Save = some s2
        ∧ s2.record_buffer_.GetRecordByIndex (stateAfter oneCallTrace).record_buffer_.GetRecordCount
            = some sb1
        ∧ s2.record_buffer_.GetRecordByIndex
            ((stateAfter oneCallTrace).record_buffer_.GetRecordCount + 1) = some sb2
        ∧ sb1.curr_count_ = sb2.curr_count_
        ∧ (∀ h, sb1.At h = sb2.At h) :=
  ⟨stateAfter_reachable oneCallTrace (by decide!) (by decide!),
    match C15_snapshot_idempotence insertionStdSort (stateAfter oneCallTrace)
        (stateAfter_reachable oneCallTrace (by decide!) (by decide!)) with
    | ⟨s1, s2, sb1, sb2, h1, h2, _, h4, h5, h6, h7, _⟩ => ⟨s1, s2, sb1, sb2, h1, h2, h4, h5, h6, h7⟩⟩

mutual
theorem aggregate_congr (S : StdSort) (sel1 sel2 : Nat → Nat × Nat → Nat × Nat) :
    ∀ r : Record, (∀ n ∈ Record.nodes r, sel1 n.index_ n.data_ = sel2 n.index_ n.data_) →
      Record.aggregate S sel1 r = Record.aggregate S sel2 r
  | .mk fi ti tf tc idx d cs => by
    intro h
    have hself := h (.mk fi ti tf tc idx d cs) (by simp [Record.nodes])
    simp only [index_mk, data_mk] at hself
    have hloop := aggregateLoop_congr S sel1 sel2 0 cs
      (fun n hn => h n (by simp only [Record.nodes, List.mem_cons]; exact Or.inr hn))
    simp only [Record.aggregate, hself, hloop]
theorem aggregateLoop_congr (S : StdSort) (sel1 sel2 : Nat → Nat × Nat → Nat × Nat) :
    ∀ (acc : Nat) (cs : List Record),
      (∀ n ∈ Record.nodesList cs, sel1 n.index_ n.data_ = sel2 n.index_ n.data_) →
      Record.aggregateLoop S sel1 acc cs = Record.aggregateLoop S sel2 acc cs
  | acc, [] => by simp [Record.aggregateLoop]
  | acc, c :: cs => by
    intro h
    have h1 := aggregate_congr S sel1 sel2 c
      (fun n hn => h n (by simp only [Record.nodesList, List.mem_append]; exact Or.inl hn))
    have h2 := aggregateLoop_congr S sel1 sel2 (add64 acc (Record.aggregate S sel2 c).2) cs
      (fun n hn => h n (by simp only [Record.nodesList, List.mem_append]; exact Or.inr hn))
    simp only [Record.aggregateLoop, h1, h2]
end

/-- C16: in every reachable state `Save` returns, and the pass over the live counters gives
the same tree, with the same self elapsed, call count and total elapsed at every node and
the same order of the children, and the same value as the pass with no start snapshot over
the snapshot that `Save` appends in that state. -/
theorem C16_live_equals_snapshot (S : StdSort) (s : LuaProfilerState) (hr : Reachable S s) :
    ∃ s1 sb, s.Save = some s1
      ∧ s1.record_buffer_.GetRecordByIndex s.record_buffer_.GetRecordCount = some sb
      ∧ s.root_profiler_record_.CalcChildrenElapse S s.record_buffer_
          = s.root_profiler_record_.CalcChildrenElapseCopy S none sb
      ∧ s1.root_profiler_record_.CalcChildrenElapse S s1.record_buffer_
          = s1.root_profiler_record_.CalcChildrenElapseCopy S none sb := by
  obtain ⟨hl, hn⟩ := (reachable_handleInv hr).2
  obtain ⟨s1, sb, hs, hr1, hb1, hcnt1, hper1, hroot1, _, hc, hv⟩ := Save_state s hl
  have hsel : ∀ (b : RecordBuffer), b.stack_buffer_list_ = s.record_buffer_.stack_buffer_list_ →
      ∀ n ∈ Record.nodes s.root_profiler_record_,
        liveSel b n.index_ n.data_ = copySel none sb n.index_ n.data_ := by
    intro b hb n hmem
    obtain ⟨h1, h2⟩ := hn n hmem
    have hlt : ¬ (n.index_ ≥ sb.curr_count_) := by omega
    simp only [liveSel, copySel, Record.windowValues, StaticBuffer.At, hlt, if_false, hv _ h2,
      MultiStackBuffer.live, ← h1, MultiStackBuffer.load, hb]
  refine ⟨s1, sb, hs, GetRecordByIndex_of_records _ _ [] sb hr1, ?_, ?_⟩
  · rw [CalcChildrenElapse_eq_aggregate, CalcChildrenElapseCopy_eq_aggregate]
    exact aggregate_congr S _ _ _ (hsel _ rfl)
  · rw [hroot1, CalcChildrenElapse_eq_aggregate, CalcChildrenElapseCopy_eq_aggregate]
    exact aggregate_congr S _ _ _ (hsel _ hb1)

/-- Instance of C16: the state left by the scenario of the specification. -/
theorem C16_live_equals_snapshot_witness :
    Reachable insertionStdSort (stateAfter scenarioTrace)
    ∧ ∃ s1 sb, (stateAfter scenarioTrace).Save = some s1
        ∧ s1.record_buffer_.GetRecordByIndex (stateAfter scenarioTrace).record_buffer_.GetRecordCount
            = some sb
        ∧ (stateAfter scenarioTrace).root_profiler_record_.CalcChildrenElapse insertionStdSort
              (stateAfter scenarioTrace).record_buffer_
            = (stateAfter scenarioTrace).root_profiler_record_.CalcChildrenElapseCopy
                insertionStdSort none sb :=
  ⟨stateAfter_reachable scenarioTrace (by decide!) (by decide!),
    match C16_live_equals_snapshot insertionStdSort (stateAfter scenarioTrace)
        (stateAfter_reachable scenarioTrace (by decide!) (by decide!)) with
    | ⟨s1, sb, h1, h2, h3, _⟩ => ⟨s1, sb, h1, h2, h3⟩⟩


/-! ## Claim C17 -/

/-- Counterexample to C17 as stated: X is created before Y; a first pass puts Y, whose total
is larger, first; when a second run has brought the total of X to that of Y, the next pass,
even with a stable sort, leaves Y before X, which is not the order of creation. -/
theorem C17_counterexample :
    (stateAfter twoChildrenTrace).root_profiler_record_.children_list_.map Record.func_info_
        = [some 0, some 1]
    ∧ (stateAfter tieTrace).root_profiler_record_.childrenSummary
        = [(some 1, 2, 10), (some 0, 1, 10)]
    ∧ ¬ (stateAfter tieTrace).root_profiler_record_.tiesInCreationOrder := by
  decide!

theorem aggregate_sorted (S : StdSort) (sel : Nat → Nat × Nat → Nat × Nat) (r : Record) :
    List.Pairwise (fun a b : Record => b.temp_full_elapse_ ≤ a.temp_full_elapse_)
      (Record.aggregate S sel r).1.children_list_ := by
  cases r with
  | mk fi ti tf tc idx d cs =>
    simp only [Record.aggregate, children_list_mk]
    split
    · refine List.Pairwise.imp ?_ (S.sorted _)
      intro a b hab
      simpa [Record.RecordSort] using hab
    · rename_i hlen
      match hl : (Record.aggregateLoop S sel 0 cs).1 with
      | [] => exact List.Pairwise.nil
      | [x] => exact List.pairwise_singleton _ _
      | x :: y :: rest =>
        rw [hl] at hlen
        simp at hlen

/-- C17 as amended: after a pass of either overload of `CalcChildrenElapse`, at every node
of the tree the children list is a rearrangement of the children the node had, each after
its own pass, and is ordered by non-increasing total elapsed as computed in the pass.  The
order among children with equal totals is not fixed. -/
theorem C17_children_sorted (S : StdSort) (buffer : RecordBuffer)
    (start_record : Option RecordCopy) (end_record : RecordCopy) (root : Record) :
    (∀ n ∈ Record.nodes (Record.CalcChildrenElapse S buffer root).1,
      ∃ n0 ∈ Record.nodes root,
        n = (Record.CalcChildrenElapse S buffer n0).1
        ∧ List.Perm n.children_list_
            (n0.children_list_.map (fun c => (Record.CalcChildrenElapse S buffer c).1))
        ∧ List.Pairwise (fun a b : Record => b.temp_full_elapse_ ≤ a.temp_full_elapse_)
            n.children_list_)
    ∧ (∀ n ∈ Record.nodes (Record.CalcChildrenElapseCopy S start_record end_record root).1,
      ∃ n0 ∈ Record.nodes root,
        n = (Record.CalcChildrenElapseCopy S start_record end_record n0).1
        ∧ List.Perm n.children_list_
            (n0.children_list_.map
              (fun c => (Record.CalcChildrenElapseCopy S start_record end_record c).1))
        ∧ List.Pairwise (fun a b : Record => b.temp_full_elapse_ ≤ a.temp_full_elapse_)
            n.children_list_) := by
  have hfun1 : (fun c => (Record.CalcChildrenElapse S buffer c).1)
      = fun c => (Record.aggregate S (liveSel buffer) c).1 := by
    funext c
    rw [CalcChildrenElapse_eq_aggregate]
  have hfun2 : (fun c => (Record.CalcChildrenElapseCopy S start_record end_record c).1)
      = fun c => (Record.aggregate S (copySel start_record end_record) c).1 := by
    funext c
    rw [CalcChildrenElapseCopy_eq_aggregate]
  constructor
  · intro n hn
    rw [CalcChildrenElapse_eq_aggregate] at hn
    obtain ⟨n0, hn0, he⟩ := mem_nodes_aggregate S _ root n hn
    refine ⟨n0, hn0, by rw [CalcChildrenElapse_eq_aggregate]; exact he, ?_, ?_⟩
    · rw [hfun1, he]
      exact aggregate_children S _ n0
    · rw [he]
      exact aggregate_sorted S _ n0
  · intro n hn
    rw [CalcChildrenElapseCopy_eq_aggregate] at hn
    obtain ⟨n0, hn0, he⟩ := mem_nodes_aggregate S _ root n hn
    refine ⟨n0, hn0, by rw [CalcChildrenElapseCopy_eq_aggregate]; exact he, ?_, ?_⟩
    · rw [hfun2, he]
      exact aggregate_children S _ n0
    · rw [he]
      exact aggregate_sorted S _ n0


/-! ## Claim C18 -/

theorem findChild_append_new (r child : Record) (d : Nat) (hchild : child.func_info_ = some d)
    (hnone : r.findChild d = none) (k : Nat) :
    (Record.mk r.func_info_ r.temp_inner_elapse_ r.temp_full_elapse_ r.temp_call_count_
        r.index_ r.data_ (r.children_list_ ++ [child])).findChild k
      = if k = d then some child else r.findChild k := by
  rw [findChild_mk, List.find?_append]
  by_cases hk : k = d
  · subst hk
    unfold Record.findChild at hnone
    simp [hnone, hchild]
  · have hne : ¬ (child.func_info_ = some k) := by
      rw [hchild]
      intro h
      exact hk (Option.some.inj h).symm
    unfold Record.findChild
    cases hf : r.children_list_.find? (fun c => c.func_info_ == some k) with
    | none => simp [hk, hne]
    | some c => simp [hk]

theorem findChild_withChild (r child : Record) (d : Nat) (hchild : child.func_info_ = some d)
    (hnone : r.findChild d = none) (k : Nat) :
    (r.withChild child).findChild k = if k = d then some child else r.findChild k :=
  findChild_append_new r child d hchild hnone k

theorem getAt_leaf (c : Record) (hleaf : c.children_list_ = []) (k : Nat) (rest : RecordPtr) :
    c.getAt (k :: rest) = none := by
  unfold Record.getAt Record.findChild
  rw [hleaf]
  rfl

/-- The tree after a new child has been pushed on the node designated by `p`: every node it
had is still there with the same own fields and, apart from the node `p`, the same children
keys; the only node added is the new child. -/
theorem setAt_withChild (d : Nat) (child : Record) (hchild : child.func_info_ = some d)
    (hleaf : child.children_list_ = []) :
    ∀ (p : RecordPtr) (root r : Record), root.getAt p = some r → r.findChild d = none →
      (∀ (q : RecordPtr) (n : Record), root.getAt q = some n →
        ∃ n1, (Record.setAt p root (r.withChild child)).getAt q = some n1 ∧ n1.own = n.own
          ∧ (q ≠ p → n1.childKeys = n.childKeys))
      ∧ (∀ (q : RecordPtr) (n1 : Record),
          (Record.setAt p root (r.withChild child)).getAt q = some n1 →
          q = p ++ [d] ∨ (root.getAt q).isSome = true)
  | [], root, r, hg, hnone => by
    simp only [Record.getAt, Option.some.injEq] at hg
    subst hg
    simp only [Record.setAt]
    constructor
    · intro q n hq
      cases q with
      | nil =>
        simp only [Record.getAt, Option.some.injEq] at hq
        subst hq
        exact ⟨_, rfl, rfl, fun h => absurd rfl h⟩
      | cons k rest =>
        unfold Record.getAt at hq ⊢
        cases hfc : root.findChild k with
        | none => simp [hfc] at hq
        | some c =>
          have hk : k ≠ d := by
            intro hkd
            rw [hkd, hnone] at hfc
            cases hfc
          rw [findChild_withChild root child d hchild hnone k, if_neg hk, hfc]
          simp only [hfc] at hq
          exact ⟨n, hq, rfl, fun _ => rfl⟩
    · intro q n1 hq
      cases q with
      | nil => exact Or.inr (by simp [Record.getAt])
      | cons k rest =>
        unfold Record.getAt at hq
        rw [findChild_withChild root child d hchild hnone k] at hq
        by_cases hk : k = d
        · rw [if_pos hk] at hq
          simp only at hq
          cases rest with
          | nil => exact Or.inl (by rw [hk]; rfl)
          | cons k2 rest2 =>
            rw [getAt_leaf child hleaf] at hq
            cases hq
        · rw [if_neg hk] at hq
          refine Or.inr ?_
          unfold Record.getAt
          cases hfc : root.findChild k with
          | none => simp [hfc] at hq
          | some c =>
            simp only [hfc] at hq ⊢
            rw [hq]
            rfl
  | k0 :: p, root, r, hg, hnone => by
    unfold Record.getAt at hg
    cases hfc0 : root.findChild k0 with
    | none => simp [hfc0] at hg
    | some c0 =>
      simp only [hfc0] at hg
      obtain ⟨iha, ihb⟩ := setAt_withChild d child hchild hleaf p c0 r hg hnone
      have hfi : (Record.setAt p c0 (r.withChild child)).func_info_ = some k0 := by
        rw [setAt_func_info p c0 _ (fun n hn => by
          rw [hg, Option.some.injEq] at hn
          rw [← hn]
          rfl)]
        exact (findChild_some hfc0).2
      rw [setAt_cons_of_find p _ hfc0]
      have hfind : ∀ k, (Record.mk root.func_info_ root.temp_inner_elapse_ root.temp_full_elapse_
            root.temp_call_count_ root.index_ root.data_
            (Record.replaceChild k0 (Record.setAt p c0 (r.withChild child))
              root.children_list_)).findChild k
          = if k = k0 then some (Record.setAt p c0 (r.withChild child))
            else root.findChild k := by
        intro k
        rw [findChild_mk]
        by_cases hk : k = k0
        · rw [if_pos hk, hk]
          exact find_replaceChild_same k0 _ hfi root.children_list_ c0 hfc0
        · rw [if_neg hk]
          exact find_replaceChild_other k0 k hk _ hfi root.children_list_
      constructor
      · intro q n hq
        cases q with
        | nil =>
          simp only [Record.getAt, Option.some.injEq] at hq
          subst hq
          refine ⟨_, rfl, rfl, fun _ => ?_⟩
          simp only [Record.childKeys, children_list_mk]
          exact replaceChild_keys k0 _ hfi root.children_list_
        | cons k rest =>
          unfold Record.getAt at hq ⊢
          rw [hfind k]
          by_cases hk : k = k0
          · rw [if_pos hk]
            rw [hk, hfc0] at hq
            simp only at hq ⊢
            obtain ⟨n1, h1, h2, h3⟩ := iha rest n hq
            refine ⟨n1, h1, h2, fun hne => h3 ?_⟩
            intro hrest
            exact hne (by rw [hk, hrest])
          · rw [if_neg hk]
            cases hfc : root.findChild k with
            | none => simp [hfc] at hq
            | some c =>
              simp only [hfc] at hq ⊢
              exact ⟨n, hq, rfl, fun _ => rfl⟩
      · intro q n1 hq
        cases q with
        | nil => exact Or.inr (by simp [Record.getAt])
        | cons k rest =>
          unfold Record.getAt at hq
          rw [hfind k] at hq
          by_cases hk : k = k0
          · rw [if_pos hk] at hq
            simp only at hq
            rcases ihb rest n1 hq with h1 | h1
            · exact Or.inl (by rw [hk, h1]; rfl)
            · refine Or.inr ?_
              unfold Record.getAt
              rw [hk, hfc0]
              exact h1
          · rw [if_neg hk] at hq
            refine Or.inr ?_
            unfold Record.getAt
            cases hfc : root.findChild k with
            | none => simp [hfc] at hq
            | some c =>
              simp only [hfc] at hq ⊢
              rw [hq]
              rfl

theorem GetChildRecordAt_existing (root r c : Record) (buffer : RecordBuffer) (p : RecordPtr)
    (d : Nat) (hg : root.getAt p = some r) (hfc : r.findChild d = some c) :
    Record.GetChildRecordAt root buffer p d = some (root, buffer, p ++ [d])
      ∧ root.getAt (p ++ [d]) = some c := by
  constructor
  · unfold Record.GetChildRecordAt Record.GetChildRecord
    simp only [hg, hfc, setAt_self p root r hg]
  · rw [getAt_append, hg]
    simp only [Record.getAt, hfc]

/-- C18: `GetChildRecord` called on the node a pointer designates, for the descriptor `d`,
in a state whose arena has its layout and whose nodes own the records of their handles.  The
call returns the child keyed by `d`, and a second call returns the same node and changes
nothing.  When the node has a child keyed by `d`, the tree and the arena are left as they
are.  Otherwise one child is created: it is a leaf keyed by `d`, last in the children list of
the node, its handle is the number of handles issued before the call, its counter record is
zero and belongs to no other node, no other counter record changes, every node the tree had
keeps its own fields and (apart from the node called) its children, and no other node is
added. -/
theorem C18_get_child_record (root r : Record) (buffer : RecordBuffer) (p : RecordPtr)
    (d : Nat) (hg : root.getAt p = some r) (hl : LayoutInv buffer)
    (hn : NodesInv root buffer) :
    ∃ root1 buffer1 child,
      Record.GetChildRecordAt root buffer p d = some (root1, buffer1, p ++ [d])
      ∧ root1.getAt (p ++ [d]) = some child ∧ child.func_info_ = some d
      ∧ Record.GetChildRecordAt root1 buffer1 p d = some (root1, buffer1, p ++ [d])
      ∧ (∀ c, r.findChild d = some c → root1 = root ∧ buffer1 = buffer ∧ child = c)
      ∧ (r.findChild d = none →
          child = .mk (some d) 0 0 0 buffer.curr_count_
                    (handlePtr buffer.per_add_count_ buffer.curr_count_) []
          ∧ buffer1.curr_count_ = buffer.curr_count_ + 1
          ∧ buffer1.load child.data_ = ⟨0, 0⟩
          ∧ (∀ n ∈ root.nodes, n.data_ ≠ child.data_)
          ∧ (∀ q, q ≠ child.data_ → buffer1.load q = buffer.load q)
          ∧ root1.getAt p = some (r.withChild child)
          ∧ (∀ (q : RecordPtr) (n : Record), root.getAt q = some n →
              ∃ n1, root1.getAt q = some n1 ∧ n1.own = n.own
                ∧ (q ≠ p → n1.childKeys = n.childKeys))
          ∧ (∀ (q : RecordPtr) (n1 : Record), root1.getAt q = some n1 →
              q = p ++ [d] ∨ (root.getAt q).isSome = true)) := by
  cases hfc : r.findChild d with
  | some c =>
    obtain ⟨h1, h2⟩ := GetChildRecordAt_existing root r c buffer p d hg hfc
    refine ⟨root, buffer, c, h1, h2, (findChild_some hfc).2, h1, ?_, ?_⟩
    · intro c1 hc1
      rw [Option.some.injEq] at hc1
      exact ⟨rfl, rfl, hc1⟩
    · intro h
      cases h
  | none =>
    obtain ⟨m1, hget, _, _, hcnt1, _, hload, hother, _⟩ := Get_layout buffer ⟨0, 0⟩ hl
    have hchild : (Record.mk (some d) 0 0 0 buffer.curr_count_
        (handlePtr buffer.per_add_count_ buffer.curr_count_) []).func_info_ = some d := rfl
    have hleaf : (Record.mk (some d) 0 0 0 buffer.curr_count_
        (handlePtr buffer.per_add_count_ buffer.curr_count_) []).children_list_ = [] := rfl
    have hcall : Record.GetChildRecordAt root buffer p d
        = some (Record.setAt p root (r.withChild (.mk (some d) 0 0 0 buffer.curr_count_
            (handlePtr buffer.per_add_count_ buffer.curr_count_) [])), m1, p ++ [d]) := by
      unfold Record.GetChildRecordAt Record.GetChildRecord Record.new
      simp only [hg, hfc, hget, Record.withChild]
    have hgp := getAt_setAt_same p root r
      (r.withChild (.mk (some d) 0 0 0 buffer.curr_count_
        (handlePtr buffer.per_add_count_ buffer.curr_count_) [])) hg rfl
    have hfc1 := findChild_withChild r _ d hchild hfc d
    rw [if_pos rfl] at hfc1
    obtain ⟨h2a, h2b⟩ := GetChildRecordAt_existing _ _ _ m1 p d hgp hfc1
    obtain ⟨ha, hb⟩ := setAt_withChild d _ hchild hleaf p root r hg hfc
    refine ⟨_, m1, _, hcall, h2b, hchild, h2a, ?_, ?_⟩
    · intro c hc
      cases hc
    · intro _
      refine ⟨rfl, hcnt1, hload, ?_, hother, hgp, ha, hb⟩
      intro n hmem heq
      obtain ⟨g1, g2⟩ := hn n hmem
      simp only [data_mk] at heq
      rw [g1] at heq
      have := handlePtr_inj _ _ _ heq
      omega

/-- Instance of C18: the root of the tree left by the call of A, and a descriptor it has no
child for. -/
theorem C18_get_child_record_witness :
    (stateAfter oneCallTrace).root_profiler_record_.getAt []
        = some (stateAfter oneCallTrace).root_profiler_record_
    ∧ LayoutInv (stateAfter oneCallTrace).record_buffer_
    ∧ NodesInv (stateAfter oneCallTrace).root_profiler_record_
        (stateAfter oneCallTrace).record_buffer_
    ∧ ∃ root1 buffer1 child,
        Record.GetChildRecordAt (stateAfter oneCallTrace).root_profiler_record_
            (stateAfter oneCallTrace).record_buffer_ [] 7 = some (root1, buffer1, [] ++ [7])
        ∧ root1.getAt ([] ++ [7]) = some child ∧ child.func_info_ = some 7 :=
  ⟨rfl,
    (reachable_handleInv
      (stateAfter_reachable oneCallTrace (by decide!) (by decide!))).2.layout,
    (reachable_handleInv
      (stateAfter_reachable oneCallTrace (by decide!) (by decide!))).2.nodes,
    match C18_get_child_record (stateAfter oneCallTrace).root_profiler_record_
        (stateAfter oneCallTrace).root_profiler_record_
        (stateAfter oneCallTrace).record_buffer_ [] 7 rfl
        (reachable_handleInv
          (stateAfter_reachable oneCallTrace (by decide!) (by decide!))).2.layout
        (reachable_handleInv
          (stateAfter_reachable oneCallTrace (by decide!) (by decide!))).2.nodes with
    | ⟨root1, buffer1, child, h1, h2, h3, _⟩ => ⟨root1, buffer1, child, h1, h2, h3⟩⟩


/-! ## Claim C19 -/

mutual
theorem Data2Json_some (host : DumpHost) (infos : List FunctionInfo) (total_elapse : Nat) :
    ∀ r : Record, (∀ n ∈ Record.nodes r, ∀ d, n.func_info_ = some d → d < infos.length) →
      ∃ text, Record.Data2Json host infos total_elapse r = some text
  | .mk fi ti tf tc idx d cs => by
    intro h
    have hself := h (.mk fi ti tf tc idx d cs) (by simp [Record.nodes])
    obtain ⟨sub, hsub⟩ := Data2JsonLoop_some host infos total_elapse cs
      (fun n hn => h n (by simp only [Record.nodes, List.mem_cons]; exact Or.inr hn))
    have hline : ∃ line, (match fi with
        | some d =>
          match infos[d]? with
          | some func_info => some (host.call_line func_info tc tf ti total_elapse)
          | none => none
        | none => some (host.root_line tf)) = some line := by
      cases fi with
      | none => exact ⟨_, rfl⟩
      | some d0 =>
        have hlt := hself d0 rfl
        simp only [List.getElem?_eq_getElem hlt]
        exact ⟨_, rfl⟩
    obtain ⟨line, hl⟩ := hline
    simp only [Record.Data2Json, hl, hsub]
    split
    · exact ⟨_, rfl⟩
    · exact ⟨_, rfl⟩
theorem Data2JsonLoop_some (host : DumpHost) (infos : List FunctionInfo) (total_elapse : Nat) :
    ∀ cs : List Record,
      (∀ n ∈ Record.nodesList cs, ∀ d, n.func_info_ = some d → d < infos.length) →
      ∃ text, Record.Data2JsonLoop host infos total_elapse cs = some text
  | [] => fun _ => ⟨"", rfl⟩
  | c :: cs => by
    intro h
    obtain ⟨t1, h1⟩ := Data2Json_some host infos total_elapse c
      (fun n hn => h n (by simp only [Record.nodesList, List.mem_append]; exact Or.inl hn))
    obtain ⟨t2, h2⟩ := Data2JsonLoop_some host infos total_elapse cs
      (fun n hn => h n (by simp only [Record.nodesList, List.mem_append]; exact Or.inr hn))
    simp only [Record.Data2JsonLoop, h1, h2]
    exact ⟨_, rfl⟩
end

theorem CalcRecord_value (S : StdSort) (s : LuaProfilerState) (n : Nat) (a b : Int)
    (hvalid : (s.CalcRecord S n a b).isError = false) :
    s.CalcRecord S n a b = .returned (s.CalcRecord S n a b).state (s.CalcRecord S n a b).value
    ∧ (s.CalcRecord S n a b).value
        = (s.CalcRecord S n a b).state.root_profiler_record_.temp_full_elapse_ := by
  have key : ∀ o : Outcome, o.isError = false →
      (∃ (r : Record × Nat), r.2 = r.1.temp_full_elapse_
        ∧ o = .returned { s with root_profiler_record_ := r.1 } r.2) →
      o = .returned o.state o.value ∧ o.value = o.state.root_profiler_record_.temp_full_elapse_ := by
    intro o _ ⟨r, hr, ho⟩
    rw [ho]
    exact ⟨rfl, hr⟩
  apply key _ hvalid
  unfold LuaProfilerState.CalcRecord at hvalid ⊢
  split
  · refine ⟨_, ?_, rfl⟩
    rw [CalcChildrenElapse_eq_aggregate]
    exact aggregate_snd S _ _
  · rename_i h1
    simp only [h1, if_false] at hvalid
    split
    · rename_i h3
      simp only [h3, if_true] at hvalid
      split
      · rename_i h4
        simp [h4, Outcome.isError] at hvalid
      · rename_i h4
        simp only [h4, if_false] at hvalid
        split
        · rename_i h5
          simp [h5, Outcome.isError] at hvalid
        · rename_i h5
          simp only [h5, if_false] at hvalid
          split
          · rename_i h6
            simp [h6, Outcome.isError] at hvalid
          · rename_i h6
            simp only [h6, if_false] at hvalid
            cases hg : MultiStackBuffer.GetRecordByIndex s.record_buffer_ b.toNat with
            | none => simp [hg, Outcome.isError] at hvalid
            | some end_record =>
              refine ⟨_, ?_, rfl⟩
              rw [CalcChildrenElapseCopy_eq_aggregate]
              exact aggregate_snd S _ _
    · rename_i h3
      simp [h3, Outcome.isError] at hvalid

/-- Claim C19: in every reachable state, for a dump request whose argument list is valid
(the computation of the totals for the requested window, the full history or a pair of
snapshots, raises no error), the value `Dump2json` tests is the total elapsed of the root;
when it is zero, `Dump2json` raises an error without having called `fopen` and without
having written anything; when it is not zero, the file name is a string and `fopen` opens
the file, `Dump2json` returns without error, having written a report to that file. -/
theorem C19_dump_contract (S : StdSort) (host : DumpHost) (s : LuaProfilerState)
    (hr : Reachable S s) (n : Nat) (file_name : Option String) (start_index end_index : Int)
    (hvalid : (s.CalcRecord S n start_index end_index).isError = false) :
    (s.CalcRecord S n start_index end_index).value
        = (s.CalcRecord S n start_index end_index).state.root_profiler_record_.temp_full_elapse_
    ∧ ((s.CalcRecord S n start_index end_index).value = 0 →
        ∃ message, s.Dump2json S host n file_name start_index end_index
          = some ⟨.lua_error (s.CalcRecord S n start_index end_index).state message, none, none⟩)
    ∧ ((s.CalcRecord S n start_index end_index).value ≠ 0 →
        ∀ name, file_name = some name → host.fopen name = true →
        ∃ text, s.Dump2json S host n file_name start_index end_index
          = some ⟨.returned (s.CalcRecord S n start_index end_index).state 0, some name,
              some text⟩) := by
  obtain ⟨heq, hval⟩ := CalcRecord_value S s n start_index end_index hvalid
  have hinv : HandleInv (s.CalcRecord S n start_index end_index).state :=
    (@apply_handleInv S s _ (.query n start_index end_index) rfl).2
      (reachable_handleInv hr).1 (reachable_handleInv hr).2
  generalize (s.CalcRecord S n start_index end_index).state = s1 at heq hval hinv ⊢
  generalize (s.CalcRecord S n start_index end_index).value = v at heq hval ⊢
  refine ⟨hval, fun hz => ?_, fun hnz name hname hopen => ?_⟩
  · refine ⟨"profiler CalcRecord error", ?_⟩
    simp only [LuaProfilerState.Dump2json, heq, hz, if_true]
  · obtain ⟨text, htext⟩ := Data2Json_some host s1.function_infos_ v s1.root_profiler_record_
      hinv.descriptors
    refine ⟨"\x7b" ++ text ++ "\x7d", ?_⟩
    simp only [LuaProfilerState.Dump2json, heq, hnz, if_false, hname, hopen, not_true_eq_false,
      htext]

/-- Witness of C19: the state after the scenario of the specification, a request for the full
history with a file name, on a host whose files all open. -/
theorem C19_dump_contract_witness :
    Reachable insertionStdSort (stateAfter scenarioTrace)
    ∧ ((stateAfter scenarioTrace).CalcRecord insertionStdSort 1 0 0).isError = false
    ∧ (((stateAfter scenarioTrace).CalcRecord insertionStdSort 1 0 0).value
        = ((stateAfter scenarioTrace).CalcRecord insertionStdSort 1 0
            0).state.root_profiler_record_.temp_full_elapse_
      ∧ (((stateAfter scenarioTrace).CalcRecord insertionStdSort 1 0 0).value = 0 →
        ∃ message, (stateAfter scenarioTrace).Dump2json insertionStdSort plainHost 1
            (some "report.json") 0 0
          = some ⟨.lua_error ((stateAfter scenarioTrace).CalcRecord insertionStdSort 1 0 0).state
              message, none, none⟩)
      ∧ (((stateAfter scenarioTrace).CalcRecord insertionStdSort 1 0 0).value ≠ 0 →
        ∀ name, some "report.json" = some name → plainHost.fopen name = true →
        ∃ text, (stateAfter scenarioTrace).Dump2json insertionStdSort plainHost 1
            (some "report.json") 0 0
          = some ⟨.returned ((stateAfter scenarioTrace).CalcRecord insertionStdSort 1 0 0).state 0,
              some name, some text⟩)) :=
  ⟨stateAfter_reachable scenarioTrace (by decide!) (by decide!), by decide!,
    C19_dump_contract insertionStdSort plainHost (stateAfter scenarioTrace)
    (stateAfter_reachable scenarioTrace (by decide!) (by decide!)) 1 (some "report.json") 0 0 (by decide!)⟩


/-! ## Claim C20 -/

theorem sub64_of_le {time enter_time : Nat} (h : enter_time ≤ time) (ht : time < U64) :
    sub64 time enter_time = time - enter_time := by
  unfold sub64
  have h1 : enter_time < U64 := Nat.lt_of_le_of_lt h ht
  rw [Nat.mod_eq_of_lt ht, Nat.mod_eq_of_lt h1]
  have h2 : time + (U64 - enter_time) = (time - enter_time) + U64 := by omega
  rw [h2, Nat.add_mod_right]
  exact Nat.mod_eq_of_lt (by omega)

theorem credit_of_le {T time enter_time : Nat} (h : enter_time ≤ time) (hT : time ≤ T)
    (ht : time < U64) : Credit T (sub64 time enter_time) :=
  ⟨time, enter_time, h, hT, rfl, sub64_of_le h ht⟩

theorem Credit.le {T e : Nat} (h : Credit T e) : e ≤ T := by
  obtain ⟨time, enter_time, _, h2, _, h4⟩ := h
  omega

theorem foldl_add64_exact : ∀ (credits : List Nat) (x : Nat), x + credits.sum < U64 →
    credits.foldl add64 x = x + credits.sum
  | [], x, _ => by simp
  | e :: credits, x, h => by
    simp only [List.sum_cons] at h
    have h1 : add64 x e = x + e := by
      unfold add64
      exact Nat.mod_eq_of_lt (by omega)
    simp only [List.foldl_cons, List.sum_cons, h1]
    rw [foldl_add64_exact credits (x + e) (by omega)]
    omega

theorem iterate_inc32_exact : ∀ (j x : Nat), x + j < U32 → Nat.iterate inc32 j x = x + j
  | 0, x, _ => rfl
  | j + 1, x, h => by
    rw [Function.iterate_succ_apply']
    rw [iterate_inc32_exact j x (by omega)]
    unfold inc32
    exact Nat.mod_eq_of_lt (by omega)

theorem timesOk_mono {F G : Nat → Prop} (hFG : ∀ x, F x → G x) {s : LuaProfilerState}
    (h : s.TimesOk F) : s.TimesOk G :=
  fun L stk i hL => hFG _ (h L stk i hL)

theorem mem_nodes_self (r : Record) : r ∈ r.nodes := by
  rw [nodes_eq]
  exact List.mem_cons_self _ _

theorem AddInnerElapse_live (r : Record) (b : RecordBuffer) (e : Nat) (hl : LayoutInv b)
    (hd : r.data_ = handlePtr b.per_add_count_ r.index_) (hi : r.index_ < b.curr_count_)
    (h : Nat) :
    (h = r.index_ →
      (MultiStackBuffer.live (r.AddInnerElapse b e) h).inner_elapse_
          = add64 (b.live h).inner_elapse_ e
        ∧ (MultiStackBuffer.live (r.AddInnerElapse b e) h).call_count_ = (b.live h).call_count_)
    ∧ (h ≠ r.index_ → MultiStackBuffer.live (r.AddInnerElapse b e) h = b.live h) := by
  have hper := (AddInnerElapse_layout r b e hl).2.1
  constructor
  · intro hhr
    obtain ⟨blk, hblk, _⟩ := layoutInv_live_slot hl r.index_ hi
    have hsame : MultiStackBuffer.live (r.AddInnerElapse b e) h
        = { b.load r.data_ with inner_elapse_ := add64 (b.load r.data_).inner_elapse_ e } := by
      unfold MultiStackBuffer.live
      rw [hper, hhr, ← hd]
      unfold Record.AddInnerElapse
      exact load_store_same _ r.data_ _ blk (by rw [hd]; exact hblk)
    have hlive : b.load r.data_ = b.live h := by
      unfold MultiStackBuffer.live
      rw [hhr, ← hd]
    rw [hsame, hlive]
    exact ⟨rfl, rfl⟩
  · intro hhr
    unfold MultiStackBuffer.live
    rw [hper]
    unfold Record.AddInnerElapse
    refine load_store_ne _ _ _ _ ?_
    rw [hd]
    exact fun heq => hhr (handlePtr_inj _ _ _ heq)

theorem AddCount_live (r : Record) (b : RecordBuffer) (hl : LayoutInv b)
    (hd : r.data_ = handlePtr b.per_add_count_ r.index_) (hi : r.index_ < b.curr_count_)
    (h : Nat) :
    (h = r.index_ →
      (MultiStackBuffer.live (r.AddCount b) h).inner_elapse_ = (b.live h).inner_elapse_
        ∧ (MultiStackBuffer.live (r.AddCount b) h).call_count_ = inc32 (b.live h).call_count_)
    ∧ (h ≠ r.index_ → MultiStackBuffer.live (r.AddCount b) h = b.live h) := by
  have hper := (AddCount_layout r b hl).2.1
  constructor
  · intro hhr
    obtain ⟨blk, hblk, _⟩ := layoutInv_live_slot hl r.index_ hi
    have hsame : MultiStackBuffer.live (r.AddCount b) h
        = { b.load r.data_ with call_count_ := inc32 (b.load r.data_).call_count_ } := by
      unfold MultiStackBuffer.live
      rw [hper, hhr, ← hd]
      unfold Record.AddCount
      exact load_store_same _ r.data_ _ blk (by rw [hd]; exact hblk)
    have hlive : b.load r.data_ = b.live h := by
      unfold MultiStackBuffer.live
      rw [hhr, ← hd]
    rw [hsame, hlive]
    exact ⟨rfl, rfl⟩
  · intro hhr
    unfold MultiStackBuffer.live
    rw [hper]
    unfold Record.AddCount
    refine load_store_ne _ _ _ _ ?_
    rw [hd]
    exact fun heq => hhr (handlePtr_inj _ _ _ heq)

theorem Get_live (b b1 : RecordBuffer) (e : Nat × (Nat × Nat)) (hl : LayoutInv b)
    (hget : b.Get ⟨0, 0⟩ = some (b1, e)) (h : Nat) (hh : h < b.curr_count_) :
    b1.live h = b.live h := by
  obtain ⟨m1, hg1, _, hper1, _, _, _, hother, _⟩ := Get_layout b ⟨0, 0⟩ hl
  rw [hget, Option.some.injEq, Prod.mk.injEq] at hg1
  obtain ⟨e2, _⟩ := hg1
  subst e2
  unfold MultiStackBuffer.live
  rw [hper1]
  refine hother _ ?_
  intro heq
  have := handlePtr_inj _ _ _ heq
  omega

/-- Elementary changes reach a counter record issued before them only through credits and
increments of the call count. -/
theorem Evolves.counters {C D : Nat → Prop} {n k : Nat} {root root1 : Record}
    {b b1 : RecordBuffer} (hev : Evolves C D n k root b root1 b1) (hl : LayoutInv b)
    (hn : NodesInv root b) (h : Nat) (hh : h < b.curr_count_) :
    ∃ (credits : List Nat) (j : Nat), credits.length ≤ n ∧ j ≤ k ∧ (∀ e ∈ credits, C e)
      ∧ (b1.live h).inner_elapse_ = credits.foldl add64 (b.live h).inner_elapse_
      ∧ (b1.live h).call_count_ = Nat.iterate inc32 j (b.live h).call_count_ := by
  induction hev with
  | refl root b => exact ⟨[], 0, Nat.le_refl _, Nat.le_refl _, by simp, rfl, rfl⟩
  | credit p r e hprev hg hc ih =>
    obtain ⟨credits, j, c1, c2, c3, c4, c5⟩ := ih hl hn hh
    obtain ⟨h1, h2, h3, h4, _⟩ := hprev.handleInv hl hn
    obtain ⟨hd, hi⟩ := h2 r (mem_nodes_of_getAt p _ r hg r (mem_nodes_self r))
    obtain ⟨hsame, hne⟩ := AddInnerElapse_live r _ e h1 hd hi h
    by_cases hhr : h = r.index_
    · obtain ⟨g1, g2⟩ := hsame hhr
      refine ⟨credits ++ [e], j, by simp only [List.length_append, List.length_singleton]; omega,
        c2, ?_, ?_, ?_⟩
      · intro x hx
        rcases List.mem_append.mp hx with hx | hx
        · exact c3 x hx
        · rw [List.mem_singleton.mp hx]
          exact hc
      · rw [g1, List.foldl_append, ← c4]
        rfl
      · rw [g2, ← c5]
    · rw [hne hhr]
      exact ⟨credits, j, by omega, c2, c3, c4, c5⟩
  | count p r hprev hg ih =>
    obtain ⟨credits, j, c1, c2, c3, c4, c5⟩ := ih hl hn hh
    obtain ⟨h1, h2, h3, h4, _⟩ := hprev.handleInv hl hn
    obtain ⟨hd, hi⟩ := h2 r (mem_nodes_of_getAt p _ r hg r (mem_nodes_self r))
    obtain ⟨hsame, hne⟩ := AddCount_live r _ h1 hd hi h
    by_cases hhr : h = r.index_
    · obtain ⟨g1, g2⟩ := hsame hhr
      refine ⟨credits, j + 1, c1, by omega, c3, ?_, ?_⟩
      · rw [g1, ← c4]
      · rw [g2, Function.iterate_succ_apply', ← c5]
    · rw [hne hhr]
      exact ⟨credits, j, c1, by omega, c3, c4, c5⟩
  | child p q info hprev _ hg ih =>
    obtain ⟨credits, j, c1, c2, c3, c4, c5⟩ := ih hl hn hh
    obtain ⟨h1, h2, h3, h4, _⟩ := hprev.handleInv hl hn
    obtain ⟨_, r, hr, hcase⟩ := GetChildRecordAt_inv hg
    rcases hcase with ⟨c, _, e1, e2⟩ | ⟨_, e, hget, e1⟩
    · rw [e2]
      exact ⟨credits, j, c1, c2, c3, c4, c5⟩
    · rw [Get_live _ _ e h1 hget h (by omega)]
      exact ⟨credits, j, c1, c2, c3, c4, c5⟩

/-- A hook event whose clock readings are not below the enter timestamps of the stacks
credits only differences that do not underflow, and leaves enter timestamps that are not
above its last reading. -/
theorem Hook_clock {s : LuaProfilerState} {L : Nat} {ar : lua_Debug} {f tj t T : Nat}
    {o : Outcome} (hT : s.TimesOk (fun x => x ≤ T)) (h1 : T ≤ tj) (h2 : tj ≤ t) (ht : t < U64)
    (h : s.Hook L ar f tj t = some o) :
    o.state.TimesOk (fun x => x ≤ t)
      ∧ ∃ n k, n ≤ 2 ∧ k ≤ 1
        ∧ Evolves (Credit t) (fun _ => True) n k
            s.root_profiler_record_ s.record_buffer_
            o.state.root_profiler_record_ o.state.record_buffer_ := by
  have hsw : ∀ s1 found,
      (if s.curr_lua_state_ ≠ some L then s.HookSwitch L tj else some (s, true))
        = some (s1, found) →
      s1.TimesOk (fun x => x ≤ t)
        ∧ ∃ n, n ≤ 1 ∧ Evolves (Credit t) (fun _ => True) n 0
            s.root_profiler_record_ s.record_buffer_
            s1.root_profiler_record_ s1.record_buffer_ := by
    intro s1 found hsw
    split at hsw
    · obtain ⟨_, g2, n, hn, hev⟩ := HookSwitch_evolves (fun x => x ≤ tj) (fun _ => True)
        (Nat.zero_le _) (timesOk_mono (fun x hx => Nat.le_trans hx h1) hT) hsw
      exact ⟨timesOk_mono (fun x hx => Nat.le_trans hx h2) g2, n, hn,
        hev.mono (fun e ⟨x, hx, he⟩ => by
          rw [he]
          exact credit_of_le hx h2 (Nat.lt_of_le_of_lt h2 ht)) (fun _ hi => hi)⟩
    · simp only [Option.some.injEq, Prod.mk.injEq] at hsw
      rw [← hsw.1]
      exact ⟨timesOk_mono (fun x hx => Nat.le_trans hx (Nat.le_trans h1 h2)) hT, 0,
        Nat.zero_le _, Evolves.refl _ _⟩
  have hcr : ∀ e, (∃ x, x ≤ t ∧ e = sub64 t x) → Credit t e := by
    intro e ⟨x, hx, he⟩
    rw [he]
    exact credit_of_le hx (Nat.le_refl _) ht
  unfold LuaProfilerState.Hook at h
  split at h
  · cases h
  · rename_i s1 hsw1
    simp only [Option.some.injEq] at h
    subst h
    obtain ⟨g2, n, hn, hev⟩ := hsw s1 false hsw1
    exact ⟨g2, n, 0, by omega, Nat.zero_le _, hev⟩
  · rename_i s1 hsw1
    obtain ⟨g2, n, hn, hev⟩ := hsw s1 true hsw1
    split at h
    · simp only [Option.some.injEq] at h
      subst h
      exact ⟨g2, n, 0, by omega, Nat.zero_le _, hev⟩
    · split at h
      · simp only [Option.some.injEq] at h
        subst h
        exact ⟨g2, n, 0, by omega, Nat.zero_le _, hev⟩
      · split at h
        · cases h
        · rename_i s2 hcall
          simp only [Option.some.injEq] at h
          subst h
          split at hcall
          · obtain ⟨_, k2, m, hm, hev2⟩ := CallHookOut_evolves (fun x => x ≤ t) (fun _ => True)
              (Nat.zero_le _) (Nat.le_refl _) g2 hcall
            exact ⟨k2, n + m, 0, by omega, Nat.zero_le _,
              hev.trans (hev2.mono hcr (fun _ hi => hi))⟩
          · obtain ⟨_, k2, m, k, hm, hk, hev2⟩ := CallHookIn_evolves (fun x => x ≤ t)
              (Nat.zero_le _) (Nat.le_refl _) g2 hcall
            exact ⟨k2, n + m, 0 + k, by omega, by omega,
              hev.trans (hev2.mono hcr (fun _ _ => trivial))⟩

theorem CalcRecord_frame (S : StdSort) (s : LuaProfilerState) (n : Nat) (a b : Int) :
    (s.CalcRecord S n a b).state.record_buffer_ = s.record_buffer_
      ∧ (s.CalcRecord S n a b).state.call_info_stack_map_ = s.call_info_stack_map_ := by
  unfold LuaProfilerState.CalcRecord
  split
  · exact ⟨rfl, rfl⟩
  · split
    · split
      · exact ⟨rfl, rfl⟩
      · split
        · exact ⟨rfl, rfl⟩
        · split
          · exact ⟨rfl, rfl⟩
          · simp only []
            split
            · exact ⟨rfl, rfl⟩
            · exact ⟨rfl, rfl⟩
    · exact ⟨rfl, rfl⟩

theorem CreateCallInfoStack_timesOk (F : Nat → Prop) (h0 : F 0) {s s1 : LuaProfilerState}
    {L : Nat} (hF : s.TimesOk F) (h : s.CreateCallInfoStack L = some s1) : s1.TimesOk F := by
  unfold LuaProfilerState.CreateCallInfoStack at h
  split at h
  · split at h
    · cases h
    · rename_i stk hstk
      simp only [Option.some.injEq] at h
      subst h
      exact timesOk_setStack hF _ _ (fun i => hF _ stk i hstk)
  · split at h
    · cases h
    · rename_i stk hstk
      simp only [Option.some.injEq] at h
      subst h
      refine timesOk_setStack hF L _ (fun i => ?_)
      unfold StackBuffer.new at hstk
      split at hstk
      · simp only [Option.some.injEq] at hstk
        rw [← hstk]
        exact h0
      · cases hstk

theorem nonDecreasingFrom_append : ∀ (xs ys : List Op) (T : Nat),
    nonDecreasingFrom T (xs ++ ys)
      = (nonDecreasingFrom T xs && nonDecreasingFrom (lastReading T xs) ys)
  | [], ys, T => by simp [nonDecreasingFrom, lastReading]
  | op :: xs, ys, T => by
    cases op with
    | hook L ar f tj t =>
      simp only [List.cons_append, nonDecreasingFrom, lastReading, List.append_eq,
        nonDecreasingFrom_append xs ys t, Bool.and_assoc]
    | create L =>
      simp only [List.cons_append, nonDecreasingFrom, lastReading, List.append_eq,
        nonDecreasingFrom_append xs ys T]
    | save =>
      simp only [List.cons_append, nonDecreasingFrom, lastReading, List.append_eq,
        nonDecreasingFrom_append xs ys T]
    | query n a b =>
      simp only [List.cons_append, nonDecreasingFrom, lastReading, List.append_eq,
        nonDecreasingFrom_append xs ys T]

theorem lastReading_append : ∀ (xs ys : List Op) (T : Nat),
    lastReading T (xs ++ ys) = lastReading (lastReading T xs) ys
  | [], ys, T => by simp [lastReading]
  | op :: xs, ys, T => by
    cases op with
    | hook L ar f tj t =>
      simp only [List.cons_append, lastReading, List.append_eq, lastReading_append xs ys t]
    | create L => simp only [List.cons_append, lastReading, List.append_eq, lastReading_append xs ys T]
    | save => simp only [List.cons_append, lastReading, List.append_eq, lastReading_append xs ys T]
    | query n a b => simp only [List.cons_append, lastReading, List.append_eq, lastReading_append xs ys T]

theorem run_append (S : StdSort) : ∀ (xs ys : List Op) (s : LuaProfilerState),
    LuaProfilerState.run S s (xs ++ ys)
      = (LuaProfilerState.run S s xs).bind (fun s1 => LuaProfilerState.run S s1 ys)
  | [], ys, s => by simp [LuaProfilerState.run]
  | op :: xs, ys, s => by
    simp only [List.cons_append, LuaProfilerState.run]
    cases s.apply S op with
    | none => rfl
    | some s1 => exact run_append S xs ys s1

/-- One operation whose clock readings are not below `T`, on a state whose enter timestamps
are not above `T`: the enter timestamps it leaves are not above its last reading, and every
counter record issued before it receives at most two credits, none of which underflows, and
at most one increment of its call count. -/
theorem apply_clock (S : StdSort) {s s1 : LuaProfilerState} {op : Op} {T : Nat}
    (hl : LayoutInv s.record_buffer_) (hn : NodesInv s.root_profiler_record_ s.record_buffer_)
    (hT : s.TimesOk (fun x => x ≤ T)) (hv : op.Valid = true)
    (hc : nonDecreasingFrom T [op] = true) (hap : s.apply S op = some s1) :
    s1.TimesOk (fun x => x ≤ lastReading T [op])
      ∧ ∀ h, h < s.record_buffer_.curr_count_ →
        ∃ (credits : List Nat) (j : Nat), credits.length ≤ 2 ∧ j ≤ 1
          ∧ (∀ e ∈ credits, Credit (lastReading T [op]) e)
          ∧ (s1.record_buffer_.live h).inner_elapse_
              = credits.foldl add64 (s.record_buffer_.live h).inner_elapse_
          ∧ (s1.record_buffer_.live h).call_count_
              = Nat.iterate inc32 j (s.record_buffer_.live h).call_count_ := by
  have hsame : ∀ h, s1.record_buffer_.live h = s.record_buffer_.live h →
      ∃ (credits : List Nat) (j : Nat), credits.length ≤ 2 ∧ j ≤ 1
          ∧ (∀ e ∈ credits, Credit (lastReading T [op]) e)
          ∧ (s1.record_buffer_.live h).inner_elapse_
              = credits.foldl add64 (s.record_buffer_.live h).inner_elapse_
          ∧ (s1.record_buffer_.live h).call_count_
              = Nat.iterate inc32 j (s.record_buffer_.live h).call_count_ := by
    intro h heq
    rw [heq]
    exact ⟨[], 0, Nat.zero_le _, Nat.zero_le _, by simp, rfl, rfl⟩
  cases op with
  | hook L ar f tj t =>
    simp only [LuaProfilerState.apply, Option.map_eq_some'] at hap
    obtain ⟨o, ho, hos⟩ := hap
    simp only [nonDecreasingFrom, Bool.and_true, Bool.and_eq_true, decide_eq_true_eq] at hc
    simp only [Op.Valid, Bool.and_eq_true, decide_eq_true_eq] at hv
    obtain ⟨g1, n, k, hn2, hk, hev⟩ := Hook_clock hT hc.1 hc.2 hv.2 ho
    rw [hos] at g1 hev
    refine ⟨g1, fun h hh => ?_⟩
    obtain ⟨credits, j, c1, c2, c3, c4, c5⟩ := hev.counters hl hn h hh
    exact ⟨credits, j, by omega, by omega, c3, c4, c5⟩
  | create L =>
    simp only [LuaProfilerState.apply] at hap
    obtain ⟨_, _, hbuf, _⟩ := CreateCallInfoStack_frame hap
    exact ⟨CreateCallInfoStack_timesOk (fun x => x ≤ T) (Nat.zero_le _) hT hap,
      fun h _ => hsame h (by rw [hbuf])⟩
  | save =>
    simp only [LuaProfilerState.apply] at hap
    unfold LuaProfilerState.Save at hap
    split at hap
    · cases hap
    · rename_i b1 hsave
      simp only [Option.some.injEq] at hap
      subst hap
      obtain ⟨f1, _, _, f4⟩ := Save_fields hsave
      refine ⟨hT, fun h _ => hsame h ?_⟩
      simp only [MultiStackBuffer.live, MultiStackBuffer.load, f1, f4]
  | query n a b =>
    simp only [LuaProfilerState.apply, Option.some.injEq] at hap
    subst hap
    obtain ⟨f1, f2⟩ := CalcRecord_frame S s n a b
    refine ⟨?_, fun h _ => hsame h (by rw [f1])⟩
    intro K stk i hK
    rw [f2] at hK
    exact hT K stk i hK

theorem run_clock (S : StdSort) :
    ∀ (ops : List Op) (s s1 : LuaProfilerState) (T : Nat), RegistryInv s → HandleInv s →
      s.TimesOk (fun x => x ≤ T) → (∀ op ∈ ops, op.Valid = true) →
      nonDecreasingFrom T ops = true → LuaProfilerState.run S s ops = some s1 →
      RegistryInv s1 ∧ HandleInv s1 ∧ s1.TimesOk (fun x => x ≤ lastReading T ops)
  | [], s, s1, T, hr, hh, hT, _, _, h => by
    simp only [LuaProfilerState.run, Option.some.injEq] at h
    rw [← h]
    exact ⟨hr, hh, hT⟩
  | op :: ops, s, s1, T, hr, hh, hT, hv, hc, h => by
    unfold LuaProfilerState.run at h
    split at h
    · cases h
    · rename_i s2 hap
      obtain ⟨h1, h2⟩ := apply_handleInv S hap
      have hc2 := hc
      rw [← List.singleton_append, nonDecreasingFrom_append, Bool.and_eq_true] at hc2
      obtain ⟨g1, _⟩ := apply_clock S hh.layout hh.nodes hT (hv op (List.mem_cons_self _ _))
        hc2.1 hap
      have := run_clock S ops s2 s1 (lastReading T [op]) (h1 hr) (h2 hr hh) g1
        (fun o ho => hv o (List.mem_cons_of_mem _ ho)) hc2.2 h
      rw [← List.singleton_append, lastReading_append]
      exact this

theorem ProfilerStart_timesOk {F : Nat → Prop} {main_L : Nat} {s : LuaProfilerState}
    (h0 : F 0) (h : ProfilerStart main_L = some s) : s.TimesOk F := by
  unfold ProfilerStart at h
  split at h
  · cases h
  · rename_i s0 hs0
    unfold LuaProfilerState.Init at h
    split at h
    · cases h
    · rename_i s1 hs1
      simp only [Option.some.injEq] at h
      subst h
      have h00 : s0.TimesOk F := by
        unfold LuaProfilerState.new at hs0
        split at hs0
        · cases hs0
        · split at hs0
          · cases hs0
          · simp only [Option.some.injEq] at hs0
            subst hs0
            intro L stk i hL
            cases hL
      have h11 := CreateCallInfoStack_timesOk F h0 h00 hs1
      intro L stk i hL
      exact h11 L stk i hL

theorem sum_le_of_forall_le (M : Nat) : ∀ (l : List Nat), (∀ e ∈ l, e ≤ M) →
    l.sum ≤ l.length * M
  | [], _ => by simp
  | e :: l, h => by
    have h1 := h e (List.mem_cons_self _ _)
    have h2 := sum_le_of_forall_le M l (fun x hx => h x (List.mem_cons_of_mem _ hx))
    simp only [List.sum_cons, List.length_cons, Nat.succ_mul]
    omega

/-- Claim C20: take a trace of hook events (calls, returns, context switches), context
declarations, saves and aggregations whose clock readings never decrease, the state `s` it
leaves on a freshly started profiler, and one more such operation, whose readings are not
below the earlier ones, leading to `s1`.  Every enter timestamp held in `s` is at most the
last reading taken.  For every counter record issued in `s`, the operation adds to the
accumulated self time, in `uint64_t` arithmetic, at most two credits, each the difference of
a clock reading and of an enter timestamp not above it, so that no credit underflows, and
increments the call count at most once; hence, when the additions do not overflow, and in
particular when twice the last reading still fits above the self time and one more call
fits above the call count, the self time and the call count in `s1` are at least those in
`s`. -/
theorem C20_counters_monotone (S : StdSort) (main_L : Nat) (ops : List Op) (op : Op)
    (s s1 : LuaProfilerState) (hv : ∀ o ∈ ops ++ [op], o.Valid = true)
    (hclock : nonDecreasingFrom 0 (ops ++ [op]) = true)
    (hrun : runFromStart S main_L ops = some s)
    (hrun1 : runFromStart S main_L (ops ++ [op]) = some s1)
    (h : Nat) (hh : h < s.record_buffer_.curr_count_) :
    s.TimesOk (fun enter_time => enter_time ≤ lastReading 0 ops)
    ∧ (∃ (credits : List Nat) (j : Nat), credits.length ≤ 2 ∧ j ≤ 1
        ∧ (∀ e ∈ credits, Credit (lastReading 0 (ops ++ [op])) e)
        ∧ (s1.record_buffer_.live h).inner_elapse_
            = credits.foldl add64 (s.record_buffer_.live h).inner_elapse_
        ∧ (s1.record_buffer_.live h).call_count_
            = Nat.iterate inc32 j (s.record_buffer_.live h).call_count_
        ∧ ((s.record_buffer_.live h).inner_elapse_ + credits.sum < U64 →
            (s1.record_buffer_.live h).inner_elapse_
              = (s.record_buffer_.live h).inner_elapse_ + credits.sum)
        ∧ ((s.record_buffer_.live h).call_count_ + j < U32 →
            (s1.record_buffer_.live h).call_count_ = (s.record_buffer_.live h).call_count_ + j))
    ∧ ((s.record_buffer_.live h).inner_elapse_ + 2 * lastReading 0 (ops ++ [op]) < U64 →
        (s.record_buffer_.live h).inner_elapse_ ≤ (s1.record_buffer_.live h).inner_elapse_)
    ∧ ((s.record_buffer_.live h).call_count_ + 1 < U32 →
        (s.record_buffer_.live h).call_count_ ≤ (s1.record_buffer_.live h).call_count_) := by
  rw [nonDecreasingFrom_append, Bool.and_eq_true] at hclock
  unfold runFromStart at hrun hrun1
  cases hs0 : ProfilerStart main_L with
  | none => simp [hs0] at hrun
  | some s0 =>
    simp only [hs0] at hrun hrun1
    rw [run_append, hrun] at hrun1
    simp only [Option.bind_eq_bind, Option.some_bind, LuaProfilerState.run] at hrun1
    have hap : s.apply S op = some s1 := by
      cases ha : s.apply S op with
      | none => simp [ha] at hrun1
      | some s2 =>
        simp only [ha, Option.some.injEq] at hrun1
        rw [hrun1]
    obtain ⟨hreg0, hinv0⟩ := ProfilerStart_handleInv hs0
    obtain ⟨_, hinv, hT⟩ := run_clock S ops s0 s 0 hreg0 hinv0
      (ProfilerStart_timesOk (Nat.le_refl 0) hs0)
      (fun o ho => hv o (List.mem_append_left _ ho)) hclock.1 hrun
    obtain ⟨_, hstep⟩ := apply_clock S hinv.layout hinv.nodes hT
      (hv op (List.mem_append_right _ (List.mem_singleton_self op))) hclock.2 hap
    obtain ⟨credits, j, c1, c2, c3, c4, c5⟩ := hstep h hh
    rw [← lastReading_append] at c3
    have hsum : credits.sum ≤ 2 * lastReading 0 (ops ++ [op]) := by
      have := sum_le_of_forall_le (lastReading 0 (ops ++ [op])) credits
        (fun e he => (c3 e he).le)
      have h2 : credits.length * lastReading 0 (ops ++ [op])
          ≤ 2 * lastReading 0 (ops ++ [op]) := Nat.mul_le_mul_right _ c1
      omega
    have e1 : (s.record_buffer_.live h).inner_elapse_ + credits.sum < U64 →
        (s1.record_buffer_.live h).inner_elapse_
          = (s.record_buffer_.live h).inner_elapse_ + credits.sum := by
      intro hno
      rw [c4]
      exact foldl_add64_exact credits _ hno
    have e2 : (s.record_buffer_.live h).call_count_ + j < U32 →
        (s1.record_buffer_.live h).call_count_ = (s.record_buffer_.live h).call_count_ + j := by
      intro hno
      rw [c5]
      exact iterate_inc32_exact j _ hno
    refine ⟨hT, ⟨credits, j, c1, c2, c3, c4, c5, e1, e2⟩, ?_, ?_⟩
    · intro hno
      rw [e1 (by omega)]
      exact Nat.le_add_right _ _
    · intro hno
      rw [e2 (by omega)]
      exact Nat.le_add_right _ _

/-- Witness of C20: the trace with a context switch, followed by the return of B, and the
counter record of B, which has handle 2. -/
theorem C20_counters_monotone_witness :
    (∀ o ∈ switchTrace ++ [switchReturn], o.Valid = true)
    ∧ nonDecreasingFrom 0 (switchTrace ++ [switchReturn]) = true
    ∧ runFromStart insertionStdSort 1 switchTrace = some (stateAfter switchTrace)
    ∧ runFromStart insertionStdSort 1 (switchTrace ++ [switchReturn])
        = some (stateAfter (switchTrace ++ [switchReturn]))
    ∧ 2 < (stateAfter switchTrace).record_buffer_.curr_count_
    ∧ ((stateAfter switchTrace).TimesOk (fun enter_time => enter_time ≤ lastReading 0 switchTrace)
      ∧ (∃ (credits : List Nat) (j : Nat), credits.length ≤ 2 ∧ j ≤ 1
        ∧ (∀ e ∈ credits, Credit (lastReading 0 (switchTrace ++ [switchReturn])) e)
        ∧ ((stateAfter (switchTrace ++ [switchReturn])).record_buffer_.live 2).inner_elapse_
            = credits.foldl add64 ((stateAfter switchTrace).record_buffer_.live 2).inner_elapse_
        ∧ ((stateAfter (switchTrace ++ [switchReturn])).record_buffer_.live 2).call_count_
            = Nat.iterate inc32 j ((stateAfter switchTrace).record_buffer_.live 2).call_count_
        ∧ (((stateAfter switchTrace).record_buffer_.live 2).inner_elapse_ + credits.sum < U64 →
            ((stateAfter (switchTrace ++ [switchReturn])).record_buffer_.live 2).inner_elapse_
              = ((stateAfter switchTrace).record_buffer_.live 2).inner_elapse_ + credits.sum)
        ∧ (((stateAfter switchTrace).record_buffer_.live 2).call_count_ + j < U32 →
            ((stateAfter (switchTrace ++ [switchReturn])).record_buffer_.live 2).call_count_
              = ((stateAfter switchTrace).record_buffer_.live 2).call_count_ + j))
      ∧ (((stateAfter switchTrace).record_buffer_.live 2).inner_elapse_
            + 2 * lastReading 0 (switchTrace ++ [switchReturn]) < U64 →
          ((stateAfter switchTrace).record_buffer_.live 2).inner_elapse_
            ≤ ((stateAfter (switchTrace ++ [switchReturn])).record_buffer_.live 2).inner_elapse_)
      ∧ (((stateAfter switchTrace).record_buffer_.live 2).call_count_ + 1 < U32 →
          ((stateAfter switchTrace).record_buffer_.live 2).call_count_
            ≤ ((stateAfter (switchTrace ++ [switchReturn])).record_buffer_.live 2).call_count_)) :=
  ⟨by decide!, by decide!, stateAfter_spec switchTrace (by decide!),
    stateAfter_spec (switchTrace ++ [switchReturn]) (by decide!), by decide!,
    C20_counters_monotone insertionStdSort 1 switchTrace switchReturn (stateAfter switchTrace)
      (stateAfter (switchTrace ++ [switchReturn])) (by decide!) (by decide!)
      (stateAfter_spec switchTrace (by decide!))
      (stateAfter_spec (switchTrace ++ [switchReturn]) (by decide!)) 2 (by decide!)⟩


/-! ## Claim C21 -/

theorem setStack_isSome {s : LuaProfilerState} (key : Nat) (stk stkN : CallInfoStack)
    (hk : s.call_info_stack_map_ key = some stk) :
    ∀ K, (s.setStack key stkN K).isSome = (s.call_info_stack_map_ K).isSome := by
  intro K
  simp only [LuaProfilerState.setStack]
  split
  · rename_i hKk
    rw [hKk, hk]
    rfl
  · rfl

theorem CallHookOut_context {s s1 : LuaProfilerState} {f t : Nat}
    (h : s.CallHookOut f t = some s1) :
    s1.curr_call_info_stack_ = s.curr_call_info_stack_
      ∧ ∀ K, (s1.call_info_stack_map_ K).isSome = (s.call_info_stack_map_ K).isSome := by
  have hset := @setStack_isSome s
  unfold LuaProfilerState.CallHookOut at h
  split at h
  · simp only [Option.some.injEq] at h
    subst h
    exact ⟨rfl, fun _ => rfl⟩
  · split at h
    · cases h
    · split at h
      · cases h
      · rename_i stk hstk
        split at h
        · cases h
        · simp only [Option.some.injEq] at h
          subst h
          exact ⟨rfl, hset _ stk _ hstk⟩
        · split at h
          · cases h
          · split at h
            · cases h
            · split at h
              · simp only [Option.some.injEq] at h
                subst h
                exact ⟨rfl, hset _ stk _ hstk⟩
              · split at h
                · cases h
                · simp only [Option.some.injEq] at h
                  subst h
                  exact ⟨rfl, hset _ stk _ hstk⟩

theorem CallHookIn_context {s s1 : LuaProfilerState} {ar : lua_Debug} {f t : Nat}
    (h : s.CallHookIn ar f t = some s1) :
    s1.curr_call_info_stack_ = s.curr_call_info_stack_
      ∧ ∀ K, (s1.call_info_stack_map_ K).isSome = (s.call_info_stack_map_ K).isSome := by
  unfold LuaProfilerState.CallHookIn at h
  have hfr := GetFunctionInfo_frame s ar f
  split at h
  · rename_i s0 hgf
    simp only [Option.some.injEq] at h
    subst h
    rw [hgf] at hfr
    obtain ⟨_, _, hmap, _, _, hstk, _⟩ := hfr
    simp only at hmap hstk
    exact ⟨hstk, fun K => by rw [hmap]⟩
  · rename_i s0 func_info hgf
    rw [hgf] at hfr
    obtain ⟨_, _, hmap, _, _, hstk, _⟩ := hfr
    simp only at hmap hstk
    split at h
    · cases h
    · split at h
      · cases h
      · rename_i stk hs
        split at h
        · cases h
        · simp only at h
          split at h
          · cases h
          · simp only [Option.some.injEq] at h
            subst h
            refine ⟨hstk, fun K => ?_⟩
            rw [← hmap]
            exact setStack_isSome _ stk _ hs K

theorem leaveContext_context {s s1 : LuaProfilerState} {t : Nat}
    (h : s.leaveContext t = some s1) :
    ∀ K, (s1.call_info_stack_map_ K).isSome = (s.call_info_stack_map_ K).isSome := by
  unfold LuaProfilerState.leaveContext at h
  split at h
  · split at h
    · cases h
    · split at h
      · cases h
      · split at h
        · cases h
        · rename_i stk hstk _ _ _ _
          simp only [Option.some.injEq] at h
          subst h
          exact setStack_isSome _ stk _ hstk
  · simp only [Option.some.injEq] at h
    subst h
    exact fun _ => rfl

theorem enterContext_declared {s1 s2 : LuaProfilerState} {L : Nat} {found : Bool}
    (h : s1.enterContext L = some (s2, found))
    (hd : (s1.call_info_stack_map_ L).isSome = true) :
    found = true ∧ s2.curr_lua_state_ = some L ∧ s2.curr_call_info_stack_ = some L
      ∧ s2.call_info_stack_map_ = s1.call_info_stack_map_ := by
  unfold LuaProfilerState.enterContext at h
  cases hs : s1.call_info_stack_map_ L with
  | none => simp [hs] at hd
  | some stk =>
    simp only [LuaProfilerState.GetCallInfoStack, hs] at h
    split at h
    · split at h
      · cases h
      · simp only [Option.some.injEq, Prod.mk.injEq] at h
        obtain ⟨h1, h2⟩ := h
        subst h1
        exact ⟨h2.symm, rfl, rfl, rfl⟩
    · simp only [Option.some.injEq, Prod.mk.injEq] at h
      obtain ⟨h1, h2⟩ := h
      subst h1
      exact ⟨h2.symm, rfl, rfl, rfl⟩

/-- An event for a declared context raises no error and leaves the profiler working on the
stack of that context. -/
theorem Hook_activeStack {s : LuaProfilerState} {L : Nat} {ar : lua_Debug} {f tj t : Nat}
    {o : Outcome} (hst : ActiveStack s) (hd : (s.call_info_stack_map_ L).isSome = true)
    (h : s.Hook L ar f tj t = some o) :
    o.isError = false ∧ o.state.curr_call_info_stack_ = some L
      ∧ ∀ K, (o.state.call_info_stack_map_ K).isSome = (s.call_info_stack_map_ K).isSome := by
  have hsw : ∀ s1 found,
      (if s.curr_lua_state_ ≠ some L then s.HookSwitch L tj else some (s, true))
        = some (s1, found) →
      found = true ∧ s1.curr_call_info_stack_ = some L
        ∧ ∀ K, (s1.call_info_stack_map_ K).isSome = (s.call_info_stack_map_ K).isSome := by
    intro s1 found hsw
    split at hsw
    · rw [HookSwitch_eq] at hsw
      split at hsw
      · cases hsw
      · rename_i s0 hleave
        have hdom := leaveContext_context hleave
        obtain ⟨g1, _, g3, g4⟩ := enterContext_declared hsw (by rw [hdom L]; exact hd)
        exact ⟨g1, g3, fun K => by rw [g4]; exact hdom K⟩
    · rename_i hL
      simp only [ne_eq, not_not] at hL
      simp only [Option.some.injEq, Prod.mk.injEq] at hsw
      rw [← hsw.1]
      exact ⟨hsw.2.symm, (hst.active L hL).1, fun _ => rfl⟩
  unfold LuaProfilerState.Hook at h
  split at h
  · cases h
  · rename_i s1 hsw1
    have := (hsw s1 false hsw1).1
    cases this
  · rename_i s1 hsw1
    obtain ⟨_, g2, g3⟩ := hsw s1 true hsw1
    split at h
    · simp only [Option.some.injEq] at h
      subst h
      exact ⟨rfl, g2, g3⟩
    · split at h
      · simp only [Option.some.injEq] at h
        subst h
        exact ⟨rfl, g2, g3⟩
      · split at h
        · cases h
        · rename_i s2 hcall
          simp only [Option.some.injEq] at h
          subst h
          split at hcall
          · obtain ⟨k1, k2⟩ := CallHookOut_context hcall
            exact ⟨rfl, k1.trans g2, fun K => (k2 K).trans (g3 K)⟩
          · obtain ⟨k1, k2⟩ := CallHookIn_context hcall
            exact ⟨rfl, k1.trans g2, fun K => (k2 K).trans (g3 K)⟩

theorem CalcRecord_context (S : StdSort) (s : LuaProfilerState) (n : Nat) (a b : Int) :
    (s.CalcRecord S n a b).state.curr_lua_state_ = s.curr_lua_state_
      ∧ (s.CalcRecord S n a b).state.curr_call_info_stack_ = s.curr_call_info_stack_
      ∧ (s.CalcRecord S n a b).state.curr_call_info_ = s.curr_call_info_ := by
  unfold LuaProfilerState.CalcRecord
  split
  · exact ⟨rfl, rfl, rfl⟩
  · split
    · split
      · exact ⟨rfl, rfl, rfl⟩
      · split
        · exact ⟨rfl, rfl, rfl⟩
        · split
          · exact ⟨rfl, rfl, rfl⟩
          · simp only []
            split
            · exact ⟨rfl, rfl, rfl⟩
            · exact ⟨rfl, rfl, rfl⟩
    · exact ⟨rfl, rfl, rfl⟩

theorem activeStack_of_fields {s s1 : LuaProfilerState} (h : ActiveStack s)
    (h1 : s1.curr_lua_state_ = s.curr_lua_state_)
    (h2 : s1.curr_call_info_stack_ = s.curr_call_info_stack_)
    (h3 : ∀ K, (s.call_info_stack_map_ K).isSome = true →
      (s1.call_info_stack_map_ K).isSome = true) : ActiveStack s1 := by
  refine ⟨fun L hL => ?_, fun hn => ?_⟩
  · rw [h1] at hL
    obtain ⟨g1, g2⟩ := h.active L hL
    exact ⟨h2.trans g1, h3 L g2⟩
  · rw [h1] at hn
    exact h2.trans (h.idle hn)

/-- One operation of a trace on declared contexts never stops the profiler and keeps the
invariants. -/
theorem apply_sound (S : StdSort) {s : LuaProfilerState} {op : Op} (hs : Sound s)
    (hd : LuaProfilerState.onDeclared S s [op] = true) :
    ∃ s1, s.apply S op = some s1 ∧ Sound s1 := by
  obtain ⟨hwf, hinv, hreg, hhandle, hstack⟩ := hs
  have hrest : ∀ s1, s.apply S op = some s1 → WellFormed s1 → ActiveStack s1 → Sound s1 := by
    intro s1 hap h1 h2
    obtain ⟨g1, g2⟩ := apply_handleInv S hap
    exact ⟨h1, run_stateInv S [op] s s1 hinv (by simp only [LuaProfilerState.run, hap]),
      g1 hreg, g2 hreg hhandle, h2⟩
  cases op with
  | hook L ar f tj t =>
    simp only [LuaProfilerState.onDeclared, Bool.and_eq_true] at hd
    obtain ⟨o, ho, hwfo, hLo⟩ := Hook_total s L ar f tj t hwf
    obtain ⟨_, k2, k3⟩ := Hook_activeStack hstack hd.1 ho
    have hap : s.apply S (.hook L ar f tj t) = some o.state := by
      simp only [LuaProfilerState.apply, ho, Option.map_some']
    refine ⟨o.state, hap, hrest _ hap hwfo ⟨fun K hK => ?_, fun hn => ?_⟩⟩
    · rw [hLo, Option.some.injEq] at hK
      subst hK
      exact ⟨k2, by rw [k3]; exact hd.1⟩
    · rw [hLo] at hn
      cases hn
  | create L =>
    simp only [LuaProfilerState.onDeclared, Bool.and_eq_true, Option.isNone_iff_eq_none] at hd
    obtain ⟨s1, h1, hwf1⟩ := CreateCallInfoStack_total s L hwf
    have hap : s.apply S (.create L) = some s1 := by
      simp only [LuaProfilerState.apply, h1]
    have hsafe : s.safeOp (.create L) = true := by
      simp only [LuaProfilerState.safeOp, Bool.not_eq_true', Bool.and_eq_false_imp, beq_iff_eq]
      intro hk
      rcases currentIsTop_cases s hwf.top with ⟨hk2, _⟩ | ⟨key, stk, hk2, hs2, _⟩
      · rw [hk2] at hk
        cases hk
      · rw [hk2, Option.some.injEq] at hk
        rw [hk, hd.1] at hs2
        cases hs2
    obtain ⟨_, _, _, g4, _, g6⟩ := CreateCallInfoStack_frame h1
    refine ⟨s1, hap, hrest _ hap (hwf1 hsafe) (activeStack_of_fields hstack g4 g6 ?_)⟩
    intro K hK
    unfold LuaProfilerState.CreateCallInfoStack at h1
    simp only [LuaProfilerState.GetCallInfoStack, hd.1, StackBuffer.new, StackBuffer.kInitCount,
      ne_eq, OfNat.ofNat_ne_zero, not_false_eq_true, if_true, Option.some.injEq] at h1
    rw [← h1]
    simp only [LuaProfilerState.setStack]
    split
    · rfl
    · exact hK
  | save =>
    obtain ⟨sb, hsave, _⟩ := Save_layout s.record_buffer_ hhandle.layout
    have hap : s.apply S .save
        = some { s with record_buffer_ :=
            { s.record_buffer_ with records_ := s.record_buffer_.records_ ++ [sb] } } := by
      simp only [LuaProfilerState.apply, LuaProfilerState.Save, hsave]
    exact ⟨_, hap, hrest _ hap (Save_wellFormed (by
      simpa only [LuaProfilerState.apply] using hap) hwf)
      (activeStack_of_fields hstack rfl rfl (fun _ hK => hK))⟩
  | query n a b =>
    have hap : s.apply S (.query n a b) = some (s.CalcRecord S n a b).state := rfl
    obtain ⟨f1, f2, _⟩ := CalcRecord_context S s n a b
    obtain ⟨_, f4⟩ := CalcRecord_frame S s n a b
    exact ⟨_, hap, hrest _ hap (CalcRecord_wellFormed S s n a b hwf hinv.keys)
      (activeStack_of_fields hstack f1 f2 (fun K hK => by rw [f4]; exact hK))⟩

theorem onDeclared_cons (S : StdSort) (s s1 : LuaProfilerState) (op : Op) (ops : List Op)
    (hap : s.apply S op = some s1) :
    LuaProfilerState.onDeclared S s (op :: ops)
      = (LuaProfilerState.onDeclared S s [op] && LuaProfilerState.onDeclared S s1 ops) := by
  simp only [LuaProfilerState.onDeclared, hap, Bool.and_true]

/-- A trace on declared contexts runs to its end and keeps the invariants. -/
theorem run_sound (S : StdSort) :
    ∀ (ops : List Op) (s : LuaProfilerState), Sound s →
      LuaProfilerState.onDeclared S s ops = true →
      ∃ s1, LuaProfilerState.run S s ops = some s1 ∧ Sound s1
  | [], s, hs, _ => ⟨s, rfl, hs⟩
  | op :: ops, s, hs, hd => by
    have h1 : LuaProfilerState.onDeclared S s [op] = true := by
      simp only [LuaProfilerState.onDeclared, Bool.and_eq_true] at hd ⊢
      refine ⟨hd.1, ?_⟩
      split <;> rfl
    obtain ⟨s1, hap, hs1⟩ := apply_sound S hs h1
    rw [onDeclared_cons S s s1 op ops hap, Bool.and_eq_true] at hd
    obtain ⟨s2, hrun, hs2⟩ := run_sound S ops s1 hs1 hd.2
    exact ⟨s2, by simp only [LuaProfilerState.run, hap, hrun], hs2⟩

theorem ProfilerStart_sound {main_L : Nat} {s : LuaProfilerState}
    (h : ProfilerStart main_L = some s) : Sound s := by
  obtain ⟨s0, h0, hwf⟩ := ProfilerStart_wellFormed main_L
  rw [h, Option.some.injEq] at h0
  subst h0
  obtain ⟨hreg, hhandle⟩ := ProfilerStart_handleInv h
  refine ⟨hwf, ProfilerStart_stateInv h, hreg, hhandle, ?_⟩
  have hlua : s.curr_lua_state_ = none ∧ s.curr_call_info_stack_ = none := by
    unfold ProfilerStart at h
    split at h
    · cases h
    · rename_i s0 hs0
      unfold LuaProfilerState.Init at h
      split at h
      · cases h
      · rename_i s1 hs1
        simp only [Option.some.injEq] at h
        subst h
        obtain ⟨_, _, _, g4, _, g6⟩ := CreateCallInfoStack_frame hs1
        unfold LuaProfilerState.new at hs0
        split at hs0
        · cases hs0
        · split at hs0
          · cases hs0
          · simp only [Option.some.injEq] at hs0
            subst hs0
            exact ⟨g4, g6⟩
  refine ⟨fun L hL => ?_, fun _ => hlua.2⟩
  rw [hlua.1] at hL
  cases hL

/-- Every state a trace on declared contexts reaches from a fresh profiler satisfies the
invariants, and the trace reaches one. -/
theorem declared_sound (S : StdSort) (main_L : Nat) (ops : List Op)
    (hd : declaredFromStart S main_L ops = true) :
    ∃ s, runFromStart S main_L ops = some s ∧ Sound s := by
  unfold declaredFromStart at hd
  unfold runFromStart
  cases hs0 : ProfilerStart main_L with
  | none => simp [hs0] at hd
  | some s0 =>
    simp only [hs0] at hd ⊢
    exact run_sound S ops s0 (ProfilerStart_sound hs0) hd

/-- Claim C21: a trace of call, return and context-switch events on declared contexts
(each context declared once before its first event; saves and aggregations may be
interleaved), run on a freshly started profiler, reaches a state `s`: no assertion stops
it.  In `s`, once an event has made a context `L` active, the profiler works on the stack
declared for `L`, the current frame is `NULL` exactly when that stack is empty and is
otherwise the frame `Top` designates; before the first event there is no current frame.
Every frame of every stack refers to a node of the call tree.  Every further hook event
returns, so that no call of `StackBuffer::Pop` or `StackBuffer::Top` made by `Hook` finds
an empty stack. -/
theorem C21_stack_discipline (S : StdSort) (main_L : Nat) (ops : List Op)
    (hd : declaredFromStart S main_L ops = true) :
    ∃ s, runFromStart S main_L ops = some s
      ∧ (∀ L, s.curr_lua_state_ = some L →
          ∃ stk, s.curr_call_info_stack_ = some L ∧ s.call_info_stack_map_ L = some stk
            ∧ (s.curr_call_info_ = none ↔ stk.Empty = true)
            ∧ (stk.Empty = false → s.curr_call_info_ = stk.Top))
      ∧ (s.curr_lua_state_ = none → s.curr_call_info_ = none)
      ∧ (∀ L stk, s.call_info_stack_map_ L = some stk →
          ∀ c ∈ stk.frames, c.refersTo s.root_profiler_record_ = true)
      ∧ (∀ (L : Nat) (ar : lua_Debug) (f jump_time curr_time : Nat),
          ∃ o, s.Hook L ar f jump_time curr_time = some o) := by
  obtain ⟨s, hrun, hwf, _, _, _, hstack⟩ := declared_sound S main_L ops hd
  refine ⟨s, hrun, ?_, ?_, hwf.frames, ?_⟩
  · intro L hL
    obtain ⟨h1, _⟩ := hstack.active L hL
    rcases currentIsTop_cases s hwf.top with ⟨hk, _⟩ | ⟨key, stk, hk, hs, hc⟩
    · rw [hk] at h1
      cases h1
    · rw [hk, Option.some.injEq] at h1
      subst h1
      refine ⟨stk, hk, hs, ?_, ?_⟩
      · rw [hc]
        simp only [StackBuffer.Empty, beq_iff_eq]
        constructor
        · intro h
          split at h
          · assumption
          · cases h
        · intro h
          rw [if_pos h]
      · intro hne
        simp only [StackBuffer.Empty, beq_eq_false_iff_ne, ne_eq] at hne
        rw [hc, if_neg hne]
        simp only [StackBuffer.Top]
        rw [if_pos (by omega)]
  · intro hn
    rcases currentIsTop_cases s hwf.top with ⟨_, hc⟩ | ⟨key, stk, hk, _, _⟩
    · exact hc
    · rw [hstack.idle hn] at hk
      cases hk
  · intro L ar f tj t
    obtain ⟨o, ho, _⟩ := Hook_total s L ar f tj t hwf
    exact ⟨o, ho⟩

/-- Witness of C21: the trace with a context switch, in which context 2 is declared before
its first event. -/
theorem C21_stack_discipline_witness :
    declaredFromStart insertionStdSort 1 switchTrace = true
    ∧ ∃ s, runFromStart insertionStdSort 1 switchTrace = some s
      ∧ (∀ L, s.curr_lua_state_ = some L →
          ∃ stk, s.curr_call_info_stack_ = some L ∧ s.call_info_stack_map_ L = some stk
            ∧ (s.curr_call_info_ = none ↔ stk.Empty = true)
            ∧ (stk.Empty = false → s.curr_call_info_ = stk.Top))
      ∧ (s.curr_lua_state_ = none → s.curr_call_info_ = none)
      ∧ (∀ L stk, s.call_info_stack_map_ L = some stk →
          ∀ c ∈ stk.frames, c.refersTo s.root_profiler_record_ = true)
      ∧ (∀ (L : Nat) (ar : lua_Debug) (f jump_time curr_time : Nat),
          ∃ o, s.Hook L ar f jump_time curr_time = some o) :=
  ⟨by decide!, C21_stack_discipline insertionStdSort 1 switchTrace (by decide!)⟩


/-! ## Claim C22 -/

theorem creditsFor_append (l1 l2 : List (Nat × Nat)) (h : Nat) :
    creditsFor (l1 ++ l2) h = creditsFor l1 h ++ creditsFor l2 h := by
  simp only [creditsFor, List.filter_append, List.map_append]

theorem creditsFor_of_lt (log : List (Nat × Nat)) (N h : Nat) (hl : ∀ e ∈ log, e.1 < N)
    (hh : N ≤ h) : creditsFor log h = [] := by
  simp only [creditsFor, List.map_eq_nil_iff, List.filter_eq_nil_iff, decide_eq_true_eq]
  intro e he heq
  have := hl e he
  omega

theorem Credited.start (b : RecordBuffer) : Credited b b [] := by
  refine ⟨rfl, Nat.le_refl _, by simp, ?_⟩
  intro h hh
  simp only [creditsFor, List.filter_nil, List.map_nil, List.foldl_nil, hh, if_true]

theorem Credited.followedBy {b0 b1 b2 : RecordBuffer} {l1 l2 : List (Nat × Nat)}
    (h1 : Credited b0 b1 l1) (h2 : Credited b1 b2 l2) : Credited b0 b2 (l1 ++ l2) := by
  refine ⟨h2.per.trans h1.per, Nat.le_trans h1.count h2.count, ?_, ?_⟩
  · intro e he
    rcases List.mem_append.mp he with he | he
    · exact Nat.lt_of_lt_of_le (h1.issued e he) h2.count
    · exact h2.issued e he
  · intro h hh
    rw [h2.value h hh, creditsFor_append, List.foldl_append]
    by_cases hlt : h < b1.curr_count_
    · rw [if_pos hlt, h1.value h hlt]
    · rw [if_neg hlt, creditsFor_of_lt l1 b1.curr_count_ h h1.issued (by omega)]
      have : ¬ h < b0.curr_count_ := by
        have := h1.count
        omega
      rw [if_neg this]
      rfl

theorem AddInnerElapse_credited (r : Record) (b : RecordBuffer) (e : Nat) (hl : LayoutInv b)
    (hd : r.data_ = handlePtr b.per_add_count_ r.index_) (hi : r.index_ < b.curr_count_) :
    Credited b (r.AddInnerElapse b e) [(r.index_, e)] := by
  obtain ⟨_, f1, f2, _⟩ := AddInnerElapse_layout r b e hl
  refine ⟨f1, Nat.le_of_eq f2.symm, ?_, ?_⟩
  · intro x hx
    rw [List.mem_singleton.mp hx, f2]
    exact hi
  · intro h hh
    rw [f2] at hh
    obtain ⟨hsame, hne⟩ := AddInnerElapse_live r b e hl hd hi h
    by_cases hhr : h = r.index_
    · rw [(hsame hhr).1, if_pos hh]
      simp [creditsFor, hhr]
    · rw [hne hhr, if_pos hh]
      have : ¬ r.index_ = h := fun h' => hhr h'.symm
      simp [creditsFor, this]

theorem AddCount_credited (r : Record) (b : RecordBuffer) (hl : LayoutInv b)
    (hd : r.data_ = handlePtr b.per_add_count_ r.index_) (hi : r.index_ < b.curr_count_) :
    Credited b (r.AddCount b) [] := by
  obtain ⟨_, f1, f2, _⟩ := AddCount_layout r b hl
  refine ⟨f1, Nat.le_of_eq f2.symm, by simp, ?_⟩
  intro h hh
  rw [f2] at hh
  obtain ⟨hsame, hne⟩ := AddCount_live r b hl hd hi h
  by_cases hhr : h = r.index_
  · rw [(hsame hhr).1, if_pos hh]
    simp [creditsFor]
  · rw [hne hhr, if_pos hh]
    simp [creditsFor]

theorem Get_credited (b b1 : RecordBuffer) (e : Nat × (Nat × Nat)) (hl : LayoutInv b)
    (hget : b.Get ⟨0, 0⟩ = some (b1, e)) : Credited b b1 [] := by
  obtain ⟨m1, hg1, _, hper1, hcnt1, _, hnew, _⟩ := Get_layout b ⟨0, 0⟩ hl
  have hg2 := hg1
  rw [hget, Option.some.injEq, Prod.mk.injEq] at hg2
  obtain ⟨e2, _⟩ := hg2
  subst e2
  refine ⟨hper1, by omega, by simp, ?_⟩
  intro h hh
  by_cases hlt : h < b.curr_count_
  · rw [if_pos hlt, Get_live b b1 e hl hget h hlt]
    simp [creditsFor]
  · rw [if_neg hlt]
    have heq : h = b.curr_count_ := by omega
    simp only [creditsFor, List.filter_nil, List.map_nil, List.foldl_nil]
    unfold MultiStackBuffer.live
    rw [hper1, heq, hnew]

/-- Elementary changes credit the counter records of nodes: the arena they leave comes from
the one they start from by a log of as many credits as the changes count. -/
theorem Evolves.credited {C D : Nat → Prop} {n k : Nat} {root root1 : Record}
    {b b1 : RecordBuffer} (hev : Evolves C D n k root b root1 b1) (hl : LayoutInv b)
    (hn : NodesInv root b) :
    ∃ log : List (Nat × Nat), log.length = n ∧ (∀ e ∈ log, C e.2) ∧ Credited b b1 log := by
  induction hev with
  | refl root b => exact ⟨[], rfl, by simp, Credited.start b⟩
  | credit p r e hprev hg hc ih =>
    obtain ⟨log, c1, c2, c3⟩ := ih hl hn
    obtain ⟨h1, h2, h3, h4, _⟩ := hprev.handleInv hl hn
    obtain ⟨hd, hi⟩ := h2 r (mem_nodes_of_getAt p _ r hg r (mem_nodes_self r))
    refine ⟨log ++ [(r.index_, e)], by simp [c1], ?_,
      c3.followedBy (AddInnerElapse_credited r _ e h1 hd hi)⟩
    intro x hx
    rcases List.mem_append.mp hx with hx | hx
    · exact c2 x hx
    · rw [List.mem_singleton.mp hx]
      exact hc
  | count p r hprev hg ih =>
    obtain ⟨log, c1, c2, c3⟩ := ih hl hn
    obtain ⟨h1, h2, h3, h4, _⟩ := hprev.handleInv hl hn
    obtain ⟨hd, hi⟩ := h2 r (mem_nodes_of_getAt p _ r hg r (mem_nodes_self r))
    have := c3.followedBy (AddCount_credited r _ h1 hd hi)
    rw [List.append_nil] at this
    exact ⟨log, c1, c2, this⟩
  | child p q info hprev _ hg ih =>
    obtain ⟨log, c1, c2, c3⟩ := ih hl hn
    obtain ⟨h1, h2, h3, h4, _⟩ := hprev.handleInv hl hn
    obtain ⟨_, r, hr, hcase⟩ := GetChildRecordAt_inv hg
    rcases hcase with ⟨c, _, e1, e2⟩ | ⟨_, e, hget, e1⟩
    · rw [e2]
      exact ⟨log, c1, c2, c3⟩
    · have := c3.followedBy (Get_credited _ _ e h1 hget)
      rw [List.append_nil] at this
      exact ⟨log, c1, c2, this⟩

theorem foldl_add64_mod : ∀ (l : List Nat) (x : Nat),
    (l.foldl add64 x) % U64 = (x + l.sum) % U64
  | [], x => by simp
  | e :: l, x => by
    rw [List.foldl_cons, foldl_add64_mod l (add64 x e), List.sum_cons]
    unfold add64
    rw [Nat.add_mod, Nat.mod_mod, ← Nat.add_mod, Nat.add_assoc]

theorem sum_range_ite (a x : Nat) : ∀ N : Nat,
    ((List.range N).map (fun h => if a = h then x else 0)).sum = if a < N then x else 0
  | 0 => by simp
  | N + 1 => by
    rw [List.sum_range_succ, sum_range_ite a x N]
    by_cases h1 : a < N
    · have h2 : a ≠ N := by omega
      have h3 : a < N + 1 := by omega
      simp [h1, h2, h3]
    · by_cases h2 : a = N
      · have h3 : a < N + 1 := by omega
        simp [h1, h2]
      · have h3 : ¬ a < N + 1 := by omega
        simp [h1, h2, h3]

theorem sum_range_congr (N : Nat) (f g : Nat → Nat) (h : ∀ i, i < N → f i = g i) :
    ((List.range N).map f).sum = ((List.range N).map g).sum := by
  congr 1
  exact List.map_congr_left (fun i hi => h i (List.mem_range.mp hi))

theorem sum_range_base (g : Nat → Nat) (N0 : Nat) : ∀ N : Nat, N0 ≤ N →
    ((List.range N).map (fun h => if h < N0 then g h else 0)).sum
      = ((List.range N0).map g).sum := by
  intro N hN
  induction N, hN using Nat.le_induction with
  | base => exact sum_range_congr N0 _ _ (fun i hi => by rw [if_pos hi])
  | succ N hN ih =>
    rw [List.sum_range_succ, ih, if_neg (by omega), Nat.add_zero]

theorem sum_creditsFor (N : Nat) : ∀ log : List (Nat × Nat), (∀ e ∈ log, e.1 < N) →
    ((List.range N).map (fun h => (creditsFor log h).sum)).sum = (log.map (fun e => e.2)).sum
  | [], _ => by simp [creditsFor]
  | e :: log, hl => by
    have ih := sum_creditsFor N log (fun x hx => hl x (List.mem_cons_of_mem _ hx))
    have he := hl e (List.mem_cons_self _ _)
    have hsplit : ∀ h, (creditsFor (e :: log) h).sum
        = (if e.1 = h then e.2 else 0) + (creditsFor log h).sum := by
      intro h
      simp only [creditsFor, List.filter_cons]
      by_cases heq : e.1 = h
      · simp [heq]
      · simp [heq]
    rw [sum_range_congr N _ _ (fun h _ => hsplit h), List.sum_map_add, sum_range_ite, if_pos he,
      ih, List.map_cons, List.sum_cons]

/-- The sum of the self times after a log of credits, in `uint64_t` arithmetic. -/
theorem Credited.total_mod {b0 b : RecordBuffer} {log : List (Nat × Nat)}
    (h : Credited b0 b log) :
    b.selfTotal % U64 = (b0.selfTotal + (log.map (fun e => e.2)).sum) % U64 := by
  unfold MultiStackBuffer.selfTotal
  rw [List.sum_nat_mod, List.map_map]
  have h1 : ((List.range b.curr_count_).map
        ((fun x => x % U64) ∘ fun h => (b.live h).inner_elapse_)).sum
      = ((List.range b.curr_count_).map (fun h =>
          ((if h < b0.curr_count_ then (b0.live h).inner_elapse_ else 0)
            + (creditsFor log h).sum) % U64)).sum := by
    refine sum_range_congr _ _ _ (fun i hi => ?_)
    simp only [Function.comp]
    rw [h.value i hi, foldl_add64_mod]
  rw [h1]
  have h2 := List.sum_nat_mod ((List.range b.curr_count_).map (fun h =>
      (if h < b0.curr_count_ then (b0.live h).inner_elapse_ else 0)
        + (creditsFor log h).sum)) U64
  rw [List.map_map] at h2
  have h3 : ((fun x => x % U64) ∘ fun h =>
      (if h < b0.curr_count_ then (b0.live h).inner_elapse_ else 0) + (creditsFor log h).sum)
      = fun h => ((if h < b0.curr_count_ then (b0.live h).inner_elapse_ else 0)
          + (creditsFor log h).sum) % U64 := rfl
  rw [h3] at h2
  rw [← h2, List.sum_map_add, sum_range_base _ _ _ h.count, sum_creditsFor _ log h.issued]

theorem sum_le_sum_range (N : Nat) (f : Nat → Nat) (i : Nat) (hi : i < N) :
    f i ≤ ((List.range N).map f).sum :=
  List.single_le_sum (fun _ _ => Nat.zero_le _) _
    (List.mem_map.mpr ⟨i, List.mem_range.mpr hi, rfl⟩)

/-- The sum of the self times after a log of credits, when no counter record wraps. -/
theorem Credited.total_exact {b0 b : RecordBuffer} {log : List (Nat × Nat)}
    (h : Credited b0 b log)
    (hno : ∀ i, i < b0.curr_count_ →
      (b0.live i).inner_elapse_ + (log.map (fun e => e.2)).sum < U64)
    (hlt : (log.map (fun e => e.2)).sum < U64) :
    b.selfTotal = b0.selfTotal + (log.map (fun e => e.2)).sum := by
  have hsum := sum_creditsFor _ log h.issued
  unfold MultiStackBuffer.selfTotal
  have h1 : ((List.range b.curr_count_).map (fun i => (b.live i).inner_elapse_)).sum
      = ((List.range b.curr_count_).map (fun i =>
          (if i < b0.curr_count_ then (b0.live i).inner_elapse_ else 0)
            + (creditsFor log i).sum)).sum := by
    refine sum_range_congr _ _ _ (fun i hi => ?_)
    rw [h.value i hi]
    refine foldl_add64_exact _ _ ?_
    have hle := sum_le_sum_range b.curr_count_ (fun j => (creditsFor log j).sum) i hi
    rw [hsum] at hle
    simp only at hle
    by_cases hi0 : i < b0.curr_count_
    · rw [if_pos hi0]
      have := hno i hi0
      omega
    · rw [if_neg hi0]
      omega
  rw [h1, List.sum_map_add, sum_range_base _ _ _ h.count, hsum]

/-- The return of the function of the current frame, whose timer runs, credits the node of
that frame with the time since the timer was started, and nothing else. -/
theorem CallHookOut_exact {s s1 : LuaProfilerState} {f t key slot : Nat} {stk : CallInfoStack}
    (h : s.CallHookOut f t = some s1) (hc : s.curr_call_info_ = some slot)
    (hk : s.curr_call_info_stack_ = some key) (hs : s.call_info_stack_map_ key = some stk)
    (hf : (stk.buffer_ slot).func_ = f) (hne : (stk.buffer_ slot).enter_time_ ≠ 0) :
    Evolves (fun e => e = sub64 t (stk.buffer_ slot).enter_time_) (fun _ => True) 1 0
      s.root_profiler_record_ s.record_buffer_ s1.root_profiler_record_ s1.record_buffer_ := by
  unfold LuaProfilerState.CallHookOut at h
  simp only [hc, hk, hs, hf, ne_eq, not_true_eq_false, if_false] at h
  split at h
  · cases h
  · rename_i ci b1 hexit
    have hev : Evolves (fun e => e = sub64 t (stk.buffer_ slot).enter_time_) (fun _ => True) 1 0
        s.root_profiler_record_ s.record_buffer_ s.root_profiler_record_ b1 := by
      unfold CallInfo.OnExit at hexit
      rw [if_pos hne] at hexit
      split at hexit
      · cases hexit
      · rename_i p hp
        split at hexit
        · cases hexit
        · rename_i b2 ha
          simp only [Option.some.injEq, Prod.mk.injEq] at hexit
          obtain ⟨r, hr, hb⟩ := AddInnerElapseAt_inv ha
          rw [← hexit.2, hb]
          exact Evolves.credit p r _ (Evolves.refl _ _) hr rfl
    split at h
    · cases h
    · split at h
      · simp only [Option.some.injEq] at h
        subst h
        exact hev
      · split at h
        · cases h
        · simp only [Option.some.injEq] at h
          subst h
          exact hev

/-- A normal call of a function with a descriptor credits the node of the current frame, if
there is one, with the time since its timer was started, and nothing else. -/
theorem CallHookIn_exact {s s1 : LuaProfilerState} {ar : lua_Debug} {f t d key : Nat}
    {stk : CallInfoStack} (h : s.CallHookIn ar f t = some s1)
    (hres : (s.GetFunctionInfo ar f).2 = some d)
    (hk : s.curr_call_info_stack_ = some key) (hs : s.call_info_stack_map_ key = some stk) :
    ∃ k, Evolves
        (fun e => ∃ slot, s.curr_call_info_ = some slot
          ∧ e = sub64 t (stk.buffer_ slot).enter_time_)
        (fun _ => True) (if s.curr_call_info_.isSome then 1 else 0) k
      s.root_profiler_record_ s.record_buffer_ s1.root_profiler_record_ s1.record_buffer_ := by
  unfold LuaProfilerState.CallHookIn at h
  have hfr := GetFunctionInfo_frame s ar f
  split at h
  · rename_i s0 hgf
    rw [hgf] at hres
    cases hres
  · rename_i s0 func_info hgf
    rw [hgf] at hfr
    obtain ⟨hroot, hbuf, hmap, _, hcurr, hstk, _⟩ := hfr
    simp only at hroot hbuf hmap hcurr hstk
    rw [hstk, hk] at h
    simp only [hmap, hs, hcurr] at h
    split at h
    · cases h
    · rename_i root1 buffer1 record stk1 hmid
      have hmid2 : Evolves
          (fun e => ∃ slot, s.curr_call_info_ = some slot
            ∧ e = sub64 t (stk.buffer_ slot).enter_time_)
          (fun _ => True) (if s.curr_call_info_.isSome then 1 else 0) 0
          s.root_profiler_record_ s.record_buffer_ root1 buffer1 := by
        split at hmid
        · rename_i slot hslot
          split at hmid
          · cases hmid
          · rename_i ci root2 buffer2 record2 hce
            obtain ⟨p, r, hr, hgc, _⟩ := ChildCallEnter_inv2 hce
            split at hmid
            · cases hmid
            · simp only [Option.some.injEq, Prod.mk.injEq] at hmid
              obtain ⟨e1, e2, _, _⟩ := hmid
              subst e1 e2
              rw [hroot] at hr hgc
              rw [hbuf] at hgc
              rw [hslot]
              exact Evolves.child p _ func_info
                (Evolves.credit p r _ (Evolves.refl _ _) hr ⟨slot, rfl, rfl⟩) trivial hgc
        · rename_i hnone
          split at hmid
          · cases hmid
          · rename_i hgc
            simp only [Option.some.injEq, Prod.mk.injEq] at hmid
            obtain ⟨e1, e2, _, _⟩ := hmid
            subst e1 e2
            rw [hroot, hbuf] at hgc
            rw [hnone]
            exact Evolves.child [] _ func_info (Evolves.refl _ _) trivial hgc
      split at h
      · cases h
      · rename_i ci2 buffer3 henter
        obtain ⟨p, r, hr, hb, _⟩ := OnEnter_inv henter
        simp only [Option.some.injEq] at h
        subst h
        refine ⟨1, ?_⟩
        rw [hb]
        exact Evolves.count p r hmid2 hr

theorem inProgress_current {s : LuaProfilerState} {L : Nat} {stack : List Nat} {last : Nat}
    (h : InProgress s L stack last) :
    ∃ stk, s.curr_call_info_stack_ = some L ∧ s.call_info_stack_map_ L = some stk
      ∧ s.curr_call_info_ = (if stk.curr_count_ = 0 then none else some (stk.curr_count_ - 1))
      ∧ stk.frames.map CallInfo.func_ = stack
      ∧ (∀ c below, stk.frames = c :: below → c.enter_time_ = last) := by
  obtain ⟨hsound, hactive, stk, hs, hf, ht⟩ := h
  obtain ⟨hk, _⟩ := hsound.stack.active L hactive
  rcases currentIsTop_cases s hsound.wf.top with ⟨hk2, _⟩ | ⟨key, stk2, hk2, hs2, hc⟩
  · rw [hk2] at hk
    cases hk
  · rw [hk2, Option.some.injEq] at hk
    subst hk
    rw [hs, Option.some.injEq] at hs2
    subst hs2
    exact ⟨stk, hk2, hs, hc, hf, ht⟩

theorem map_func_suspendTop (l : List CallInfo) :
    (suspendTop l).map CallInfo.func_ = l.map CallInfo.func_ := by
  cases l <;> rfl

theorem map_func_restartTop (t : Nat) (l : List CallInfo) :
    (restartTop t l).map CallInfo.func_ = l.map CallInfo.func_ := by
  cases l <;> rfl

theorem onDeclared_hook (S : StdSort) (s : LuaProfilerState) (L : Nat) (ar : lua_Debug)
    (f tj t : Nat) (hd : (s.call_info_stack_map_ L).isSome = true) :
    LuaProfilerState.onDeclared S s [.hook L ar f tj t] = true := by
  simp only [LuaProfilerState.onDeclared, hd, Bool.true_and]
  split <;> rfl

theorem Hook_sound (S : StdSort) {s : LuaProfilerState} {L : Nat} {ar : lua_Debug} {f tj t : Nat}
    {o : Outcome} (hs : Sound s) (hd : (s.call_info_stack_map_ L).isSome = true)
    (h : s.Hook L ar f tj t = some o) : Sound o.state := by
  obtain ⟨s1, hap, hs1⟩ := apply_sound S hs (onDeclared_hook S s L ar f tj t hd)
  simp only [LuaProfilerState.apply, h, Option.map_some', Option.some.injEq] at hap
  rw [hap]
  exact hs1

/-- A normal call event of a non-filtered function in the course of a properly nested
trace: the function is pushed, the timer of the new top frame is started at the timestamp
of the event, and the only credit is the time since the last timestamp, given to the frame
that was on top, if there was one. -/
theorem call_step (S : StdSort) {s : LuaProfilerState} {L : Nat} {stack : List Nat} {last : Nat}
    (hin : InProgress s L stack last) (ar : lua_Debug) (f tj t : Nat)
    (hcall : ar.event = LUA_HOOKCALL) (hlast : last ≤ t) (hU : t < U64)
    (hnf : f ∉ s.lua_filter_api_) (hres : (s.GetFunctionInfo ar f).2.isSome = true) :
    ∃ o log, s.Hook L ar f tj t = some o ∧ InProgress o.state L (f :: stack) t
      ∧ Credited s.record_buffer_ o.state.record_buffer_ log
      ∧ (log.map (fun e => e.2)).sum = (if stack = [] then 0 else t - last) := by
  obtain ⟨stk, hk, hs, hc, hfun, htop⟩ := inProgress_current hin
  obtain ⟨d, hd⟩ := Option.isSome_iff_exists.mp hres
  have hne1 : ar.event ≠ LUA_HOOKRET := by
    rw [hcall]
    decide
  have hne2 : ar.event ≠ LUA_HOOKTAILCALL := by
    rw [hcall]
    decide
  have hact : ActiveInv s L L :=
    ⟨hin.active, hk, ⟨stk, hs, hc, hin.sound.wf.frames L stk hs⟩, hin.sound.wf.block⟩
  obtain ⟨s1, p0, child, hhook, _, hframes, _, _, _, hact1⟩ :=
    Hook_call_spec s L L f tj t d ar hact hne1 hnf hd
  have hsound1 : Sound s1 := Hook_sound S hin.sound (by rw [hs]; rfl) hhook
  have hci : s.CallHookIn ar f t = some s1 := by
    have hform := Hook_active ar f tj t hin.active
    rw [hform, hk] at hhook
    simp only [if_neg hnf, if_neg hne1] at hhook
    cases hci : s.CallHookIn ar f t with
    | none => simp [hci] at hhook
    | some s2 =>
      simp only [hci, Option.some.injEq, Outcome.returned.injEq, and_true] at hhook
      rw [hhook]
  obtain ⟨k, hev⟩ := CallHookIn_exact hci hd hk hs
  obtain ⟨log, hlen, hC, hcred⟩ := hev.credited hin.sound.handle.layout hin.sound.handle.nodes
  obtain ⟨hactive1, hk1, ⟨stk1, hs1, hc1, _⟩, _⟩ := hact1
  have hfr1 := activeFrames_of_inv hk1 hs1
  have hfr := activeFrames_of_inv hk hs
  rw [hfr1, hfr, if_neg hne2] at hframes
  refine ⟨_, log, hhook, ⟨hsound1, hactive1, stk1, hs1, ?_, ?_⟩, hcred, ?_⟩
  · rw [hframes, List.map_cons, map_func_suspendTop, hfun]
  · intro c below hcb
    rw [hframes, List.cons.injEq] at hcb
    rw [← hcb.1]
  · have hlenf : stk.frames.length = stk.curr_count_ := length_framesUpTo _ _
    by_cases hst : stack = []
    · rw [if_pos hst]
      rw [hst, List.map_eq_nil_iff] at hfun
      rw [hfun, List.length_nil] at hlenf
      rw [← hlenf, if_pos rfl] at hc
      rw [hc] at hlen
      simp only [Option.isSome_none, Bool.false_eq_true, if_false, List.length_eq_zero] at hlen
      rw [hlen]
      rfl
    · rw [if_neg hst]
      have hcnt : stk.curr_count_ ≠ 0 := by
        intro h0
        rw [h0] at hlenf
        have := List.length_eq_zero.mp hlenf
        rw [this] at hfun
        exact hst hfun.symm
      rw [if_neg hcnt] at hc
      rw [hc] at hlen hC
      simp only [Option.isSome_some, if_true] at hlen
      obtain ⟨x, hx⟩ := List.length_eq_one.mp hlen
      obtain ⟨slot, hslot, hval⟩ := hC x (by rw [hx]; exact List.mem_singleton_self x)
      rw [Option.some.injEq] at hslot
      have hframe : stk.frames
          = stk.buffer_ (stk.curr_count_ - 1)
            :: StackBuffer.framesUpTo stk.buffer_ (stk.curr_count_ - 1) := by
        unfold StackBuffer.frames
        obtain ⟨m, hm⟩ := Nat.exists_eq_succ_of_ne_zero hcnt
        rw [hm]
        rfl
      have henter := htop _ _ hframe
      rw [hx, List.map_singleton, List.sum_singleton, hval, ← hslot, henter]
      exact sub64_of_le hlast hU

/-- The return event of the innermost call in progress, in the course of a properly nested
trace: the top frame is popped, the timer of the new top frame is started at the timestamp
of the event, and the only credit is the time since the last timestamp, given to the frame
that returns. -/
theorem return_step (S : StdSort) {s : LuaProfilerState} {L g : Nat} {below : List Nat}
    {last : Nat} (hin : InProgress s L (g :: below) last) (ar : lua_Debug) (f tj t : Nat)
    (hret : ar.event = LUA_HOOKRET) (hg : g = f) (hpos : 0 < last) (hlast : last ≤ t)
    (hU : t < U64) (hnf : f ∉ s.lua_filter_api_) :
    ∃ o log, s.Hook L ar f tj t = some o ∧ InProgress o.state L below t
      ∧ Credited s.record_buffer_ o.state.record_buffer_ log
      ∧ (log.map (fun e => e.2)).sum = t - last := by
  obtain ⟨stk, hk, hs, hc, hfun, htop⟩ := inProgress_current hin
  obtain ⟨mx, es, cnt, buffer⟩ := stk
  cases cnt with
  | zero => simp [StackBuffer.frames, StackBuffer.framesUpTo] at hfun
  | succ n =>
    simp only [Nat.add_one_ne_zero, if_false, Nat.add_sub_cancel] at hc
    simp only [StackBuffer.frames, StackBuffer.framesUpTo, List.map_cons, List.cons.injEq]
      at hfun
    have henter : (buffer n).enter_time_ = last := htop _ _ rfl
    have hvalid : ∀ j, j ≤ n → (buffer j).refersTo s.root_profiler_record_ = true :=
      fun j hj => hin.sound.wf.frames L _ hs _ (mem_framesUpTo buffer (n + 1) j (by omega))
    obtain ⟨s1, stk1, hout, hk1, hs1, hframes1, hc1, _, hlua, _⟩ :=
      CallHookOut_spec s f t L mx es n buffer hk hs hc hvalid
    have hhook : s.Hook L ar f tj t = some (.returned s1 0) := by
      rw [Hook_active ar f tj t hin.active, hk]
      simp only [if_neg hnf, if_pos hret, hout]
    have hsound1 : Sound s1 := Hook_sound S hin.sound (by rw [hs]; rfl) hhook
    have hev := @CallHookOut_exact s s1 f t L n _ hout hc hk hs (by rw [← hg]; exact hfun.1)
      (by simp only; rw [henter]; omega)
    obtain ⟨log, hlen, hC, hcred⟩ :=
      hev.credited hin.sound.handle.layout hin.sound.handle.nodes
    have hfb : framesBelow f (StackBuffer.framesUpTo buffer (n + 1))
        = StackBuffer.framesUpTo buffer n := by
      simp only [StackBuffer.framesUpTo, framesBelow]
      rw [if_pos (by rw [← hg]; exact hfun.1)]
    rw [hfb] at hframes1
    refine ⟨_, log, hhook, ⟨hsound1, hlua.trans hin.active, stk1, hs1, ?_, ?_⟩, hcred, ?_⟩
    · rw [hframes1, map_func_restartTop]
      exact hfun.2
    · intro c rest hcb
      rw [hframes1] at hcb
      cases hl : StackBuffer.framesUpTo buffer n with
      | nil =>
        rw [hl] at hcb
        cases hcb
      | cons c0 rest0 =>
        rw [hl] at hcb
        simp only [restartTop, List.cons.injEq] at hcb
        rw [← hcb.1]
    · obtain ⟨x, hx⟩ := List.length_eq_one.mp hlen
      have hval := hC x (by rw [hx]; exact List.mem_singleton_self x)
      simp only at hval
      rw [hx, List.map_singleton, List.sum_singleton, hval, henter]
      exact sub64_of_le hlast hU

/-! ### Nodes and counter records -/

theorem handles_eq (r : Record) :
    r.handles = r.index_ :: Record.handlesList r.children_list_ := by
  unfold Record.handles Record.handlesList
  rw [nodes_eq, List.map_cons]

theorem handlesList_cons (c : Record) (cs : List Record) :
    Record.handlesList (c :: cs) = c.handles ++ Record.handlesList cs := by
  simp only [Record.handlesList, Record.handles, Record.nodesList, List.map_append]

theorem handlesList_append : ∀ (l1 l2 : List Record),
    Record.handlesList (l1 ++ l2) = Record.handlesList l1 ++ Record.handlesList l2
  | [], l2 => by simp [Record.handlesList, Record.nodesList]
  | c :: l1, l2 => by
    rw [List.cons_append, handlesList_cons, handlesList_cons, handlesList_append l1 l2,
      List.append_assoc]

theorem handlesList_perm {l1 l2 : List Record} (h : List.Perm l1 l2) :
    List.Perm (Record.handlesList l1) (Record.handlesList l2) := by
  induction h with
  | nil => exact List.Perm.refl _
  | cons x _ ih =>
    rw [handlesList_cons, handlesList_cons]
    exact List.Perm.append_left _ ih
  | swap x y l =>
    simp only [handlesList_cons, ← List.append_assoc]
    exact List.Perm.append_right _ List.perm_append_comm
  | trans _ _ ih1 ih2 => exact ih1.trans ih2

theorem handlesList_replaceChild (k x : Nat) (c c1 : Record)
    (hc1 : List.Perm c1.handles (x :: c.handles)) :
    ∀ cs : List Record, cs.find? (fun y => y.func_info_ == some k) = some c →
      List.Perm (Record.handlesList (Record.replaceChild k c1 cs)) (x :: Record.handlesList cs)
  | [], h => by simp at h
  | y :: cs, h => by
    unfold Record.replaceChild
    by_cases hy : (y.func_info_ == some k) = true
    · simp only [List.find?_cons, hy, Option.some.injEq] at h
      subst h
      rw [if_pos hy, handlesList_cons, handlesList_cons]
      exact List.Perm.append_right _ hc1
    · have hy2 : (y.func_info_ == some k) = false := Bool.eq_false_iff.mpr hy
      simp only [List.find?_cons, hy2] at h
      rw [if_neg hy, handlesList_cons, handlesList_cons]
      exact (List.Perm.append_left _ (handlesList_replaceChild k x c c1 hc1 cs h)).trans
        List.perm_middle

/-- Writing back, through a pointer, a node whose subtree holds one more counter record adds
that record to those of the tree. -/
theorem handles_setAt (x : Nat) (new_node : Record) :
    ∀ (p : RecordPtr) (root r : Record), root.getAt p = some r →
      List.Perm new_node.handles (x :: r.handles) →
      List.Perm (Record.setAt p root new_node).handles (x :: root.handles)
  | [], root, r, hg, hn => by
    simp only [Record.getAt, Option.some.injEq] at hg
    subst hg
    exact hn
  | k :: p, root, r, hg, hn => by
    unfold Record.getAt at hg
    cases hfc : root.findChild k with
    | none => simp [hfc] at hg
    | some c =>
      simp only [hfc] at hg
      have ih := handles_setAt x new_node p c r hg hn
      rw [setAt_cons_of_find p new_node hfc, handles_eq, handles_eq]
      simp only [index_mk, children_list_mk]
      exact (List.Perm.cons _ (handlesList_replaceChild k x c _ ih root.children_list_ hfc)).trans
        (List.Perm.swap _ _ _)

theorem range_succ_perm (n : Nat) : List.Perm (n :: List.range n) (List.range (n + 1)) := by
  rw [List.range_succ]
  exact (List.perm_append_singleton n (List.range n)).symm

/-- Elementary changes keep the counter records and the nodes in one-to-one
correspondence. -/
theorem Evolves.handlePerm {C D : Nat → Prop} {n k : Nat} {root root1 : Record}
    {b b1 : RecordBuffer} (hev : Evolves C D n k root b root1 b1) (hl : LayoutInv b)
    (hn : NodesInv root b) (hp : List.Perm root.handles (List.range b.curr_count_)) :
    List.Perm root1.handles (List.range b1.curr_count_) := by
  induction hev with
  | refl root b => exact hp
  | credit p r e hprev hg hc ih =>
    obtain ⟨h1, _⟩ := hprev.handleInv hl hn
    rw [(AddInnerElapse_layout r _ e h1).2.2.1]
    exact ih hl hn hp
  | count p r hprev hg ih =>
    obtain ⟨h1, _⟩ := hprev.handleInv hl hn
    rw [(AddCount_layout r _ h1).2.2.1]
    exact ih hl hn hp
  | child p q info hprev _ hg ih =>
    have h2 := ih hl hn hp
    obtain ⟨h1, _⟩ := hprev.handleInv hl hn
    obtain ⟨_, r, hr, hcase⟩ := GetChildRecordAt_inv hg
    rcases hcase with ⟨c, _, e1, e2⟩ | ⟨_, e, hget, e1⟩
    · rw [e1, e2]
      exact h2
    · obtain ⟨m1, hg1, _, _, hcnt1, _⟩ := Get_layout _ ⟨0, 0⟩ h1
      rw [hget, Option.some.injEq, Prod.mk.injEq] at hg1
      obtain ⟨e2, e3⟩ := hg1
      subst e2
      rw [e1, hcnt1]
      refine (handles_setAt e.1 _ p _ r hr ?_).trans
        ((List.Perm.cons _ h2).trans ?_)
      · rw [handles_eq, handles_eq]
        simp only [index_mk, children_list_mk]
        rw [handlesList_append]
        have hleaf : Record.handlesList [Record.mk (some info) 0 0 0 e.1 e.2 []] = [e.1] := by
          simp [Record.handlesList, Record.nodesList, Record.nodes, Record.index_]
        rw [hleaf]
        exact (List.Perm.cons _ (List.perm_append_singleton _ _)).trans (List.Perm.swap _ _ _)
      · rw [e3]
        exact range_succ_perm _

mutual
theorem aggregate_handles (S : StdSort) (sel : Nat → Nat × Nat → Nat × Nat) :
    ∀ r : Record, List.Perm (Record.aggregate S sel r).1.handles r.handles
  | .mk fi ti tf tc idx d cs => by
    have hperm : List.Perm
        (if (Record.aggregateLoop S sel 0 cs).1.length > 1
          then S.sort (Record.aggregateLoop S sel 0 cs).1
          else (Record.aggregateLoop S sel 0 cs).1)
        (Record.aggregateLoop S sel 0 cs).1 := by
      split
      · exact S.perm _
      · exact List.Perm.refl _
    rw [handles_eq, handles_eq]
    simp only [Record.aggregate, index_mk, children_list_mk]
    exact List.Perm.cons _ ((handlesList_perm hperm).trans (aggregateLoop_handles S sel 0 cs))
theorem aggregateLoop_handles (S : StdSort) (sel : Nat → Nat × Nat → Nat × Nat) :
    ∀ (acc : Nat) (cs : List Record),
      List.Perm (Record.handlesList (Record.aggregateLoop S sel acc cs).1)
        (Record.handlesList cs)
  | acc, [] => by simp [Record.aggregateLoop]
  | acc, c :: cs => by
    simp only [Record.aggregateLoop]
    rw [handlesList_cons, handlesList_cons]
    exact (aggregate_handles S sel c).append (aggregateLoop_handles S sel _ cs)
end

theorem CalcRecord_root (S : StdSort) (s : LuaProfilerState) (n : Nat) (a b : Int) :
    (s.CalcRecord S n a b).state.root_profiler_record_ = s.root_profiler_record_
      ∨ ∃ sel, (s.CalcRecord S n a b).state.root_profiler_record_
          = (Record.aggregate S sel s.root_profiler_record_).1 := by
  unfold LuaProfilerState.CalcRecord
  split
  · refine Or.inr ⟨liveSel s.record_buffer_, ?_⟩
    simp only [Outcome.state]
    rw [CalcChildrenElapse_eq_aggregate]
  · split
    · split
      · exact Or.inl rfl
      · split
        · exact Or.inl rfl
        · split
          · exact Or.inl rfl
          · simp only []
            split
            · exact Or.inl rfl
            · rename_i end_record _
              refine Or.inr ⟨copySel
                (if a ≥ 0 then MultiStackBuffer.GetRecordByIndex s.record_buffer_ a.toNat
                  else none) end_record, ?_⟩
              simp only [Outcome.state]
              rw [CalcChildrenElapseCopy_eq_aggregate]
    · exact Or.inl rfl

theorem apply_handlePerm (S : StdSort) {s s1 : LuaProfilerState} {op : Op}
    (hinv : HandleInv s) (hp : HandlePerm s) (hap : s.apply S op = some s1) :
    HandlePerm s1 := by
  unfold HandlePerm at hp ⊢
  cases op with
  | hook L ar f tj t =>
    simp only [LuaProfilerState.apply, Option.map_eq_some'] at hap
    obtain ⟨o, ho, hos⟩ := hap
    obtain ⟨_, _, _, n, k, _, _, hev⟩ :=
      Hook_evolves (fun _ => True) trivial trivial (fun _ _ _ _ => trivial) ho
    rw [hos] at hev
    exact hev.handlePerm hinv.layout hinv.nodes hp
  | create L =>
    obtain ⟨_, hroot, hbuf, _⟩ := CreateCallInfoStack_frame hap
    rw [hroot, hbuf]
    exact hp
  | save =>
    simp only [LuaProfilerState.apply] at hap
    unfold LuaProfilerState.Save at hap
    split at hap
    · cases hap
    · rename_i b1 hsave
      simp only [Option.some.injEq] at hap
      subst hap
      obtain ⟨_, f2, _⟩ := Save_fields hsave
      simp only
      rw [f2]
      exact hp
  | query n a b =>
    simp only [LuaProfilerState.apply, Option.some.injEq] at hap
    subst hap
    rw [(CalcRecord_frame S s n a b).1]
    rcases CalcRecord_root S s n a b with h | ⟨sel, h⟩
    · rw [h]
      exact hp
    · rw [h]
      exact (aggregate_handles S sel _).trans hp

theorem ProfilerStart_handlePerm {main_L : Nat} {s : LuaProfilerState}
    (h : ProfilerStart main_L = some s) : HandlePerm s := by
  obtain ⟨m0, hnew, hl0, hper0, hcnt0, _⟩ :=
    new_layoutInv kMutiStackBufferInitCount (by decide)
  obtain ⟨m1, hg, hl1, hper1, hcnt1, _⟩ := Get_layout m0 ⟨0, 0⟩ hl0
  unfold ProfilerStart LuaProfilerState.new at h
  simp only [hnew, Record.new, hg, LuaProfilerState.Init, LuaProfilerState.CreateCallInfoStack,
    LuaProfilerState.GetCallInfoStack, StackBuffer.new, StackBuffer.kInitCount, ne_eq,
    OfNat.ofNat_ne_zero, not_false_eq_true, if_true, Option.some.injEq] at h
  subst h
  unfold HandlePerm
  simp only [Record.handles, Record.nodes, Record.nodesList, List.map_cons, List.map_nil,
    index_mk, hcnt1, hcnt0]
  exact List.Perm.refl _

/-- The invariants of a state reached by events on declared contexts, with the one-to-one
correspondence of nodes and counter records. -/
theorem run_sound_perm (S : StdSort) :
    ∀ (ops : List Op) (s : LuaProfilerState), Sound s → HandlePerm s →
      LuaProfilerState.onDeclared S s ops = true →
      ∃ s1, LuaProfilerState.run S s ops = some s1 ∧ Sound s1 ∧ HandlePerm s1
  | [], s, hs, hp, _ => ⟨s, rfl, hs, hp⟩
  | op :: ops, s, hs, hp, hd => by
    have h1 : LuaProfilerState.onDeclared S s [op] = true := by
      simp only [LuaProfilerState.onDeclared, Bool.and_eq_true] at hd ⊢
      refine ⟨hd.1, ?_⟩
      split <;> rfl
    obtain ⟨s1, hap, hs1⟩ := apply_sound S hs h1
    rw [onDeclared_cons S s s1 op ops hap, Bool.and_eq_true] at hd
    obtain ⟨s2, hrun, hs2, hp2⟩ :=
      run_sound_perm S ops s1 hs1 (apply_handlePerm S hs.handle hp hap) hd.2
    exact ⟨s2, by simp only [LuaProfilerState.run, hap, hrun], hs2, hp2⟩

/-- The total elapsed the aggregation of the full history gives to the root is the sum of
the self times of all the counter records, in `uint64_t` arithmetic. -/
theorem rootTotal_eq (S : StdSort) {s : LuaProfilerState} (hinv : HandleInv s)
    (hp : HandlePerm s) :
    (s.root_profiler_record_.CalcChildrenElapse S s.record_buffer_).2
      = s.record_buffer_.selfTotal % U64 := by
  rw [CalcChildrenElapse_eq_aggregate, aggregate_selfSum]
  unfold Record.selfSum MultiStackBuffer.selfTotal
  congr 1
  have h1 : (s.root_profiler_record_.nodes).map
        (fun n => (liveSel s.record_buffer_ n.index_ n.data_).1)
      = s.root_profiler_record_.handles.map
          (fun h => (s.record_buffer_.live h).inner_elapse_) := by
    unfold Record.handles
    rw [List.map_map]
    refine List.map_congr_left (fun n hn => ?_)
    simp only [liveSel, Function.comp, MultiStackBuffer.live]
    rw [(hinv.nodes n hn).1]
  rw [h1]
  exact (hp.map _).sum_eq

/-- A properly nested trace of non-filtered functions, delivered in the course of such a
trace, runs to its end with no call in progress; the credits it makes and the time the
outermost call in progress has run so far add up to the time of the outermost calls. -/
theorem nested_run (S : StdSort) (L : Nat) :
    ∀ (events : List ChainEvent) (s : LuaProfilerState) (stack : List Nat) (last start : Nat),
      InProgress s L stack last → (stack ≠ [] → start ≤ last ∧ 0 < last) →
      properlyNested stack last events = true → s.nonFilteredChain L events = true →
      ∃ s1 log last1, s.deliver L events = some s1 ∧ InProgress s1 L [] last1
        ∧ Credited s.record_buffer_ s1.record_buffer_ log
        ∧ (log.map (fun e => e.2)).sum + (if stack = [] then 0 else last - start)
            = outermostElapsed stack.length start events
        ∧ (HandlePerm s → HandlePerm s1)
  | [], s, stack, last, start, hin, _, hnest, _ => by
    simp only [properlyNested, List.isEmpty_iff] at hnest
    subst hnest
    exact ⟨s, [], last, rfl, hin, Credited.start _, rfl, id⟩
  | e :: rest, s, stack, last, start, hin, hstart, hnest, hnf => by
    obtain ⟨ar, f, tj, t⟩ := e
    simp only [properlyNested, Bool.and_eq_true, decide_eq_true_eq] at hnest
    obtain ⟨⟨⟨hpos, hlast⟩, hU⟩, hbranch⟩ := hnest
    simp only [LuaProfilerState.nonFilteredChain, Bool.and_eq_true, Bool.not_eq_true',
      decide_eq_false_iff_not] at hnf
    obtain ⟨⟨hnf1, hnf2⟩, hnfrest⟩ := hnf
    by_cases hcall : ar.event = LUA_HOOKCALL
    · rw [if_pos hcall] at hbranch
      obtain ⟨o, log1, hhook, hin1, hcred1, hsum1⟩ :=
        call_step S hin ar f tj t hcall hlast hU hnf1 hnf2
      simp only [hhook] at hnfrest
      have hperm1 : HandlePerm s → HandlePerm o.state := fun hp =>
        apply_handlePerm S hin.sound.handle hp
          (show s.apply S (.hook L ar f tj t) = some o.state by
            simp only [LuaProfilerState.apply, hhook, Option.map_some'])
      obtain ⟨s1, log2, last1, hdel, hin2, hcred2, hsum2, hperm2⟩ :=
        nested_run S L rest o.state (f :: stack) t (if stack = [] then t else start) hin1
          (fun _ => by
            by_cases hst : stack = []
            · rw [if_pos hst]
              exact ⟨Nat.le_refl _, hpos⟩
            · rw [if_neg hst]
              exact ⟨Nat.le_trans (hstart hst).1 hlast, hpos⟩)
          hbranch hnfrest
      refine ⟨s1, log1 ++ log2, last1, ?_, hin2, hcred1.followedBy hcred2, ?_,
        fun hp => hperm2 (hperm1 hp)⟩
      · simp only [LuaProfilerState.deliver, hhook]
        exact hdel
      · simp only [outermostElapsed, if_pos hcall, List.map_append, List.sum_append]
        simp only [List.length_cons, if_neg (List.cons_ne_nil f stack)] at hsum2
        by_cases hst : stack = []
        · subst hst
          simp only [if_true, List.length_nil] at hsum1 hsum2 ⊢
          omega
        · have hlen : stack.length ≠ 0 := fun h => hst (List.length_eq_zero.mp h)
          simp only [if_neg hst, if_neg hlen] at hsum1 hsum2 ⊢
          have := (hstart hst).1
          omega
    · rw [if_neg hcall] at hbranch
      by_cases hret : ar.event = LUA_HOOKRET
      · rw [if_pos hret] at hbranch
        cases stack with
        | nil => cases hbranch
        | cons g below =>
          simp only [Bool.and_eq_true, decide_eq_true_eq] at hbranch
          obtain ⟨hg, hbranch⟩ := hbranch
          obtain ⟨hs1, hs2⟩ := hstart (List.cons_ne_nil g below)
          obtain ⟨o, log1, hhook, hin1, hcred1, hsum1⟩ :=
            return_step S hin ar f tj t hret hg hs2 hlast hU hnf1
          simp only [hhook] at hnfrest
          have hperm1 : HandlePerm s → HandlePerm o.state := fun hp =>
            apply_handlePerm S hin.sound.handle hp
              (show s.apply S (.hook L ar f tj t) = some o.state by
                simp only [LuaProfilerState.apply, hhook, Option.map_some'])
          obtain ⟨s1, log2, last1, hdel, hin2, hcred2, hsum2, hperm2⟩ :=
            nested_run S L rest o.state below t start hin1
              (fun _ => ⟨Nat.le_trans hs1 hlast, hpos⟩) hbranch hnfrest
          refine ⟨s1, log1 ++ log2, last1, ?_, hin2, hcred1.followedBy hcred2, ?_,
            fun hp => hperm2 (hperm1 hp)⟩
          · simp only [LuaProfilerState.deliver, hhook]
            exact hdel
          · simp only [outermostElapsed, if_neg hcall, List.map_append, List.sum_append,
              List.length_cons, Nat.add_sub_cancel, if_neg (List.cons_ne_nil g below)]
            by_cases hb : below = []
            · subst hb
              simp only [if_true, List.length_nil, Nat.zero_add] at hsum2 ⊢
              omega
            · have hlen : below.length + 1 ≠ 1 := by
                intro h
                exact hb (List.length_eq_zero.mp (by omega))
              simp only [if_neg hb, if_neg hlen] at hsum2 ⊢
              omega
      · rw [if_neg hret] at hbranch
        cases hbranch

/-- The first event for a context whose stack is empty, when there is no current frame,
only makes the context active before it is handled. -/
theorem Hook_idle {s : LuaProfilerState} {L : Nat} {stk : CallInfoStack} (ar : lua_Debug)
    (f tj t : Nat) (hc : s.curr_call_info_ = none) (hs : s.call_info_stack_map_ L = some stk)
    (hcnt : stk.curr_count_ = 0) (hL : s.curr_lua_state_ ≠ some L) :
    s.Hook L ar f tj t
      = ({ s with curr_lua_state_ := some L, curr_call_info_stack_ := some L } :
          LuaProfilerState).Hook L ar f tj t := by
  have h1 : s.HookSwitch L tj
      = some ({ s with curr_lua_state_ := some L, curr_call_info_stack_ := some L }, true) := by
    simp only [LuaProfilerState.HookSwitch, hc, LuaProfilerState.GetCallInfoStack, hs,
      StackBuffer.Empty, hcnt, beq_self_eq_true, not_true_eq_false, if_false]
  unfold LuaProfilerState.Hook
  rw [if_pos hL, h1]
  simp only [ne_eq, not_true_eq_false, if_false]

theorem GetFunctionInfo_snd_congr (s s2 : LuaProfilerState) (ar : lua_Debug) (f : Nat)
    (h1 : s2.c_profiler_funcs_ = s.c_profiler_funcs_)
    (h2 : s2.lua_profiler_funcs_ = s.lua_profiler_funcs_)
    (h3 : s2.function_infos_ = s.function_infos_)
    (h4 : s2.lua_filter_api_name_ = s.lua_filter_api_name_) :
    (s2.GetFunctionInfo ar f).2 = (s.GetFunctionInfo ar f).2 := by
  unfold LuaProfilerState.GetFunctionInfo
  rw [h1, h2, h3, h4]
  split
  · split
    · rfl
    · simp only
      split <;> rfl
  · simp only
    split <;> rfl

theorem frames_nil_iff (stk : CallInfoStack) : stk.frames = [] ↔ stk.curr_count_ = 0 := by
  have h := length_framesUpTo stk.buffer_ stk.curr_count_
  unfold StackBuffer.frames
  constructor
  · intro h1
    rw [h1] at h
    exact h.symm
  · intro h1
    rw [h1]
    rfl

/-- A properly nested trace of non-filtered functions delivered to a context whose stack is
empty, when there is no current frame: it runs to its end, leaves the stack empty, and its
credits add up to the time of its outermost calls. -/
theorem idle_run (S : StdSort) (L : Nat) (events : List ChainEvent) (s : LuaProfilerState)
    (hs : Sound s) (hp : HandlePerm s) (hidle : s.curr_call_info_ = none)
    (hempty : s.framesOf L = some []) (hnest : properlyNested [] 0 events = true)
    (hnf : s.nonFilteredChain L events = true) :
    ∃ s1 log, s.deliver L events = some s1 ∧ s1.curr_call_info_ = none
      ∧ s1.framesOf L = some []
      ∧ Credited s.record_buffer_ s1.record_buffer_ log
      ∧ (log.map (fun e => e.2)).sum = outermostElapsed 0 0 events
      ∧ Sound s1 ∧ HandlePerm s1 := by
  have hstk : ∃ stk, s.call_info_stack_map_ L = some stk ∧ stk.curr_count_ = 0 := by
    unfold LuaProfilerState.framesOf at hempty
    cases hm : s.call_info_stack_map_ L with
    | none => simp [hm] at hempty
    | some stk =>
      simp only [hm, Option.map_some', Option.some.injEq] at hempty
      exact ⟨stk, rfl, (frames_nil_iff stk).mp hempty⟩
  obtain ⟨stk, hm, hcnt⟩ := hstk
  have hfinish : ∀ (s0 : LuaProfilerState), InProgress s0 L [] 0 → HandlePerm s0 →
      s0.record_buffer_ = s.record_buffer_ →
      s0.deliver L events = s.deliver L events →
      s0.nonFilteredChain L events = s.nonFilteredChain L events →
      ∃ s1 log, s.deliver L events = some s1 ∧ s1.curr_call_info_ = none
        ∧ s1.framesOf L = some []
        ∧ Credited s.record_buffer_ s1.record_buffer_ log
        ∧ (log.map (fun e => e.2)).sum = outermostElapsed 0 0 events
        ∧ Sound s1 ∧ HandlePerm s1 := by
    intro s0 hin hp0 hb hdel hnf0
    obtain ⟨s1, log, last1, h1, hin1, hcred, hsum, hperm⟩ :=
      nested_run S L events s0 [] 0 0 hin (fun h => absurd rfl h) hnest (by rw [hnf0]; exact hnf)
    obtain ⟨stk1, _, hs1, hc1, hf1, _⟩ := inProgress_current hin1
    rw [List.map_eq_nil_iff] at hf1
    have hcnt1 := (frames_nil_iff stk1).mp hf1
    rw [if_pos hcnt1] at hc1
    rw [hb] at hcred
    simp only [if_true, Nat.add_zero, List.length_nil] at hsum
    refine ⟨s1, log, by rw [← hdel]; exact h1, hc1, ?_, hcred, hsum, hin1.sound, hperm hp0⟩
    simp only [LuaProfilerState.framesOf, hs1, Option.map_some', hf1]
  by_cases hL : s.curr_lua_state_ = some L
  · refine hfinish s ⟨hs, hL, stk, hm, ?_, ?_⟩ hp rfl rfl rfl
    · rw [(frames_nil_iff stk).mpr hcnt]
      rfl
    · intro c below hcb
      rw [(frames_nil_iff stk).mpr hcnt] at hcb
      cases hcb
  · have hsound2 : Sound ({ s with curr_lua_state_ := some L, curr_call_info_stack_ := some L } :
        LuaProfilerState) := by
      refine ⟨⟨?_, hs.wf.frames, hs.wf.block⟩,
        stateInv_of_frame hs.inv ⟨rfl, rfl, rfl, rfl, rfl⟩ hs.inv.keys hs.inv.arena,
        @registryInv_of_same s _ ⟨rfl, rfl, rfl, rfl, rfl⟩ hs.registry,
        ⟨hs.handle.layout, hs.handle.nodes, hs.handle.descriptors⟩, ⟨?_, ?_⟩⟩
      · simp only [LuaProfilerState.currentIsTop, hm, hidle, hcnt, if_true, beq_self_eq_true]
      · intro K hK
        simp only [Option.some.injEq] at hK
        subst hK
        exact ⟨rfl, by rw [hm]; rfl⟩
      · intro hn
        cases hn
    cases events with
    | nil => exact ⟨s, [], rfl, hidle, hempty, Credited.start _, rfl, hs, hp⟩
    | cons e rest =>
      refine hfinish _ ⟨hsound2, rfl, stk, hm, ?_, ?_⟩ hp rfl ?_ ?_
      · rw [(frames_nil_iff stk).mpr hcnt]
        rfl
      · intro c below hcb
        rw [(frames_nil_iff stk).mpr hcnt] at hcb
        cases hcb
      · simp only [LuaProfilerState.deliver]
        rw [Hook_idle e.1 e.2.1 e.2.2.1 e.2.2.2 hidle hm hcnt hL]
      · simp only [LuaProfilerState.nonFilteredChain]
        rw [Hook_idle e.1 e.2.1 e.2.2.1 e.2.2.2 hidle hm hcnt hL]
        have hg := GetFunctionInfo_snd_congr s
          ({ s with curr_lua_state_ := some L, curr_call_info_stack_ := some L } :
            LuaProfilerState) e.1 e.2.1 rfl rfl rfl rfl
        rw [hg]

theorem declared_sound_perm (S : StdSort) (main_L : Nat) (ops : List Op)
    (s : LuaProfilerState) (hd : declaredFromStart S main_L ops = true)
    (hrun : runFromStart S main_L ops = some s) : Sound s ∧ HandlePerm s := by
  unfold declaredFromStart at hd
  unfold runFromStart at hrun
  cases hs0 : ProfilerStart main_L with
  | none => simp [hs0] at hd
  | some s0 =>
    simp only [hs0] at hd hrun
    obtain ⟨s1, h1, h2, h3⟩ :=
      run_sound_perm S ops s0 (ProfilerStart_sound hs0) (ProfilerStart_handlePerm hs0) hd
    rw [hrun, Option.some.injEq] at h1
    subst h1
    exact ⟨h2, h3⟩

/-- Claim C22: take a state `s` reached from a fresh profiler by events on declared
contexts, in which there is no current frame and the stack of context `L` is empty, and
deliver to `L` a trace of properly nested normal call events and their matching return
events, of non-filtered functions, with positive timestamps that never decrease.  The
trace runs to its end, in a state `s1` with no current frame and the stack of `L` empty.
With `D` the sum over the outermost calls of the trace of the return timestamp minus the
call timestamp: the sum of the self times of all the counter records is, in `uint64_t`
arithmetic, `D` more in `s1` than in `s`; it is exactly `D` more when no counter record
can wrap, that is, when adding `D` to any counter record of `s` stays below `2^64`; and
the total elapsed that an aggregation of the full history gives to the root is, in
`uint64_t` arithmetic, `D` more in `s1` than in `s`. -/
theorem C22_elapsed_conserved (S : StdSort) (main_L : Nat) (ops : List Op)
    (s : LuaProfilerState) (L : Nat) (events : List ChainEvent)
    (hd : declaredFromStart S main_L ops = true)
    (hrun : runFromStart S main_L ops = some s)
    (hidle : s.curr_call_info_ = none) (hempty : s.framesOf L = some [])
    (hnest : properlyNested [] 0 events = true)
    (hnf : s.nonFilteredChain L events = true) :
    ∃ s1, s.deliver L events = some s1
      ∧ s1.curr_call_info_ = none ∧ s1.framesOf L = some []
      ∧ s1.record_buffer_.selfTotal % U64
          = (s.record_buffer_.selfTotal + outermostElapsed 0 0 events) % U64
      ∧ ((∀ h, h < s.record_buffer_.curr_count_ →
            (s.record_buffer_.live h).inner_elapse_ + outermostElapsed 0 0 events < U64) →
          s1.record_buffer_.selfTotal
            = s.record_buffer_.selfTotal + outermostElapsed 0 0 events)
      ∧ (s1.root_profiler_record_.CalcChildrenElapse S s1.record_buffer_).2
          = add64 (s.root_profiler_record_.CalcChildrenElapse S s.record_buffer_).2
              (outermostElapsed 0 0 events) := by
  obtain ⟨hs, hp⟩ := declared_sound_perm S main_L ops s hd hrun
  obtain ⟨s1, log, hdel, hc1, hf1, hcred, hsum, hs1, hp1⟩ :=
    idle_run S L events s hs hp hidle hempty hnest hnf
  have hmod := hcred.total_mod
  rw [hsum] at hmod
  refine ⟨s1, hdel, hc1, hf1, hmod, ?_, ?_⟩
  · intro hno
    have hroot := (hs.handle.nodes s.root_profiler_record_
      (mem_nodes_self s.root_profiler_record_)).2
    have hD := hno _ hroot
    have hex := hcred.total_exact (by rw [hsum]; exact hno) (by rw [hsum]; omega)
    rw [hsum] at hex
    exact hex
  · rw [rootTotal_eq S hs.handle hp, rootTotal_eq S hs1.handle hp1, hmod]
    unfold add64
    rw [Nat.mod_add_mod]

/-- Witness of C22: the state left by the scenario of the specification, and a trace in
which A calls B and, after A has returned, C is called; the outermost calls, of A and of C,
take 40 and 30. -/
theorem C22_elapsed_conserved_witness :
    declaredFromStart insertionStdSort 1 scenarioTrace = true
    ∧ runFromStart insertionStdSort 1 scenarioTrace = some (stateAfter scenarioTrace)
    ∧ (stateAfter scenarioTrace).curr_call_info_ = none
    ∧ (stateAfter scenarioTrace).framesOf 1 = some []
    ∧ properlyNested [] 0 nestedEvents = true
    ∧ (stateAfter scenarioTrace).nonFilteredChain 1 nestedEvents = true
    ∧ outermostElapsed 0 0 nestedEvents = 70
    ∧ ∃ s1, (stateAfter scenarioTrace).deliver 1 nestedEvents = some s1
      ∧ s1.curr_call_info_ = none ∧ s1.framesOf 1 = some []
      ∧ s1.record_buffer_.selfTotal % U64
          = ((stateAfter scenarioTrace).record_buffer_.selfTotal
              + outermostElapsed 0 0 nestedEvents) % U64
      ∧ ((∀ h, h < (stateAfter scenarioTrace).record_buffer_.curr_count_ →
            ((stateAfter scenarioTrace).record_buffer_.live h).inner_elapse_
              + outermostElapsed 0 0 nestedEvents < U64) →
          s1.record_buffer_.selfTotal
            = (stateAfter scenarioTrace).record_buffer_.selfTotal
              + outermostElapsed 0 0 nestedEvents)
      ∧ (s1.root_profiler_record_.CalcChildrenElapse insertionStdSort s1.record_buffer_).2
          = add64 ((stateAfter scenarioTrace).root_profiler_record_.CalcChildrenElapse
                insertionStdSort (stateAfter scenarioTrace).record_buffer_).2
              (outermostElapsed 0 0 nestedEvents) :=
  ⟨by decide!, stateAfter_spec scenarioTrace (by decide!), by decide!, by decide!, by decide!,
    by decide!, by decide!,
    C22_elapsed_conserved insertionStdSort 1 scenarioTrace (stateAfter scenarioTrace) 1
      nestedEvents (by decide!) (stateAfter_spec scenarioTrace (by decide!)) (by decide!)
      (by decide!) (by decide!) (by decide!)⟩

end LuaProfiler
